import Mathlib

/-!
# Property-data normalizer (`backend/utils/propertyNormalizer.js`)

A shallow embedding of `normalizeProperty` and of the helpers it closes over
(`parsePrice`, `cleanText`, `cleanDescription`), followed by theorems about them.

Modelling conventions.

* A JavaScript string is a `List Char` (a well-formed sequence of Unicode scalar values).
  `.length` is the UTF-16 length (`jsLength`); every index the program computes is the index
  of an ASCII pattern and therefore falls on a character boundary.
* A JavaScript number is a `Num`: a finite value, kept as the rational it denotes, one of the
  two infinities, or `NaN`. The finite values of the program are the IEEE-754 doubles:
  `parseFloat` and the product round to the nearest double, ties to the even significand
  (`roundDouble`), and a number prints as the shortest decimal that reads back as the same
  double (`numToString`). The two zeros are one value: the program never divides, and `-0` is
  falsy and prints as "0" like `0`.
* The raw record is a JSON object. Its text-position fields hold a primitive (`Prim`:
  absent, `null`, boolean, number or string); `features` and `image_urls` hold a primitive or
  a list of primitives (`features` may also be an object with `property` and `society`);
  `dynamic_facts` is absent/`null` or a map from keys to primitives, kept as an association
  list in insertion order.
* A thrown `TypeError` is `Except.error JsError.typeError`.
* `normalizeProperty` writes into the `dynamic_facts` object of its argument, so the model
  returns the record as the call leaves it next to the normalized record.
-/

namespace PropertyNormalizer

/-! ## Strings -/

/-- A JavaScript string. -/
abbrev Str := List Char

/-- The characters matched by `\s` and stripped by `trim`:
ECMAScript WhiteSpace and LineTerminator. -/
def isSpace (c : Char) : Bool :=
  c.toNat == 9 || c.toNat == 10 || c.toNat == 11 || c.toNat == 12 || c.toNat == 13 ||
  c.toNat == 32 || c.toNat == 0xA0 || c.toNat == 0x1680 ||
  (decide (0x2000 ≤ c.toNat) && decide (c.toNat ≤ 0x200A)) ||
  c.toNat == 0x2028 || c.toNat == 0x2029 || c.toNat == 0x202F || c.toNat == 0x205F ||
  c.toNat == 0x3000 || c.toNat == 0xFEFF

/-- The characters matched by `\d`. -/
def isDigit (c : Char) : Bool := decide (48 ≤ c.toNat) && decide (c.toNat ≤ 57)

/-- The characters matched by `[A-Za-z]`. -/
def isAlpha (c : Char) : Bool :=
  (decide (65 ≤ c.toNat) && decide (c.toNat ≤ 90)) ||
  (decide (97 ≤ c.toNat) && decide (c.toNat ≤ 122))

/-- The characters matched by `.` (no `s` flag): everything but the line terminators. -/
def isDot (c : Char) : Bool :=
  !(c.toNat == 10 || c.toNat == 13 || c.toNat == 0x2028 || c.toNat == 0x2029)

/-- Upper-case form of one character, on the ASCII letters. -/
def upperChar (c : Char) : Char :=
  if 97 ≤ c.toNat ∧ c.toNat ≤ 122 then Char.ofNat (c.toNat - 32) else c

/-- `String.prototype.toUpperCase`, on the ASCII letters. The program calls it only on the text
matched by `(BHK|Bedroom|RK)` under the `i` flag, which consists of ASCII letters. -/
def toUpperCase (s : Str) : Str := s.map upperChar

/-- Lower-case form of one character. ASCII capitals map to their small letters; U+0130 and
U+212A are the two non-ASCII characters whose lower-case form contains an ASCII letter. Every
other character is left as it is: its lower-case form has no ASCII character, and the program
only ever searches lower-cased text for ASCII substrings. -/
def lowerChar (c : Char) : Str :=
  if 65 ≤ c.toNat ∧ c.toNat ≤ 90 then [Char.ofNat (c.toNat + 32)]
  else if c.toNat = 0x130 then ['i', Char.ofNat 0x307]
  else if c.toNat = 0x212A then ['k']
  else [c]

/-- `String.prototype.toLowerCase`. -/
def toLowerCase (s : Str) : Str := s.flatMap lowerChar

/-- `String.prototype.length`: the number of UTF-16 code units. -/
def jsLength (s : Str) : Nat := (s.map fun c => if c.toNat < 0x10000 then 1 else 2).sum

/-- `String.prototype.trim`. -/
def trim (s : Str) : Str := ((s.dropWhile isSpace).reverse.dropWhile isSpace).reverse

/-- Worker of `collapseWs`; the flag says that the previous character was white space. -/
def collapseAux : Bool → Str → Str
  | _, [] => []
  | inWs, c :: cs =>
    if isSpace c then (if inWs then collapseAux true cs else ' ' :: collapseAux true cs)
    else c :: collapseAux false cs

/-- The call `.replace(/\s+/g, " ")`: every maximal run of white space becomes one space. -/
def collapseWs (s : Str) : Str := collapseAux false s

/-- `hay.includes(needle)`. -/
def includes : Str → Str → Bool
  | [], needle => needle.isPrefixOf []
  | x :: xs, needle => needle.isPrefixOf (x :: xs) || includes xs needle

/-- `hay.startsWith(needle)`. -/
def startsWith (hay needle : Str) : Bool := needle.isPrefixOf hay

/-- `hay.indexOf(needle)`; `none` is the result `-1`. -/
def indexOf : Str → Str → Option Nat
  | [], needle => if needle.isPrefixOf [] then some 0 else none
  | x :: xs, needle =>
    if needle.isPrefixOf (x :: xs) then some 0 else (indexOf xs needle).map (· + 1)

/-- `xs.join(sep)` on a list of strings. -/
def joinWith (sep : Str) : List Str → Str
  | [] => []
  | [x] => x
  | x :: y :: rest => x ++ sep ++ joinWith sep (y :: rest)

/-! ## Numbers -/

/-- A JavaScript number: a finite value, an infinity, or `NaN`. -/
inductive Num
  | fin (q : ℚ)
  | posInf
  | negInf
  | nan
  deriving DecidableEq

instance : Zero Num := ⟨.fin 0⟩

/-- The comparison `x <= y`; false when either side is `NaN`. -/
def Num.le : Num → Num → Prop
  | .nan, _ => False
  | _, .nan => False
  | .negInf, _ => True
  | _, .posInf => True
  | .fin a, .fin b => a ≤ b
  | .fin _, .negInf => False
  | .posInf, .fin _ => False
  | .posInf, .negInf => False

/-- The comparison `x < y`; false when either side is `NaN`. -/
def Num.lt : Num → Num → Prop
  | .nan, _ => False
  | _, .nan => False
  | .negInf, .negInf => False
  | .negInf, _ => True
  | .posInf, _ => False
  | .fin a, .fin b => a < b
  | .fin _, .posInf => True
  | .fin _, .negInf => False

instance : LE Num := ⟨Num.le⟩

instance : LT Num := ⟨Num.lt⟩

/-- The global function `isNaN`, on a number. -/
def isNaN : Num → Bool
  | .nan => true
  | _ => false

/-- The number of binary digits of `n` (at most `fuel` of them). -/
def bitLength : Nat → Nat → Nat
  | 0, _ => 0
  | fuel + 1, n => if n = 0 then 0 else bitLength fuel (n / 2) + 1

/-- The fraction `a / b` divided by `2 ^ p`, as a numerator and a denominator. -/
def scale2 (a b : Nat) (p : Int) : Nat × Nat := (a * 2 ^ (-p).toNat, b * 2 ^ p.toNat)

/-- The integer `e` with `2 ^ e ≤ a / b < 2 ^ (e + 1)`, for positive `a` and `b`: the
difference of the bit lengths, or one less. -/
def floorLog2 (a b : Nat) : Int :=
  let e : Int := (bitLength a a : Int) - (bitLength b b : Int)
  if (scale2 a b e).1 < (scale2 a b e).2 then e - 1 else e

/-- The integer nearest to `n / d`; the even one of the two when `n / d` lies half-way. -/
def roundHalfEven (n d : Nat) : Nat :=
  if 2 * (n % d) < d then n / d
  else if d < 2 * (n % d) then n / d + 1
  else if n / d % 2 = 0 then n / d else n / d + 1

/-- The double nearest to `a / b`, for positive `a` and `b`, as a significand `m ≤ 2 ^ 53 - 1`
and an exponent `-1074 ≤ p ≤ 971` (the value is `m * 2 ^ p`, and `2 ^ 52 ≤ m` unless
`p = -1074`); `none` when `a / b` rounds to infinity. The unit in the last place is `2 ^ p`
with `p` the binary exponent of `a / b` less 52, and `-1074` for a subnormal. -/
def roundPos (a b : Nat) : Option (Nat × Int) :=
  let p : Int := max (floorLog2 a b - 52) (-1074)
  let m := roundHalfEven (scale2 a b p).1 (scale2 a b p).2
  let mp : Nat × Int := if m = 2 ^ 53 then (2 ^ 52, p + 1) else (m, p)
  if 971 < mp.2 then none else some mp

/-- The Number value for a rational (IEEE 754-2019 roundTiesToEven): the double nearest to it,
the one with the even significand of two equally near; an infinity from `2 ^ 1024 - 2 ^ 970`
on. -/
def roundDouble (q : ℚ) : Num :=
  if q.num = 0 then .fin 0
  else match roundPos q.num.natAbs q.den with
    | none => if q.num < 0 then .negInf else .posInf
    | some mp => .fin ((if q.num < 0 then -1 else 1) * (mp.1 : ℚ) * 2 ^ mp.2)

/-- The product `x * y` (Number::multiply). -/
def Num.mul : Num → Num → Num
  | .fin a, .fin b => roundDouble (a * b)
  | .nan, _ => .nan
  | _, .nan => .nan
  | .fin a, .posInf => if a.num = 0 then .nan else if a.num < 0 then .negInf else .posInf
  | .fin a, .negInf => if a.num = 0 then .nan else if a.num < 0 then .posInf else .negInf
  | .posInf, .fin b => if b.num = 0 then .nan else if b.num < 0 then .negInf else .posInf
  | .negInf, .fin b => if b.num = 0 then .nan else if b.num < 0 then .posInf else .negInf
  | .posInf, .posInf => .posInf
  | .posInf, .negInf => .negInf
  | .negInf, .posInf => .negInf
  | .negInf, .negInf => .posInf

/-- Worker of `decExp` for `a / b < 1`: the least `j` from the given one on with
`b ≤ a * 10 ^ j` gives the exponent `1 - j`. -/
def smallExp : Nat → Nat → Nat → Nat → Int
  | 0, _, _, j => 1 - (j : Int)
  | fuel + 1, a, b, j => if b ≤ a * 10 ^ j then 1 - (j : Int) else smallExp fuel a b (j + 1)

/-- The decimal exponent `n` of `a / b`, for positive `a` and `b`:
`10 ^ (n - 1) ≤ a / b < 10 ^ n`. (The least positive double is above `10 ^ (-324)`.) -/
def decExp (a b : Nat) : Int :=
  if b ≤ a then ((Nat.toDigits 10 (a / b)).length : Int) else smallExp 400 a b 1

/-- The decimal `s * 10 ^ t` with `k` significant digits that stands for the double nearest to
`a / b`, if there is one: of the two decimals of that precision around `a / b`, one whose
nearest double is that of `a / b`, and the nearer one to `a / b` (the even one of two equally
near) when both are. -/
def candidate (a b : Nat) (k : Nat) : Option (Nat × Int) :=
  let t : Int := decExp a b - (k : Int)
  let n := a * 10 ^ (-t).toNat
  let d := b * 10 ^ t.toNat
  let lo := n / d
  let okLo := roundPos (lo * 10 ^ t.toNat) (10 ^ (-t).toNat) == roundPos a b
  let okHi := roundPos ((lo + 1) * 10 ^ t.toNat) (10 ^ (-t).toNat) == roundPos a b
  if okLo && okHi then some (roundHalfEven n d, t)
  else if okLo then some (lo, t)
  else if okHi then some (lo + 1, t)
  else none

/-- Removes the trailing zeros of `s`, adding their number to `t`. -/
def stripZeros : Nat → Nat → Int → Nat × Int
  | 0, s, t => (s, t)
  | fuel + 1, s, t => if s % 10 = 0 ∧ s ≠ 0 then stripZeros fuel (s / 10) (t + 1) else (s, t)

/-- The shortest decimal `s * 10 ^ t` (`s` not a multiple of 10) that stands for the double
nearest to `a / b`: the one of the least precision for which there is a candidate. Seventeen
significant digits tell any two doubles apart. -/
def shortest (a b : Nat) : Nat × Int :=
  match (List.range 17).findSome? fun i => candidate a b (i + 1) with
  | some st => stripZeros 20 st.1 st.2
  | none => (0, 0)

/-- The text of the decimal with the digits `digits` and the decimal exponent `n` (its value
is `0.digits * 10 ^ n`): plain digits up to `10 ^ 21`, a decimal fraction down to `10 ^ (-7)`,
and the exponent form beyond. -/
def render (digits : Str) (n : Int) : Str :=
  if (digits.length : Int) ≤ n ∧ n ≤ 21 then
    digits ++ List.replicate (n - (digits.length : Int)).toNat '0'
  else if 0 < n ∧ n ≤ 21 then digits.take n.toNat ++ '.' :: digits.drop n.toNat
  else if -6 < n ∧ n ≤ 0 then '0' :: '.' :: (List.replicate (-n).toNat '0' ++ digits)
  else
    (if digits.length = 1 then digits else digits.take 1 ++ '.' :: digits.drop 1) ++
      'e' :: (if n - 1 < 0 then '-' else '+') :: Nat.toDigits 10 (n - 1).natAbs

/-- The text of the positive number `a / b`. -/
def positiveToString (a b : Nat) : Str :=
  render (Nat.toDigits 10 (shortest a b).1)
    ((shortest a b).2 + ((Nat.toDigits 10 (shortest a b).1).length : Int))

/-- `Number.prototype.toString`, which is also the conversion of a number in a template
string and in `+` with a string (Number::toString with radix 10). -/
def numToString : Num → Str
  | .nan => "NaN".toList
  | .posInf => "Infinity".toList
  | .negInf => "-Infinity".toList
  | .fin q =>
    if q.num = 0 then ['0']
    else (if q.num < 0 then ['-'] else []) ++ positiveToString q.num.natAbs q.den

/-! ## Primitive values -/

/-- A primitive JavaScript value as it comes out of `JSON.parse` (`undefined` is an absent
field). -/
inductive Prim
  | undefined
  | null
  | bool (b : Bool)
  | num (x : Num)
  | str (s : Str)
  deriving DecidableEq

/-- A thrown exception; the program can only raise a `TypeError`. -/
inductive JsError
  | typeError
  deriving DecidableEq, Repr

namespace Prim

/-- ToBoolean. -/
def truthy : Prim → Bool
  | undefined => false
  | null => false
  | bool b => b
  | num (.fin q) => decide (q ≠ 0)
  | num .nan => false
  | num _ => true
  | str s => !s.isEmpty

/-- ToString (also what `.toString()` returns on a truthy primitive). -/
def toStr : Prim → Str
  | undefined => "undefined".toList
  | null => "null".toList
  | bool true => "true".toList
  | bool false => "false".toList
  | num q => numToString q
  | str s => s

/-- The expression `a || b`. -/
def or (a b : Prim) : Prim := if a.truthy then a else b

/-- A call of a `String.prototype` method on a truthy value: defined on strings, a
`TypeError` ("is not a function") on booleans and numbers. -/
def asString : Prim → Except JsError Str
  | str s => .ok s
  | _ => .error .typeError

end Prim

/-! ## `parsePrice` (lines 31-46) -/

/-- Value of a run of decimal digits. -/
def digitsToNat (ds : Str) : Nat := ds.foldl (fun n c => 10 * n + (c.toNat - 48)) 0

/-- The decimal that `parseFloat` reads from the strings `parsePrice` hands to it, which consist
of digits and dots: the longest prefix of the form `digits`, `digits.`, `digits.digits` or
`.digits`, as the number made of its digits and the number of digits after the dot; `none`
when there is no such prefix. -/
def parseDecimal (s : Str) : Option (Nat × Nat) :=
  let ip := s.takeWhile isDigit
  let fp := match s.dropWhile isDigit with
    | '.' :: rest => rest.takeWhile isDigit
    | _ => []
  if ip.isEmpty && fp.isEmpty then none
  else some (digitsToNat (ip ++ fp), fp.length)

/-- `parseFloat` as a number: the Number value for the decimal that was read, `NaN` when there
is none. -/
def parseFloat (s : Str) : Num :=
  match parseDecimal s with
  | none => .nan
  | some mk => roundDouble ((mk.1 : ℚ) / 10 ^ mk.2)

/-- The price parser. -/
def parsePrice (priceStr : Prim) : Num :=
  if !priceStr.truthy then .fin 0
  else match priceStr with
    | .num x => x
    | _ =>
      let cleanStr := priceStr.toStr.filter fun c => isDigit c || c == '.'
      let num := parseFloat cleanStr
      if isNaN num then .fin 0
      else
        let lowerPrice := toLowerCase priceStr.toStr
        if includes lowerPrice "cr".toList || includes lowerPrice "crore".toList then
          num.mul (.fin 10000000)
        else if includes lowerPrice "lac".toList || includes lowerPrice "lakh".toList then
          num.mul (.fin 100000)
        else if includes lowerPrice "k".toList then num.mul (.fin 1000)
        else num

/-! ## `cleanText` (lines 49-52) and `cleanDescription` (lines 57-84) -/

/-- The text cleaner. -/
def cleanText (text : Prim) : Str :=
  if !text.truthy then [] else collapseWs (trim text.toStr)

/-- The footer markers at which a description is cut. -/
def junkMarkers : List Str :=
  [ "Flats near Sector".toList,
    "Popular Localities".toList,
    "Property Options".toList,
    "Quick Area Conversions".toList,
    "State specific Area Units".toList,
    "Links".toList,
    "Company".toList,
    "Our Partners".toList,
    "CONTACT US".toList,
    "Read more".toList,
    "Flats for rent in".toList ]

/-- One turn of the marker loop: cut `cleaned` at the first occurrence of `marker`. -/
def cutAtMarker (cleaned marker : Str) : Str :=
  match indexOf cleaned marker with
  | some index => cleaned.take index
  | none => cleaned

/-- The marker loop of `cleanDescription`: the text it keeps, before the white space is
trimmed and collapsed. -/
def truncateAtMarkers (text : Str) : Str := junkMarkers.foldl cutAtMarker text

/-- The value of `x || "No description available"` for a string `x`. -/
def orNoDescription (x : Str) : Str :=
  if x.isEmpty then "No description available".toList else x

/-- The description cleaner. -/
def cleanDescription (text : Prim) : Str :=
  if !text.truthy then "No description available".toList
  else orNoDescription (collapseWs (trim (truncateAtMarkers text.toStr)))

/-! ## Regular expressions

The regular-expression literals of the program are written as terms of `Re` and run by a
backtracking matcher that returns every way of matching at the current position, in the
priority order of ECMAScript (left alternative first, greedy quantifiers longest first). The
first element is the match the engine reports. Quantifiers occur in the program only on
one-character classes (`\d+`, `\s*`, `[A-Za-z0-9\s]+`, `.*`) and on one group (`(?:,\d+)?`). -/

/-- Syntax of the regular expressions used by the program. -/
inductive Re
  | eps
  | chr (c : Char)
  | cls (p : Char → Bool)
  | bos
  | eos
  | seq (a b : Re)
  | alt (a b : Re)
  | star (p : Char → Bool)
  | opt (a : Re)
  | cap (a : Re)

namespace Re

/-- A literal run of characters. -/
def lit : Str → Re
  | [] => eps
  | c :: cs => seq (chr c) (lit cs)

/-- The quantifier `+` on a one-character class. -/
def plus (p : Char → Bool) : Re := seq (cls p) (star p)

/-- Character comparison; under the `i` flag both sides are canonicalized, which for an ASCII
pattern character identifies exactly the two ASCII cases of a letter. -/
def sameChar (ci : Bool) (x c : Char) : Bool :=
  if ci then upperChar x == upperChar c else x == c

/-- All the ways in which a greedy starred class can match at the head of `s`, longest
first; each is given by the text left over. -/
def starRuns (p : Char → Bool) : Str → List (List Str × Str)
  | [] => [([], [])]
  | x :: xs => if p x then starRuns p xs ++ [([], x :: xs)] else [([], x :: xs)]

/-- The matcher: `run r ci n s` lists, in priority order, the captures and the remaining text
of every match of `r` at the head of `s`; `n` is the length of the whole subject (for `^`)
and `ci` is the `i` flag. -/
def run (ci : Bool) (n : Nat) : Re → Str → List (List Str × Str)
  | eps, s => [([], s)]
  | chr _, [] => []
  | chr c, x :: xs => if sameChar ci x c then [([], xs)] else []
  | cls _, [] => []
  | cls p, x :: xs => if p x then [([], xs)] else []
  | bos, s => if s.length = n then [([], s)] else []
  | eos, s => if s.isEmpty then [([], s)] else []
  | seq a b, s =>
    (run ci n a s).flatMap fun m1 => (run ci n b m1.2).map fun m2 => (m1.1 ++ m2.1, m2.2)
  | alt a b, s => run ci n a s ++ run ci n b s
  | star p, s => starRuns p s
  | opt a, s => run ci n a s ++ [([], s)]
  | cap a, s => (run ci n a s).map fun m => (s.take (s.length - m.2.length) :: m.1, m.2)

/-- Scan for the leftmost position with a match. -/
def searchFrom (r : Re) (ci : Bool) (n : Nat) : Str → Option (List Str)
  | [] => ((run ci n r []).head?).map (·.1)
  | x :: xs =>
    match (run ci n r (x :: xs)).head? with
    | some m => some m.1
    | none => searchFrom r ci n xs

/-- The calls `s.match(r)` and `r.exec(s)` for a regular expression without the `g` flag:
the capture groups of the leftmost match, `none` when there is no match. -/
def exec (r : Re) (ci : Bool) (s : Str) : Option (List Str) := searchFrom r ci s.length s

/-- The call `r.test(s)`. -/
def test (r : Re) (ci : Bool) (s : Str) : Bool := (exec r ci s).isSome

/-- Worker of `split`: `cur` is the piece being collected (reversed), the last argument is
the text from the current position on. -/
def splitGo (r : Re) (ci : Bool) (n : Nat) : Nat → Str → Str → List Str
  | 0, cur, s => [cur.reverse ++ s]
  | _ + 1, cur, [] => [cur.reverse]
  | fuel + 1, cur, x :: xs =>
    match (run ci n r (x :: xs)).head? with
    | none => splitGo r ci n fuel (x :: cur) xs
    | some m =>
      if m.2.length = (x :: xs).length ∧ cur.isEmpty then splitGo r ci n fuel (x :: cur) xs
      else cur.reverse :: splitGo r ci n fuel [] m.2

/-- The call `s.split(r)` for a regular expression without capture groups. -/
def split (r : Re) (ci : Bool) (s : Str) : List Str :=
  splitGo r ci s.length (2 * s.length + 1) [] s

end Re

/-- `/(\d+)\s*(BHK|Bedroom|RK)/i` -/
def bhkRe : Re :=
  .seq (.cap (.plus isDigit)) (.seq (.star isSpace)
    (.cap (.alt (.lit "BHK".toList) (.alt (.lit "Bedroom".toList) (.lit "RK".toList)))))

/-- `/\d/` -/
def digitRe : Re := .cls isDigit

/-- `/(\d+(?:,\d+)?)\s*(sqft|sq\.ft|sq ft|sq yards|gaj)/i` -/
def areaRe : Re :=
  .seq (.cap (.seq (.plus isDigit) (.opt (.seq (.chr ',') (.plus isDigit)))))
    (.seq (.star isSpace)
      (.cap (.alt (.lit "sqft".toList) (.alt (.lit "sq.ft".toList)
        (.alt (.lit "sq ft".toList) (.alt (.lit "sq yards".toList) (.lit "gaj".toList)))))))

/-- `/(\d+)\s*BHK/i` -/
def titleBhkRe : Re := .seq (.cap (.plus isDigit)) (.seq (.star isSpace) (.lit "BHK".toList))

/-- `/\s+in\s+/i` -/
def inSplitRe : Re := .seq (.plus isSpace) (.seq (.lit "in".toList) (.plus isSpace))

/-- The patterns of junk keys, all without flags:
`/^Flats near/`, `/^Popular Localities/`, `/^Property Options/`, `/.* nearby listings$/`,
`/^About /`, `/^Reviews of/`, `/^Property Rates in/`, `/^Rent .* Flat in/`. -/
def junkPatterns : List Re :=
  [ .seq .bos (.lit "Flats near".toList),
    .seq .bos (.lit "Popular Localities".toList),
    .seq .bos (.lit "Property Options".toList),
    .seq (.star isDot) (.seq (.lit " nearby listings".toList) .eos),
    .seq .bos (.lit "About ".toList),
    .seq .bos (.lit "Reviews of".toList),
    .seq .bos (.lit "Property Rates in".toList),
    .seq .bos (.seq (.lit "Rent ".toList) (.seq (.star isDot) (.lit " Flat in".toList))) ]

/-- `/(?:in|at)\s+([A-Za-z0-9\s]+)(?:,|$|Sector|Near)/i` -/
def societyRe : Re :=
  .seq (.alt (.lit "in".toList) (.lit "at".toList)) (.seq (.plus isSpace)
    (.seq (.cap (.plus fun c => isAlpha c || isDigit c || isSpace c))
      (.alt (.chr ',') (.alt .eos (.alt (.lit "Sector".toList) (.lit "Near".toList))))))

/-- `/Sector\s*(\d+[A-Za-z]?)/i` -/
def sectorRe : Re :=
  .seq (.lit "Sector".toList) (.seq (.star isSpace)
    (.cap (.seq (.plus isDigit) (.opt (.cls isAlpha)))))

/-- `/Villa/i` -/
def villaRe : Re := .lit "Villa".toList

/-- `/Plot|Land/i` -/
def plotRe : Re := .alt (.lit "Plot".toList) (.lit "Land".toList)

/-- `/Floor/i` -/
def floorRe : Re := .lit "Floor".toList

/-- `/Studio/i` -/
def studioRe : Re := .lit "Studio".toList

/-- `/Penthouse/i` -/
def penthouseRe : Re := .lit "Penthouse".toList

/-- `/(\d+)\s*(?:Bath|Bathroom|Washroom)/i` -/
def bathRe : Re :=
  .seq (.cap (.plus isDigit)) (.seq (.star isSpace)
    (.alt (.lit "Bath".toList) (.alt (.lit "Bathroom".toList) (.lit "Washroom".toList))))

/-! ## The raw record and the normalized record -/

/-- A field that may hold a list. -/
inductive Val
  | prim (p : Prim)
  | list (xs : List Prim)

/-- The shapes of `features`: a primitive or a flat list, or an object, given by its
`property` and `society` entries (an absent entry is `undefined`). -/
inductive Features
  | val (v : Val)
  | obj (property society : Val)

/-- An object used as a map, in insertion order. -/
abbrev Facts := List (Str × Prim)

/-- The raw scraped record: the fields `normalizeProperty` reads. (`local_images` is read
only in the condition of an `if` with an empty body, so it is left out.) -/
structure Raw where
  title : Prim
  property_name : Prim
  description : Prim
  price : Prim
  address : Prim
  locality : Prim
  bhk : Prim
  area : Prim
  features : Features
  image_urls : Val
  dynamic_facts : Option Facts
  url : Prim

/-- The record with every field absent: the object `{}`. -/
def Raw.empty : Raw :=
  { title := .undefined, property_name := .undefined, description := .undefined,
    price := .undefined, address := .undefined, locality := .undefined, bhk := .undefined,
    area := .undefined, features := .val (.prim .undefined), image_urls := .prim .undefined,
    dynamic_facts := none, url := .undefined }

/-- The object `normalizeProperty` returns. `society` is the property that the title parser
adds to the object; `none` means that the object has no such property. -/
structure Normalized where
  title : Str
  description : Str
  price : Num
  address : Str
  city : Str
  state : Str
  country : Str
  features : List Prim
  images : List Prim
  isScraped : Bool
  bhk : Str
  area : Str
  dynamic_facts : Facts
  source : Str
  society : Option Str

/-- `obj[key]` on a map. -/
def lookupKey (facts : Facts) (key : Str) : Prim :=
  match facts.find? fun e => e.1 == key with
  | some e => e.2
  | none => .undefined

/-- `delete obj[key]`. -/
def eraseKey (facts : Facts) (key : Str) : Facts := facts.filter fun e => !(e.1 == key)

/-- `obj[key] = value`. -/
def setKey (facts : Facts) (key : Str) (value : Prim) : Facts :=
  if facts.any fun e => e.1 == key then
    facts.map fun e => if e.1 == key then (key, value) else e
  else facts ++ [(key, value)]

/-- Truthiness of a variable that holds `null` (or `undefined`) or a string. -/
def optTruthy : Option Str → Bool
  | some s => !s.isEmpty
  | none => false

/-! ## `normalizeProperty` (lines 9-338) -/

/-- Line 96: `(rawData.property_name || "") + " " + (rawData.description || "")`. -/
def combinedText (rawData : Raw) : Str :=
  (rawData.property_name.or (.str [])).toStr ++ " ".toList ++
    (rawData.description.or (.str [])).toStr

/-- Line 98: the condition `!bhk || bhk.trim() === ""`. -/
def bhkMissing (bhk : Prim) : Except JsError Bool :=
  if !bhk.truthy then .ok true
  else match bhk.asString with
    | .ok s => .ok (trim s).isEmpty
    | .error e => .error e

/-- Lines 95-104: smart BHK extraction; the value stored in `normalized.bhk`. -/
def extractBhk (rawData : Raw) : Except JsError Str :=
  match bhkMissing rawData.bhk with
  | .error e => .error e
  | .ok missing =>
    let bhk : Prim :=
      if missing then
        match bhkRe.exec true (combinedText rawData) with
        | some bhkMatch =>
          .str (bhkMatch.getD 0 [] ++ " ".toList ++ toUpperCase (bhkMatch.getD 1 []))
        | none => rawData.bhk
      else rawData.bhk
    .ok (if bhk.truthy then cleanText bhk else "N/A".toList)

/-- Line 109: `area.length > 50`; `.length` of a boolean or a number is `undefined`, and
`undefined > 50` is false. -/
def longerThan50 : Prim → Bool
  | .str s => decide (jsLength s > 50)
  | _ => false

/-- Lines 108-117: smart area extraction; the value stored in `normalized.area`. -/
def extractArea (rawData : Raw) : Str :=
  let area : Prim :=
    if !rawData.area.truthy || longerThan50 rawData.area
        || !digitRe.test false rawData.area.toStr then
      match areaRe.exec true (combinedText rawData) with
      | some areaMatch => .str (areaMatch.getD 0 [] ++ " ".toList ++ areaMatch.getD 1 [])
      | none => .null
    else rawData.area
  if area.truthy then cleanText area else "N/A".toList

/-- Lines 120-123: the raw address. -/
def rawAddress (rawData : Raw) : Prim :=
  let address := rawData.address.or rawData.locality
  match rawData.dynamic_facts with
  | some facts =>
    if !address.truthy && (lookupKey facts "Address".toList).truthy then
      lookupKey facts "Address".toList
    else address
  | none => address

/-- Line 124: `cleanText(address) || "Unknown Location"`. -/
def initialAddress (rawData : Raw) : Str :=
  if (cleanText (rawAddress rawData)).isEmpty then "Unknown Location".toList
  else cleanText (rawAddress rawData)

/-- Lines 127-138: the city inferred from the address and the name. -/
def inferCity (address : Str) (rawData : Raw) : Except JsError Str :=
  match (rawData.property_name.or (.str [])).asString with
  | .error e => .error e
  | .ok name =>
    let fullText := toLowerCase address ++ " ".toList ++ toLowerCase name
    .ok (
      if includes fullText "greater noida".toList then "Greater Noida".toList
      else if includes fullText "noida".toList then "Noida".toList
      else if includes fullText "delhi".toList || includes fullText "new delhi".toList then
        "Delhi".toList
      else if includes fullText "gurgaon".toList || includes fullText "gurugram".toList then
        "Gurgaon".toList
      else if includes fullText "ghaziabad".toList then "Ghaziabad".toList
      else "Greater Noida".toList)

/-- The test `!x || x === "N/A"` on a string property that may be absent. -/
def missingOrNA : Option Str → Bool
  | none => true
  | some s => s.isEmpty || s == "N/A".toList

/-- Lines 144-179: the title parser. It takes and returns the three properties of
`normalized` it may assign: `bhk`, `society` and `address`. -/
def parseTitle (rawData : Raw) (bhk : Str) (society : Option Str) (address : Str) :
    Except JsError (Str × Option Str × Str) :=
  if !rawData.title.truthy then .ok (bhk, society, address)
  else match rawData.title.asString with
    | .error e => .error e
    | .ok title =>
      let bhk :=
        if bhk.isEmpty then
          match titleBhkRe.exec true title with
          | some bhkMatch => bhkMatch.getD 0 [] ++ " BHK".toList
          | none => bhk
        else bhk
      let inSplit := inSplitRe.split true title
      if inSplit.length > 1 then
        let locationPart := inSplit.getLastD []
        match indexOf locationPart ",".toList with
        | some commaIndex =>
          let potentialSociety := trim (locationPart.take commaIndex)
          let potentialAddress := trim (locationPart.drop (commaIndex + 1))
          .ok (bhk,
            if missingOrNA society then some potentialSociety else society,
            if missingOrNA (some address) then potentialAddress else address)
        | none =>
          .ok (bhk, if missingOrNA society then some (trim locationPart) else society, address)
      else .ok (bhk, society, address)

/-- The deny-list of junk keys. -/
def junkKeys : List Str :=
  [ "Home Loans".toList, "Real Estate Articles".toList, "Latest News".toList,
    "About Us".toList, "Get HelpCustomer Services & FAQs".toList,
    "Why you should consider this property?".toList, "Key Highlightsof the property".toList,
    "Key Highlights".toList, "Average Rating".toList, "Positives".toList, "Negatives".toList,
    "Quick Area Conversions".toList, "State specific Area Units".toList, "Links".toList,
    "Company".toList, "Our Partners".toList, "CONTACT US".toList,
    "1".toList, "2".toList, "3".toList, "4".toList, "5".toList ]

/-- Lines 199-218: the value of `shouldRemove` for one key of `dynamic_facts`. -/
def shouldRemove (key : Str) (value : Prim) : Bool :=
  junkKeys.contains key || junkPatterns.any (fun pattern => pattern.test false key) ||
    (match value with
      | .str v => includes v "Owner |".toList || includes v "Agent |".toList
      | _ => false)

/-- Lines 197-224: the loop over `Object.keys(normalized.dynamic_facts)`. -/
def filterJunk (facts : Facts) : Facts :=
  (facts.map fun e => e.1).foldl
    (fun acc key => if shouldRemove key (lookupKey acc key) then eraseKey acc key else acc)
    facts

/-- Lines 228-236: the society name; `none` is `null`. -/
def extractSociety (text : Str) : Option Str :=
  match societyRe.exec true text with
  | some societyMatch =>
    if !(societyMatch.getD 0 []).isEmpty then
      let candidate := trim (societyMatch.getD 0 [])
      if !includes (toLowerCase candidate) "greater noida".toList
          && !includes (toLowerCase candidate) "noida".toList then some candidate
      else none
    else none
  | none => none

/-- Lines 241-245: the sector; `none` is `null`. -/
def extractSector (text : Str) : Option Str :=
  match sectorRe.exec true text with
  | some sectorMatch => some ("Sector ".toList ++ sectorMatch.getD 0 [])
  | none => none

/-- Lines 252-257: the property type. -/
def extractPropertyType (text : Str) : Str :=
  if villaRe.test true text then "Villa".toList
  else if plotRe.test true text then "Plot".toList
  else if floorRe.test true text then "Independent Floor".toList
  else if studioRe.test true text then "Studio".toList
  else if penthouseRe.test true text then "Penthouse".toList
  else "Apartment".toList

/-- Lines 270-284: the title. -/
def makeTitle (rawData : Raw) (society sector : Option Str) (propertyType bhk city : Str) :
    Str :=
  let title := cleanText rawData.property_name
  if optTruthy society || optTruthy sector then
    let type := if propertyType.isEmpty then "Property".toList else propertyType
    let bhkStr := if bhk != "N/A".toList then bhk else []
    let loc :=
      if optTruthy society then society.getD []
      else if optTruthy sector then sector.getD [] else city
    let title := bhkStr ++ " ".toList ++ type ++ " in ".toList ++ loc
    if optTruthy sector && optTruthy society then title ++ ", ".toList ++ sector.getD []
    else title
  else if title.isEmpty || decide (jsLength title < 5) then
    (if bhk != "N/A".toList then bhk else "Property".toList) ++ " for Sale in ".toList ++ city
  else title

/-- Lines 288-301: the features list. -/
def normalizeFeatures : Features → List Prim
  | .val (.list xs) => xs
  | .val (.prim _) => []
  | .obj (.list xs) _ => xs
  | .obj (.prim _) _ => []

/-- An element of a list under `join`: `null` and `undefined` give the empty string. -/
def joinItem : Prim → Str
  | .undefined => []
  | .null => []
  | p => p.toStr

/-- Lines 296-298: the value written under "Project Amenities", if any. -/
def projectAmenities : Features → Option Str
  | .obj _ (.list (x :: xs)) => some (joinWith ", ".toList ((x :: xs).map joinItem))
  | _ => none

/-- The keywords of junk images. -/
def junkKeywords : List Str :=
  [ "nnares_logo".toList, "nearMe".toList, "mic".toList, "VoiceSearch".toList,
    "BlueHeart".toList, "Shortlisted".toList, "muteIcon".toList, "landmarkGroup".toList,
    "dealer".toList, "projectnoimage".toList, "Shortlist".toList, "request-photo".toList,
    "videoCam".toList, "loader".toList, "icon".toList, "logo".toList, "placeholder".toList,
    "pixel".toList ]

/-- The image extensions. -/
def validExtensions : List Str := [".jpg".toList, ".jpeg".toList, ".png".toList, ".webp".toList]

/-- Lines 322-335: the callback of `images.filter`. -/
def keepImage (img : Prim) : Except JsError Bool :=
  if !img.truthy then .ok false
  else match img.asString with
    | .error e => .error e
    | .ok s =>
      let lowerImg := toLowerCase s
      let hasValidExt := validExtensions.any fun ext => includes lowerImg ext
      if !hasValidExt && !startsWith lowerImg "http".toList then .ok false
      else if junkKeywords.any fun keyword => includes lowerImg (toLowerCase keyword) then
        .ok false
      else .ok true

/-- `images.filter(...)` with that callback. -/
def filterImages : List Prim → Except JsError (List Prim)
  | [] => .ok []
  | img :: rest =>
    match keepImage img with
    | .error e => .error e
    | .ok keep =>
      match filterImages rest with
      | .error e => .error e
      | .ok kept => .ok (if keep then img :: kept else kept)

/-- Lines 304-335: `(rawData.image_urls || []).filter(...)`; a truthy primitive has no
`filter` method. -/
def extractImages : Val → Except JsError (List Prim)
  | .list xs => filterImages xs
  | .prim p => if p.truthy then .error .typeError else .ok []

/-- The normalizer. The result is the normalized record together with the raw record as the
call leaves it: `normalized.dynamic_facts` is the very object `rawData.dynamic_facts` when
that is present, so the deletions and writes on it are visible in `rawData`. (The default
`"unknown"` of `source` applies when the caller passes no second argument.) -/
def normalizeProperty (rawData : Raw) (source : Str) : Except JsError (Normalized × Raw) := do
  -- 1. basic fields
  let description := cleanDescription rawData.description
  let price := parsePrice rawData.price
  let facts : Facts := rawData.dynamic_facts.getD []
  -- 2. BHK, 3. area
  let bhk ← extractBhk rawData
  let area := extractArea rawData
  -- 4. address and city
  let address := initialAddress rawData
  let city ← inferCity address rawData
  -- title parser
  let (bhk, societyField, address) ← parseTitle rawData bhk none address
  -- junk filter
  let facts := filterJunk facts
  -- A. society
  let society := extractSociety (combinedText rawData)
  let facts := setKey facts "Society".toList
    (.str (if optTruthy society then society.getD [] else "N/A".toList))
  -- B. sector
  let sector := extractSector (combinedText rawData)
  let address :=
    if optTruthy sector && !includes address (sector.getD []) then
      sector.getD [] ++ ", ".toList ++ address
    else address
  -- C. property type
  let propertyType := extractPropertyType (combinedText rawData)
  let facts := setKey facts "Property Type".toList (.str propertyType)
  -- D. bathrooms
  let facts :=
    match bathRe.exec true (combinedText rawData) with
    | some bathMatch => setKey facts "Bathrooms".toList (.str (bathMatch.getD 0 []))
    | none => facts
  -- 5. title
  let title := makeTitle rawData society sector propertyType bhk city
  -- 6. features
  let features := normalizeFeatures rawData.features
  let facts :=
    match projectAmenities rawData.features with
    | some joined => setKey facts "Project Amenities".toList (.str joined)
    | none => facts
  -- 7. images
  let images ← extractImages rawData.image_urls
  pure
    ({ title := title, description := description, price := price, address := address,
       city := city, state := "Unknown".toList, country := "India".toList,
       features := features, images := images, isScraped := true, bhk := bhk, area := area,
       dynamic_facts := facts, source := source, society := societyField },
     { rawData with dynamic_facts := rawData.dynamic_facts.map fun _ => facts })

/-! ## `scrapeProperties`: the import loop (`scrapeController.js`, lines 128-171) -/

/-- Line 158 of `scrapeController.js`: the key of the duplicate check,
`${propertyData.title}-${propertyData.address}-${propertyData.price}`. -/
def uniqueKey (propertyData : Normalized) : Str :=
  propertyData.title ++ "-".toList ++ propertyData.address ++ "-".toList ++
    numToString propertyData.price

/-- Lines 160-165 of `scrapeController.js`: the duplicate check on one normalized record. The
state is the set `seenProperties`, kept as the list of its members in insertion order, and the
list `scrapedProperties`. (Line 155 adds the property `keywords` to the record before the check;
the key does not read it.) -/
def dedupStep (state : List Str × List Normalized) (propertyData : Normalized) :
    List Str × List Normalized :=
  if state.1.contains (uniqueKey propertyData) then state
  else (state.1 ++ [uniqueKey propertyData], state.2 ++ [propertyData])

/-- Lines 147-169 of `scrapeController.js`: the body of the loop for one parsed file. An
exception raised by the normalizer is caught and the file is skipped. -/
def importStep (state : List Str × List Normalized) (rawData : Raw) :
    List Str × List Normalized :=
  match normalizeProperty rawData "scraper".toList with
  | .error _ => state
  | .ok r => dedupStep state r.1

/-- Lines 128-171 of `scrapeController.js`: the list `scrapedProperties` that the loop builds
from the parsed files, in the order in which they are read, and hands to `insertMany`. -/
def scrapedProperties (files : List Raw) : List Normalized :=
  (files.foldl importStep ([], [])).2

/-! ## Vocabulary of the statements -/

/-- A text-position value on which the string methods of the program are safe: a falsy value
(absent, `null`, `false`, `0`, `""`) or a string. -/
def Prim.Textual (p : Prim) : Prop := p.truthy = false ∨ ∃ s, p = .str s

/-- The raw records on which no method is called on a value that lacks it: `bhk`,
`property_name` and `title` are textual, and `image_urls` is falsy or a list of textual
entries. These are exactly the records on which the normalizer returns
(`normalizeProperty_returns_iff`); on the others it raises a `TypeError`. -/
def Accepted (raw : Raw) : Prop :=
  raw.bhk.Textual ∧ raw.property_name.Textual ∧ raw.title.Textual ∧
    (match raw.image_urls with
      | .prim p => p.truthy = false
      | .list xs => ∀ img ∈ xs, img.Textual)

/-- The finite doubles: `m * 2 ^ e` and its negative, for a significand `m < 2 ^ 53` and an
exponent `-1074 ≤ e ≤ 971`. -/
def IsDouble (v : ℚ) : Prop :=
  ∃ (m : ℕ) (e : ℤ), m < 2 ^ 53 ∧ -1074 ≤ e ∧ e ≤ 971 ∧
    (v = (m : ℚ) * 2 ^ e ∨ v = -((m : ℚ) * 2 ^ e))

/-- The number that a run of decimal digits denotes. -/
def digitsValue (ds : Str) : Nat := Nat.ofDigits 10 (ds.reverse.map fun c => c.toNat - 48)

/-- The decimal number with the integer digits `ip` and the fraction digits `fp`. -/
def decimalNumber (ip fp : Str) : ℚ := (digitsValue (ip ++ fp) : ℚ) / 10 ^ fp.length

/-- The decimal number at the head of the text `t` is `ip.fp`: `ip` and `fp` are runs of
digits, and `t` is either `ip` followed by something that starts with neither a digit nor a
dot (and `fp` is empty), or `ip`, a dot and `fp` followed by something that does not start
with a digit. When both runs are empty the text starts with no number. -/
def ReadsDecimal (t ip fp : Str) : Prop :=
  (∀ c ∈ ip, isDigit c = true) ∧ (∀ c ∈ fp, isDigit c = true) ∧
    ((fp = [] ∧ ∃ rest, t = ip ++ rest ∧
        ∀ c, rest.head? = some c → isDigit c = false ∧ c ≠ '.') ∨
      ∃ rest, t = ip ++ '.' :: (fp ++ rest) ∧ ∀ c, rest.head? = some c → isDigit c = false)

/-- The price law in the words of the specification, for a string `s` whose digits and dots
read as the decimal number `ip.fp`: 0 when there is no number; otherwise the double nearest to
the decimal number, multiplied as a double by 10000000 if the lower-cased `s` contains "cr",
else by 100000 if it contains "lac" or "lakh", else by 1000 if it contains "k". -/
def priceLaw (s ip fp : Str) : Num :=
  if ip ++ fp = [] then .fin 0
  else if includes (toLowerCase s) "cr".toList then
    (roundDouble (decimalNumber ip fp)).mul (.fin 10000000)
  else if includes (toLowerCase s) "lac".toList || includes (toLowerCase s) "lakh".toList then
    (roundDouble (decimalNumber ip fp)).mul (.fin 100000)
  else if includes (toLowerCase s) "k".toList then
    (roundDouble (decimalNumber ip fp)).mul (.fin 1000)
  else roundDouble (decimalNumber ip fp)

/-- The characters of the text of a finite number. -/
def numChar (c : Char) : Bool := isDigit c || c == '.' || c == 'e' || c == '-' || c == '+'

/-- The raw record `{price: "0.07 Lakh"}`. -/
def rawSevenHundredthsLakh : Raw := { Raw.empty with price := .str "0.07 Lakh".toList }

/-- The raw record `{bhk: 2}`. -/
def rawNumericBhk : Raw := { Raw.empty with bhk := .num (.fin 2) }

/-- The raw record `{image_urls: "a.jpg"}`. -/
def rawImagesNotAList : Raw := { Raw.empty with image_urls := .prim (.str "a.jpg".toList) }

/-- The raw record `{image_urls: [7]}`. -/
def rawImageNotAString : Raw := { Raw.empty with image_urls := .list [.num (.fin 7)] }

/-- The raw record `{address: "N/A", title: "Flat in Green Park,"}`. -/
def rawEmptyAddress : Raw :=
  { Raw.empty with address := .str "N/A".toList, title := .str "Flat in Green Park,".toList }

/-- The raw record `{price: -5}`. -/
def rawNegativePrice : Raw := { Raw.empty with price := .num (.fin (-5)) }

/-- The raw record `{price: "50 Lakh"}`. -/
def rawFiftyLakh : Raw := { Raw.empty with price := .str "50 Lakh".toList }

/-- The raw record `{price: "1.5 Cr"}`. -/
def rawOneAndAHalfCrore : Raw := { Raw.empty with price := .str "1.5 Cr".toList }

/-- The raw record `{bhk: " "}`. -/
def rawBlankBhk : Raw := { Raw.empty with bhk := .str " ".toList }

/-- The raw record `{bhk: "2 BHK", property_name: "3BHK Flat for rent"}`. -/
def rawTwoBhk : Raw :=
  { Raw.empty with bhk := .str "2 BHK".toList, property_name := .str "3BHK Flat for rent".toList }

/-- The marker loop over an arbitrary list of markers. -/
def truncWith (ms : List Str) (t : Str) : Str := ms.foldl cutAtMarker t

/-- The texts in which an occurrence of `m` is overlapped, from its `i`-th character on
(`0 < i`), by an occurrence of `a`: the first `i` characters of `m` followed by `a`. -/
def overlapsOf (a m : Str) : List Str :=
  (List.range m.length).filterMap fun i =>
    if 0 < i ∧ ((m.drop i).isPrefixOf a || a.isPrefixOf (m.drop i)) then some (m.take i ++ a)
    else none

/-- The overlap texts of a list of markers: those of every marker with every later one. -/
def overlapWords : List Str → List Str
  | [] => []
  | a :: rest => rest.flatMap (overlapsOf a) ++ overlapWords rest

/-- The one text in which two junk markers overlap so that the loop misses the earlier one: -/
def overlapText : Str := "CONTACT UState specific Area Units".toList

/-- The description of the specification's example. -/
def exampleDescription : Str :=
  "Nice flat near metro. Popular Localities Sector 5, Sector 6...".toList

/-- The description `"Nice Popular  Localities"`, with two spaces between the last two
words. -/
def twoSpaceDescription : Str := "Nice Popular  Localities".toList

/-- `u` equals the ASCII word `w` up to the case of its letters, which is how a literal of a
pattern with the `i` flag matches. -/
def CiEq (u w : Str) : Prop := u.map upperChar = w.map upperChar

/-- `u` is one of the words `units`, up to letter case. -/
def IsUnit (units : List Str) (u : Str) : Prop := ∃ w ∈ units, CiEq u w

/-- The alternatives of `(BHK|Bedroom|RK)`. -/
def bhkUnits : List Str := ["BHK".toList, "Bedroom".toList, "RK".toList]

/-- The alternatives of `(sqft|sq\.ft|sq ft|sq yards|gaj)`. -/
def areaUnits : List Str :=
  ["sqft".toList, "sq.ft".toList, "sq ft".toList, "sq yards".toList, "gaj".toList]

/-- A pattern without capture groups matches, at the head of a text, exactly the prefixes with
property `P`. -/
def Re.Lang (ci : Bool) (n : Nat) (r : Re) (P : Str → Prop) : Prop :=
  ∀ (s : Str) (m : List Str × Str), m ∈ Re.run ci n r s ↔ ∃ x, P x ∧ s = x ++ m.2 ∧ m.1 = []

/-- The name of the raw record, one space and its description, in the words of the
specification; a field that is absent or empty counts as the empty text. -/
def nameAndDescription (raw : Raw) : Str :=
  (if raw.property_name.truthy then raw.property_name.toStr else []) ++
    ' ' :: (if raw.description.truthy then raw.description.toStr else [])

/-- The text `text` has a match of the BHK pattern right after `pre`: digits `ds`, white space
`ws` (possibly none) and a unit `u`, followed by `post`. -/
def BhkMatchAt (text pre ds ws u post : Str) : Prop :=
  text = pre ++ (ds ++ (ws ++ (u ++ post))) ∧ (ds ≠ [] ∧ ∀ c ∈ ds, isDigit c = true) ∧
    (∀ c ∈ ws, isSpace c = true) ∧ IsUnit bhkUnits u

/-- The raw record has no explicit `bhk`: the field is falsy (absent, `null`, empty) or a string
of white space. -/
def NoExplicitBhk (raw : Raw) : Prop :=
  raw.bhk.truthy = false ∨ ∃ s, raw.bhk = .str s ∧ ∀ c ∈ s, isSpace c = true

/-- The record of the specification's example: `{property_name: "3BHK Flat for rent",
description: ""}`. -/
def rawThreeBhk : Raw :=
  { Raw.empty with property_name := .str "3BHK Flat for rent".toList, description := .str [] }

/-- The raw record `{property_name: "Flat for rent", description: "Airy 2 bedroom home"}`. -/
def rawBedroomInDescription : Raw :=
  { Raw.empty with property_name := .str "Flat for rent".toList,
                   description := .str "Airy 2 bedroom home".toList }

/-- A number of the area pattern: digits, or digits, a comma and digits. -/
def IsAreaNumber (x : Str) : Prop :=
  (x ≠ [] ∧ ∀ c ∈ x, isDigit c = true) ∨
    ∃ a b, x = a ++ ',' :: b ∧ (a ≠ [] ∧ ∀ c ∈ a, isDigit c = true) ∧
      (b ≠ [] ∧ ∀ c ∈ b, isDigit c = true)

/-- The text `text` has a match of the area pattern right after `pre`: a number `num`, white
space `ws` (possibly none) and a unit `u`, followed by `post`. -/
def AreaMatchAt (text pre num ws u post : Str) : Prop :=
  text = pre ++ (num ++ (ws ++ (u ++ post))) ∧ IsAreaNumber num ∧
    (∀ c ∈ ws, isSpace c = true) ∧ IsUnit areaUnits u

/-- The explicit `area` is used: it is a string of at most 50 UTF-16 units with a digit, or a
finite number other than 0 (a number has no length, and a finite number prints with a
digit). -/
def ExplicitAreaUsable (raw : Raw) : Prop :=
  (∃ s, raw.area = .str s ∧ jsLength s ≤ 50 ∧ ∃ c ∈ s, isDigit c = true) ∨
    ∃ q : ℚ, raw.area = .num (.fin q) ∧ q ≠ 0

/-- The raw record `{area: " 1200  sq ft ", property_name: "Flat 900 sqft"}`. -/
def rawExplicitArea : Raw :=
  { Raw.empty with area := .str " 1200  sq ft ".toList,
                   property_name := .str "Flat 900 sqft".toList }

/-- The raw record `{area: "Spacious", property_name: "Corner plot", description: "Plot of
1,200 Sq Yards"}`. -/
def rawAreaInDescription : Raw :=
  { Raw.empty with area := .str "Spacious".toList,
                   property_name := .str "Corner plot".toList,
                   description := .str "Plot of 1,200 Sq Yards".toList }

/-- Lines 237, 258, 264 and 297: the writes on `dynamic_facts` that follow the junk filter, in
the order of the program. -/
def writeDerived (rawData : Raw) (facts : Facts) : Facts :=
  let society := extractSociety (combinedText rawData)
  let facts := setKey facts "Society".toList
    (.str (if optTruthy society then society.getD [] else "N/A".toList))
  let facts := setKey facts "Property Type".toList
    (.str (extractPropertyType (combinedText rawData)))
  let facts :=
    match bathRe.exec true (combinedText rawData) with
    | some bathMatch => setKey facts "Bathrooms".toList (.str (bathMatch.getD 0 []))
    | none => facts
  match projectAmenities rawData.features with
  | some joined => setKey facts "Project Amenities".toList (.str joined)
  | none => facts

/-- The key tests of the junk filter (lines 202-211): the key is on the deny-list or one of
the junk patterns matches it. -/
def junkKey (key : Str) : Bool :=
  junkKeys.contains key || junkPatterns.any fun pattern => pattern.test false key

/-- The value test of the junk filter (lines 214-219): the value is a string that contains
"Owner |" or "Agent |". -/
def junkValue : Prim → Bool
  | .str v => includes v "Owner |".toList || includes v "Agent |".toList
  | _ => false

/-- The keys of a map are distinct, as they are in an object. -/
def DistinctKeys (facts : Facts) : Prop := (facts.map fun e => e.1).Nodup

/-- The text contains the word, the case of ASCII letters being ignored. -/
def containsCi (text word : Str) : Bool := includes (text.map upperChar) (word.map upperChar)

/-- The property type in the words of the specification: the first keyword, in the order
Villa, Plot or Land, Floor, Studio, Penthouse, that the text contains in any letter case. -/
def propertyTypeLaw (text : Str) : Str :=
  if containsCi text "Villa".toList then "Villa".toList
  else if containsCi text "Plot".toList || containsCi text "Land".toList then "Plot".toList
  else if containsCi text "Floor".toList then "Independent Floor".toList
  else if containsCi text "Studio".toList then "Studio".toList
  else if containsCi text "Penthouse".toList then "Penthouse".toList
  else "Apartment".toList

/-- The raw record `{property_name: "Luxury home", description: "A VILLA with plot",
dynamic_facts: {"Property Type": "Flat"}}`. -/
def rawVillaInDescription : Raw :=
  { Raw.empty with property_name := .str "Luxury home".toList,
                   description := .str "A VILLA with plot".toList,
                   dynamic_facts := some [("Property Type".toList, .str "Flat".toList)] }

/-- The raw record `{property_name: "Luxury home", dynamic_facts: {"Property Type":
"Flat"}}`: the record above without its description. -/
def rawLuxuryHome : Raw :=
  { Raw.empty with property_name := .str "Luxury home".toList,
                   dynamic_facts := some [("Property Type".toList, .str "Flat".toList)] }

/-- The pattern has no capture group. -/
def Re.capFree : Re → Bool
  | .seq a b => a.capFree && b.capFree
  | .alt a b => a.capFree && b.capFree
  | .opt a => a.capFree
  | .cap _ => false
  | _ => true

/-- The raw record `{dynamic_facts: {"Home Loans": "x", "About Noida": "y", "Facing":
"East"}}`. -/
def rawJunkKeys : Raw :=
  { Raw.empty with
    dynamic_facts := some [("Home Loans".toList, .str "x".toList),
      ("About Noida".toList, .str "y".toList), ("Facing".toList, .str "East".toList)] }

/-- The raw record `{dynamic_facts: {"Seller": "Owner | 4mo ago", "Facing": "East"}}`. -/
def rawJunkValue : Raw :=
  { Raw.empty with
    dynamic_facts := some [("Seller".toList, .str "Owner | 4mo ago".toList),
      ("Facing".toList, .str "East".toList)] }

/-- The text `text` has a match of the sector pattern right after `pre`: the word "Sector" in
any letter case, white space `ws` (possibly none), digits `ds` and `l`, which is empty or one
ASCII letter, followed by `post`. -/
def SectorMatchAt (text pre w ws ds l post : Str) : Prop :=
  text = pre ++ (w ++ (ws ++ (ds ++ (l ++ post)))) ∧ CiEq w "Sector".toList ∧
    (∀ c ∈ ws, isSpace c = true) ∧ (ds ≠ [] ∧ ∀ c ∈ ds, isDigit c = true) ∧
    (l = [] ∨ ∃ c, l = [c] ∧ isAlpha c = true)

/-- The match takes all it can: no digit follows the digits `ds`, and the letter is absent only
when no letter follows. -/
def SectorGreedy (l post : Str) : Prop :=
  (∀ c, (l ++ post).head? = some c → isDigit c = false) ∧
    (l = [] → ∀ c, post.head? = some c → isAlpha c = false)

/-- The first value of a list that is not empty in the sense of the program (not absent,
`null`, `false`, `0` or `""`); `undefined` when there is none. -/
def firstAvailable : List Prim → Prim
  | [] => .undefined
  | p :: ps => if p.truthy then p else firstAvailable ps

/-- The address `A` of the specification: the cleaned first available one of `address`,
`locality` and `dynamic_facts["Address"]`, or "Unknown Location" when there is none or it
cleans to the empty text. -/
def resolvedAddress (raw : Raw) : Str :=
  let a := cleanText (firstAvailable [raw.address, raw.locality,
    match raw.dynamic_facts with
    | some facts => lookupKey facts "Address".toList
    | none => .undefined])
  if a.isEmpty then "Unknown Location".toList else a

/-- The address that the title of the record carries: when the title is a non-empty string
that the pattern `/\s+in\s+/i` splits in two or more parts and the last part has a comma, the
trimmed text after the first comma of that part. -/
def titleAddress (raw : Raw) : Option Str :=
  match raw.title with
  | .str title =>
    if title.isEmpty then none
    else if (inSplitRe.split true title).length > 1 then
      match indexOf ((inSplitRe.split true title).getLastD []) ",".toList with
      | some commaIndex =>
        some (trim (((inSplitRe.split true title).getLastD []).drop (commaIndex + 1)))
      | none => none
    else none
  | _ => none

/-- The address `B` to which the sector rule applies: `A`, except that an `A` equal to "N/A"
is replaced by the address that the title carries, if it carries one. -/
def addressBase (raw : Raw) : Str :=
  if resolvedAddress raw = "N/A".toList then (titleAddress raw).getD (resolvedAddress raw)
  else resolvedAddress raw

/-- The raw record `{address: "N/A", title: "Flat in Green Park, Noida"}`. -/
def rawTitleAddress : Raw :=
  { Raw.empty with address := .str "N/A".toList,
                   title := .str "Flat in Green Park, Noida".toList }

/-- The raw record `{locality: " Tower 5,  Noida ", property_name: "Flat", description:
"Near metro, Sector 62A Noida"}`. -/
def rawSectorInDescription : Raw :=
  { Raw.empty with locality := .str " Tower 5,  Noida ".toList,
                   property_name := .str "Flat".toList,
                   description := .str "Near metro, Sector 62A Noida".toList }

/-- The text `T` of the specification: the lower-cased address `A`, a space, and the
lower-cased name (empty when the record has none). -/
def cityText (raw : Raw) : Str :=
  toLowerCase (resolvedAddress raw) ++ " ".toList ++
    toLowerCase (raw.property_name.or (.str [])).toStr

/-- The city in the words of the specification: the first name of the chain that `T`
contains, "Greater Noida" when it contains none. -/
def cityLaw (t : Str) : Str :=
  if includes t "greater noida".toList then "Greater Noida".toList
  else if includes t "noida".toList then "Noida".toList
  else if includes t "delhi".toList then "Delhi".toList
  else if includes t "gurgaon".toList || includes t "gurugram".toList then "Gurgaon".toList
  else if includes t "ghaziabad".toList then "Ghaziabad".toList
  else "Greater Noida".toList

/-- The five city names. -/
def cityNames : List Str :=
  ["Greater Noida".toList, "Noida".toList, "Delhi".toList, "Gurgaon".toList,
    "Ghaziabad".toList]

/-- The raw record `{address: "Sector 18, Noida", property_name: "Flat near New Delhi"}`. -/
def rawTwoCities : Raw :=
  { Raw.empty with address := .str "Sector 18, Noida".toList,
                   property_name := .str "Flat near New Delhi".toList }

/-- The raw record `{property_name: "Sector 5"}`. -/
def rawSectorOnly : Raw := { Raw.empty with property_name := .str "Sector 5".toList }

/-- The raw record `{property_name: "3 BHK in ATS Rhapsody, Sector 1"}`. -/
def rawSocietySector : Raw :=
  { Raw.empty with property_name := .str "3 BHK in ATS Rhapsody, Sector 1".toList }

/-- The raw record `{title: "Spacious home with garden"}`. -/
def rawTitleOnly : Raw := { Raw.empty with title := .str "Spacious home with garden".toList }

/-- The raw record `{property_name: "  Cozy   Studio  "}`. -/
def rawCozyStudio : Raw := { Raw.empty with property_name := .str "  Cozy   Studio  ".toList }

/-- The test of the image filter on a string: the entry is not empty; its lower-case form
contains one of the extension texts or starts with "http"; and its lower-case form contains
none of the junk keywords, themselves taken in lower case. -/
def imageKept (s : Str) : Bool :=
  !s.isEmpty &&
    ((validExtensions.any fun ext => includes (toLowerCase s) ext) ||
      startsWith (toLowerCase s) "http".toList) &&
    !(junkKeywords.any fun keyword => includes (toLowerCase s) (toLowerCase keyword))

/-- The raw record `{image_urls: ["floorplan.jpg.pdf"]}`. -/
def rawPdfImage : Raw :=
  { Raw.empty with image_urls := .list [.str "floorplan.jpg.pdf".toList] }

/-- The raw record of the specification's example: `{image_urls:
["https://cdn.site.com/photo1.jpg", "https://cdn.site.com/nearMe_icon.png", "noextension"]}`. -/
def rawExampleImages : Raw :=
  { Raw.empty with
    image_urls := .list [.str "https://cdn.site.com/photo1.jpg".toList,
      .str "https://cdn.site.com/nearMe_icon.png".toList, .str "noextension".toList] }

/-- The raw record `{dynamic_facts: {"Address": "Agent | Green Park"}}`. -/
def rawJunkAddress : Raw :=
  { Raw.empty with
    dynamic_facts := some [("Address".toList, .str "Agent | Green Park".toList)] }

/-- The raw record `{dynamic_facts: {"Address": "Green Park, Delhi", "Home Loans": "x"}}`. -/
def rawFactsAddress : Raw :=
  { Raw.empty with
    dynamic_facts := some [("Address".toList, .str "Green Park, Delhi".toList),
      ("Home Loans".toList, .str "x".toList)] }

/-- The raw record `{features: {property: [], society: ["Owner | 4mo ago"]}}`. -/
def rawJunkAmenities : Raw :=
  { Raw.empty with features := .obj (.list []) (.list [.str "Owner | 4mo ago".toList]) }

/-- The raw record `{features: {property: ["Lift"], society: ["Pool", "Gym"]}}`. -/
def rawNestedFeatures : Raw :=
  { Raw.empty with
    features := .obj (.list [.str "Lift".toList]) (.list [.str "Pool".toList, .str "Gym".toList]) }

/-- The raw record `{area: 1200}`, with a numeric area. -/
def rawNumericArea : Raw := { Raw.empty with area := .num (.fin 1200) }

/-- The keys under which the normalizer writes its derived entries. -/
def derivedKeys : List Str :=
  ["Society".toList, "Property Type".toList, "Bathrooms".toList, "Project Amenities".toList]

/-- The alternatives of `(?:Bath|Bathroom|Washroom)`. -/
def bathUnits : List Str := ["Bath".toList, "Bathroom".toList, "Washroom".toList]

/-- The text `text` has a match of the bathrooms pattern right after `pre`: digits `ds`, white
space `ws` (possibly none) and one of the words `u`, followed by `post`. -/
def BathMatchAt (text pre ds ws u post : Str) : Prop :=
  text = pre ++ (ds ++ (ws ++ (u ++ post))) ∧ (ds ≠ [] ∧ ∀ c ∈ ds, isDigit c = true) ∧
    (∀ c ∈ ws, isSpace c = true) ∧ IsUnit bathUnits u

/-- The raw record `{property_name: "Cozy home", description: "with 12  bathrooms, 3 Bath",
dynamic_facts: {"Bathrooms": "2"}}`. -/
def rawBathsInDescription : Raw :=
  { Raw.empty with property_name := .str "Cozy home".toList,
                   description := .str "with 12  bathrooms, 3 Bath".toList,
                   dynamic_facts := some [("Bathrooms".toList, .str "2".toList)] }

/-- What may follow the captured run of the society pattern: a comma, the end of the text,
"Sector" or "Near" in any letter case. -/
def IsSocietyEnd (term post : Str) : Prop :=
  term = [','] ∨ (term = [] ∧ post = []) ∨ CiEq term "Sector".toList ∨ CiEq term "Near".toList

/-- The text `text` has a match of the society pattern right after `pre`: "in" or "at" in any
letter case, white space `ws`, a run `run` of ASCII letters, digits and white space, and the
terminator `term`, followed by `post`. -/
def SocietyMatchAt (text pre w ws run term post : Str) : Prop :=
  text = pre ++ (w ++ (ws ++ (run ++ (term ++ post)))) ∧
    (CiEq w "in".toList ∨ CiEq w "at".toList) ∧
    (ws ≠ [] ∧ ∀ c ∈ ws, isSpace c = true) ∧
    (run ≠ [] ∧ ∀ c ∈ run, (isAlpha c || isDigit c || isSpace c) = true) ∧
    IsSocietyEnd term post

/-- The raw record `{property_name: "3 BHK", description: "Home in ATS Rhapsody, Sector 1"}`. -/
def rawSocietyInDescription : Raw :=
  { Raw.empty with property_name := .str "3 BHK".toList,
                   description := .str "Home in ATS Rhapsody, Sector 1".toList }

/-- The raw record of the end-to-end scenario of the specification. -/
def rawScenario : Raw :=
  { Raw.empty with
    property_name := .str
      "4BHK 4Baths Flat/Apartment for Rent in ATS Rhapsody, Sector 1 Greater Noida".toList,
    price := .str "45000".toList,
    image_urls := .list [.str "a.jpg".toList, .str "logo.png".toList] }

/-- The key string of the specification: the title, "-", the address, "-" and the price as
it prints. -/
def keyString (p : Normalized) : Str :=
  p.title ++ '-' :: (p.address ++ '-' :: numToString p.price)

/-- A batch of four files: `{property_name: "Cozy Studio", address: "Delhi", price: 100,
description: "first"}`, the same with the description "second", the same with the price 200
and the description "third", and the same with the price 1e21 and the description
"fourth". -/
def rawBatch : List Raw :=
  [{ Raw.empty with property_name := .str "Cozy Studio".toList, address := .str "Delhi".toList,
                    price := .num (.fin 100), description := .str "first".toList },
   { Raw.empty with property_name := .str "Cozy Studio".toList, address := .str "Delhi".toList,
                    price := .num (.fin 100), description := .str "second".toList },
   { Raw.empty with property_name := .str "Cozy Studio".toList, address := .str "Delhi".toList,
                    price := .num (.fin 200), description := .str "third".toList },
   { Raw.empty with property_name := .str "Cozy Studio".toList, address := .str "Delhi".toList,
                    price := .num (.fin 1000000000000000000000),
                    description := .str "fourth".toList }]

/-- The normalized records that the loop processes: those of the files on which the normalizer
returns, in order. -/
def processedRecords (files : List Raw) : List Normalized :=
  files.filterMap fun rawData => (normalizeProperty rawData "scraper".toList).toOption.map (·.1)

/-- The duplicate check run over a list of normalized records. -/
def dedupBatch (records : List Normalized) : List Normalized :=
  (records.foldl dedupStep ([], [])).2

/-- The first record of each key that is not in `seen`, in the words of the specification. -/
def keepFirst : List Str → List Normalized → List Normalized
  | _, [] => []
  | seen, p :: rest =>
    if seen.contains (uniqueKey p) then keepFirst seen rest
    else p :: keepFirst (seen ++ [uniqueKey p]) rest

/-- The raw record `{property_name: "Green-Park", address: "Delhi"}`. -/
def rawGreenPark : Raw :=
  { Raw.empty with property_name := .str "Green-Park".toList, address := .str "Delhi".toList }

/-- The raw record `{property_name: "Green", address: "Park-Delhi"}`. -/
def rawGreen : Raw :=
  { Raw.empty with property_name := .str "Green".toList, address := .str "Park-Delhi".toList }

/-- The raw record `{title: "Flat in Green Park"}`. -/
def rawTitleSociety : Raw := { Raw.empty with title := .str "Flat in Green Park".toList }

/-- The raw record `{url: "https://example.com/p?id=a1", property_name: "Cozy Studio"}`. -/
def rawWithUrl : Raw :=
  { Raw.empty with url := .str "https://example.com/p?id=a1".toList,
                   property_name := .str "Cozy Studio".toList }

/-- The names of the properties of a normalized record: the fourteen of the default structure,
and `society` when the title parser has added it. -/
def Normalized.fieldNames (n : Normalized) : List String :=
  ["title", "description", "price", "address", "city", "state", "country", "features",
    "images", "isScraped", "bhk", "area", "dynamic_facts", "source"] ++
  (if n.society.isSome then ["society"] else [])

/-! ## Characters -/

theorem upperChar_toNat_of_lower {c : Char} (h1 : 97 ≤ c.toNat) (h2 : c.toNat ≤ 122) :
    (upperChar c).toNat = c.toNat - 32 := by
  unfold upperChar
  rw [if_pos ⟨h1, h2⟩]
  generalize c.toNat = k at h1 h2
  interval_cases k <;> rfl

theorem upperChar_of_not_lower {c : Char} (h : ¬ (97 ≤ c.toNat ∧ c.toNat ≤ 122)) :
    upperChar c = c := by
  unfold upperChar
  rw [if_neg h]

theorem isSpace_upperChar (c : Char) : isSpace (upperChar c) = isSpace c := by
  by_cases h : 97 ≤ c.toNat ∧ c.toNat ≤ 122
  · have hu := upperChar_toNat_of_lower h.1 h.2
    unfold isSpace
    rw [hu]
    obtain ⟨h1, h2⟩ := h
    generalize c.toNat = k at h1 h2
    interval_cases k <;> rfl
  · rw [upperChar_of_not_lower h]

theorem isDigit_upperChar (c : Char) : isDigit (upperChar c) = isDigit c := by
  by_cases h : 97 ≤ c.toNat ∧ c.toNat ≤ 122
  · have hu := upperChar_toNat_of_lower h.1 h.2
    unfold isDigit
    rw [hu]
    obtain ⟨h1, h2⟩ := h
    generalize c.toNat = k at h1 h2
    interval_cases k <;> rfl
  · rw [upperChar_of_not_lower h]

theorem isSpace_of_isDigit {c : Char} (h : isDigit c = true) : isSpace c = false := by
  unfold isDigit at h
  simp only [Bool.and_eq_true, decide_eq_true_eq] at h
  obtain ⟨h1, h2⟩ := h
  unfold isSpace
  generalize c.toNat = k at h1 h2
  interval_cases k <;> rfl

theorem upperChar_of_isSpace {c : Char} (h : isSpace c = true) : upperChar c = c := by
  apply upperChar_of_not_lower
  rintro ⟨h1, h2⟩
  have : isSpace c = false := by
    unfold isSpace
    generalize c.toNat = k at h1 h2
    interval_cases k <;> rfl
  rw [h] at this
  exact absurd this (by simp)

theorem eq_comma_of_upperChar {c : Char} (h : upperChar c = ',') : c = ',' := by
  by_cases hl : 97 ≤ c.toNat ∧ c.toNat ≤ 122
  · have hu := upperChar_toNat_of_lower hl.1 hl.2
    rw [h] at hu
    have : (',' : Char).toNat = 44 := rfl
    omega
  · rw [upperChar_of_not_lower hl] at h
    exact h

theorem sameChar_comma {c : Char} : Re.sameChar true c ',' = true ↔ c = ',' := by
  simp only [Re.sameChar, ↓reduceIte, beq_iff_eq]
  constructor
  · intro h
    exact eq_comma_of_upperChar (h.trans (by decide))
  · rintro rfl
    rfl

/-! ## Structure of a call -/

theorem bhkMissing_ok_of_textual {p : Prim} (h : p.Textual) : ∃ b, bhkMissing p = .ok b := by
  unfold bhkMissing
  rcases h with h | ⟨s, rfl⟩
  · simp [h]
  · by_cases hs : (Prim.str s).truthy = true <;> simp [hs, Prim.asString]

theorem extractBhk_ok_of_textual {raw : Raw} (h : raw.bhk.Textual) :
    ∃ b, extractBhk raw = .ok b := by
  obtain ⟨m, hm⟩ := bhkMissing_ok_of_textual h
  simp [extractBhk, hm]

theorem or_empty_asString_of_textual {p : Prim} (h : p.Textual) :
    ∃ s, (p.or (.str [])).asString = .ok s := by
  rcases h with h | ⟨s, rfl⟩
  · simp [Prim.or, h, Prim.asString]
  · by_cases hs : (Prim.str s).truthy = true <;> simp [Prim.or, hs, Prim.asString]

theorem inferCity_ok_of_textual {raw : Raw} (address : Str) (h : raw.property_name.Textual) :
    ∃ c, inferCity address raw = .ok c := by
  obtain ⟨s, hs⟩ := or_empty_asString_of_textual h
  simp [inferCity, hs]

theorem parseTitle_ok_of_textual {raw : Raw} (bhk : Str) (society : Option Str) (address : Str)
    (h : raw.title.Textual) : ∃ t, parseTitle raw bhk society address = .ok t := by
  unfold parseTitle
  rcases h with h | ⟨s, hs⟩
  · simp [h]
  · by_cases ht : raw.title.truthy = true
    · rw [hs] at ht
      simp only [hs, ht, Prim.asString, Bool.not_true, Bool.false_eq_true, ↓reduceIte]
      split
      · split <;> simp
      · simp
    · simp [ht]

theorem keepImage_ok_of_textual {img : Prim} (h : img.Textual) : ∃ b, keepImage img = .ok b := by
  unfold keepImage
  rcases h with h | ⟨s, rfl⟩
  · simp [h]
  · by_cases hs : (Prim.str s).truthy = true
    · simp only [hs, Prim.asString]
      simp only [Bool.not_true, Bool.false_eq_true, ↓reduceIte]
      split
      · simp
      · split <;> simp
    · simp [hs]

theorem filterImages_ok_of_textual {xs : List Prim} (h : ∀ img ∈ xs, img.Textual) :
    ∃ kept, filterImages xs = .ok kept := by
  induction xs with
  | nil => exact ⟨[], rfl⟩
  | cons img rest ih =>
    obtain ⟨b, hb⟩ := keepImage_ok_of_textual (h img (List.mem_cons_self _ _))
    obtain ⟨kept, hk⟩ := ih fun i hi => h i (List.mem_cons_of_mem _ hi)
    simp [filterImages, hb, hk]

theorem extractImages_ok_of_accepted {raw : Raw} (h : Accepted raw) :
    ∃ images, extractImages raw.image_urls = .ok images := by
  have h4 := h.2.2.2
  cases hv : raw.image_urls with
  | prim p =>
    rw [hv] at h4
    simp only at h4
    simp [extractImages, h4]
  | list xs =>
    rw [hv] at h4
    simp only at h4
    simpa [extractImages] using filterImages_ok_of_textual h4

/-- What a returning call has computed, field by field. -/
theorem normalizeProperty_inv {raw : Raw} {src : Str} {r : Normalized × Raw}
    (h : normalizeProperty raw src = .ok r) :
    ∃ bhk0 city t images,
      extractBhk raw = .ok bhk0 ∧ inferCity (initialAddress raw) raw = .ok city ∧
      parseTitle raw bhk0 none (initialAddress raw) = .ok t ∧
      extractImages raw.image_urls = .ok images ∧
      r.1.bhk = t.1 ∧ r.1.society = t.2.1 ∧ r.1.area = extractArea raw ∧
      r.1.price = parsePrice raw.price ∧
      r.1.description = cleanDescription raw.description ∧
      r.1.city = city ∧ r.1.images = images ∧ r.1.source = src ∧
      r.1.state = "Unknown".toList ∧ r.1.country = "India".toList ∧ r.1.isScraped = true ∧
      r.1.features = normalizeFeatures raw.features ∧
      r.1.title = makeTitle raw (extractSociety (combinedText raw))
        (extractSector (combinedText raw)) (extractPropertyType (combinedText raw)) t.1 city ∧
      r.1.address =
        (if optTruthy (extractSector (combinedText raw))
            && !includes t.2.2 ((extractSector (combinedText raw)).getD []) then
          (extractSector (combinedText raw)).getD [] ++ ", ".toList ++ t.2.2
        else t.2.2) ∧
      r.2 = { raw with dynamic_facts := raw.dynamic_facts.map fun _ => r.1.dynamic_facts } := by
  unfold normalizeProperty at h
  cases h1 : extractBhk raw with
  | error e => simp [h1, bind, Except.bind] at h
  | ok bhk0 =>
    cases h2 : inferCity (initialAddress raw) raw with
    | error e => simp [h1, h2, bind, Except.bind] at h
    | ok city =>
      cases h3 : parseTitle raw bhk0 none (initialAddress raw) with
      | error e => simp [h1, h2, h3, bind, Except.bind] at h
      | ok t =>
        cases h4 : extractImages raw.image_urls with
        | error e => simp [h1, h2, h3, h4, bind, Except.bind] at h
        | ok images =>
          simp only [h1, h2, h3, h4, bind, Except.bind, pure, Except.pure, Except.ok.injEq] at h
          subst h
          exact ⟨bhk0, city, t, images, rfl, rfl, h3, rfl, rfl, rfl, rfl, rfl, rfl, rfl, rfl,
            rfl, rfl, rfl, rfl, rfl, rfl, rfl, rfl⟩

/-- The normalizer returns a record on every accepted raw record. -/
theorem normalizeProperty_returns {raw : Raw} (src : Str) (h : Accepted raw) :
    ∃ r, normalizeProperty raw src = .ok r := by
  obtain ⟨bhk0, h1⟩ := extractBhk_ok_of_textual h.1
  obtain ⟨city, h2⟩ := inferCity_ok_of_textual (initialAddress raw) h.2.1
  obtain ⟨t, h3⟩ := parseTitle_ok_of_textual bhk0 none (initialAddress raw) h.2.2.1
  obtain ⟨images, h4⟩ := extractImages_ok_of_accepted h
  unfold normalizeProperty
  simp only [h1, h2, h3, h4, bind, Except.bind, pure, Except.pure]
  exact ⟨_, rfl⟩

/-- Reading a projection of a concrete call off its evaluation. -/
theorem exists_ok_of_toOption_map {α β : Type} {x : Except JsError α} {f : α → β} {b : β}
    (h : x.toOption.map f = some b) : ∃ r, x = .ok r ∧ f r = b := by
  cases x with
  | error e => simp [Except.toOption] at h
  | ok r => exact ⟨r, rfl, by simpa [Except.toOption] using h⟩

/-- The title parser leaves a non-empty `bhk` alone. -/
theorem parseTitle_bhk {raw : Raw} {bhk : Str} {society : Option Str} {address : Str}
    {t : Str × Option Str × Str} (h : parseTitle raw bhk society address = .ok t)
    (hb : bhk ≠ []) : t.1 = bhk := by
  unfold parseTitle at h
  have hb' : bhk.isEmpty = false := by
    cases bhk with
    | nil => exact absurd rfl hb
    | cons _ _ => rfl
  split at h
  · simp only [Except.ok.injEq] at h
    rw [← h]
  · split at h
    · exact absurd h (by simp)
    · simp only [hb', Bool.false_eq_true, ↓reduceIte] at h
      split at h
      · split at h <;> (simp only [Except.ok.injEq] at h; rw [← h])
      · simp only [Except.ok.injEq] at h
        rw [← h]

theorem textual_of_asString_ok {p : Prim} {s : Str} (h : p.asString = .ok s) : p.Textual := by
  cases p with
  | str t => exact Or.inr ⟨t, rfl⟩
  | undefined => simp [Prim.asString] at h
  | null => simp [Prim.asString] at h
  | bool b => simp [Prim.asString] at h
  | num q => simp [Prim.asString] at h

theorem textual_of_bhkMissing_ok {p : Prim} {b : Bool} (h : bhkMissing p = .ok b) :
    p.Textual := by
  unfold bhkMissing at h
  by_cases ht : p.truthy = true
  · simp only [ht, Bool.not_true, Bool.false_eq_true, ↓reduceIte] at h
    cases hp : p.asString with
    | ok s => exact textual_of_asString_ok hp
    | error e => rw [hp] at h; simp at h
  · exact Or.inl (by simpa using ht)

theorem textual_of_extractBhk_ok {raw : Raw} {b : Str} (h : extractBhk raw = .ok b) :
    raw.bhk.Textual := by
  unfold extractBhk at h
  cases hm : bhkMissing raw.bhk with
  | ok m => exact textual_of_bhkMissing_ok hm
  | error e => rw [hm] at h; simp at h

theorem textual_of_inferCity_ok {raw : Raw} {address c : Str}
    (h : inferCity address raw = .ok c) : raw.property_name.Textual := by
  unfold inferCity at h
  by_cases ht : raw.property_name.truthy = true
  · cases hp : (raw.property_name.or (.str [])).asString with
    | ok s =>
      have : raw.property_name.or (.str []) = raw.property_name := by simp [Prim.or, ht]
      rw [this] at hp
      exact textual_of_asString_ok hp
    | error e => rw [hp] at h; simp at h
  · exact Or.inl (by simpa using ht)

theorem textual_of_parseTitle_ok {raw : Raw} {bhk address : Str} {society : Option Str}
    {t : Str × Option Str × Str} (h : parseTitle raw bhk society address = .ok t) :
    raw.title.Textual := by
  unfold parseTitle at h
  by_cases ht : raw.title.truthy = true
  · simp only [ht, Bool.not_true, Bool.false_eq_true, ↓reduceIte] at h
    cases hp : raw.title.asString with
    | ok s => exact textual_of_asString_ok hp
    | error e => rw [hp] at h; simp at h
  · exact Or.inl (by simpa using ht)

theorem textual_of_keepImage_ok {img : Prim} {b : Bool} (h : keepImage img = .ok b) :
    img.Textual := by
  unfold keepImage at h
  by_cases ht : img.truthy = true
  · simp only [ht, Bool.not_true, Bool.false_eq_true, ↓reduceIte] at h
    cases hp : img.asString with
    | ok s => exact textual_of_asString_ok hp
    | error e => rw [hp] at h; simp at h
  · exact Or.inl (by simpa using ht)

theorem textual_of_filterImages_ok : ∀ {xs kept : List Prim}, filterImages xs = .ok kept →
    ∀ img ∈ xs, img.Textual
  | [], _, _, img, himg => by simp at himg
  | x :: rest, kept, h, img, himg => by
    unfold filterImages at h
    cases hk : keepImage x with
    | error e => rw [hk] at h; simp at h
    | ok keep =>
      cases hr : filterImages rest with
      | error e => rw [hk, hr] at h; simp at h
      | ok kept' =>
        rcases List.mem_cons.1 himg with rfl | hm
        · exact textual_of_keepImage_ok hk
        · exact textual_of_filterImages_ok hr img hm

/-- The normalizer returns a record exactly on the accepted raw records; on every other raw
record it raises a `TypeError`. -/
theorem normalizeProperty_returns_iff (raw : Raw) (src : Str) :
    (∃ r, normalizeProperty raw src = .ok r) ↔ Accepted raw := by
  constructor
  · rintro ⟨r, hr⟩
    obtain ⟨bhk0, city, t, images, h1, h2, h3, h4, _⟩ := normalizeProperty_inv hr
    refine ⟨textual_of_extractBhk_ok h1, textual_of_inferCity_ok h2,
      textual_of_parseTitle_ok h3, ?_⟩
    cases hv : raw.image_urls with
    | prim p =>
      rw [hv] at h4
      simp only [extractImages] at h4
      by_cases hp : p.truthy = true
      · simp [hp] at h4
      · simpa using hp
    | list xs =>
      rw [hv] at h4
      exact textual_of_filterImages_ok h4
  · exact normalizeProperty_returns src

/-! ## Prices -/

theorem includes_append_left : ∀ (hay a b : Str), includes hay (a ++ b) = true → includes hay a = true
  | [], a, b, h => by
    cases a with
    | nil => simp [includes]
    | cons x xs => simp [includes, List.isPrefixOf] at h
  | y :: ys, a, b, h => by
    simp only [includes, Bool.or_eq_true] at h ⊢
    rcases h with h | h
    · left
      rw [List.isPrefixOf_iff_prefix] at h ⊢
      exact (List.prefix_append a b).trans h
    · right
      exact includes_append_left ys a b h

theorem Num.zero_le_fin {q : ℚ} : (0 : Num) ≤ .fin q ↔ 0 ≤ q := Iff.rfl

theorem Num.zero_le_posInf : (0 : Num) ≤ .posInf := trivial

theorem Num.fin_lt_zero {q : ℚ} : Num.fin q < (0 : Num) ↔ q < 0 := Iff.rfl

/-- A number that is zero or more, in the sense of `<=`. -/
theorem Num.zero_le_iff {x : Num} : (0 : Num) ≤ x ↔ x = .posInf ∨ ∃ q, x = .fin q ∧ 0 ≤ q := by
  cases x with
  | fin q => simp [Num.zero_le_fin]
  | posInf => simp [Num.zero_le_posInf]
  | negInf =>
    constructor
    · intro h
      exact absurd h id
    · rintro (h | ⟨q, h, _⟩) <;> cases h
  | nan =>
    constructor
    · intro h
      exact absurd h id
    · rintro (h | ⟨q, h, _⟩) <;> cases h

theorem roundDouble_nonneg {q : ℚ} (h : 0 ≤ q) : (0 : Num) ≤ roundDouble q := by
  have hn : ¬ q.num < 0 := not_lt.2 (Rat.num_nonneg.2 h)
  unfold roundDouble
  by_cases h0 : q.num = 0
  · simp only [h0, ↓reduceIte]
    exact Num.zero_le_fin.2 (le_refl 0)
  · simp only [h0, ↓reduceIte]
    cases roundPos q.num.natAbs q.den with
    | none =>
      simp only [hn, ↓reduceIte]
      exact Num.zero_le_posInf
    | some mp =>
      simp only [hn, ↓reduceIte, one_mul]
      exact Num.zero_le_fin.2 (by positivity)

theorem roundDouble_ne_nan (q : ℚ) : roundDouble q ≠ .nan := by
  unfold roundDouble
  by_cases h0 : q.num = 0
  · simp only [h0, ↓reduceIte]
    intro h
    cases h
  · simp only [h0, ↓reduceIte]
    cases roundPos q.num.natAbs q.den with
    | none =>
      dsimp only
      split <;> (intro h; cases h)
    | some mp =>
      intro h
      cases h

theorem Num.mul_fin_nonneg {x : Num} {c : ℚ} (hx : (0 : Num) ≤ x) (hc : 0 < c) :
    (0 : Num) ≤ x.mul (.fin c) := by
  have hc1 : ¬ c.num = 0 := by
    rw [Rat.num_eq_zero]
    exact ne_of_gt hc
  have hc2 : ¬ c.num < 0 := not_lt.2 (Rat.num_nonneg.2 (le_of_lt hc))
  rcases Num.zero_le_iff.1 hx with rfl | ⟨q, rfl, hq⟩
  · show (0 : Num) ≤ if c.num = 0 then Num.nan else if c.num < 0 then .negInf else .posInf
    simp only [hc1, hc2, ↓reduceIte]
    exact Num.zero_le_posInf
  · exact roundDouble_nonneg (mul_nonneg hq (le_of_lt hc))

theorem posInf_mul_fin (c : ℚ) (hc : 0 < c) : Num.posInf.mul (.fin c) = .posInf := by
  have hc1 : ¬ c.num = 0 := by
    rw [Rat.num_eq_zero]
    exact ne_of_gt hc
  have hc2 : ¬ c.num < 0 := not_lt.2 (Rat.num_nonneg.2 (le_of_lt hc))
  show (if c.num = 0 then Num.nan else if c.num < 0 then .negInf else .posInf) = _
  simp only [hc1, hc2, ↓reduceIte]

theorem parseFloat_nonneg (s : Str) : parseFloat s = .nan ∨ (0 : Num) ≤ parseFloat s := by
  unfold parseFloat
  cases parseDecimal s with
  | none => exact Or.inl rfl
  | some mk => exact Or.inr (roundDouble_nonneg (by positivity))

theorem isNaN_eq_true {x : Num} : isNaN x = true ↔ x = .nan := by
  cases x <;> simp [isNaN]

theorem parsePrice_num (x : Num) (hx : x ≠ .nan) : parsePrice (.num x) = x := by
  unfold parsePrice
  cases x with
  | fin q => by_cases h : q = 0 <;> simp [Prim.truthy, h]
  | posInf => simp [Prim.truthy]
  | negInf => simp [Prim.truthy]
  | nan => exact absurd rfl hx

theorem parsePrice_nonneg_of_not_num {p : Prim} (h : ∀ x, p ≠ .num x) :
    (0 : Num) ≤ parsePrice p := by
  unfold parsePrice
  split
  · exact Num.zero_le_fin.2 (le_refl 0)
  · split
    · exact absurd rfl (h _)
    · dsimp only
      rcases parseFloat_nonneg (List.filter (fun c => isDigit c || c == '.') p.toStr) with hn | hn
      · rw [hn]
        exact Num.zero_le_fin.2 (le_refl 0)
      · split
        · exact Num.zero_le_fin.2 (le_refl 0)
        · split
          · exact Num.mul_fin_nonneg hn (by norm_num)
          · split
            · exact Num.mul_fin_nonneg hn (by norm_num)
            · split
              · exact Num.mul_fin_nonneg hn (by norm_num)
              · exact hn

theorem digitsToNat_append_singleton (ds : Str) (c : Char) :
    digitsToNat (ds ++ [c]) = 10 * digitsToNat ds + (c.toNat - 48) := by
  simp [digitsToNat, List.foldl_append]

theorem digitsToNat_eq_digitsValue (ds : Str) : digitsToNat ds = digitsValue ds := by
  induction ds using List.reverseRecOn with
  | nil => rfl
  | append_singleton ds c ih =>
    rw [digitsToNat_append_singleton, ih]
    simp [digitsValue, Nat.ofDigits_cons]
    ring

theorem takeWhile_append_of_all {p : Char → Bool} (xs rest : Str) (h : ∀ c ∈ xs, p c = true)
    (hr : ∀ c, rest.head? = some c → p c = false) :
    (xs ++ rest).takeWhile p = xs ∧ (xs ++ rest).dropWhile p = rest := by
  induction xs with
  | nil =>
    cases rest with
    | nil => simp
    | cons r rs =>
      have := hr r rfl
      simp [List.takeWhile, List.dropWhile, this]
  | cons x xs ih =>
    have hx := h x (List.mem_cons_self _ _)
    have := ih (fun c hc => h c (List.mem_cons_of_mem _ hc))
    simp [List.takeWhile, List.dropWhile, hx, this.1, this.2]

theorem parseDecimal_of_reads {t ip fp : Str} (h : ReadsDecimal t ip fp) :
    parseDecimal t =
      if ip ++ fp = [] then none else some (digitsValue (ip ++ fp), fp.length) := by
  obtain ⟨hip, hfp, h⟩ := h
  unfold parseDecimal
  rcases h with ⟨rfl, rest, rfl, hrest⟩ | ⟨rest, rfl, hrest⟩
  · obtain ⟨h1, h2⟩ := takeWhile_append_of_all ip rest hip (fun c hc => (hrest c hc).1)
    rw [h1, h2]
    split
    · exact absurd rfl (hrest '.' rfl).2
    · simp only [List.append_nil, List.isEmpty_eq_true, Bool.and_true, decide_eq_true_eq,
        List.length_nil, digitsToNat_eq_digitsValue]
      by_cases hi : ip = [] <;> simp [hi]
  · have hdot : ∀ c, ('.' :: (fp ++ rest)).head? = some c → isDigit c = false := by
      intro c hc
      simp only [List.head?_cons, Option.some.injEq] at hc
      rw [← hc]
      decide
    obtain ⟨h1, h2⟩ := takeWhile_append_of_all ip ('.' :: (fp ++ rest)) hip hdot
    obtain ⟨h3, _⟩ := takeWhile_append_of_all fp rest hfp hrest
    rw [h1, h2]
    simp only [h3, digitsToNat_eq_digitsValue]
    by_cases hi : ip = [] <;> by_cases hf : fp = [] <;> simp [hi, hf]

theorem exists_readsDecimal (t : Str) : ∃ ip fp, ReadsDecimal t ip fp := by
  have hsplit : ∀ u : Str, (∀ c ∈ u.takeWhile isDigit, isDigit c = true) ∧
      (∀ c, (u.dropWhile isDigit).head? = some c → isDigit c = false) := by
    intro u
    refine ⟨fun c hc => ?_, fun c hc => ?_⟩
    · exact (List.mem_takeWhile_imp hc)
    · have := List.head?_dropWhile_not isDigit u
      rw [hc] at this
      simpa using this
  obtain ⟨h1, h2⟩ := hsplit t
  cases hr : t.dropWhile isDigit with
  | nil =>
    refine ⟨t.takeWhile isDigit, [], h1, by simp, Or.inl ⟨rfl, [], ?_, by simp⟩⟩
    have := List.takeWhile_append_dropWhile isDigit t
    rw [hr] at this
    exact this.symm
  | cons r rs =>
    by_cases hdot : r = '.'
    · subst hdot
      obtain ⟨h3, h4⟩ := hsplit rs
      refine ⟨t.takeWhile isDigit, rs.takeWhile isDigit, h1, h3,
        Or.inr ⟨rs.dropWhile isDigit, ?_, h4⟩⟩
      have := List.takeWhile_append_dropWhile isDigit t
      rw [hr] at this
      rw [List.takeWhile_append_dropWhile]
      exact this.symm
    · refine ⟨t.takeWhile isDigit, [], h1, by simp, Or.inl ⟨rfl, r :: rs, ?_, ?_⟩⟩
      · have := List.takeWhile_append_dropWhile isDigit t
        rw [hr] at this
        exact this.symm
      · intro c hc
        simp only [List.head?_cons, Option.some.injEq] at hc
        subst hc
        refine ⟨?_, hdot⟩
        have := h2 r (by rw [hr]; rfl)
        exact this

theorem parseFloat_of_reads {t ip fp : Str} (h : ReadsDecimal t ip fp) :
    parseFloat t = if ip ++ fp = [] then .nan else roundDouble (decimalNumber ip fp) := by
  unfold parseFloat
  rw [parseDecimal_of_reads h]
  by_cases he : ip ++ fp = []
  · simp [he]
  · simp only [he, ↓reduceIte]
    rfl

theorem parsePrice_str (s ip fp : Str)
    (h : ReadsDecimal (s.filter fun c => isDigit c || c == '.') ip fp) :
    parsePrice (.str s) = priceLaw s ip fp := by
  unfold parsePrice priceLaw
  cases s with
  | nil =>
    have h0 := parseDecimal_of_reads h
    have : ip ++ fp = [] := by
      by_contra hne
      simp only [List.filter_nil, hne, ↓reduceIte] at h0
      exact absurd h0 (by simp [parseDecimal])
    simp [Prim.truthy, this]
  | cons c cs =>
    simp only [Prim.truthy, List.isEmpty_cons, Bool.not_false, Bool.not_true,
      Bool.false_eq_true, ↓reduceIte, Prim.toStr]
    rw [parseFloat_of_reads h]
    by_cases he : ip ++ fp = []
    · simp [he, isNaN]
    · have hnn : isNaN (roundDouble (decimalNumber ip fp)) = false := by
        cases hx : isNaN (roundDouble (decimalNumber ip fp)) with
        | false => rfl
        | true => exact absurd (isNaN_eq_true.1 hx) (roundDouble_ne_nan _)
      simp only [he, ↓reduceIte, hnn, Bool.false_eq_true]
      have hcr : (includes (toLowerCase (c :: cs)) "cr".toList
          || includes (toLowerCase (c :: cs)) "crore".toList)
          = includes (toLowerCase (c :: cs)) "cr".toList := by
        cases h1 : includes (toLowerCase (c :: cs)) "cr".toList with
        | true => simp
        | false =>
          cases h2 : includes (toLowerCase (c :: cs)) "crore".toList with
          | false => simp
          | true =>
            have := includes_append_left (toLowerCase (c :: cs)) "cr".toList "ore".toList h2
            rw [h1] at this
            exact absurd this (by simp)
      rw [hcr]

theorem num_den_div (a b : Nat) (hb : b ≠ 0) (hco : Nat.Coprime a b) :
    ((a : ℚ) / b).num = a ∧ ((a : ℚ) / b).den = b := by
  have hb0 : (0 : ℤ) < (b : ℤ) := by exact_mod_cast Nat.pos_of_ne_zero hb
  have h1 := Rat.num_div_eq_of_coprime (a := (a : ℤ)) (b := (b : ℤ)) hb0 (by simpa using hco)
  have h2 := Rat.den_div_eq_of_coprime (a := (a : ℤ)) (b := (b : ℤ)) hb0 (by simpa using hco)
  simp only [Int.cast_natCast] at h1 h2
  exact ⟨h1, by exact_mod_cast h2⟩

/-- Rounding evaluated on a positive fraction in lowest terms. -/
theorem roundDouble_eval (a b m : Nat) (p : Int) (ha : a ≠ 0) (hb : b ≠ 0)
    (hco : Nat.Coprime a b) (h : roundPos a b = some (m, p)) :
    roundDouble ((a : ℚ) / b) = .fin ((m : ℚ) * 2 ^ p) := by
  obtain ⟨hn, hd⟩ := num_den_div a b hb hco
  unfold roundDouble
  rw [hn, hd]
  have ha0 : ¬ ((a : ℤ) = 0) := by exact_mod_cast ha
  have ha1 : ¬ ((a : ℤ) < 0) := by omega
  simp only [ha0, ↓reduceIte, Int.natAbs_ofNat, h, ha1, one_mul]

/-- Printing evaluated on a positive fraction in lowest terms. -/
theorem numToString_eval (a b : Nat) (ha : a ≠ 0) (hb : b ≠ 0) (hco : Nat.Coprime a b) :
    numToString (.fin ((a : ℚ) / b)) = positiveToString a b := by
  obtain ⟨hn, hd⟩ := num_den_div a b hb hco
  unfold numToString
  have ha0 : ¬ ((a : ℤ) = 0) := by exact_mod_cast ha
  have ha1 : ¬ ((a : ℤ) < 0) := by omega
  simp only [hn, hd, ha0, ha1, ↓reduceIte, Int.natAbs_ofNat, List.nil_append]

/-- Rounding evaluated: `q` is the positive fraction `a / b` in lowest terms, and the double
nearest to it is `m * 2 ^ p = v`. -/
theorem roundDouble_of_eq {q v : ℚ} (a b m : Nat) (p : Int) (hq : q = (a : ℚ) / b)
    (ha : a ≠ 0) (hb : b ≠ 0) (hco : Nat.Coprime a b) (h : roundPos a b = some (m, p))
    (hv : (m : ℚ) * 2 ^ p = v) : roundDouble q = .fin v := by
  rw [hq, roundDouble_eval a b m p ha hb hco h, hv]

/-- Printing evaluated: `q` is the positive fraction `a / b` in lowest terms. -/
theorem numToString_of_eq {q : ℚ} (a b : Nat) (hq : q = (a : ℚ) / b) (ha : a ≠ 0) (hb : b ≠ 0)
    (hco : Nat.Coprime a b) : numToString (.fin q) = positiveToString a b := by
  rw [hq, numToString_eval a b ha hb hco]

theorem digitsValue_eq_digitsToNat (ds : Str) : digitsValue ds = digitsToNat ds :=
  (digitsToNat_eq_digitsValue ds).symm

/-! ## The text of a number -/

theorem isDigit_digitChar {d : Nat} (h : d < 10) : isDigit (Nat.digitChar d) = true := by
  interval_cases d <;> decide

theorem toDigitsCore_chars : ∀ (fuel n : Nat) (ds : Str), (∀ c ∈ ds, isDigit c = true) →
    ∀ c ∈ Nat.toDigitsCore 10 fuel n ds, isDigit c = true
  | 0, _, ds, h => by simpa [Nat.toDigitsCore] using h
  | fuel + 1, n, ds, h => by
    have hd : ∀ c ∈ Nat.digitChar (n % 10) :: ds, isDigit c = true := by
      intro c hc
      rcases List.mem_cons.1 hc with rfl | hc
      · exact isDigit_digitChar (Nat.mod_lt _ (by decide))
      · exact h c hc
    unfold Nat.toDigitsCore
    dsimp only
    split
    · exact hd
    · exact toDigitsCore_chars fuel (n / 10) _ hd

theorem toDigitsCore_ne_nil : ∀ (fuel n : Nat) (ds : Str), (fuel ≠ 0 ∨ ds ≠ []) →
    Nat.toDigitsCore 10 fuel n ds ≠ []
  | 0, _, ds, h => by
    rcases h with h | h
    · exact absurd rfl h
    · simpa [Nat.toDigitsCore] using h
  | fuel + 1, n, ds, _ => by
    unfold Nat.toDigitsCore
    dsimp only
    split
    · simp
    · exact toDigitsCore_ne_nil fuel (n / 10) _ (Or.inr (by simp))

theorem toDigits_chars (n : Nat) : ∀ c ∈ Nat.toDigits 10 n, isDigit c = true :=
  toDigitsCore_chars (n + 1) n [] (by simp)

theorem toDigits_ne_nil (n : Nat) : Nat.toDigits 10 n ≠ [] :=
  toDigitsCore_ne_nil (n + 1) n [] (Or.inl (by simp))

theorem numChar_of_isDigit {c : Char} (h : isDigit c = true) : numChar c = true := by
  simp [numChar, h]

theorem render_chars (digits : Str) (n : Int) (h : ∀ c ∈ digits, isDigit c = true) :
    ∀ c ∈ render digits n, numChar c = true := by
  have h0 : numChar '0' = true := by decide
  have hdot : numChar '.' = true := by decide
  have hd : ∀ c ∈ digits, numChar c = true := fun c hc => numChar_of_isDigit (h c hc)
  intro c hc
  unfold render at hc
  split at hc
  · rcases List.mem_append.1 hc with hc | hc
    · exact hd c hc
    · rw [List.eq_of_mem_replicate hc]
      exact h0
  · split at hc
    · rcases List.mem_append.1 hc with hc | hc
      · exact hd c (List.mem_of_mem_take hc)
      · rcases List.mem_cons.1 hc with rfl | hc
        · exact hdot
        · exact hd c (List.mem_of_mem_drop hc)
    · split at hc
      · rcases List.mem_cons.1 hc with rfl | hc
        · exact h0
        · rcases List.mem_cons.1 hc with rfl | hc
          · exact hdot
          · rcases List.mem_append.1 hc with hc | hc
            · rw [List.eq_of_mem_replicate hc]
              exact h0
            · exact hd c hc
      · rcases List.mem_append.1 hc with hc | hc
        · split at hc
          · exact hd c hc
          · rcases List.mem_append.1 hc with hc | hc
            · exact hd c (List.mem_of_mem_take hc)
            · rcases List.mem_cons.1 hc with rfl | hc
              · exact hdot
              · exact hd c (List.mem_of_mem_drop hc)
        · rcases List.mem_cons.1 hc with rfl | hc
          · decide
          · rcases List.mem_cons.1 hc with rfl | hc
            · split <;> decide
            · exact numChar_of_isDigit (toDigits_chars _ c hc)

theorem render_has_digit (digits : Str) (n : Int) (h : ∀ c ∈ digits, isDigit c = true)
    (hne : digits ≠ []) : ∃ c ∈ render digits n, isDigit c = true := by
  obtain ⟨d, ds, rfl⟩ := List.exists_cons_of_ne_nil hne
  have hd : isDigit d = true := h d (List.mem_cons_self _ _)
  unfold render
  split
  · exact ⟨d, by simp, hd⟩
  · split
    · rename_i hn
      obtain ⟨k, hk⟩ : ∃ k, n.toNat = k + 1 := ⟨n.toNat - 1, by omega⟩
      exact ⟨d, by simp [hk], hd⟩
    · split
      · exact ⟨'0', by simp, by decide⟩
      · split
        · exact ⟨d, by simp, hd⟩
        · exact ⟨d, by simp, hd⟩

theorem numToString_fin (q : ℚ) :
    numToString (.fin q) =
      if q.num = 0 then ['0']
      else (if q.num < 0 then ['-'] else []) ++ positiveToString q.num.natAbs q.den := rfl

theorem numToString_fin_chars (q : ℚ) : ∀ c ∈ numToString (.fin q), numChar c = true := by
  intro c hc
  rw [numToString_fin] at hc
  split at hc
  · rw [List.mem_singleton.1 hc]
    decide
  · rcases List.mem_append.1 hc with hc | hc
    · split at hc
      · rw [List.mem_singleton.1 hc]
        decide
      · simp at hc
    · exact render_chars _ _ (toDigits_chars _) c hc

theorem numToString_fin_has_digit (q : ℚ) : ∃ c ∈ numToString (.fin q), isDigit c = true := by
  rw [numToString_fin]
  split
  · exact ⟨'0', by simp, by decide⟩
  · obtain ⟨c, hc, hd⟩ := render_has_digit (Nat.toDigits 10 (shortest q.num.natAbs q.den).1)
      ((shortest q.num.natAbs q.den).2
        + ((Nat.toDigits 10 (shortest q.num.natAbs q.den).1).length : Int))
      (toDigits_chars _) (toDigits_ne_nil _)
    exact ⟨c, List.mem_append_right _ hc, hd⟩

theorem isSpace_of_numChar {c : Char} (h : numChar c = true) : isSpace c = false := by
  simp only [numChar, Bool.or_eq_true, beq_iff_eq] at h
  rcases h with (((h | rfl) | rfl) | rfl) | rfl
  · simp only [isDigit, Bool.and_eq_true, decide_eq_true_eq] at h
    simp only [isSpace, Bool.or_eq_false_iff, beq_eq_false_iff_ne, ne_eq, Bool.and_eq_false_imp,
      decide_eq_true_eq, decide_eq_false_iff_not, not_le]
    omega
  all_goals decide

/-- Rounding evaluated on a positive fraction in lowest terms that rounds to infinity. -/
theorem roundDouble_eval_inf (a b : Nat) (ha : a ≠ 0) (hb : b ≠ 0)
    (hco : Nat.Coprime a b) (h : roundPos a b = none) :
    roundDouble ((a : ℚ) / b) = .posInf := by
  obtain ⟨hn, hd⟩ := num_den_div a b hb hco
  unfold roundDouble
  rw [hn, hd]
  have ha0 : ¬ ((a : ℤ) = 0) := by exact_mod_cast ha
  have ha1 : ¬ ((a : ℤ) < 0) := by omega
  simp only [ha0, ↓reduceIte, Int.natAbs_ofNat, h, ha1]

/-- Rounding is odd: the double nearest to `-q` is the negative of the one nearest to `q`. -/
theorem roundDouble_neg (q : ℚ) :
    roundDouble (-q) =
      match roundDouble q with
      | .fin v => .fin (-v)
      | .posInf => .negInf
      | .negInf => .posInf
      | .nan => .nan := by
  unfold roundDouble
  by_cases h0 : q.num = 0
  · simp [h0]
  · have h1 : ¬ (-q).num = 0 := by simpa using h0
    have hq0 : ¬ q = 0 := fun h => h0 (by simp [h])
    simp only [h0, h1, ↓reduceIte, Rat.neg_num, Int.natAbs_neg, Rat.neg_den]
    cases roundPos q.num.natAbs q.den with
    | none =>
      by_cases hs : q.num < 0
      · have : ¬ -q.num < 0 := by omega
        simp [hs, this, hq0]
      · have : -q.num < 0 := by omega
        simp [hs, this, hq0]
    | some mp =>
      by_cases hs : q.num < 0
      · have : ¬ -q.num < 0 := by omega
        simp [hs, this, hq0]
      · have : -q.num < 0 := by omega
        simp [hs, this, hq0]

/-- Rounding pinned on examples: a decimal half-way between two doubles goes to the one with
the even significand (down for 2^53 + 1, up for 2^53 + 3, and alike below zero), and 1/10 to
the double `3602879701896397 / 2^55`. -/
theorem roundDouble_examples :
    roundDouble 9007199254740993 = .fin 9007199254740992 ∧
    roundDouble 9007199254740995 = .fin 9007199254740996 ∧
    roundDouble (-9007199254740993) = .fin (-9007199254740992) ∧
    roundDouble (1 / 10) = .fin (3602879701896397 / 36028797018963968) := by
  have h1 : roundDouble 9007199254740993 = .fin 9007199254740992 :=
    roundDouble_of_eq 9007199254740993 1 4503599627370496 1 (by norm_num) (by decide)
      (by decide) (by decide) (by set_option maxRecDepth 4096 in decide) (by norm_num)
  refine ⟨h1, ?_, ?_, ?_⟩
  · exact roundDouble_of_eq 9007199254740995 1 4503599627370498 1 (by norm_num) (by decide)
      (by decide) (by decide) (by set_option maxRecDepth 4096 in decide) (by norm_num)
  · rw [roundDouble_neg, h1]
  · exact roundDouble_of_eq 1 10 7205759403792794 (-56) (by norm_num) (by decide)
      (by decide) (by decide) (by set_option maxRecDepth 4096 in decide) (by norm_num)

/-- Printing pinned on examples: plain digits below `10 ^ 21` and the exponent form from there
on; a decimal fraction down to `10 ^ (-6)` and the exponent form below; the shortest digits
that read back as the same double. -/
theorem numToString_examples :
    numToString (.fin 0) = "0".toList ∧
    numToString (.fin (-5)) = "-5".toList ∧
    numToString (.fin 25000) = "25000".toList ∧
    numToString (.fin 123456789012345680000) = "123456789012345680000".toList ∧
    numToString (.fin 1000000000000000000000) = "1e+21".toList ∧
    numToString (.fin (1 / 1000000)) = "0.000001".toList ∧
    numToString (.fin (1 / 10000000)) = "1e-7".toList ∧
    numToString (.fin (3602879701896397 / 36028797018963968)) = "0.1".toList ∧
    numToString (.fin (-(199 / 2))) = "-99.5".toList ∧
    numToString .posInf = "Infinity".toList ∧
    numToString .negInf = "-Infinity".toList ∧
    numToString .nan = "NaN".toList := by
  refine ⟨by decide, by decide, by decide, by set_option maxRecDepth 4096 in decide,
    by set_option maxRecDepth 4096 in decide, ?_, ?_, ?_, ?_, rfl, rfl, rfl⟩
  · rw [numToString_of_eq 1 1000000 (by norm_num) (by decide) (by decide) (by decide)]
    set_option maxRecDepth 4096 in decide
  · rw [numToString_of_eq 1 10000000 (by norm_num) (by decide) (by decide) (by decide)]
    set_option maxRecDepth 4096 in decide
  · rw [numToString_of_eq 3602879701896397 36028797018963968 (by norm_num) (by decide)
      (by decide) (by decide)]
    set_option maxRecDepth 4096 in decide
  · have hn : (-(199 / 2) : ℚ).num = -199 := by norm_num
    have hd : (-(199 / 2) : ℚ).den = 2 := by norm_num
    rw [numToString_fin, hn, hd]
    decide

/-! ## Rounding to the nearest double -/

theorem bitLength_zero (fuel : Nat) : bitLength fuel 0 = 0 := by
  cases fuel <;> simp [bitLength]

/-- With enough fuel, `bitLength` is the number of binary digits. -/
theorem bitLength_spec : ∀ (fuel n : Nat), n ≤ fuel → n ≠ 0 →
    1 ≤ bitLength fuel n ∧ 2 ^ (bitLength fuel n - 1) ≤ n ∧ n < 2 ^ bitLength fuel n
  | 0, n, h, h0 => absurd (Nat.le_zero.1 h) h0
  | fuel + 1, n, h, h0 => by
    simp only [bitLength, h0, ↓reduceIte]
    by_cases h2 : n / 2 = 0
    · have hn : n = 1 := by omega
      subst hn
      simp [bitLength_zero]
    · have hle : n / 2 ≤ fuel := by omega
      obtain ⟨h1, hlo, hhi⟩ := bitLength_spec fuel (n / 2) hle h2
      generalize bitLength fuel (n / 2) = l at h1 hlo hhi
      obtain ⟨k, rfl⟩ : ∃ k, l = k + 1 := ⟨l - 1, by omega⟩
      simp only [Nat.add_sub_cancel] at hlo ⊢
      refine ⟨by omega, ?_, ?_⟩
      · rw [pow_succ]
        omega
      · rw [pow_succ] at hhi ⊢
        rw [pow_succ]
        omega

theorem two_zpow_toNat (p : ℤ) :
    ((2 : ℚ) ^ (-p).toNat) / 2 ^ p.toNat = 2 ^ (-p) := by
  rcases le_total 0 p with h | h
  · obtain ⟨k, rfl⟩ := Int.eq_ofNat_of_zero_le h
    simp [zpow_neg]
  · obtain ⟨k, hk⟩ := Int.eq_ofNat_of_zero_le (neg_nonneg.2 h)
    have hp : p = -(k : ℤ) := by omega
    subst hp
    simp

theorem scale2_pos {a b : Nat} (hb : 0 < b) (p : ℤ) : 0 < (scale2 a b p).2 := by
  simp only [scale2]
  positivity

theorem scale2_div {a b : Nat} (hb : 0 < b) (p : ℤ) :
    ((scale2 a b p).1 : ℚ) / (scale2 a b p).2 = (a : ℚ) / b * 2 ^ (-p) := by
  have hb' : (b : ℚ) ≠ 0 := by positivity
  simp only [scale2, Nat.cast_mul, Nat.cast_pow, Nat.cast_ofNat]
  rw [← two_zpow_toNat p]
  field_simp

/-- The binary exponent of a positive fraction. -/
theorem floorLog2_spec {a b : Nat} (ha : 0 < a) (hb : 0 < b) :
    (2 : ℚ) ^ floorLog2 a b ≤ (a : ℚ) / b ∧ (a : ℚ) / b < 2 ^ (floorLog2 a b + 1) := by
  obtain ⟨ha1, halo, hahi⟩ := bitLength_spec a a (le_refl a) (by omega)
  obtain ⟨hb1, hblo, hbhi⟩ := bitLength_spec b b (le_refl b) (by omega)
  have hbq : (0 : ℚ) < b := by exact_mod_cast hb
  unfold floorLog2
  dsimp only
  generalize bitLength a a = la at ha1 halo hahi ⊢
  generalize bitLength b b = lb at hb1 hblo hbhi ⊢
  have halo' : (2 : ℚ) ^ ((la : ℤ) - 1) ≤ a := by
    have : ((2 ^ (la - 1) : ℕ) : ℚ) ≤ a := by exact_mod_cast halo
    rw [Nat.cast_pow, Nat.cast_ofNat, ← zpow_natCast] at this
    have e : ((la - 1 : ℕ) : ℤ) = (la : ℤ) - 1 := by omega
    rwa [e] at this
  have hahi' : (a : ℚ) < 2 ^ (la : ℤ) := by
    have : (a : ℚ) < ((2 ^ la : ℕ) : ℚ) := by exact_mod_cast hahi
    rwa [Nat.cast_pow, Nat.cast_ofNat, ← zpow_natCast] at this
  have hblo' : (2 : ℚ) ^ ((lb : ℤ) - 1) ≤ b := by
    have : ((2 ^ (lb - 1) : ℕ) : ℚ) ≤ b := by exact_mod_cast hblo
    rw [Nat.cast_pow, Nat.cast_ofNat, ← zpow_natCast] at this
    have e : ((lb - 1 : ℕ) : ℤ) = (lb : ℤ) - 1 := by omega
    rwa [e] at this
  have hbhi' : (b : ℚ) < 2 ^ (lb : ℤ) := by
    have : (b : ℚ) < ((2 ^ lb : ℕ) : ℚ) := by exact_mod_cast hbhi
    rwa [Nat.cast_pow, Nat.cast_ofNat, ← zpow_natCast] at this
  have h2 : (0 : ℚ) < 2 := by norm_num
  -- bounds of the quotient
  have hlo : (2 : ℚ) ^ ((la : ℤ) - lb - 1) ≤ (a : ℚ) / b := by
    rw [le_div_iff₀ hbq]
    calc (2 : ℚ) ^ ((la : ℤ) - lb - 1) * b
        ≤ 2 ^ ((la : ℤ) - lb - 1) * 2 ^ (lb : ℤ) :=
          mul_le_mul_of_nonneg_left (le_of_lt hbhi') (by positivity)
      _ = 2 ^ ((la : ℤ) - 1) := by
          rw [← zpow_add₀ (by norm_num : (2 : ℚ) ≠ 0)]
          congr 1
          ring
      _ ≤ a := halo'
  have hhi : (a : ℚ) / b < 2 ^ ((la : ℤ) - lb + 1) := by
    rw [div_lt_iff₀ hbq]
    calc (a : ℚ) < 2 ^ (la : ℤ) := hahi'
      _ = 2 ^ ((la : ℤ) - lb + 1) * 2 ^ ((lb : ℤ) - 1) := by
          rw [← zpow_add₀ (by norm_num : (2 : ℚ) ≠ 0)]
          congr 1
          ring
      _ ≤ 2 ^ ((la : ℤ) - lb + 1) * b :=
          mul_le_mul_of_nonneg_left hblo' (by positivity)
  have hd := scale2_div (a := a) hb ((la : ℤ) - lb)
  have hpos := scale2_pos (a := a) hb ((la : ℤ) - lb)
  have hposq : (0 : ℚ) < ((scale2 a b ((la : ℤ) - lb)).2 : ℚ) := by exact_mod_cast hpos
  have hiff : (scale2 a b ((la : ℤ) - lb)).1 < (scale2 a b ((la : ℤ) - lb)).2 ↔
      (a : ℚ) / b < 2 ^ ((la : ℤ) - lb) := by
    have h1 : (scale2 a b ((la : ℤ) - lb)).1 < (scale2 a b ((la : ℤ) - lb)).2 ↔
        ((scale2 a b ((la : ℤ) - lb)).1 : ℚ) / (scale2 a b ((la : ℤ) - lb)).2 < 1 := by
      rw [div_lt_one hposq]
      exact Nat.cast_lt.symm
    rw [h1, hd, zpow_neg, ← div_eq_mul_inv, div_lt_one (by positivity)]
  by_cases hc : (scale2 a b ((la : ℤ) - lb)).1 < (scale2 a b ((la : ℤ) - lb)).2
  · simp only [hc, ↓reduceIte]
    refine ⟨hlo, ?_⟩
    have := hiff.1 hc
    rwa [sub_add_cancel]
  · simp only [hc, ↓reduceIte]
    refine ⟨?_, hhi⟩
    exact not_lt.1 (fun h => hc (hiff.2 h))
/-- The distance of `roundHalfEven n d` from `n / d`, against the fractional part of `n / d`. -/
theorem roundHalfEven_core {n d : Nat} (hd : 0 < d) :
    ∃ (f : ℕ) (ρ : ℚ), 0 ≤ ρ ∧ ρ < 1 ∧ (n : ℚ) / d = f + ρ ∧
      (|((roundHalfEven n d : ℕ) : ℚ) - (n : ℚ) / d| ≤ ρ ∧
        |((roundHalfEven n d : ℕ) : ℚ) - (n : ℚ) / d| ≤ 1 - ρ) ∧
      (roundHalfEven n d = f ∨ roundHalfEven n d = f + 1) ∧
      (1 / 2 < ρ → roundHalfEven n d = f + 1) ∧
      (ρ = 1 / 2 → roundHalfEven n d % 2 = 0) := by
  have hdq : (0 : ℚ) < d := by exact_mod_cast hd
  have hr : n % d < d := Nat.mod_lt _ hd
  have hy : (n : ℚ) / d = ((n / d : ℕ) : ℚ) + ((n % d : ℕ) : ℚ) / d := by
    have h := Nat.div_add_mod n d
    have h' : ((d * (n / d) + n % d : ℕ) : ℚ) = n := by exact_mod_cast h
    rw [← h']
    push_cast
    field_simp
    ring
  have hρ0 : (0 : ℚ) ≤ ((n % d : ℕ) : ℚ) / d := by positivity
  have hρ1 : ((n % d : ℕ) : ℚ) / d < 1 := by
    rw [div_lt_one hdq]
    exact_mod_cast hr
  have hlt : 2 * (n % d) < d → ((n % d : ℕ) : ℚ) / d < 1 / 2 := by
    intro h
    rw [div_lt_div_iff₀ hdq (by norm_num)]
    have : ((2 * (n % d) : ℕ) : ℚ) < d := by exact_mod_cast h
    push_cast at this
    linarith
  have hgt : d < 2 * (n % d) → 1 / 2 < ((n % d : ℕ) : ℚ) / d := by
    intro h
    rw [div_lt_div_iff₀ (by norm_num) hdq]
    have : (d : ℚ) < ((2 * (n % d) : ℕ) : ℚ) := by exact_mod_cast h
    push_cast at this
    linarith
  have heq : ¬ 2 * (n % d) < d → ¬ d < 2 * (n % d) → ((n % d : ℕ) : ℚ) / d = 1 / 2 := by
    intro h1 h2
    have h3 : 2 * (n % d) = d := by omega
    rw [div_eq_div_iff (ne_of_gt hdq) (by norm_num)]
    have : ((2 * (n % d) : ℕ) : ℚ) = d := by exact_mod_cast h3
    push_cast at this
    linarith
  generalize hρ : ((n % d : ℕ) : ℚ) / d = ρ at hy hρ0 hρ1 hlt hgt heq
  refine ⟨n / d, ρ, hρ0, hρ1, hy, ?_⟩
  generalize hf : n / d = f at hy
  unfold roundHalfEven
  rw [hf, hy]
  have e0 : ((f : ℕ) : ℚ) - (f + ρ) = -ρ := by ring
  have e1 : ((f + 1 : ℕ) : ℚ) - (f + ρ) = 1 - ρ := by push_cast; ring
  split
  · rename_i h1
    have := hlt h1
    rw [e0, abs_neg, abs_of_nonneg hρ0]
    refine ⟨⟨le_refl _, by linarith⟩, Or.inl rfl, ?_, ?_⟩
    · intro h
      linarith
    · intro h
      linarith
  · rename_i h1
    split
    · rename_i h2
      have := hgt h2
      rw [e1, abs_of_nonneg (by linarith)]
      refine ⟨⟨by linarith, le_refl _⟩, Or.inr rfl, fun _ => rfl, ?_⟩
      intro h
      linarith
    · rename_i h2
      have := heq h1 h2
      split
      · rename_i h3
        rw [e0, abs_neg, abs_of_nonneg hρ0]
        refine ⟨⟨le_refl _, by linarith⟩, Or.inl rfl, ?_, fun _ => h3⟩
        intro h
        linarith
      · rename_i h3
        rw [e1, abs_of_nonneg (by linarith)]
        refine ⟨⟨by linarith, le_refl _⟩, Or.inr rfl, fun _ => rfl, fun _ => ?_⟩
        omega

/-- `roundHalfEven n d` is an integer nearest to `n / d`. -/
theorem roundHalfEven_nearest {n d : Nat} (hd : 0 < d) (k : ℤ) :
    |((roundHalfEven n d : ℕ) : ℚ) - (n : ℚ) / d| ≤ |(k : ℚ) - (n : ℚ) / d| := by
  obtain ⟨f, ρ, hρ0, hρ1, hy, ⟨h1, h2⟩, _⟩ := roundHalfEven_core (n := n) hd
  rcases le_or_lt k (f : ℤ) with hk | hk
  · have hkq : (k : ℚ) ≤ f := by exact_mod_cast hk
    have : ρ ≤ |(k : ℚ) - (n : ℚ) / d| := by
      rw [hy, abs_sub_comm, abs_of_nonneg (by linarith)]
      linarith
    exact le_trans h1 this
  · have hkq : ((f : ℤ) : ℚ) + 1 ≤ k := by exact_mod_cast hk
    have hkq' : (f : ℚ) + 1 ≤ k := by simpa using hkq
    have : 1 - ρ ≤ |(k : ℚ) - (n : ℚ) / d| := by
      rw [hy, abs_of_nonneg (by linarith)]
      linarith
    exact le_trans h2 this

/-- `roundHalfEven n d` is within one half of `n / d`. -/
theorem roundHalfEven_half {n d : Nat} (hd : 0 < d) :
    |((roundHalfEven n d : ℕ) : ℚ) - (n : ℚ) / d| ≤ 1 / 2 := by
  obtain ⟨f, ρ, hρ0, hρ1, hy, ⟨h1, h2⟩, _⟩ := roundHalfEven_core (n := n) hd
  by_cases hc : ρ ≤ 1 / 2
  · exact le_trans h1 hc
  · exact le_trans h2 (by linarith)
theorem isDouble_neg {v : ℚ} (h : IsDouble v) : IsDouble (-v) := by
  obtain ⟨m, e, h1, h2, h3, h4 | h4⟩ := h
  · exact ⟨m, e, h1, h2, h3, Or.inr (by rw [h4])⟩
  · exact ⟨m, e, h1, h2, h3, Or.inl (by rw [h4, neg_neg])⟩

/-- What `roundPos` returns is a double, and no double is nearer to `a / b`. -/
theorem roundPos_some {a b m : Nat} {p : ℤ} (ha : 0 < a) (hb : 0 < b)
    (h : roundPos a b = some (m, p)) :
    m < 2 ^ 53 ∧ -1074 ≤ p ∧ p ≤ 971 ∧
      ∀ d, IsDouble d → |(m : ℚ) * 2 ^ p - (a : ℚ) / b| ≤ |d - (a : ℚ) / b| := by
  obtain ⟨hlo, hhi⟩ := floorLog2_spec ha hb
  have hx0 : (0 : ℚ) < (a : ℚ) / b := by positivity
  unfold roundPos at h
  dsimp only at h
  generalize floorLog2 a b = e at h hlo hhi
  have hp0 : (-1074 : ℤ) ≤ max (e - 52) (-1074) := le_max_right _ _
  have hp1 : e - 52 ≤ max (e - 52) (-1074) := le_max_left _ _
  have hp2 : max (e - 52) (-1074) = e - 52 ∨ max (e - 52) (-1074) = -1074 := by
    rcases le_total (e - 52) (-1074) with h1 | h1
    · exact Or.inr (max_eq_right h1)
    · exact Or.inl (max_eq_left h1)
  generalize max (e - 52) (-1074) = p0 at h hp0 hp1 hp2
  have hdpos := scale2_pos (a := a) hb p0
  have hdiv := scale2_div (a := a) hb p0
  have hnear := fun k => roundHalfEven_nearest (n := (scale2 a b p0).1) hdpos k
  have hhalf := roundHalfEven_half (n := (scale2 a b p0).1) hdpos
  rw [hdiv] at hnear hhalf
  generalize roundHalfEven (scale2 a b p0).1 (scale2 a b p0).2 = m0 at h hnear hhalf
  have h2p : (0 : ℚ) < 2 ^ p0 := by positivity
  have h2 : (2 : ℚ) ≠ 0 := by norm_num
  -- the scaled value is below 2^53
  have hy53 : (a : ℚ) / b * 2 ^ (-p0) < 2 ^ (53 : ℤ) := by
    calc (a : ℚ) / b * 2 ^ (-p0) < 2 ^ (e + 1) * 2 ^ (-p0) :=
          mul_lt_mul_of_pos_right hhi (by positivity)
      _ = 2 ^ (e + 1 - p0) := by
          rw [← zpow_add₀ h2]
          congr 1
      _ ≤ 2 ^ (53 : ℤ) := zpow_le_zpow_right₀ (by norm_num) (by omega)
  have hm53 : m0 ≤ 2 ^ 53 := by
    by_contra hc
    have hc' : 2 ^ 53 + 1 ≤ m0 := by omega
    have hq : ((2 ^ 53 + 1 : ℕ) : ℚ) ≤ m0 := by exact_mod_cast hc'
    have := (abs_le.1 hhalf).2
    have e53 : ((2 : ℚ) ^ (53 : ℤ)) = ((2 ^ 53 : ℕ) : ℚ) := by norm_num
    rw [e53] at hy53
    push_cast at hq hy53
    linarith
  -- the grid of the unit in the last place
  have hgrid : ∀ k : ℤ, |(m0 : ℚ) * 2 ^ p0 - (a : ℚ) / b| ≤ |(k : ℚ) * 2 ^ p0 - (a : ℚ) / b| := by
    intro k
    have hk := hnear k
    have e1 : ∀ t : ℚ, t * 2 ^ p0 - (a : ℚ) / b = (t - (a : ℚ) / b * 2 ^ (-p0)) * 2 ^ p0 := by
      intro t
      rw [sub_mul, mul_assoc, ← zpow_add₀ h2]
      simp
    rw [e1, e1, abs_mul, abs_mul, abs_of_pos h2p]
    exact mul_le_mul_of_nonneg_right hk (le_of_lt h2p)
  -- the value and the bounds
  have hval : (m : ℚ) * 2 ^ p = (m0 : ℚ) * 2 ^ p0 ∧ m < 2 ^ 53 ∧ p0 ≤ p ∧ p ≤ 971 := by
    by_cases hc : m0 = 2 ^ 53
    · simp only [hc, ↓reduceIte] at h
      split at h
      · exact absurd h (by simp)
      · rename_i h971
        simp only [Option.some.injEq, Prod.mk.injEq] at h
        obtain ⟨rfl, rfl⟩ := h
        refine ⟨?_, by norm_num, by omega, by omega⟩
        rw [zpow_add₀ h2, hc]
        push_cast
        ring
    · simp only [hc, ↓reduceIte] at h
      split at h
      · exact absurd h (by simp)
      · rename_i h971
        simp only [Option.some.injEq, Prod.mk.injEq] at h
        obtain ⟨rfl, rfl⟩ := h
        exact ⟨rfl, by omega, le_refl _, by omega⟩
  obtain ⟨hv, hm, hpp, hp971⟩ := hval
  refine ⟨hm, by omega, hp971, ?_⟩
  intro d hd
  rw [hv]
  obtain ⟨m', e', hm', he1, he2, hd | hd⟩ := hd
  · -- a positive double
    by_cases hge : p0 ≤ e'
    · obtain ⟨j, hj⟩ := Int.eq_ofNat_of_zero_le (sub_nonneg.2 hge)
      have hk := hgrid ((m' * 2 ^ j : ℕ) : ℤ)
      have e2 : (((m' * 2 ^ j : ℕ) : ℤ) : ℚ) * 2 ^ p0 = d := by
        have ej : (((m' * 2 ^ j : ℕ) : ℤ) : ℚ) = (m' : ℚ) * (2 : ℚ) ^ (j : ℤ) := by
          rw [zpow_natCast]
          push_cast
          ring
        rw [hd, ej, mul_assoc, ← zpow_add₀ h2, ← hj]
        congr 2
        ring
      rwa [e2] at hk
    · have hlt : e' < p0 := by omega
      have hpe : p0 = e - 52 := by
        rcases hp2 with h1 | h1
        · exact h1
        · omega
      have hdlt : d < 2 ^ e := by
        rw [hd]
        have hm'q : (m' : ℚ) < 2 ^ (53 : ℤ) := by
          have : (m' : ℚ) < ((2 ^ 53 : ℕ) : ℚ) := by exact_mod_cast hm'
          have e53 : ((2 ^ 53 : ℕ) : ℚ) = (2 : ℚ) ^ (53 : ℤ) := by norm_num
          rwa [e53] at this
        calc (m' : ℚ) * 2 ^ e' < 2 ^ (53 : ℤ) * 2 ^ e' :=
              mul_lt_mul_of_pos_right hm'q (by positivity)
          _ = 2 ^ (53 + e') := by rw [← zpow_add₀ h2]
          _ ≤ 2 ^ e := zpow_le_zpow_right₀ (by norm_num) (by omega)
      have hk := hgrid ((2 ^ 52 : ℕ) : ℤ)
      have e3 : (((2 ^ 52 : ℕ) : ℤ) : ℚ) * 2 ^ p0 = 2 ^ e := by
        have e52 : (((2 ^ 52 : ℕ) : ℤ) : ℚ) = (2 : ℚ) ^ (52 : ℤ) := by norm_num
        rw [e52, ← zpow_add₀ h2, hpe]
        congr 1
        ring
      rw [e3] at hk
      refine le_trans hk ?_
      rw [abs_sub_comm, abs_of_nonneg (by linarith), abs_sub_comm d,
        abs_of_nonneg (by linarith)]
      linarith
  · -- a double that is not positive
    have hk := hgrid 0
    have hd0 : d ≤ 0 := by
      rw [hd]
      have : (0 : ℚ) ≤ (m' : ℚ) * 2 ^ e' := by positivity
      linarith
    refine le_trans hk ?_
    simp only [Int.cast_zero, zero_mul, zero_sub, abs_neg]
    rw [abs_of_pos hx0, abs_sub_comm, abs_of_nonneg (by linarith)]
    linarith
/-- When `roundPos` returns nothing, `a / b` is at least half-way between the largest double
and `2 ^ 1024`. -/
theorem roundPos_none {a b : Nat} (ha : 0 < a) (hb : 0 < b) (h : roundPos a b = none) :
    (2 : ℚ) ^ (1024 : ℤ) - 2 ^ (970 : ℤ) ≤ (a : ℚ) / b := by
  obtain ⟨hlo, hhi⟩ := floorLog2_spec ha hb
  unfold roundPos at h
  dsimp only at h
  generalize floorLog2 a b = e at h hlo hhi
  have hp2 : max (e - 52) (-1074) = e - 52 ∨ max (e - 52) (-1074) = -1074 := by
    rcases le_total (e - 52) (-1074) with h1 | h1
    · exact Or.inr (max_eq_right h1)
    · exact Or.inl (max_eq_left h1)
  generalize max (e - 52) (-1074) = p0 at h hp2
  have hdpos := scale2_pos (a := a) hb p0
  have hdiv := scale2_div (a := a) hb p0
  have hhalf := roundHalfEven_half (n := (scale2 a b p0).1) hdpos
  rw [hdiv] at hhalf
  generalize roundHalfEven (scale2 a b p0).1 (scale2 a b p0).2 = m0 at h hhalf
  have h2 : (2 : ℚ) ≠ 0 := by norm_num
  have h970 : (0 : ℚ) < 2 ^ (970 : ℤ) := by positivity
  by_cases hc : m0 = 2 ^ 53
  · simp only [hc, ↓reduceIte] at h
    have hp : 971 ≤ p0 := by
      by_contra hlt
      rw [if_neg (by omega)] at h
      exact absurd h (by simp)
    -- x * 2^(-p0) ≥ 2^53 - 1/2
    have h1 := (abs_le.1 hhalf).2
    rw [hc] at h1
    have e53 : ((2 ^ 53 : ℕ) : ℚ) = (2 : ℚ) ^ (53 : ℤ) := by norm_num
    rw [e53] at h1
    have hy : (2 : ℚ) ^ (53 : ℤ) - 1 / 2 ≤ (a : ℚ) / b * 2 ^ (-p0) := by linarith
    have hx : ((2 : ℚ) ^ (53 : ℤ) - 1 / 2) * 2 ^ p0 ≤ (a : ℚ) / b := by
      have := mul_le_mul_of_nonneg_right hy (le_of_lt (by positivity : (0 : ℚ) < 2 ^ p0))
      rwa [mul_assoc, ← zpow_add₀ h2, neg_add_cancel, zpow_zero, mul_one] at this
    have hmono : ((2 : ℚ) ^ (53 : ℤ) - 1 / 2) * 2 ^ (971 : ℤ)
        ≤ ((2 : ℚ) ^ (53 : ℤ) - 1 / 2) * 2 ^ p0 :=
      mul_le_mul_of_nonneg_left (zpow_le_zpow_right₀ (by norm_num) hp) (by norm_num)
    have e1 : ((2 : ℚ) ^ (53 : ℤ) - 1 / 2) * 2 ^ (971 : ℤ)
        = 2 ^ (1024 : ℤ) - 2 ^ (970 : ℤ) := by
      rw [sub_mul, ← zpow_add₀ h2]
      have : (1 / 2 : ℚ) * 2 ^ (971 : ℤ) = 2 ^ (970 : ℤ) := by
        rw [show (971 : ℤ) = 970 + 1 by norm_num, zpow_add₀ h2, zpow_one]
        ring
      rw [this]
      norm_num
    linarith
  · simp only [hc, ↓reduceIte] at h
    have hp : 971 < p0 := by
      by_contra hlt
      rw [if_neg hlt] at h
      exact absurd h (by simp)
    have he : 1024 ≤ e := by
      rcases hp2 with h1 | h1 <;> omega
    have : (2 : ℚ) ^ (1024 : ℤ) ≤ 2 ^ e := zpow_le_zpow_right₀ (by norm_num) he
    linarith

/-- The finite results of `roundDouble` are doubles, none of the doubles is nearer to `q`
than the result, and the result is infinite only for a `q` that is at least half-way between
the largest double and `2 ^ 1024` in magnitude. -/
theorem roundDouble_nearest (q : ℚ) :
    (∀ v, roundDouble q = .fin v → IsDouble v ∧ ∀ d, IsDouble d → |v - q| ≤ |d - q|) ∧
    (roundDouble q = .posInf → (2 : ℚ) ^ (1024 : ℤ) - 2 ^ (970 : ℤ) ≤ q) ∧
    (roundDouble q = .negInf → q ≤ -((2 : ℚ) ^ (1024 : ℤ) - 2 ^ (970 : ℤ))) := by
  by_cases h0 : q.num = 0
  · have hq : q = 0 := Rat.num_eq_zero.1 h0
    subst hq
    have hr : roundDouble 0 = .fin 0 := by simp [roundDouble]
    rw [hr]
    refine ⟨?_, (by intro h; cases h), (by intro h; cases h)⟩
    intro v hv
    cases hv
    refine ⟨⟨0, 0, by norm_num, by norm_num, by norm_num, Or.inl (by simp)⟩, ?_⟩
    intro d _
    simp
  · have ha : 0 < q.num.natAbs := Int.natAbs_pos.2 h0
    have hb : 0 < q.den := q.den_pos
    have habs : ((q.num.natAbs : ℕ) : ℚ) / q.den = |q| := by
      have h1 : ((q.num.natAbs : ℕ) : ℚ) = |(q.num : ℚ)| := by
        rw [Nat.cast_natAbs, Int.cast_abs]
      have h2 : (0 : ℚ) < q.den := by exact_mod_cast hb
      rw [h1]
      conv_rhs => rw [← Rat.num_div_den q]
      rw [abs_div, abs_of_pos h2]
    have hsign : q.num < 0 ↔ q < 0 := Rat.num_neg
    unfold roundDouble
    simp only [h0, ↓reduceIte]
    cases hrp : roundPos q.num.natAbs q.den with
    | none =>
      have hbig := roundPos_none ha hb hrp
      rw [habs] at hbig
      dsimp only
      by_cases hs : q.num < 0
      · simp only [hs, ↓reduceIte]
        refine ⟨(by intro v h; cases h), (by intro h; cases h), fun _ => ?_⟩
        rw [abs_of_neg (hsign.1 hs)] at hbig
        linarith
      · simp only [hs, ↓reduceIte]
        refine ⟨(by intro v h; cases h), fun _ => ?_, (by intro h; cases h)⟩
        have hq0 : 0 ≤ q := not_lt.1 fun h => hs (hsign.2 h)
        rwa [abs_of_nonneg hq0] at hbig
    | some mp =>
      obtain ⟨m, p⟩ := mp
      obtain ⟨hm, hp1, hp2, hnear⟩ := roundPos_some ha hb hrp
      rw [habs] at hnear
      dsimp only
      refine ⟨?_, (by intro h; cases h), (by intro h; cases h)⟩
      intro v hv
      simp only [Num.fin.injEq] at hv
      subst hv
      by_cases hs : q.num < 0
      · simp only [hs, ↓reduceIte]
        have hq : |q| = -q := abs_of_neg (hsign.1 hs)
        refine ⟨⟨m, p, hm, hp1, hp2, Or.inr (by ring)⟩, ?_⟩
        intro d hd
        have := hnear (-d) (isDouble_neg hd)
        rw [hq] at this
        have e1 : -1 * (m : ℚ) * 2 ^ p - q = -((m : ℚ) * 2 ^ p - -q) := by ring
        have e2 : d - q = -(-d - -q) := by ring
        rw [e1, e2, abs_neg, abs_neg]
        exact this
      · simp only [hs, ↓reduceIte, one_mul]
        have hq0 : 0 ≤ q := not_lt.1 fun h => hs (hsign.2 h)
        rw [abs_of_nonneg hq0] at hnear
        exact ⟨⟨m, p, hm, hp1, hp2, Or.inl rfl⟩, hnear⟩

/-- From half-way between the largest double and `2 ^ 1024` on, `roundPos` returns nothing. -/
theorem roundPos_eq_none {a b : Nat} (ha : 0 < a) (hb : 0 < b)
    (hx : (2 : ℚ) ^ (1024 : ℤ) - 2 ^ (970 : ℤ) ≤ (a : ℚ) / b) : roundPos a b = none := by
  obtain ⟨hlo, hhi⟩ := floorLog2_spec ha hb
  have h2 : (2 : ℚ) ≠ 0 := by norm_num
  have h1023 : (2 : ℚ) ^ (1023 : ℤ) ≤ 2 ^ (1024 : ℤ) - 2 ^ (970 : ℤ) := by
    have e1 : (2 : ℚ) ^ (1024 : ℤ) = 2 ^ (1023 : ℤ) + 2 ^ (1023 : ℤ) := by
      rw [show (1024 : ℤ) = 1023 + 1 by norm_num, zpow_add₀ h2, zpow_one]
      ring
    have e2 : (2 : ℚ) ^ (970 : ℤ) ≤ 2 ^ (1023 : ℤ) :=
      zpow_le_zpow_right₀ (by norm_num) (by norm_num)
    linarith
  unfold roundPos
  dsimp only
  generalize floorLog2 a b = e at hlo hhi
  have he : 1023 ≤ e := by
    by_contra hlt
    have : (2 : ℚ) ^ (e + 1) ≤ 2 ^ (1023 : ℤ) :=
      zpow_le_zpow_right₀ (by norm_num) (by omega)
    linarith
  have hp0 : max (e - 52) (-1074) = e - 52 := max_eq_left (by omega)
  rw [hp0]
  by_cases he' : 1024 ≤ e
  · split <;> rw [if_pos] <;> dsimp only <;> omega
  · have he23 : e = 1023 := by omega
    subst he23
    have hdpos := scale2_pos (a := a) hb (1023 - 52)
    have hdiv := scale2_div (a := a) hb (1023 - 52)
    obtain ⟨f, ρ, hρ0, hρ1, hy, _, hor, hgt, htie⟩ :=
      roundHalfEven_core (n := (scale2 a b (1023 - 52)).1) hdpos
    rw [hdiv] at hy
    have e971 : (1023 - 52 : ℤ) = 971 := by norm_num
    rw [e971] at hy hor hgt htie ⊢
    generalize roundHalfEven (scale2 a b 971).1 (scale2 a b 971).2 = m0 at hor hgt htie ⊢
    -- the scaled value lies in [2^53 - 1/2, 2^53)
    have hylo : (2 : ℚ) ^ (53 : ℤ) - 1 / 2 ≤ (a : ℚ) / b * 2 ^ (-(971 : ℤ)) := by
      have := mul_le_mul_of_nonneg_right hx
        (le_of_lt (by positivity : (0 : ℚ) < 2 ^ (-(971 : ℤ))))
      have e1 : ((2 : ℚ) ^ (1024 : ℤ) - 2 ^ (970 : ℤ)) * 2 ^ (-(971 : ℤ))
          = 2 ^ (53 : ℤ) - 1 / 2 := by
        rw [sub_mul, ← zpow_add₀ h2, ← zpow_add₀ h2]
        norm_num
      rwa [e1] at this
    have hyhi : (a : ℚ) / b * 2 ^ (-(971 : ℤ)) < 2 ^ (53 : ℤ) := by
      have := mul_lt_mul_of_pos_right hhi (by positivity : (0 : ℚ) < 2 ^ (-(971 : ℤ)))
      rwa [← zpow_add₀ h2, show (1023 + 1 + -(971 : ℤ)) = 53 by norm_num] at this
    rw [hy] at hylo hyhi
    have e53 : (2 : ℚ) ^ (53 : ℤ) = ((2 ^ 53 : ℕ) : ℚ) := by norm_num
    rw [e53] at hylo hyhi
    have hf : f = 2 ^ 53 - 1 := by
      have h1 : (f : ℚ) < ((2 ^ 53 : ℕ) : ℚ) := by linarith
      have h1' : f < 2 ^ 53 := by exact_mod_cast h1
      have h3 : ((2 ^ 53 : ℕ) : ℚ) < ((f + 1 + 1 : ℕ) : ℚ) := by
        push_cast
        push_cast at hylo
        linarith
      have h3' : 2 ^ 53 < f + 1 + 1 := by exact_mod_cast h3
      omega
    have hm0 : m0 = 2 ^ 53 := by
      by_cases hr : 1 / 2 < ρ
      · rw [hgt hr, hf]
        norm_num
      · have hρ : ρ = 1 / 2 := by
          have hfq : (f : ℚ) = ((2 ^ 53 : ℕ) : ℚ) - 1 := by
            rw [hf]
            norm_num
          rw [hfq] at hylo
          push_cast at hylo
          linarith
        have hev := htie hρ
        rcases hor with h | h
        · rw [h, hf] at hev
          exact absurd hev (by norm_num)
        · rw [h, hf]
          norm_num
    rw [hm0]
    simp

/-- The result of `roundDouble` is infinite exactly for a `q` that is at least half-way
between the largest double and `2 ^ 1024` in magnitude. -/
theorem roundDouble_infinite_iff (q : ℚ) :
    (roundDouble q = .posInf ↔ (2 : ℚ) ^ (1024 : ℤ) - 2 ^ (970 : ℤ) ≤ q) ∧
    (roundDouble q = .negInf ↔ q ≤ -((2 : ℚ) ^ (1024 : ℤ) - 2 ^ (970 : ℤ))) := by
  have hthr : (0 : ℚ) < 2 ^ (1024 : ℤ) - 2 ^ (970 : ℤ) := by
    have : (2 : ℚ) ^ (970 : ℤ) < 2 ^ (1024 : ℤ) :=
      zpow_lt_zpow_right₀ (by norm_num) (by norm_num)
    linarith
  have key : ∀ x : ℚ, (2 : ℚ) ^ (1024 : ℤ) - 2 ^ (970 : ℤ) ≤ x →
      roundDouble x = .posInf := by
    intro x hx
    have hx0 : 0 < x := lt_of_lt_of_le hthr hx
    have hn : 0 < x.num := Rat.num_pos.2 hx0
    have ha : 0 < x.num.natAbs := Int.natAbs_pos.2 (ne_of_gt hn)
    have habs : ((x.num.natAbs : ℕ) : ℚ) / x.den = x := by
      have h1 : ((x.num.natAbs : ℕ) : ℚ) = (x.num : ℚ) := by
        rw [Nat.cast_natAbs, abs_of_pos hn]
      rw [h1, Rat.num_div_den]
    have hnone := roundPos_eq_none ha x.den_pos (by rw [habs]; exact hx)
    unfold roundDouble
    simp only [ne_of_gt hn, ↓reduceIte, hnone, not_lt.2 (le_of_lt hn)]
  refine ⟨⟨(roundDouble_nearest q).2.1, key q⟩, ⟨(roundDouble_nearest q).2.2, ?_⟩⟩
  intro hq
  have h := key (-q) (by linarith)
  have hneg := roundDouble_neg (-q)
  rw [neg_neg, h] at hneg
  exact hneg

/-! ## White space -/

theorem trim_eq_self {s : Str} (hh : ∀ c, s.head? = some c → isSpace c = false)
    (hl : ∀ c, s.getLast? = some c → isSpace c = false) : trim s = s := by
  unfold trim
  have h1 : s.dropWhile isSpace = s := by
    cases s with
    | nil => rfl
    | cons c cs => simp [List.dropWhile, hh c rfl]
  rw [h1]
  cases hr : s.reverse with
  | nil => simpa using hr
  | cons l t =>
    have hs : s = t.reverse ++ [l] := by
      have := congrArg List.reverse hr
      simpa using this
    have hl' : isSpace l = false := hl l (by rw [hs]; simp)
    simp [List.dropWhile, hl', hs]

theorem collapseAux_eq_self : ∀ (s : Str) (b : Bool),
    (∀ c ∈ s, isSpace c = true → c = ' ') → ¬ [' ', ' '] <:+: s →
    (b = true → ∀ c, s.head? = some c → isSpace c = false) → collapseAux b s = s
  | [], _, _, _, _ => rfl
  | c :: cs, b, h1, h2, h3 => by
    have h2' : ¬ [' ', ' '] <:+: cs := fun h => h2 (h.trans (List.suffix_cons c cs).isInfix)
    have h1' : ∀ d ∈ cs, isSpace d = true → d = ' ' :=
      fun d hd => h1 d (List.mem_cons_of_mem _ hd)
    by_cases hc : isSpace c = true
    · have hb : b = false := by
        cases b with
        | false => rfl
        | true => exact absurd hc (by simp [h3 rfl c rfl])
      have hc' : c = ' ' := h1 c (List.mem_cons_self _ _) hc
      subst hb
      simp only [collapseAux, hc, ↓reduceIte, Bool.false_eq_true]
      rw [collapseAux_eq_self cs true h1' h2' ?_, hc']
      intro _ d hd
      cases cs with
      | nil => simp at hd
      | cons e es =>
        simp only [List.head?_cons, Option.some.injEq] at hd
        subst hd
        by_contra hsp
        have he : e = ' ' := h1 e (by simp) (by simpa using hsp)
        apply h2
        rw [hc', he]
        exact (List.prefix_append [' ', ' '] es).isInfix
    · simp only [collapseAux, hc, Bool.false_eq_true, ↓reduceIte]
      rw [collapseAux_eq_self cs false h1' h2' (by simp)]

theorem collapseWs_eq_self {s : Str} (h1 : ∀ c ∈ s, isSpace c = true → c = ' ')
    (h2 : ¬ [' ', ' '] <:+: s) : collapseWs s = s :=
  collapseAux_eq_self s false h1 h2 (by simp)

/-- A text that is already clean is a fixed point of `cleanText`. -/
theorem cleanText_eq_self {s : Str} (hh : ∀ c, s.head? = some c → isSpace c = false)
    (hl : ∀ c, s.getLast? = some c → isSpace c = false)
    (h1 : ∀ c ∈ s, isSpace c = true → c = ' ') (h2 : ¬ [' ', ' '] <:+: s) :
    cleanText (.str s) = s := by
  unfold cleanText
  cases s with
  | nil => rfl
  | cons c cs =>
    simp only [Prim.truthy, List.isEmpty_cons, Bool.not_false, Bool.not_true,
      Bool.false_eq_true, ↓reduceIte, Prim.toStr]
    rw [trim_eq_self hh hl, collapseWs_eq_self h1 h2]

theorem collapseAux_idem : ∀ (s : Str) (b : Bool),
    collapseAux b (collapseAux b s) = collapseAux b s
  | [], _ => rfl
  | c :: cs, b => by
    by_cases hc : isSpace c = true
    · cases b with
      | true =>
        simp only [collapseAux, hc, ↓reduceIte]
        exact collapseAux_idem cs true
      | false =>
        have hsp : isSpace ' ' = true := by decide
        simp only [collapseAux, hc, ↓reduceIte, Bool.false_eq_true, hsp]
        rw [collapseAux_idem cs true]
    · simp only [collapseAux, hc, Bool.false_eq_true, ↓reduceIte]
      rw [collapseAux_idem cs false]

theorem collapseAux_length_le : ∀ (s : Str) (b : Bool), (collapseAux b s).length ≤ s.length
  | [], _ => Nat.le_refl _
  | c :: cs, b => by
    have h1 := collapseAux_length_le cs true
    have h2 := collapseAux_length_le cs false
    unfold collapseAux
    split
    · split
      · simp only [List.length_cons]; omega
      · simp only [List.length_cons]; omega
    · simp only [List.length_cons]; omega

theorem getLast?_collapseAux : ∀ (s : Str) (b : Bool) (c : Char), s.getLast? = some c →
    isSpace c = false → (collapseAux b s).getLast? = some c
  | [], _, _, h, _ => by simp at h
  | [d], b, c, h, hc => by
    simp only [List.getLast?_singleton, Option.some.injEq] at h
    subst h
    simp [collapseAux, hc]
  | d :: e :: es, b, c, h, hc => by
    rw [List.getLast?_cons_cons] at h
    have ih1 := getLast?_collapseAux (e :: es) true c h hc
    have ih2 := getLast?_collapseAux (e :: es) false c h hc
    have key : ∀ (z : Char) (l : Str), l.getLast? = some c → (z :: l).getLast? = some c := by
      intro z l hl
      cases l with
      | nil => simp at hl
      | cons y ys => rw [List.getLast?_cons_cons]; exact hl
    unfold collapseAux
    split
    · split
      · exact ih1
      · exact key _ _ ih1
    · exact key _ _ ih2

theorem trim_last (x : Str) : ∀ c, (trim x).getLast? = some c → isSpace c = false := by
  intro c h
  unfold trim at h
  rw [List.getLast?_reverse] at h
  have := List.head?_dropWhile_not isSpace (x.dropWhile isSpace).reverse
  rw [h] at this
  exact this

theorem trim_head (x : Str) : ∀ c, (trim x).head? = some c → isSpace c = false := by
  intro c h
  unfold trim at h
  rw [List.head?_reverse] at h
  obtain ⟨u, hu⟩ := List.dropWhile_suffix (l := (x.dropWhile isSpace).reverse) isSpace
  have hne : List.dropWhile isSpace (x.dropWhile isSpace).reverse ≠ [] := by
    intro h0
    rw [h0] at h
    simp at h
  have h2 : (x.dropWhile isSpace).reverse.getLast? = some c := by
    rw [← hu, List.getLast?_append_of_ne_nil _ hne]
    exact h
  rw [List.getLast?_reverse] at h2
  have := List.head?_dropWhile_not isSpace x
  rw [h2] at this
  exact this

theorem trim_length_le (x : Str) : (trim x).length ≤ x.length := by
  unfold trim
  rw [List.length_reverse]
  calc (List.dropWhile isSpace (x.dropWhile isSpace).reverse).length
      ≤ (x.dropWhile isSpace).reverse.length := (List.dropWhile_sublist isSpace).length_le
    _ = (x.dropWhile isSpace).length := List.length_reverse _
    _ ≤ x.length := (List.dropWhile_sublist isSpace).length_le

/-- The result of trimming and collapsing is left alone by trimming and by collapsing. -/
theorem tidy_collapseWs_trim (x : Str) :
    trim (collapseWs (trim x)) = collapseWs (trim x) ∧
    collapseWs (collapseWs (trim x)) = collapseWs (trim x) := by
  refine ⟨?_, collapseAux_idem _ false⟩
  apply trim_eq_self
  · intro c hc
    unfold collapseWs at hc
    cases ht : trim x with
    | nil => rw [ht] at hc; simp [collapseAux] at hc
    | cons d ds =>
      have hd : isSpace d = false := trim_head x d (by rw [ht]; rfl)
      rw [ht] at hc
      simp only [collapseAux, hd, Bool.false_eq_true, ↓reduceIte, List.head?_cons,
        Option.some.injEq] at hc
      rw [← hc]
      exact hd
  · intro c hc
    cases hl : (trim x).getLast? with
    | none =>
      rw [List.getLast?_eq_none_iff] at hl
      rw [hl] at hc
      simp [collapseWs, collapseAux] at hc
    | some l =>
      have hsp := trim_last x l hl
      have := getLast?_collapseAux (trim x) false l hl hsp
      unfold collapseWs at hc
      rw [this] at hc
      simp only [Option.some.injEq] at hc
      rw [← hc]
      exact hsp

theorem collapseAux_of_no_space : ∀ (xs : Str) (b : Bool),
    (∀ c ∈ xs, isSpace c = false) → collapseAux b xs = xs
  | [], _, _ => rfl
  | c :: cs, b, h => by
    simp only [collapseAux, h c (List.mem_cons_self _ _), Bool.false_eq_true, ↓reduceIte]
    rw [collapseAux_of_no_space cs false fun d hd => h d (List.mem_cons_of_mem _ hd)]

theorem collapseAux_append_of_no_space : ∀ (xs rest : Str) (b : Bool),
    (∀ c ∈ xs, isSpace c = false) → xs ≠ [] →
    collapseAux b (xs ++ rest) = xs ++ collapseAux false rest
  | [], _, _, _, h => absurd rfl h
  | [c], rest, b, h, _ => by
    simp only [List.singleton_append, collapseAux, h c (List.mem_cons_self _ _),
      Bool.false_eq_true, ↓reduceIte]
    rfl
  | c :: d :: ds, rest, b, h, _ => by
    simp only [List.cons_append, collapseAux, h c (List.mem_cons_self _ _),
      Bool.false_eq_true, ↓reduceIte, List.cons.injEq, true_and]
    exact collapseAux_append_of_no_space (d :: ds) rest false
      (fun e he => h e (List.mem_cons_of_mem _ he)) (by simp)

theorem trim_of_all_space {s : Str} (h : ∀ c ∈ s, isSpace c = true) : trim s = [] := by
  unfold trim
  rw [List.dropWhile_eq_nil_iff.2 h]
  rfl

theorem collapseAux_ci : ∀ (u w : Str) (b : Bool), u.map upperChar = w.map upperChar →
    collapseAux b w = w → collapseAux b u = u
  | [], _, _, _, _ => rfl
  | c :: cs, [], _, h, _ => by simp at h
  | c :: cs, d :: ds, b, h, hw => by
    simp only [List.map_cons, List.cons.injEq] at h
    have hsp : isSpace c = isSpace d := by
      rw [← isSpace_upperChar c, h.1, isSpace_upperChar]
    by_cases hd : isSpace d = true
    · have hc : isSpace c = true := hsp.trans hd
      cases b with
      | true =>
        simp only [collapseAux, hd, ↓reduceIte] at hw
        have := collapseAux_length_le ds true
        rw [hw] at this
        simp at this
      | false =>
        simp only [collapseAux, hd, ↓reduceIte, Bool.false_eq_true, List.cons.injEq] at hw
        have hcd : c = ' ' := by
          rw [← upperChar_of_isSpace hc, h.1, upperChar_of_isSpace hd, ← hw.1]
        simp only [collapseAux, hc, ↓reduceIte, Bool.false_eq_true]
        rw [collapseAux_ci cs ds true h.2 hw.2, hcd]
    · have hc : isSpace c = false := by
        rw [hsp]; simpa using hd
      simp only [collapseAux, hd, Bool.false_eq_true, ↓reduceIte, List.cons.injEq, true_and]
        at hw
      simp only [collapseAux, hc, Bool.false_eq_true, ↓reduceIte]
      rw [collapseAux_ci cs ds false h.2 hw]

/-! ## The marker loop -/

theorem overlapWords_junkMarkers : overlapWords junkMarkers = [overlapText] := by decide

theorem cutAtMarker_nil (m : Str) : cutAtMarker [] m = [] := by
  unfold cutAtMarker indexOf
  split <;> simp

theorem cutAtMarker_cons (x : Char) (xs m : Str) :
    cutAtMarker (x :: xs) m = if m.isPrefixOf (x :: xs) then [] else x :: cutAtMarker xs m := by
  unfold cutAtMarker
  by_cases h : m.isPrefixOf (x :: xs) = true
  · simp [indexOf, h]
  · simp only [indexOf, h, Bool.false_eq_true, ↓reduceIte]
    cases indexOf xs m <;> simp

theorem cutAtMarker_initial : ∀ (s m : Str), cutAtMarker s m <+: s
  | [], m => by rw [cutAtMarker_nil]
  | x :: xs, m => by
    rw [cutAtMarker_cons]
    split
    · exact List.nil_prefix
    · exact (List.prefix_cons_inj x).2 (cutAtMarker_initial xs m)

theorem cutAtMarker_cases : ∀ (s m : Str),
    cutAtMarker s m = s ∨ ∃ v, s = cutAtMarker s m ++ m ++ v
  | [], m => Or.inl (cutAtMarker_nil m)
  | x :: xs, m => by
    rw [cutAtMarker_cons]
    by_cases h : m.isPrefixOf (x :: xs) = true
    · right
      obtain ⟨v, hv⟩ := List.isPrefixOf_iff_prefix.1 h
      exact ⟨v, by simp [h, hv]⟩
    · simp only [h, Bool.false_eq_true, ↓reduceIte]
      rcases cutAtMarker_cases xs m with h1 | ⟨v, hv⟩
      · left
        rw [h1]
      · right
        refine ⟨v, ?_⟩
        conv_lhs => rw [hv]
        simp

theorem truncWith_nil : ∀ (ms : List Str), truncWith ms [] = []
  | [] => rfl
  | m :: ms => by
    show truncWith ms (cutAtMarker [] m) = []
    rw [cutAtMarker_nil, truncWith_nil ms]

theorem truncWith_cons_marker (a : Str) (ms : List Str) (s : Str) :
    truncWith (a :: ms) s = truncWith ms (cutAtMarker s a) := rfl

/-- When no marker starts at the head of the text, the loop keeps the head. -/
theorem truncWith_cons_of_no_head : ∀ (ms : List Str) (x : Char) (s : Str),
    (∀ m ∈ ms, m.isPrefixOf (x :: s) = false) → truncWith ms (x :: s) = x :: truncWith ms s
  | [], _, _, _ => rfl
  | a :: rest, x, s, h => by
    rw [truncWith_cons_marker, truncWith_cons_marker, cutAtMarker_cons,
      h a (List.mem_cons_self _ _)]
    simp only [Bool.false_eq_true, ↓reduceIte]
    apply truncWith_cons_of_no_head rest x (cutAtMarker s a)
    intro m hm
    have hm' := h m (List.mem_cons_of_mem _ hm)
    cases hp : m.isPrefixOf (x :: cutAtMarker s a) with
    | false => rfl
    | true =>
      have h1 : m <+: x :: s :=
        (List.isPrefixOf_iff_prefix.1 hp).trans ((List.prefix_cons_inj x).2 (cutAtMarker_initial s a))
      rw [← List.isPrefixOf_iff_prefix, hm'] at h1
      exact absurd h1 (by simp)

theorem mem_overlapsOf {a m : Str} {i : Nat} (hi : 0 < i) (him : i < m.length)
    (h : m.drop i <+: a ∨ a <+: m.drop i) : m.take i ++ a ∈ overlapsOf a m := by
  unfold overlapsOf
  rw [List.mem_filterMap]
  refine ⟨i, List.mem_range.2 him, ?_⟩
  have : ((m.drop i).isPrefixOf a || a.isPrefixOf (m.drop i)) = true := by
    rw [Bool.or_eq_true, List.isPrefixOf_iff_prefix, List.isPrefixOf_iff_prefix]
    exact h
  simp [hi, this]

/-- When a marker starts at the head of the text and the text does not start with an overlap
text, the loop keeps nothing. -/
theorem truncWith_eq_nil_of_head (t : Str) : ∀ (ms : List Str) (s : Str), s <+: t →
    (s = [] ∨ ∃ m ∈ ms, m <+: s) → (∀ w ∈ overlapWords ms, ¬ w <+: t) → truncWith ms s = []
  | [], s, _, h, _ => by
    rcases h with h | ⟨m, hm, _⟩
    · rw [h]; rfl
    · simp at hm
  | a :: rest, s, hst, h, hw => by
    rw [truncWith_cons_marker]
    have hw' : ∀ w ∈ overlapWords rest, ¬ w <+: t := fun w hw0 =>
      hw w (by simp only [overlapWords, List.mem_append]; exact Or.inr hw0)
    apply truncWith_eq_nil_of_head t rest (cutAtMarker s a)
      ((cutAtMarker_initial s a).trans hst) ?_ hw'
    rcases h with h | ⟨m, hm, hms⟩
    · left
      rw [h, cutAtMarker_nil]
    · rcases List.mem_cons.1 hm with rfl | hmr
      · left
        cases s with
        | nil => exact cutAtMarker_nil _
        | cons x xs =>
          rw [cutAtMarker_cons, List.isPrefixOf_iff_prefix.2 hms]
          rfl
      · rcases cutAtMarker_cases s a with h1 | ⟨v, hv⟩
        · right
          exact ⟨m, hmr, h1.symm ▸ hms⟩
        · by_cases h0 : cutAtMarker s a = []
          · exact Or.inl h0
          · right
            refine ⟨m, hmr, ?_⟩
            by_cases hlen : m.length ≤ (cutAtMarker s a).length
            · exact List.prefix_of_prefix_length_le hms (cutAtMarker_initial s a) hlen
            · exfalso
              have hlt : (cutAtMarker s a).length < m.length := Nat.lt_of_not_le hlen
              have hpos : 0 < (cutAtMarker s a).length := List.length_pos.2 h0
              have hcm : cutAtMarker s a <+: m :=
                List.prefix_of_prefix_length_le (cutAtMarker_initial s a) hms (Nat.le_of_lt hlt)
              have htake : m.take (cutAtMarker s a).length = cutAtMarker s a :=
                (List.prefix_iff_eq_take.1 hcm).symm
              obtain ⟨w, hmw⟩ := hms
              have hsplit : cutAtMarker s a ++ (m.drop (cutAtMarker s a).length ++ w)
                  = cutAtMarker s a ++ (a ++ v) := by
                have h1 : cutAtMarker s a ++ m.drop (cutAtMarker s a).length = m := by
                  have := List.take_append_drop (cutAtMarker s a).length m
                  rwa [htake] at this
                rw [← List.append_assoc, h1, hmw, ← List.append_assoc, ← hv]
              have hcmp := List.append_cancel_left hsplit
              have hpa : m.drop (cutAtMarker s a).length <+: a ++ v := ⟨w, hcmp⟩
              have hor : m.drop (cutAtMarker s a).length <+: a
                  ∨ a <+: m.drop (cutAtMarker s a).length :=
                List.prefix_or_prefix_of_prefix hpa (List.prefix_append a v)
              have hmem := mem_overlapsOf hpos hlt hor
              rw [htake] at hmem
              apply hw (cutAtMarker s a ++ a)
              · simp only [overlapWords, List.mem_append, List.mem_flatMap]
                exact Or.inl ⟨m, hmr, hmem⟩
              · have : cutAtMarker s a ++ a <+: s := ⟨v, hv.symm⟩
                exact this.trans hst

theorem indexOf_cons_of_not_head {x : Char} {xs m : Str} (h : m.isPrefixOf (x :: xs) = false) :
    indexOf (x :: xs) m = (indexOf xs m).map (· + 1) := by
  simp [indexOf, h]

theorem indexOf_of_head {s m : Str} (h : m.isPrefixOf s = true) : indexOf s m = some 0 := by
  cases s with
  | nil => simp [indexOf, h]
  | cons x xs => simp [indexOf, h]

/-- The marker loop over `ms` cuts the text at the earliest occurrence of a marker, unless
the text from there on starts with an overlap text of `ms`. -/
theorem truncWith_spec (ms : List Str) : ∀ (t : Str),
    (∀ m ∈ ms, ∀ e, indexOf t m = some e →
      (∀ m' ∈ ms, ∀ e', indexOf t m' = some e' → e ≤ e') →
      (∀ w ∈ overlapWords ms, ¬ w <+: t.drop e) → truncWith ms t = t.take e) ∧
    ((∀ m ∈ ms, indexOf t m = none) → truncWith ms t = t)
  | [] => by
    refine ⟨fun m _ e _ _ _ => ?_, fun _ => truncWith_nil ms⟩
    rw [truncWith_nil]; simp
  | x :: xs => by
    by_cases hhead : ∃ m0 ∈ ms, m0.isPrefixOf (x :: xs) = true
    · obtain ⟨m0, hm0, hp0⟩ := hhead
      refine ⟨fun m _ e _ hmin hw => ?_, fun hnone => ?_⟩
      · have := hmin m0 hm0 0 (indexOf_of_head hp0)
        have he : e = 0 := Nat.le_zero.1 this
        subst he
        rw [truncWith_eq_nil_of_head (x :: xs) ms (x :: xs) (List.prefix_refl _)
          (Or.inr ⟨m0, hm0, List.isPrefixOf_iff_prefix.1 hp0⟩) hw]
        rfl
      · have := hnone m0 hm0
        rw [indexOf_of_head hp0] at this
        exact absurd this (by simp)
    · have hno : ∀ m ∈ ms, m.isPrefixOf (x :: xs) = false := by
        intro m hm
        cases hp : m.isPrefixOf (x :: xs) with
        | false => rfl
        | true => exact absurd ⟨m, hm, hp⟩ hhead
      obtain ⟨ih1, ih2⟩ := truncWith_spec ms xs
      rw [truncWith_cons_of_no_head ms x xs hno]
      refine ⟨fun m hm e he hmin hw => ?_, fun hnone => ?_⟩
      · rw [indexOf_cons_of_not_head (hno m hm)] at he
        cases he0 : indexOf xs m with
        | none => rw [he0] at he; exact absurd he (by simp)
        | some e0 =>
          rw [he0] at he
          simp only [Option.map_some', Option.some.injEq] at he
          subst he
          rw [List.take_succ_cons, ih1 m hm e0 he0 ?_ hw]
          intro m' hm' e' he'
          have := hmin m' hm' (e' + 1) (by
            rw [indexOf_cons_of_not_head (hno m' hm'), he']; rfl)
          omega
      · rw [ih2]
        intro m hm
        have := hnone m hm
        rw [indexOf_cons_of_not_head (hno m hm)] at this
        cases h0 : indexOf xs m with
        | none => rfl
        | some e0 => rw [h0] at this; exact absurd this (by simp)

theorem cutAtMarker_eq_self_of_absent {s m : Str} (h : ¬ m <:+: s) : cutAtMarker s m = s := by
  rcases cutAtMarker_cases s m with h1 | ⟨v, hv⟩
  · exact h1
  · exact absurd ⟨cutAtMarker s m, v, hv.symm⟩ h

theorem truncWith_eq_self_of_absent : ∀ (ms : List Str) (s : Str),
    (∀ m ∈ ms, ¬ m <:+: s) → truncWith ms s = s
  | [], _, _ => rfl
  | a :: rest, s, h => by
    rw [truncWith_cons_marker, cutAtMarker_eq_self_of_absent (h a (List.mem_cons_self _ _))]
    exact truncWith_eq_self_of_absent rest s fun m hm => h m (List.mem_cons_of_mem _ hm)

theorem truncWith_initial : ∀ (ms : List Str) (s : Str), truncWith ms s <+: s
  | [], s => List.prefix_refl s
  | a :: rest, s => (truncWith_initial rest (cutAtMarker s a)).trans (cutAtMarker_initial s a)

theorem cutAtMarker_marker_absent {m : Str} (hm : m ≠ []) : ∀ (s : Str), ¬ m <:+: cutAtMarker s m
  | [] => by
    rw [cutAtMarker_nil]
    exact fun h => hm (List.eq_nil_of_infix_nil h)
  | x :: xs => by
    rw [cutAtMarker_cons]
    by_cases hp : m.isPrefixOf (x :: xs) = true
    · simp only [hp, ↓reduceIte]
      exact fun h => hm (List.eq_nil_of_infix_nil h)
    · simp only [hp, Bool.false_eq_true, ↓reduceIte]
      intro h
      rcases List.infix_cons_iff.1 h with h1 | h2
      · exact hp (List.isPrefixOf_iff_prefix.2
          (h1.trans ((List.prefix_cons_inj x).2 (cutAtMarker_initial xs m))))
      · exact cutAtMarker_marker_absent hm xs h2

/-- After the loop no marker occurs in the text. -/
theorem truncWith_markers_absent : ∀ (ms : List Str) (s : Str), (∀ m ∈ ms, m ≠ []) →
    ∀ m ∈ ms, ¬ m <:+: truncWith ms s
  | [], _, _, m, hm => by simp at hm
  | a :: rest, s, hne, m, hm => by
    rw [truncWith_cons_marker]
    rcases List.mem_cons.1 hm with rfl | hmr
    · intro h
      exact cutAtMarker_marker_absent (hne _ (List.mem_cons_self _ _)) s
        (h.trans (truncWith_initial rest _).isInfix)
    · exact truncWith_markers_absent rest _ (fun m' hm' => hne m' (List.mem_cons_of_mem _ hm')) m hmr

theorem cleanDescription_str_ne_nil (t : Str) : cleanDescription (.str t) ≠ [] := by
  unfold cleanDescription orNoDescription
  split
  · decide
  · split
    · decide
    · rename_i h
      intro h0
      rw [h0] at h
      exact h rfl

theorem cleanDescription_str_cases (t : Str) :
    cleanDescription (.str t) = "No description available".toList ∨
    ∃ x, cleanDescription (.str t) = collapseWs (trim x) := by
  unfold cleanDescription orNoDescription
  split
  · exact Or.inl rfl
  · split
    · exact Or.inl rfl
    · exact Or.inr ⟨_, rfl⟩

theorem cleanDescription_of_ne_nil {r : Str} (h : r ≠ []) :
    cleanDescription (.str r) = orNoDescription (collapseWs (trim (truncWith junkMarkers r))) := by
  cases r with
  | nil => exact absurd rfl h
  | cons c cs =>
    simp only [cleanDescription, Prim.truthy, List.isEmpty_cons, Bool.not_false, Bool.not_true,
      Bool.false_eq_true, ↓reduceIte, Prim.toStr, truncateAtMarkers, truncWith]

/-- A non-empty text that trimming and collapsing leave alone is a fixed point of
`cleanDescription` exactly when no marker occurs in it. -/
theorem cleanDescription_fixed_iff {r : Str} (hne : r ≠ []) (h1 : trim r = r)
    (h2 : collapseWs r = r) :
    cleanDescription (.str r) = r ↔ ∀ m ∈ junkMarkers, ¬ m <:+: r := by
  rw [cleanDescription_of_ne_nil hne]
  constructor
  · intro hfix m hm hin
    have hp : truncWith junkMarkers r <+: r := truncWith_initial junkMarkers r
    have hno := truncWith_markers_absent junkMarkers r (by decide) m hm
    have hlt : (truncWith junkMarkers r).length < r.length := by
      rcases Nat.lt_or_ge (truncWith junkMarkers r).length r.length with h | h
      · exact h
      · have heq : truncWith junkMarkers r = r := hp.eq_of_length_le h
        rw [heq] at hno
        exact absurd hin hno
    have hle : (collapseWs (trim (truncWith junkMarkers r))).length
        ≤ (truncWith junkMarkers r).length :=
      (collapseAux_length_le _ false).trans (trim_length_le _)
    unfold orNoDescription at hfix
    split at hfix
    · have hd : ∀ m ∈ junkMarkers, ¬ m <:+: "No description available".toList := by decide
      rw [← hfix] at hin
      exact hd m hm hin
    · have := congrArg List.length hfix
      omega
  · intro hno
    rw [truncWith_eq_self_of_absent junkMarkers r hno, h1, h2]
    unfold orNoDescription
    cases r with
    | nil => exact absurd rfl hne
    | cons _ _ => rfl

/-! ## The matcher -/

theorem Re.mem_starRuns {p : Char → Bool} : ∀ {s : Str} {m : List Str × Str},
    m ∈ starRuns p s ↔ ∃ xs, (∀ c ∈ xs, p c = true) ∧ s = xs ++ m.2 ∧ m.1 = []
  | [], m => by
    simp only [starRuns, List.mem_singleton]
    constructor
    · rintro rfl
      exact ⟨[], by simp, rfl, rfl⟩
    · rintro ⟨xs, _, hs, hc⟩
      have h0 := List.append_eq_nil.1 hs.symm
      exact Prod.ext hc h0.2
  | x :: xs, m => by
    unfold starRuns
    by_cases hp : p x = true
    · simp only [hp, ↓reduceIte, List.mem_append, List.mem_singleton]
      rw [mem_starRuns (s := xs)]
      constructor
      · rintro (⟨ys, hys, hs, hc⟩ | rfl)
        · refine ⟨x :: ys, ?_, by rw [hs]; rfl, hc⟩
          intro c hcm
          rcases List.mem_cons.1 hcm with rfl | h
          · exact hp
          · exact hys c h
        · exact ⟨[], by simp, rfl, rfl⟩
      · rintro ⟨ys, hys, hs, hc⟩
        cases ys with
        | nil => exact Or.inr (Prod.ext hc hs.symm)
        | cons y ys' =>
          simp only [List.cons_append, List.cons.injEq] at hs
          exact Or.inl ⟨ys', fun c h => hys c (List.mem_cons_of_mem _ h), hs.2, hc⟩
    · simp only [hp, Bool.false_eq_true, ↓reduceIte, List.mem_singleton]
      constructor
      · rintro rfl
        exact ⟨[], by simp, rfl, rfl⟩
      · rintro ⟨ys, hys, hs, hc⟩
        cases ys with
        | nil => exact Prod.ext hc hs.symm
        | cons y ys' =>
          simp only [List.cons_append, List.cons.injEq] at hs
          exact absurd (hs.1 ▸ hys y (List.mem_cons_self _ _)) hp

/-- What a match leaves over is a suffix of the text it started on. -/
theorem Re.run_suffix (ci : Bool) (n : Nat) : ∀ (r : Re) (s : Str) (m : List Str × Str),
    m ∈ run ci n r s → m.2 <:+ s
  | eps, s, m, h => by
    simp only [run, List.mem_singleton] at h
    subst h
    exact List.suffix_refl s
  | chr c, [], m, h => by simp [run] at h
  | chr c, x :: xs, m, h => by
    simp only [run] at h
    split at h
    · simp only [List.mem_singleton] at h
      rw [h]
      exact List.suffix_cons x xs
    · simp at h
  | cls p, [], m, h => by simp [run] at h
  | cls p, x :: xs, m, h => by
    simp only [run] at h
    split at h
    · simp only [List.mem_singleton] at h
      rw [h]
      exact List.suffix_cons x xs
    · simp at h
  | bos, s, m, h => by
    simp only [run] at h
    split at h
    · simp only [List.mem_singleton] at h
      subst h
      exact List.suffix_refl s
    · simp at h
  | eos, s, m, h => by
    simp only [run] at h
    split at h
    · simp only [List.mem_singleton] at h
      subst h
      exact List.suffix_refl s
    · simp at h
  | seq a b, s, m, h => by
    simp only [run, List.mem_flatMap, List.mem_map] at h
    obtain ⟨m1, h1, m2, h2, rfl⟩ := h
    exact (run_suffix ci n b m1.2 m2 h2).trans (run_suffix ci n a s m1 h1)
  | alt a b, s, m, h => by
    simp only [run, List.mem_append] at h
    rcases h with h | h
    · exact run_suffix ci n a s m h
    · exact run_suffix ci n b s m h
  | star p, s, m, h => by
    simp only [run] at h
    obtain ⟨xs, _, hs, _⟩ := mem_starRuns.1 h
    exact ⟨xs, hs.symm⟩
  | opt a, s, m, h => by
    simp only [run, List.mem_append, List.mem_singleton] at h
    rcases h with h | h
    · exact run_suffix ci n a s m h
    · subst h
      exact List.suffix_refl s
  | cap a, s, m, h => by
    simp only [run, List.mem_map] at h
    obtain ⟨m', h', rfl⟩ := h
    exact run_suffix ci n a s m' h'

theorem Re.mem_run_seq {ci : Bool} {n : Nat} {a b : Re} {s : Str} {m : List Str × Str} :
    m ∈ run ci n (seq a b) s ↔
      ∃ m1 ∈ run ci n a s, ∃ m2 ∈ run ci n b m1.2, m = (m1.1 ++ m2.1, m2.2) := by
  simp only [run, List.mem_flatMap, List.mem_map]
  constructor
  · rintro ⟨m1, h1, m2, h2, rfl⟩
    exact ⟨m1, h1, m2, h2, rfl⟩
  · rintro ⟨m1, h1, m2, h2, rfl⟩
    exact ⟨m1, h1, m2, h2, rfl⟩

theorem Re.mem_run_alt {ci : Bool} {n : Nat} {a b : Re} {s : Str} {m : List Str × Str} :
    m ∈ run ci n (alt a b) s ↔ m ∈ run ci n a s ∨ m ∈ run ci n b s := by
  simp only [run, List.mem_append]

theorem Re.mem_run_opt {ci : Bool} {n : Nat} {a : Re} {s : Str} {m : List Str × Str} :
    m ∈ run ci n (opt a) s ↔ m ∈ run ci n a s ∨ m = ([], s) := by
  simp only [run, List.mem_append, List.mem_singleton]

theorem Re.mem_run_star {ci : Bool} {n : Nat} {p : Char → Bool} {s : Str} {m : List Str × Str} :
    m ∈ run ci n (star p) s ↔ ∃ xs, (∀ c ∈ xs, p c = true) ∧ s = xs ++ m.2 ∧ m.1 = [] := by
  simp only [run]
  exact mem_starRuns

theorem Re.mem_run_cls {ci : Bool} {n : Nat} {p : Char → Bool} {s : Str} {m : List Str × Str} :
    m ∈ run ci n (cls p) s ↔ ∃ x, p x = true ∧ s = x :: m.2 ∧ m.1 = [] := by
  cases s with
  | nil => simp [run]
  | cons y ys =>
    simp only [run]
    by_cases hp : p y = true
    · simp only [hp, ↓reduceIte, List.mem_singleton, List.cons.injEq]
      constructor
      · rintro rfl
        exact ⟨y, hp, ⟨rfl, rfl⟩, rfl⟩
      · rintro ⟨x, _, ⟨_, h2⟩, h3⟩
        exact Prod.ext h3 h2.symm
    · simp only [hp, Bool.false_eq_true, ↓reduceIte, List.not_mem_nil, List.cons.injEq,
        false_iff, not_exists, not_and]
      rintro x hx ⟨rfl, _⟩
      exact absurd hx hp

theorem Re.mem_run_chr {ci : Bool} {n : Nat} {c : Char} {s : Str} {m : List Str × Str} :
    m ∈ run ci n (chr c) s ↔ ∃ x, sameChar ci x c = true ∧ s = x :: m.2 ∧ m.1 = [] := by
  cases s with
  | nil => simp [run]
  | cons y ys =>
    simp only [run]
    by_cases hp : sameChar ci y c = true
    · simp only [hp, ↓reduceIte, List.mem_singleton, List.cons.injEq]
      constructor
      · rintro rfl
        exact ⟨y, hp, ⟨rfl, rfl⟩, rfl⟩
      · rintro ⟨x, _, ⟨_, h2⟩, h3⟩
        exact Prod.ext h3 h2.symm
    · simp only [hp, Bool.false_eq_true, ↓reduceIte, List.not_mem_nil, List.cons.injEq,
        false_iff, not_exists, not_and]
      rintro x hx ⟨rfl, _⟩
      exact absurd hx hp

theorem Re.mem_run_plus {ci : Bool} {n : Nat} {p : Char → Bool} {s : Str} {m : List Str × Str} :
    m ∈ run ci n (plus p) s ↔
      ∃ xs, xs ≠ [] ∧ (∀ c ∈ xs, p c = true) ∧ s = xs ++ m.2 ∧ m.1 = [] := by
  unfold plus
  rw [mem_run_seq]
  constructor
  · rintro ⟨m1, h1, m2, h2, rfl⟩
    obtain ⟨x, hx, hs, hc1⟩ := mem_run_cls.1 h1
    obtain ⟨xs, hxs, hs2, hc2⟩ := mem_run_star.1 h2
    refine ⟨x :: xs, by simp, ?_, ?_, ?_⟩
    · intro c hc
      rcases List.mem_cons.1 hc with rfl | h
      · exact hx
      · exact hxs c h
    · rw [hs, hs2]; rfl
    · simp [hc1, hc2]
  · rintro ⟨xs, hne, hxs, hs, hc⟩
    cases xs with
    | nil => exact absurd rfl hne
    | cons x xs' =>
      refine ⟨([], xs' ++ m.2), mem_run_cls.2 ⟨x, hxs x (List.mem_cons_self _ _), hs, rfl⟩,
        ([], m.2), mem_run_star.2 ⟨xs', fun c h => hxs c (List.mem_cons_of_mem _ h), rfl, rfl⟩,
        ?_⟩
      exact Prod.ext hc rfl

theorem Re.mem_run_cap {ci : Bool} {n : Nat} {a : Re} {s : Str} {m : List Str × Str} :
    m ∈ run ci n (cap a) s ↔
      ∃ consumed caps, (caps, m.2) ∈ run ci n a s ∧ s = consumed ++ m.2 ∧
        m.1 = consumed :: caps := by
  simp only [run, List.mem_map]
  constructor
  · rintro ⟨m', h', rfl⟩
    obtain ⟨consumed, hs⟩ := run_suffix ci n a s m' h'
    refine ⟨consumed, m'.1, h', hs.symm, ?_⟩
    simp only [List.cons.injEq, and_true]
    rw [← hs]
    simp
  · rintro ⟨consumed, caps, h, hs, hc⟩
    refine ⟨(caps, m.2), h, ?_⟩
    refine Prod.ext ?_ rfl
    simp only
    rw [hc]
    simp only [List.cons.injEq, and_true]
    conv_lhs => rw [hs]
    simp

theorem Re.mem_run_lit {n : Nat} : ∀ {l : Str} {s : Str} {m : List Str × Str},
    m ∈ run true n (lit l) s ↔
      ∃ u, u.map upperChar = l.map upperChar ∧ s = u ++ m.2 ∧ m.1 = []
  | [], s, m => by
    simp only [lit, run, List.mem_singleton, List.map_nil, List.map_eq_nil_iff]
    constructor
    · rintro rfl
      exact ⟨[], rfl, rfl, rfl⟩
    · rintro ⟨u, rfl, hs, hc⟩
      exact Prod.ext hc hs.symm
  | c :: cs, s, m => by
    simp only [lit]
    rw [mem_run_seq]
    constructor
    · rintro ⟨m1, h1, m2, h2, rfl⟩
      obtain ⟨x, hx, hs, hc1⟩ := mem_run_chr.1 h1
      obtain ⟨u, hu, hs2, hc2⟩ := (mem_run_lit (l := cs)).1 h2
      refine ⟨x :: u, ?_, by rw [hs, hs2]; rfl, by simp [hc1, hc2]⟩
      simp only [sameChar, ↓reduceIte, beq_iff_eq] at hx
      simp [hx, hu]
    · rintro ⟨u, hu, hs, hc⟩
      cases u with
      | nil => simp at hu
      | cons x u' =>
        simp only [List.map_cons, List.cons.injEq] at hu
        refine ⟨([], u' ++ m.2), mem_run_chr.2 ⟨x, ?_, hs, rfl⟩, ([], m.2),
          (mem_run_lit (l := cs)).2 ⟨u', hu.2, rfl, rfl⟩, Prod.ext hc rfl⟩
        simp [sameChar, hu.1]

/-- When every match at the head of `s` is `m` and there is one, `m` is the match reported. -/
theorem Re.head?_run_of_unique {ci : Bool} {n : Nat} {r : Re} {s : Str} {m : List Str × Str}
    (hm : m ∈ run ci n r s) (hu : ∀ m' ∈ run ci n r s, m' = m) :
    (run ci n r s).head? = some m := by
  cases hl : run ci n r s with
  | nil => rw [hl] at hm; simp at hm
  | cons a t =>
    rw [List.head?_cons, hu a (by rw [hl]; exact List.mem_cons_self _ _)]

/-- The scan reports the match at the first position that has one. -/
theorem Re.searchFrom_append (r : Re) (ci : Bool) (n : Nat) (s : Str) (m : List Str × Str)
    (hm : (run ci n r s).head? = some m) : ∀ (pre : Str),
    (∀ k, k < pre.length → run ci n r (pre.drop k ++ s) = []) →
    searchFrom r ci n (pre ++ s) = some m.1
  | [], _ => by
    cases s with
    | nil => simp [searchFrom, hm]
    | cons x xs => simp only [List.nil_append, searchFrom, hm]
  | p :: ps, h => by
    have h0 := h 0 (by simp)
    simp only [List.drop_zero] at h0
    simp only [List.cons_append] at h0 ⊢
    simp only [searchFrom, h0, List.head?_nil]
    exact searchFrom_append r ci n s m hm ps fun k hk => h (k + 1) (by simpa using hk)

/-- The scan finds nothing when no position has a match. -/
theorem Re.searchFrom_eq_none (r : Re) (ci : Bool) (n : Nat) : ∀ (t : Str),
    (∀ k, k ≤ t.length → run ci n r (t.drop k) = []) → searchFrom r ci n t = none
  | [], h => by
    have h0 := h 0 (Nat.le_refl _)
    simp only [List.drop_zero] at h0
    simp [searchFrom, h0]
  | x :: xs, h => by
    have h0 := h 0 (Nat.zero_le _)
    simp only [List.drop_zero] at h0
    simp only [searchFrom, h0, List.head?_nil]
    exact searchFrom_eq_none r ci n xs fun k hk => h (k + 1) (by simpa using hk)

/-- A run of characters with property `p` followed by a text that does not start with such a
character is determined by the whole. -/
theorem span_unique {p : Char → Bool} {xs ys r1 r2 : Str} (hx : ∀ c ∈ xs, p c = true)
    (hy : ∀ c ∈ ys, p c = true) (h1 : ∀ c, r1.head? = some c → p c = false)
    (h2 : ∀ c, r2.head? = some c → p c = false) (h : xs ++ r1 = ys ++ r2) :
    xs = ys ∧ r1 = r2 := by
  induction xs generalizing ys with
  | nil =>
    cases ys with
    | nil => exact ⟨rfl, h⟩
    | cons y ys' =>
      simp only [List.nil_append, List.cons_append] at h
      have := h1 y (by rw [h]; rfl)
      rw [hy y (List.mem_cons_self _ _)] at this
      exact absurd this (by simp)
  | cons x xs' ih =>
    cases ys with
    | nil =>
      simp only [List.nil_append, List.cons_append] at h
      have := h2 x (by rw [← h]; rfl)
      rw [hx x (List.mem_cons_self _ _)] at this
      exact absurd this (by simp)
    | cons y ys' =>
      simp only [List.cons_append, List.cons.injEq] at h
      obtain ⟨h3, h4⟩ := ih (fun c hc => hx c (List.mem_cons_of_mem _ hc))
        (fun c hc => hy c (List.mem_cons_of_mem _ hc)) h.2
      exact ⟨by rw [h.1, h3], h4⟩

theorem Re.Lang.congr {ci : Bool} {n : Nat} {r : Re} {P Q : Str → Prop} (h : Lang ci n r P)
    (hpq : ∀ x, P x ↔ Q x) : Lang ci n r Q := by
  intro s m
  rw [h s m]
  constructor
  · rintro ⟨x, hx, h2⟩
    exact ⟨x, (hpq x).1 hx, h2⟩
  · rintro ⟨x, hx, h2⟩
    exact ⟨x, (hpq x).2 hx, h2⟩

theorem Re.lang_plus (ci : Bool) (n : Nat) (p : Char → Bool) :
    Lang ci n (plus p) fun x => x ≠ [] ∧ ∀ c ∈ x, p c = true := by
  intro s m
  rw [mem_run_plus]
  constructor
  · rintro ⟨xs, h1, h2, h3, h4⟩
    exact ⟨xs, ⟨h1, h2⟩, h3, h4⟩
  · rintro ⟨xs, ⟨h1, h2⟩, h3, h4⟩
    exact ⟨xs, h1, h2, h3, h4⟩

theorem Re.lang_star (ci : Bool) (n : Nat) (p : Char → Bool) :
    Lang ci n (star p) fun x => ∀ c ∈ x, p c = true := fun _ _ => mem_run_star

theorem Re.lang_lit (n : Nat) (l : Str) : Lang true n (lit l) fun x => CiEq x l :=
  fun _ _ => mem_run_lit

theorem Re.lang_chr (ci : Bool) (n : Nat) (c : Char) :
    Lang ci n (chr c) fun x => ∃ y, x = [y] ∧ sameChar ci y c = true := by
  intro s m
  rw [mem_run_chr]
  constructor
  · rintro ⟨y, h1, h2, h3⟩
    exact ⟨[y], ⟨y, rfl, h1⟩, h2, h3⟩
  · rintro ⟨x, ⟨y, rfl, h1⟩, h2, h3⟩
    exact ⟨y, h1, h2, h3⟩

theorem Re.lang_cls (ci : Bool) (n : Nat) (p : Char → Bool) :
    Lang ci n (cls p) fun x => ∃ y, x = [y] ∧ p y = true := by
  intro s m
  rw [mem_run_cls]
  constructor
  · rintro ⟨y, h1, h2, h3⟩
    exact ⟨[y], ⟨y, rfl, h1⟩, h2, h3⟩
  · rintro ⟨x, ⟨y, rfl, h1⟩, h2, h3⟩
    exact ⟨y, h1, h2, h3⟩

theorem Re.lang_seq {ci : Bool} {n : Nat} {a b : Re} {P Q : Str → Prop} (ha : Lang ci n a P)
    (hb : Lang ci n b Q) : Lang ci n (seq a b) fun x => ∃ y z, x = y ++ z ∧ P y ∧ Q z := by
  intro s m
  rw [mem_run_seq]
  constructor
  · rintro ⟨m1, h1, m2, h2, rfl⟩
    obtain ⟨y, hy, hs1, hc1⟩ := (ha s m1).1 h1
    obtain ⟨z, hz, hs2, hc2⟩ := (hb m1.2 m2).1 h2
    exact ⟨y ++ z, ⟨y, z, rfl, hy, hz⟩, by rw [hs1, hs2, List.append_assoc],
      by simp [hc1, hc2]⟩
  · rintro ⟨x, ⟨y, z, rfl, hy, hz⟩, hs, hc⟩
    refine ⟨([], z ++ m.2), (ha s _).2 ⟨y, hy, by rw [hs, List.append_assoc], rfl⟩,
      ([], m.2), (hb _ _).2 ⟨z, hz, rfl, rfl⟩, Prod.ext hc rfl⟩

theorem Re.lang_alt {ci : Bool} {n : Nat} {a b : Re} {P Q : Str → Prop} (ha : Lang ci n a P)
    (hb : Lang ci n b Q) : Lang ci n (alt a b) fun x => P x ∨ Q x := by
  intro s m
  rw [mem_run_alt, ha s m, hb s m]
  constructor
  · rintro (⟨x, hx, h2⟩ | ⟨x, hx, h2⟩)
    · exact ⟨x, Or.inl hx, h2⟩
    · exact ⟨x, Or.inr hx, h2⟩
  · rintro ⟨x, hx | hx, h2⟩
    · exact Or.inl ⟨x, hx, h2⟩
    · exact Or.inr ⟨x, hx, h2⟩

theorem Re.lang_opt {ci : Bool} {n : Nat} {a : Re} {P : Str → Prop} (ha : Lang ci n a P) :
    Lang ci n (opt a) fun x => P x ∨ x = [] := by
  intro s m
  rw [mem_run_opt, ha s m]
  constructor
  · rintro (⟨x, hx, h2⟩ | rfl)
    · exact ⟨x, Or.inl hx, h2⟩
    · exact ⟨[], Or.inr rfl, rfl, rfl⟩
  · rintro ⟨x, hx | rfl, h2, h3⟩
    · exact Or.inl ⟨x, hx, h2, h3⟩
    · exact Or.inr (Prod.ext h3 h2.symm)

/-- A capture group around a pattern without groups records the text matched. -/
theorem Re.mem_run_cap_lang {ci : Bool} {n : Nat} {a : Re} {P : Str → Prop} (ha : Lang ci n a P)
    {s : Str} {m : List Str × Str} :
    m ∈ run ci n (cap a) s ↔ ∃ x, P x ∧ s = x ++ m.2 ∧ m.1 = [x] := by
  rw [mem_run_cap]
  constructor
  · rintro ⟨consumed, caps, h, hs, hc⟩
    obtain ⟨x, hx, hs2, hc2⟩ := (ha s (caps, m.2)).1 h
    simp only at hs2 hc2
    have : consumed = x := List.append_cancel_right (hs.symm.trans hs2)
    subst this
    exact ⟨consumed, hx, hs, by rw [hc, hc2]⟩
  · rintro ⟨x, hx, hs, hc⟩
    exact ⟨x, [], (ha s ([], m.2)).2 ⟨x, hx, hs, rfl⟩, hs, hc⟩

/-- The matches of a pattern of the shape `(A)\s*(U)`. -/
theorem Re.mem_run_two_caps {ci : Bool} {n : Nat} {a u : Re} {P Q : Str → Prop}
    (ha : Lang ci n a P) (hu : Lang ci n u Q) {s : Str} {m : List Str × Str} :
    m ∈ run ci n (seq (cap a) (seq (star isSpace) (cap u))) s ↔
      ∃ x ws y post, s = x ++ (ws ++ (y ++ post)) ∧ P x ∧ (∀ c ∈ ws, isSpace c = true) ∧ Q y ∧
        m = ([x, y], post) := by
  rw [mem_run_seq]
  constructor
  · rintro ⟨m1, h1, m2, h2, rfl⟩
    obtain ⟨x, hx, hs1, hc1⟩ := (mem_run_cap_lang ha).1 h1
    obtain ⟨m3, h3, m4, h4, rfl⟩ := mem_run_seq.1 h2
    obtain ⟨ws, hws, hs3, hc3⟩ := mem_run_star.1 h3
    obtain ⟨y, hy, hs4, hc4⟩ := (mem_run_cap_lang hu).1 h4
    refine ⟨x, ws, y, m4.2, by rw [hs1, hs3, hs4], hx, hws, hy, ?_⟩
    simp [hc1, hc3, hc4]
  · rintro ⟨x, ws, y, post, hs, hx, hws, hy, rfl⟩
    refine ⟨([x], ws ++ (y ++ post)), (mem_run_cap_lang ha).2 ⟨x, hx, hs, rfl⟩,
      ([y], post), mem_run_seq.2 ⟨([], y ++ post), mem_run_star.2 ⟨ws, hws, rfl, rfl⟩,
        ([y], post), (mem_run_cap_lang hu).2 ⟨y, hy, rfl, rfl⟩, rfl⟩, rfl⟩

/-! ## Digits, white space, unit -/

/-- The first character of a unit word is neither a digit, nor white space, nor a comma. -/
theorem unit_head {units : List Str} {u : Str} (hu : IsUnit units u)
    (hunits : ∀ w ∈ units, ∃ c cs, w = c :: cs ∧ isDigit (upperChar c) = false ∧
      isSpace (upperChar c) = false) :
    ∃ c cs, u = c :: cs ∧ isDigit c = false ∧ isSpace c = false := by
  obtain ⟨w, hw, hci⟩ := hu
  obtain ⟨c, cs, rfl, hd, hs⟩ := hunits w hw
  unfold CiEq at hci
  cases u with
  | nil => simp at hci
  | cons x xs =>
    simp only [List.map_cons, List.cons.injEq] at hci
    refine ⟨x, xs, rfl, ?_, ?_⟩
    · rw [← isDigit_upperChar, hci.1]; exact hd
    · rw [← isSpace_upperChar, hci.1]; exact hs

/-- Two unit words at the head of the same text are the same word, when no unit is a proper
prefix of another. -/
theorem unit_unique {units : List Str} {u u' post post' : Str} (hu : IsUnit units u)
    (hu' : IsUnit units u') (h : u ++ post = u' ++ post')
    (hfree : ∀ w ∈ units, ∀ w' ∈ units, w.map upperChar <+: w'.map upperChar →
      w.length = w'.length) : u = u' ∧ post = post' := by
  obtain ⟨w, hw, hci⟩ := hu
  obtain ⟨w', hw', hci'⟩ := hu'
  unfold CiEq at hci hci'
  have hlen : u.length = u'.length := by
    have h1 : u.length = w.length := by simpa using congrArg List.length hci
    have h2 : u'.length = w'.length := by simpa using congrArg List.length hci'
    have hp : u <+: u ++ post := List.prefix_append u post
    have hp' : u' <+: u ++ post := h ▸ List.prefix_append u' post'
    rcases List.prefix_or_prefix_of_prefix hp hp' with hpp | hpp
    · have := hfree w hw w' hw' (by rw [← hci, ← hci']; exact hpp.map upperChar)
      omega
    · have := hfree w' hw' w hw (by rw [← hci, ← hci']; exact hpp.map upperChar)
      omega
  have := List.append_inj h hlen
  exact this

theorem bhkMissing_of_noExplicit {raw : Raw} (h : NoExplicitBhk raw) :
    bhkMissing raw.bhk = .ok true := by
  unfold bhkMissing
  rcases h with h | ⟨s, hs, hsp⟩
  · simp [h]
  · rw [hs]
    cases s with
    | nil => rfl
    | cons c cs =>
      simp only [Prim.truthy, List.isEmpty_cons, Bool.not_false, Bool.not_true,
        Bool.false_eq_true, ↓reduceIte, Prim.asString, trim_of_all_space hsp, List.isEmpty_nil]

theorem lang_bhkUnits (n : Nat) :
    Re.Lang true n (.alt (.lit "BHK".toList) (.alt (.lit "Bedroom".toList) (.lit "RK".toList)))
      (IsUnit bhkUnits) :=
  (Re.lang_alt (Re.lang_lit n _) (Re.lang_alt (Re.lang_lit n _) (Re.lang_lit n _))).congr
    fun x => by simp [IsUnit, bhkUnits]

theorem mem_run_bhkRe {n : Nat} {s : Str} {m : List Str × Str} :
    m ∈ Re.run true n bhkRe s ↔
      ∃ ds ws u post, s = ds ++ (ws ++ (u ++ post)) ∧ (ds ≠ [] ∧ ∀ c ∈ ds, isDigit c = true) ∧
        (∀ c ∈ ws, isSpace c = true) ∧ IsUnit bhkUnits u ∧ m = ([ds, u], post) :=
  Re.mem_run_two_caps (Re.lang_plus true n isDigit) (lang_bhkUnits n)

theorem bhkUnits_head : ∀ w ∈ bhkUnits, ∃ c cs, w = c :: cs ∧
    isDigit (upperChar c) = false ∧ isSpace (upperChar c) = false := by
  intro w hw
  simp only [bhkUnits, List.mem_cons, List.mem_singleton, List.not_mem_nil, or_false] at hw
  rcases hw with rfl | rfl | rfl
  · exact ⟨'B', "HK".toList, rfl, by decide, by decide⟩
  · exact ⟨'B', "edroom".toList, rfl, by decide, by decide⟩
  · exact ⟨'R', "K".toList, rfl, by decide, by decide⟩

theorem bhkUnits_free : ∀ w ∈ bhkUnits, ∀ w' ∈ bhkUnits,
    w.map upperChar <+: w'.map upperChar → w.length = w'.length := by decide

/-- Digits, white space and a unit at the head of a text are determined by the text. -/
theorem digits_space_unit_unique {units : List Str} {ds ws u post ds' ws' u' post' : Str}
    (hhead : ∀ w ∈ units, ∃ c cs, w = c :: cs ∧ isDigit (upperChar c) = false ∧
      isSpace (upperChar c) = false)
    (hfree : ∀ w ∈ units, ∀ w' ∈ units, w.map upperChar <+: w'.map upperChar →
      w.length = w'.length)
    (hd : ∀ c ∈ ds, isDigit c = true) (hw : ∀ c ∈ ws, isSpace c = true) (hu : IsUnit units u)
    (hd' : ∀ c ∈ ds', isDigit c = true) (hw' : ∀ c ∈ ws', isSpace c = true)
    (hu' : IsUnit units u')
    (h : ds ++ (ws ++ (u ++ post)) = ds' ++ (ws' ++ (u' ++ post'))) :
    ds = ds' ∧ u = u' ∧ post = post' := by
  obtain ⟨c, cs, hc, hcd, hcs⟩ := unit_head hu hhead
  obtain ⟨c', cs', hc', hcd', hcs'⟩ := unit_head hu' hhead
  have key : ∀ (ws : Str) (c : Char) (cs post : Str), (∀ c ∈ ws, isSpace c = true) →
      isDigit c = false → ∀ e, (ws ++ (c :: cs ++ post)).head? = some e → isDigit e = false := by
    intro ws c cs post hws hcd e he
    cases ws with
    | nil =>
      simp only [List.nil_append, List.cons_append, List.head?_cons, Option.some.injEq] at he
      rw [← he]; exact hcd
    | cons x xs =>
      simp only [List.cons_append, List.head?_cons, Option.some.injEq] at he
      rw [← he]
      cases hx : isDigit x with
      | false => rfl
      | true =>
        have := isSpace_of_isDigit hx
        rw [hws x (List.mem_cons_self _ _)] at this
        exact absurd this (by simp)
  obtain ⟨h1, h2⟩ := span_unique hd hd' (hc ▸ key ws c cs post hw hcd)
    (hc' ▸ key ws' c' cs' post' hw' hcd') h
  have hsp : ∀ (c : Char) (cs post : Str), isSpace c = false →
      ∀ e, (c :: cs ++ post).head? = some e → isSpace e = false := by
    intro c cs post hcs e he
    simp only [List.cons_append, List.head?_cons, Option.some.injEq] at he
    rw [← he]; exact hcs
  obtain ⟨_, h4⟩ := span_unique hw hw' (hc ▸ hsp c cs post hcs) (hc' ▸ hsp c' cs' post' hcs') h2
  exact ⟨h1, unit_unique hu hu' h4 hfree⟩

theorem head?_run_bhkRe {n : Nat} {ds ws u post : Str}
    (hd : ds ≠ [] ∧ ∀ c ∈ ds, isDigit c = true) (hw : ∀ c ∈ ws, isSpace c = true)
    (hu : IsUnit bhkUnits u) :
    (Re.run true n bhkRe (ds ++ (ws ++ (u ++ post)))).head? = some ([ds, u], post) := by
  apply Re.head?_run_of_unique (mem_run_bhkRe.2 ⟨ds, ws, u, post, rfl, hd, hw, hu, rfl⟩)
  intro m' hm'
  obtain ⟨ds', ws', u', post', hs, hd', hw', hu', rfl⟩ := mem_run_bhkRe.1 hm'
  obtain ⟨h1, h2, h3⟩ := digits_space_unit_unique bhkUnits_head bhkUnits_free hd.2 hw hu
    hd'.2 hw' hu' hs
  rw [h1, h2, h3]

/-- The BHK pattern reports the leftmost match. -/
theorem exec_bhkRe_of_leftmost {text pre ds ws u post : Str}
    (hm : BhkMatchAt text pre ds ws u post)
    (hleft : ∀ pre' ds' ws' u' post', BhkMatchAt text pre' ds' ws' u' post' →
      pre.length ≤ pre'.length) :
    bhkRe.exec true text = some [ds, u] := by
  obtain ⟨ht, hd, hw, hu⟩ := hm
  unfold Re.exec
  rw [ht]
  apply Re.searchFrom_append bhkRe true _ _ ([ds, u], post) (head?_run_bhkRe hd hw hu)
  intro k hk
  cases hr : Re.run true (pre ++ (ds ++ (ws ++ (u ++ post)))).length bhkRe
      (pre.drop k ++ (ds ++ (ws ++ (u ++ post)))) with
  | nil => rfl
  | cons m t =>
    exfalso
    have hmem : m ∈ Re.run true (pre ++ (ds ++ (ws ++ (u ++ post)))).length bhkRe
        (pre.drop k ++ (ds ++ (ws ++ (u ++ post)))) := by
      rw [hr]; exact List.mem_cons_self _ _
    obtain ⟨ds', ws', u', post', hs, hd', hw', hu', _⟩ := mem_run_bhkRe.1 hmem
    have := hleft (pre.take k) ds' ws' u' post'
      ⟨by rw [ht, ← hs, ← List.append_assoc (pre.take k), List.take_append_drop],
        hd', hw', hu'⟩
    rw [List.length_take] at this
    omega

theorem bhk_format_clean {ds u : Str} (hd : ds ≠ [] ∧ ∀ c ∈ ds, isDigit c = true)
    (hu : IsUnit bhkUnits u) :
    cleanText (.str (ds ++ " ".toList ++ toUpperCase u)) = ds ++ " ".toList ++ toUpperCase u := by
  have hds : ∀ c ∈ ds, isSpace c = false := fun c hc => isSpace_of_isDigit (hd.2 c hc)
  obtain ⟨w, hw, hci⟩ := hu
  have hup : toUpperCase u = w.map upperChar := hci
  rw [hup]
  have hW : (∀ c ∈ w.map upperChar, isSpace c = false) ∧ w.map upperChar ≠ [] := by
    simp only [bhkUnits, List.mem_cons, List.mem_singleton, List.not_mem_nil, or_false] at hw
    rcases hw with rfl | rfl | rfl <;> exact ⟨by decide, by decide⟩
  cases hds0 : ds with
  | nil => exact absurd hds0 hd.1
  | cons d ds' =>
    rw [← hds0]
    unfold cleanText
    have htr : (Prim.str (ds ++ " ".toList ++ w.map upperChar)).truthy = true := by
      rw [hds0]; rfl
    simp only [htr, Bool.not_true, Bool.false_eq_true, ↓reduceIte, Prim.toStr]
    have htrim : trim (ds ++ " ".toList ++ w.map upperChar)
        = ds ++ " ".toList ++ w.map upperChar := by
      apply trim_eq_self
      · intro c hc
        rw [hds0] at hc
        simp only [List.cons_append, List.head?_cons, Option.some.injEq] at hc
        rw [← hc]
        exact hds d (by rw [hds0]; exact List.mem_cons_self _ _)
      · intro c hc
        rw [List.getLast?_append_of_ne_nil _ hW.2] at hc
        exact hW.1 c (List.mem_of_mem_getLast? hc)
    rw [htrim]
    unfold collapseWs
    rw [List.append_assoc, collapseAux_append_of_no_space ds _ false hds hd.1]
    have hsp : isSpace ' ' = true := by decide
    show ds ++ collapseAux false (' ' :: w.map upperChar) = ds ++ ' ' :: w.map upperChar
    simp only [collapseAux, hsp, ↓reduceIte, Bool.false_eq_true]
    rw [collapseAux_of_no_space _ true hW.1]

theorem test_digitRe : ∀ (n : Nat) (s : Str),
    (Re.searchFrom digitRe false n s).isSome = s.any isDigit
  | _, [] => by simp [Re.searchFrom, digitRe, Re.run]
  | n, x :: xs => by
    have ih := test_digitRe n xs
    by_cases hx : isDigit x = true
    · simp [Re.searchFrom, digitRe, Re.run, hx]
    · simp only [Re.searchFrom, digitRe, Re.run, hx, Bool.false_eq_true, ↓reduceIte,
        List.head?_nil, List.any_cons, Bool.false_or]
      exact ih

theorem ci_last_not_space {u w : Str} (h : u.map upperChar = w.map upperChar)
    (hw : ∀ c, w.getLast? = some c → isSpace c = false) :
    ∀ c, u.getLast? = some c → isSpace c = false := by
  intro c hc
  have h1 : (u.map upperChar).getLast? = some (upperChar c) := by
    rw [List.getLast?_map, hc]; rfl
  rw [h, List.getLast?_map] at h1
  cases hl : w.getLast? with
  | none => rw [hl] at h1; simp at h1
  | some d =>
    rw [hl] at h1
    simp only [Option.map_some', Option.some.injEq] at h1
    rw [← isSpace_upperChar, ← h1, isSpace_upperChar]
    exact hw d hl

theorem lang_areaNumber (n : Nat) :
    Re.Lang true n (.seq (.plus isDigit) (.opt (.seq (.chr ',') (.plus isDigit))))
      IsAreaNumber := by
  refine (Re.lang_seq (Re.lang_plus true n isDigit)
    (Re.lang_opt (Re.lang_seq (Re.lang_chr true n ',') (Re.lang_plus true n isDigit)))).congr ?_
  intro x
  constructor
  · rintro ⟨a, b, rfl, ha, hb | rfl⟩
    · obtain ⟨y, z, rfl, ⟨c, rfl, hc⟩, hz⟩ := hb
      rw [sameChar_comma.1 hc]
      exact Or.inr ⟨a, z, rfl, ha, hz⟩
    · rw [List.append_nil]
      exact Or.inl ha
  · rintro (hx | ⟨a, b, rfl, ha, hb⟩)
    · exact ⟨x, [], (List.append_nil x).symm, hx, Or.inr rfl⟩
    · exact ⟨a, ',' :: b, rfl, ha, Or.inl ⟨[','], b, rfl, ⟨',', rfl, sameChar_comma.2 rfl⟩, hb⟩⟩

theorem lang_areaUnits (n : Nat) :
    Re.Lang true n
      (.alt (.lit "sqft".toList) (.alt (.lit "sq.ft".toList)
        (.alt (.lit "sq ft".toList) (.alt (.lit "sq yards".toList) (.lit "gaj".toList)))))
      (IsUnit areaUnits) :=
  (Re.lang_alt (Re.lang_lit n _) (Re.lang_alt (Re.lang_lit n _)
    (Re.lang_alt (Re.lang_lit n _) (Re.lang_alt (Re.lang_lit n _) (Re.lang_lit n _))))).congr
    fun x => by simp [IsUnit, areaUnits]

theorem mem_run_areaRe {n : Nat} {s : Str} {m : List Str × Str} :
    m ∈ Re.run true n areaRe s ↔
      ∃ num ws u post, s = num ++ (ws ++ (u ++ post)) ∧ IsAreaNumber num ∧
        (∀ c ∈ ws, isSpace c = true) ∧ IsUnit areaUnits u ∧ m = ([num, u], post) :=
  Re.mem_run_two_caps (lang_areaNumber n) (lang_areaUnits n)

theorem areaUnits_head : ∀ w ∈ areaUnits, ∃ c cs, w = c :: cs ∧
    isDigit (upperChar c) = false ∧ isSpace (upperChar c) = false := by
  intro w hw
  simp only [areaUnits, List.mem_cons, List.mem_singleton, List.not_mem_nil, or_false] at hw
  rcases hw with rfl | rfl | rfl | rfl | rfl
  · exact ⟨'s', "qft".toList, rfl, by decide, by decide⟩
  · exact ⟨'s', "q.ft".toList, rfl, by decide, by decide⟩
  · exact ⟨'s', "q ft".toList, rfl, by decide, by decide⟩
  · exact ⟨'s', "q yards".toList, rfl, by decide, by decide⟩
  · exact ⟨'g', "aj".toList, rfl, by decide, by decide⟩

theorem areaUnits_free : ∀ w ∈ areaUnits, ∀ w' ∈ areaUnits,
    w.map upperChar <+: w'.map upperChar → w.length = w'.length := by decide

theorem areaUnits_tidy : ∀ w ∈ areaUnits,
    collapseAux true w = w ∧ (∀ c, w.getLast? = some c → isSpace c = false) ∧
      ∃ c cs, w = c :: cs ∧ upperChar c ≠ ',' := by
  intro w hw
  simp only [areaUnits, List.mem_cons, List.mem_singleton, List.not_mem_nil, or_false] at hw
  rcases hw with rfl | rfl | rfl | rfl | rfl
  · exact ⟨by decide, by decide, 's', "qft".toList, rfl, by decide⟩
  · exact ⟨by decide, by decide, 's', "q.ft".toList, rfl, by decide⟩
  · exact ⟨by decide, by decide, 's', "q ft".toList, rfl, by decide⟩
  · exact ⟨by decide, by decide, 's', "q yards".toList, rfl, by decide⟩
  · exact ⟨by decide, by decide, 'g', "aj".toList, rfl, by decide⟩

/-- What follows the number of an area match starts with neither a digit nor a comma. -/
theorem area_rest_head {ws u post : Str} (hw : ∀ c ∈ ws, isSpace c = true)
    (hu : IsUnit areaUnits u) :
    ∀ e, (ws ++ (u ++ post)).head? = some e → isDigit e = false ∧ e ≠ ',' := by
  intro e he
  cases ws with
  | nil =>
    obtain ⟨w, hwm, hci⟩ := hu
    obtain ⟨c, cs, hc, hcd, _⟩ := unit_head ⟨w, hwm, hci⟩ areaUnits_head
    obtain ⟨_, _, d, ds, hd, hne⟩ := areaUnits_tidy w hwm
    subst hc
    simp only [List.nil_append, List.cons_append, List.head?_cons, Option.some.injEq] at he
    subst he
    refine ⟨hcd, ?_⟩
    rintro rfl
    subst hd
    unfold CiEq at hci
    simp only [List.map_cons, List.cons.injEq] at hci
    exact hne (hci.1.symm.trans (by decide))
  | cons x xs =>
    simp only [List.cons_append, List.head?_cons, Option.some.injEq] at he
    subst he
    have hx := hw x (List.mem_cons_self _ _)
    refine ⟨?_, ?_⟩
    · cases hd : isDigit x with
      | false => rfl
      | true =>
        have := isSpace_of_isDigit hd
        rw [hx] at this
        exact absurd this (by simp)
    · rintro rfl
      exact absurd hx (by decide)

/-- The number at the head of an area match is determined by the text. -/
theorem area_number_unique {x x' r1 r2 : Str} (hx : IsAreaNumber x) (hx' : IsAreaNumber x')
    (h1 : ∀ e, r1.head? = some e → isDigit e = false ∧ e ≠ ',')
    (h2 : ∀ e, r2.head? = some e → isDigit e = false ∧ e ≠ ',')
    (h : x ++ r1 = x' ++ r2) : x = x' ∧ r1 = r2 := by
  have hcomma : ∀ (l : Str) e, (',' :: l).head? = some e → isDigit e = false := by
    intro l e he
    simp only [List.head?_cons, Option.some.injEq] at he
    rw [← he]; decide
  rcases hx with ⟨_, hd⟩ | ⟨a, b, rfl, ⟨_, ha⟩, ⟨_, hb⟩⟩
  · rcases hx' with ⟨_, hd'⟩ | ⟨a', b', rfl, ⟨_, ha'⟩, _⟩
    · exact span_unique hd hd' (fun e he => (h1 e he).1) (fun e he => (h2 e he).1) h
    · rw [List.append_assoc] at h
      obtain ⟨_, h4⟩ := span_unique hd ha' (fun e he => (h1 e he).1) (hcomma _) h
      exact absurd rfl (h1 ',' (by rw [h4]; rfl)).2
  · rcases hx' with ⟨_, hd'⟩ | ⟨a', b', rfl, ⟨_, ha'⟩, ⟨_, hb'⟩⟩
    · rw [List.append_assoc] at h
      obtain ⟨_, h4⟩ := span_unique ha hd' (hcomma _) (fun e he => (h2 e he).1) h
      exact absurd rfl (h2 ',' (by rw [← h4]; rfl)).2
    · rw [List.append_assoc, List.append_assoc] at h
      obtain ⟨h3, h4⟩ := span_unique ha ha' (hcomma _) (hcomma _) h
      simp only [List.cons_append, List.cons.injEq, true_and] at h4
      obtain ⟨h5, h6⟩ := span_unique hb hb' (fun e he => (h1 e he).1)
        (fun e he => (h2 e he).1) h4
      exact ⟨by rw [h3, h5], h6⟩

theorem head?_run_areaRe {n : Nat} {num ws u post : Str} (hn : IsAreaNumber num)
    (hw : ∀ c ∈ ws, isSpace c = true) (hu : IsUnit areaUnits u) :
    (Re.run true n areaRe (num ++ (ws ++ (u ++ post)))).head? = some ([num, u], post) := by
  apply Re.head?_run_of_unique (mem_run_areaRe.2 ⟨num, ws, u, post, rfl, hn, hw, hu, rfl⟩)
  intro m' hm'
  obtain ⟨num', ws', u', post', hs, hn', hw', hu', rfl⟩ := mem_run_areaRe.1 hm'
  obtain ⟨h1, h2⟩ := area_number_unique hn hn' (area_rest_head hw hu)
    (area_rest_head hw' hu') hs
  have hnil : ∀ c ∈ ([] : Str), isDigit c = true := by simp
  obtain ⟨_, h3, h4⟩ := digits_space_unit_unique areaUnits_head areaUnits_free hnil hw hu
    hnil hw' hu' h2
  rw [h1, h3, h4]

/-- The area pattern reports the leftmost match. -/
theorem exec_areaRe_of_leftmost {text pre num ws u post : Str}
    (hm : AreaMatchAt text pre num ws u post)
    (hleft : ∀ pre' num' ws' u' post', AreaMatchAt text pre' num' ws' u' post' →
      pre.length ≤ pre'.length) :
    areaRe.exec true text = some [num, u] := by
  obtain ⟨ht, hn, hw, hu⟩ := hm
  unfold Re.exec
  rw [ht]
  apply Re.searchFrom_append areaRe true _ _ ([num, u], post) (head?_run_areaRe hn hw hu)
  intro k hk
  cases hr : Re.run true (pre ++ (num ++ (ws ++ (u ++ post)))).length areaRe
      (pre.drop k ++ (num ++ (ws ++ (u ++ post)))) with
  | nil => rfl
  | cons m t =>
    exfalso
    have hmem : m ∈ Re.run true (pre ++ (num ++ (ws ++ (u ++ post)))).length areaRe
        (pre.drop k ++ (num ++ (ws ++ (u ++ post)))) := by
      rw [hr]; exact List.mem_cons_self _ _
    obtain ⟨num', ws', u', post', hs, hn', hw', hu', _⟩ := mem_run_areaRe.1 hmem
    have := hleft (pre.take k) num' ws' u' post'
      ⟨by rw [ht, ← hs, ← List.append_assoc (pre.take k), List.take_append_drop],
        hn', hw', hu'⟩
    rw [List.length_take] at this
    omega

/-- The area pattern reports nothing when the text has no match. -/
theorem exec_areaRe_eq_none {text : Str}
    (h : ∀ pre num ws u post, ¬ AreaMatchAt text pre num ws u post) :
    areaRe.exec true text = none := by
  unfold Re.exec
  apply Re.searchFrom_eq_none
  intro k _
  cases hr : Re.run true text.length areaRe (text.drop k) with
  | nil => rfl
  | cons m t =>
    exfalso
    have hmem : m ∈ Re.run true text.length areaRe (text.drop k) := by
      rw [hr]; exact List.mem_cons_self _ _
    obtain ⟨num, ws, u, post, hs, hn, hw, hu, _⟩ := mem_run_areaRe.1 hmem
    exact h (text.take k) num ws u post
      ⟨by rw [← hs, List.take_append_drop], hn, hw, hu⟩

theorem areaNumber_props {num : Str} (hn : IsAreaNumber num) :
    num ≠ [] ∧ (∀ c ∈ num, isSpace c = false) ∧
      ∀ c, num.head? = some c → isSpace c = false := by
  have hall : num ≠ [] ∧ ∀ c ∈ num, isSpace c = false := by
    rcases hn with ⟨hne, hd⟩ | ⟨a, b, rfl, ⟨hne, ha⟩, ⟨_, hb⟩⟩
    · exact ⟨hne, fun c hc => isSpace_of_isDigit (hd c hc)⟩
    · refine ⟨by simp, fun c hc => ?_⟩
      rcases List.mem_append.1 hc with h | h
      · exact isSpace_of_isDigit (ha c h)
      · rcases List.mem_cons.1 h with rfl | h
        · decide
        · exact isSpace_of_isDigit (hb c h)
  exact ⟨hall.1, hall.2, fun c hc => hall.2 c (List.mem_of_mem_head? hc)⟩

theorem area_format_clean {num u : Str} (hn : IsAreaNumber num) (hu : IsUnit areaUnits u) :
    cleanText (.str (num ++ " ".toList ++ u)) = num ++ " ".toList ++ u := by
  obtain ⟨hne, hsp, hhead⟩ := areaNumber_props hn
  obtain ⟨w, hw, hci⟩ := hu
  obtain ⟨htidy, hlast, c0, cs0, hw0, _⟩ := areaUnits_tidy w hw
  have hune : u ≠ [] := by
    rintro rfl
    rw [hw0] at hci
    simp [CiEq] at hci
  unfold cleanText
  have htr : (Prim.str (num ++ " ".toList ++ u)).truthy = true := by
    cases num with
    | nil => exact absurd rfl hne
    | cons _ _ => rfl
  simp only [htr, Bool.not_true, Bool.false_eq_true, ↓reduceIte, Prim.toStr]
  have htrim : trim (num ++ " ".toList ++ u) = num ++ " ".toList ++ u := by
    apply trim_eq_self
    · intro c hc
      apply hhead c
      cases num with
      | nil => exact absurd rfl hne
      | cons d ds => simpa using hc
    · intro c hc
      rw [List.getLast?_append_of_ne_nil _ hune] at hc
      exact ci_last_not_space hci hlast c hc
  rw [htrim]
  unfold collapseWs
  rw [List.append_assoc, collapseAux_append_of_no_space num _ false hsp hne]
  have hs : isSpace ' ' = true := by decide
  show num ++ collapseAux false (' ' :: u) = num ++ ' ' :: u
  simp only [collapseAux, hs, ↓reduceIte, Bool.false_eq_true]
  rw [collapseAux_ci u w true hci htidy]

theorem extractArea_of_usable {raw : Raw} {s : Str} (hs : raw.area = .str s)
    (hlen : jsLength s ≤ 50) (hd : ∃ c ∈ s, isDigit c = true) :
    extractArea raw = collapseWs (trim s) := by
  have hany : s.any isDigit = true := by
    obtain ⟨c, hc, hcd⟩ := hd
    exact List.any_eq_true.2 ⟨c, hc, hcd⟩
  have htest : Re.test digitRe false s = true := by
    unfold Re.test Re.exec
    rw [test_digitRe, hany]
  have hne : (Prim.str s).truthy = true := by
    cases s with
    | nil => simp at hany
    | cons _ _ => rfl
  have hlong : longerThan50 (.str s) = false := by
    simp only [longerThan50, decide_eq_false_iff_not, not_lt]
    exact hlen
  unfold extractArea
  simp only [hs, hne, hlong, Prim.toStr, htest, Bool.not_true, Bool.or_self, Bool.false_eq_true,
    ↓reduceIte, cleanText]

theorem test_digitRe_of_no_digit {s : Str} (h : s.any isDigit = false) :
    Re.test digitRe false s = false := by
  unfold Re.test Re.exec
  rw [test_digitRe, h]

theorem area_condition_of_not_usable {raw : Raw} (h : ¬ ExplicitAreaUsable raw) :
    (!raw.area.truthy || longerThan50 raw.area
      || !Re.test digitRe false raw.area.toStr) = true := by
  cases harea : raw.area with
  | undefined => rfl
  | null => rfl
  | bool b =>
    cases b with
    | false => rfl
    | true =>
      have : Re.test digitRe false (Prim.bool true).toStr = false :=
        test_digitRe_of_no_digit (by decide)
      simp [this]
  | num x =>
    cases x with
    | fin q =>
      by_cases hq : q = 0
      · simp [Prim.truthy, hq]
      · exact absurd (Or.inr ⟨q, harea, hq⟩) h
    | posInf =>
      have : Re.test digitRe false (Prim.num .posInf).toStr = false :=
        test_digitRe_of_no_digit (by decide)
      simp [this]
    | negInf =>
      have : Re.test digitRe false (Prim.num .negInf).toStr = false :=
        test_digitRe_of_no_digit (by decide)
      simp [this]
    | nan => rfl
  | str s =>
    by_cases hlen : jsLength s ≤ 50
    · have hno : s.any isDigit = false := by
        cases ha : s.any isDigit with
        | false => rfl
        | true =>
          obtain ⟨c, hc, hcd⟩ := List.any_eq_true.1 ha
          exact absurd (Or.inl ⟨s, harea, hlen, c, hc, hcd⟩) h
      simp [Prim.toStr, test_digitRe_of_no_digit hno]
    · have hlong : longerThan50 (.str s) = true := by
        simp only [longerThan50, decide_eq_true_eq]
        omega
      simp [hlong]

/-- The text of a finite number is left as it is by the text cleaner. -/
theorem collapseWs_trim_numToString (q : ℚ) :
    collapseWs (trim (numToString (.fin q))) = numToString (.fin q) := by
  have hns : ∀ c ∈ numToString (.fin q), isSpace c = false :=
    fun c hc => isSpace_of_numChar (numToString_fin_chars q c hc)
  rw [trim_eq_self (fun c hc => hns c (List.mem_of_mem_head? hc))
    (fun c hc => hns c (List.mem_of_mem_getLast? hc))]
  exact collapseAux_of_no_space _ false hns

theorem extractArea_of_usable_num {raw : Raw} {q : ℚ} (hs : raw.area = .num (.fin q))
    (hq : q ≠ 0) : extractArea raw = numToString (.fin q) := by
  have hany : (numToString (.fin q)).any isDigit = true := by
    obtain ⟨c, hc, hcd⟩ := numToString_fin_has_digit q
    exact List.any_eq_true.2 ⟨c, hc, hcd⟩
  have htest : Re.test digitRe false (numToString (.fin q)) = true := by
    unfold Re.test Re.exec
    rw [test_digitRe, hany]
  have hne : (Prim.num (.fin q)).truthy = true := by
    simp [Prim.truthy, hq]
  unfold extractArea
  simp only [hs, hne, longerThan50, Prim.toStr, htest, Bool.not_true, Bool.or_self,
    Bool.false_eq_true, ↓reduceIte, cleanText]
  exact collapseWs_trim_numToString q

/-- Line 96 builds the name, a space and the description. -/
theorem combinedText_eq (raw : Raw) : combinedText raw = nameAndDescription raw := by
  unfold combinedText nameAndDescription Prim.or
  cases raw.property_name.truthy <;> cases raw.description.truthy <;>
    simp [Prim.toStr]

theorem upperChar_eq_toUpper (c : Char) : upperChar c = c.toUpper := rfl

theorem toUpperCase_eq_map_toUpper (s : Str) : toUpperCase s = s.map Char.toUpper := by
  unfold toUpperCase
  exact List.map_congr_left fun c _ => upperChar_eq_toUpper c

/-- A match that starts with a character of the kind `P` does not start inside a prefix that
has no such character. -/
theorem length_le_of_head (P : Char → Bool) {text pre tail pre' tail' : Str} {d : Char}
    (h1 : text = pre ++ tail) (hpre : ∀ c ∈ pre, P c = false)
    (h2 : text = pre' ++ d :: tail') (hd : P d = true) : pre.length ≤ pre'.length := by
  by_contra hlt
  have hlt' : pre'.length < pre.length := by omega
  have hget : text[pre'.length]? = some d := by
    rw [h2, List.getElem?_append_right (Nat.le_refl _)]
    simp
  rw [h1, List.getElem?_append_left hlt'] at hget
  have hmem : d ∈ pre := by
    obtain ⟨hi, he⟩ := List.getElem?_eq_some.1 hget
    rw [← he]
    exact List.getElem_mem hi
  rw [hpre d hmem] at hd
  exact absurd hd (by simp)

/-! ## The facts object and the junk filter -/

/-- The filter removes a key for its own sake or for its value. -/
theorem shouldRemove_eq (key : Str) (value : Prim) :
    shouldRemove key value = (junkKey key || junkValue value) := by
  cases value <;> rfl

/-- The `dynamic_facts` of a returned record: the raw facts, filtered, with the derived
entries written. -/
theorem normalizeProperty_facts {raw : Raw} {src : Str} {r : Normalized × Raw}
    (h : normalizeProperty raw src = .ok r) :
    r.1.dynamic_facts = writeDerived raw (filterJunk (raw.dynamic_facts.getD [])) := by
  unfold normalizeProperty at h
  cases h1 : extractBhk raw with
  | error e => simp [h1, bind, Except.bind] at h
  | ok bhk0 =>
    cases h2 : inferCity (initialAddress raw) raw with
    | error e => simp [h1, h2, bind, Except.bind] at h
    | ok city =>
      cases h3 : parseTitle raw bhk0 none (initialAddress raw) with
      | error e => simp [h1, h2, h3, bind, Except.bind] at h
      | ok t =>
        cases h4 : extractImages raw.image_urls with
        | error e => simp [h1, h2, h3, h4, bind, Except.bind] at h
        | ok images =>
          simp only [h1, h2, h3, h4, bind, Except.bind, pure, Except.pure, Except.ok.injEq] at h
          subst h
          rfl

theorem mem_eraseKey {facts : Facts} {key : Str} {e : Str × Prim} :
    e ∈ eraseKey facts key ↔ e ∈ facts ∧ e.1 ≠ key := by
  simp [eraseKey]

theorem mem_setKey {facts : Facts} {key : Str} {value : Prim} {e : Str × Prim}
    (h : e ∈ setKey facts key value) : e = (key, value) ∨ (e ∈ facts ∧ e.1 ≠ key) := by
  unfold setKey at h
  split at h
  · rw [List.mem_map] at h
    obtain ⟨e', he', heq⟩ := h
    by_cases hk : e'.1 = key
    · simp only [hk, beq_self_eq_true, ↓reduceIte] at heq
      exact Or.inl heq.symm
    · have : (e'.1 == key) = false := by simpa using hk
      simp only [this, Bool.false_eq_true, ↓reduceIte] at heq
      subst heq
      exact Or.inr ⟨he', hk⟩
  · rename_i hany
    rw [List.mem_append, List.mem_singleton] at h
    rcases h with h | h
    · refine Or.inr ⟨h, ?_⟩
      intro hk
      apply hany
      rw [List.any_eq_true]
      exact ⟨e, h, by simpa using hk⟩
    · exact Or.inl h

theorem lookupKey_setKey_same (facts : Facts) (key : Str) (value : Prim) :
    lookupKey (setKey facts key value) key = value := by
  unfold setKey
  split
  · rename_i hany
    induction facts with
    | nil => simp at hany
    | cons e rest ih =>
      by_cases hk : e.1 = key
      · simp [lookupKey, hk]
      · have hk' : (e.1 == key) = false := by simpa using hk
        simp only [List.any_cons, hk', Bool.false_or] at hany
        have := ih hany
        simp only [lookupKey, List.map_cons, hk', Bool.false_eq_true, ↓reduceIte,
          List.find?_cons] at this ⊢
        exact this
  · rename_i hany
    have hnone : facts.find? (fun e => e.1 == key) = none := by
      rw [List.find?_eq_none]
      intro e he hk
      apply hany
      rw [List.any_eq_true]
      exact ⟨e, he, hk⟩
    simp [lookupKey, List.find?_append, hnone]

theorem lookupKey_setKey_ne (facts : Facts) {key key' : Str} (value : Prim) (hne : key' ≠ key) :
    lookupKey (setKey facts key value) key' = lookupKey facts key' := by
  have hne' : (key == key') = false := by simpa using fun h => hne h.symm
  unfold setKey
  split
  · clear * - hne hne'
    induction facts with
    | nil => rfl
    | cons e rest ih =>
      by_cases hk : e.1 = key
      · have hk2 : (e.1 == key') = false := by
          rw [hk]; exact hne'
        simp only [lookupKey, List.map_cons, hk, beq_self_eq_true, ↓reduceIte, List.find?_cons,
          hne', hk2] at ih ⊢
        exact ih
      · have hk' : (e.1 == key) = false := by simpa using hk
        simp only [lookupKey, List.map_cons, hk', Bool.false_eq_true, ↓reduceIte,
          List.find?_cons] at ih ⊢
        cases (e.1 == key')
        · exact ih
        · rfl
  · simp [lookupKey, List.find?_append, hne']

theorem lookupKey_of_mem {facts : Facts} (hd : DistinctKeys facts) {e : Str × Prim}
    (he : e ∈ facts) : lookupKey facts e.1 = e.2 := by
  induction facts with
  | nil => simp at he
  | cons x rest ih =>
    unfold DistinctKeys at hd
    rw [List.map_cons, List.nodup_cons] at hd
    rcases List.mem_cons.mp he with h | h
    · subst h
      simp [lookupKey]
    · have hx : (x.1 == e.1) = false := by
        have : x.1 ≠ e.1 := by
          intro hxe
          apply hd.1
          rw [hxe]
          exact List.mem_map_of_mem _ h
        simpa using this
      have := ih hd.2 h
      simp only [lookupKey, List.find?_cons, hx] at this ⊢
      exact this

theorem lookupKey_of_absent {facts : Facts} {key : Str} (h : ∀ e ∈ facts, e.1 ≠ key) :
    lookupKey facts key = .undefined := by
  have hnone : facts.find? (fun e => e.1 == key) = none := by
    rw [List.find?_eq_none]
    intro e he hk
    exact h e he (by simpa using hk)
  simp [lookupKey, hnone]

theorem distinctKeys_eraseKey {facts : Facts} (hd : DistinctKeys facts) (key : Str) :
    DistinctKeys (eraseKey facts key) := by
  unfold DistinctKeys eraseKey at *
  exact (List.Nodup.sublist (List.Sublist.map _ (List.filter_sublist _)) hd)

theorem distinctKeys_setKey {facts : Facts} (hd : DistinctKeys facts) (key : Str)
    (value : Prim) : DistinctKeys (setKey facts key value) := by
  unfold setKey
  split
  · unfold DistinctKeys at *
    have : (facts.map fun e => if e.1 == key then (key, value) else e).map (fun e => e.1)
        = facts.map fun e => e.1 := by
      rw [List.map_map]
      apply List.map_congr_left
      intro e _
      by_cases hk : e.1 = key
      · simp [hk]
      · simp [hk]
    rw [this]
    exact hd
  · rename_i hany
    unfold DistinctKeys at *
    rw [List.map_append, List.nodup_append]
    refine ⟨hd, by simp, ?_⟩
    intro a ha hb
    simp only [List.map_cons, List.map_nil, List.mem_singleton] at hb
    subst hb
    rw [List.mem_map] at ha
    obtain ⟨e, he, hk⟩ := ha
    apply hany
    rw [List.any_eq_true]
    exact ⟨e, he, by simpa using hk⟩

/-- The loop of the junk filter only removes entries. -/
theorem filterJunk_fold_subset : ∀ (ks : List Str) (acc : Facts) (e : Str × Prim),
    e ∈ ks.foldl
      (fun acc key => if shouldRemove key (lookupKey acc key) then eraseKey acc key else acc)
      acc → e ∈ acc
  | [], _, _, h => h
  | k :: ks, acc, e, h => by
    rw [List.foldl_cons] at h
    have := filterJunk_fold_subset ks _ e h
    split at this
    · exact (mem_eraseKey.mp this).1
    · exact this

/-- The loop keeps the keys distinct. -/
theorem filterJunk_fold_distinct : ∀ (ks : List Str) (acc : Facts), DistinctKeys acc →
    DistinctKeys (ks.foldl
      (fun acc key => if shouldRemove key (lookupKey acc key) then eraseKey acc key else acc)
      acc)
  | [], _, h => h
  | k :: ks, acc, h => by
    rw [List.foldl_cons]
    apply filterJunk_fold_distinct ks
    split
    · exact distinctKeys_eraseKey h k
    · exact h

/-- No entry with a visited junk key is left by the loop. -/
theorem filterJunk_fold_key : ∀ (ks : List Str) (acc : Facts) (e : Str × Prim),
    e ∈ ks.foldl
      (fun acc key => if shouldRemove key (lookupKey acc key) then eraseKey acc key else acc)
      acc → e.1 ∈ ks → junkKey e.1 = false
  | [], _, _, _, hk => by simp at hk
  | k :: ks, acc, e, h, hk => by
    rw [List.foldl_cons] at h
    by_cases hek : e.1 = k
    · cases hj : junkKey e.1 with
      | false => rfl
      | true =>
        exfalso
        have hmem := filterJunk_fold_subset ks _ e h
        rw [shouldRemove_eq, ← hek, hj, Bool.true_or] at hmem
        simp only [↓reduceIte] at hmem
        exact (mem_eraseKey.mp hmem).2 rfl
    · rcases List.mem_cons.mp hk with h1 | h1
      · exact absurd h1 hek
      · exact filterJunk_fold_key ks _ e h h1

/-- When the keys are distinct, no visited entry with a junk value is left by the loop. -/
theorem filterJunk_fold_value : ∀ (ks : List Str) (acc : Facts) (e : Str × Prim),
    DistinctKeys acc →
    e ∈ ks.foldl
      (fun acc key => if shouldRemove key (lookupKey acc key) then eraseKey acc key else acc)
      acc → e.1 ∈ ks → junkValue e.2 = false
  | [], _, _, _, _, hk => by simp at hk
  | k :: ks, acc, e, hd, h, hk => by
    rw [List.foldl_cons] at h
    have hd' : DistinctKeys
        (if shouldRemove k (lookupKey acc k) then eraseKey acc k else acc) := by
      split
      · exact distinctKeys_eraseKey hd k
      · exact hd
    by_cases hek : e.1 = k
    · cases hj : junkValue e.2 with
      | false => rfl
      | true =>
        exfalso
        have hmem := filterJunk_fold_subset ks _ e h
        have hacc : e ∈ acc := by
          split at hmem
          · exact (mem_eraseKey.mp hmem).1
          · exact hmem
        have hl := lookupKey_of_mem hd hacc
        rw [shouldRemove_eq, ← hek, hl, hj, Bool.or_true] at hmem
        simp only [↓reduceIte] at hmem
        exact (mem_eraseKey.mp hmem).2 rfl
    · rcases List.mem_cons.mp hk with h1 | h1
      · exact absurd h1 hek
      · exact filterJunk_fold_value ks _ e hd' h h1

/-- The loop changes nothing when no visited key is to be removed. -/
theorem filterJunk_fold_eq_self : ∀ (ks : List Str) (acc : Facts),
    (∀ k ∈ ks, shouldRemove k (lookupKey acc k) = false) →
    ks.foldl
      (fun acc key => if shouldRemove key (lookupKey acc key) then eraseKey acc key else acc)
      acc = acc
  | [], _, _ => rfl
  | k :: ks, acc, h => by
    rw [List.foldl_cons, h k (List.mem_cons_self _ _)]
    simp only [Bool.false_eq_true, ↓reduceIte]
    exact filterJunk_fold_eq_self ks acc fun k' hk' => h k' (List.mem_cons_of_mem _ hk')

/-- Every entry that the junk filter leaves was there before, and its key is not junk. -/
theorem mem_filterJunk {facts : Facts} {e : Str × Prim} (h : e ∈ filterJunk facts) :
    e ∈ facts ∧ junkKey e.1 = false := by
  have hmem := filterJunk_fold_subset _ _ e h
  exact ⟨hmem, filterJunk_fold_key _ _ e h (List.mem_map_of_mem _ hmem)⟩

/-- On an object, no entry that the junk filter leaves has a junk value. -/
theorem mem_filterJunk_value {facts : Facts} (hd : DistinctKeys facts) {e : Str × Prim}
    (h : e ∈ filterJunk facts) : junkValue e.2 = false :=
  filterJunk_fold_value _ _ e hd h (List.mem_map_of_mem _ (filterJunk_fold_subset _ _ e h))

theorem distinctKeys_filterJunk {facts : Facts} (hd : DistinctKeys facts) :
    DistinctKeys (filterJunk facts) :=
  filterJunk_fold_distinct _ _ hd

/-- The junk filter leaves an object without junk as it is. -/
theorem filterJunk_eq_self {facts : Facts} (hd : DistinctKeys facts)
    (h : ∀ e ∈ facts, junkKey e.1 = false ∧ junkValue e.2 = false) :
    filterJunk facts = facts := by
  apply filterJunk_fold_eq_self
  intro k hk
  rw [List.mem_map] at hk
  obtain ⟨e, he, rfl⟩ := hk
  rw [shouldRemove_eq, lookupKey_of_mem hd he, (h e he).1, (h e he).2]
  rfl

/-! ## Keyword tests and the derived entries -/

theorem includes_iff : ∀ (hay needle : Str),
    includes hay needle = true ↔ ∃ pre post, hay = pre ++ (needle ++ post)
  | [], needle => by
    simp only [includes]
    constructor
    · intro h
      cases needle with
      | nil => exact ⟨[], [], rfl⟩
      | cons _ _ => simp [List.isPrefixOf] at h
    · rintro ⟨pre, post, h⟩
      have h1 := (List.append_eq_nil.mp h.symm).2
      rw [(List.append_eq_nil.mp h1).1]
      rfl
  | x :: xs, needle => by
    simp only [includes, Bool.or_eq_true, List.isPrefixOf_iff_prefix, includes_iff xs needle]
    constructor
    · rintro (⟨post, h⟩ | ⟨pre, post, h⟩)
      · exact ⟨[], post, h.symm⟩
      · exact ⟨x :: pre, post, by rw [h]; rfl⟩
    · rintro ⟨pre, post, h⟩
      cases pre with
      | nil => exact Or.inl ⟨post, h.symm⟩
      | cons y ys =>
        rw [List.cons_append, List.cons.injEq] at h
        exact Or.inr ⟨ys, post, h.2⟩

/-- A search succeeds exactly when the pattern matches at some position. -/
theorem Re.searchFrom_isSome (r : Re) (ci : Bool) (n : Nat) : ∀ (t : Str),
    (searchFrom r ci n t).isSome = true ↔ ∃ pre rest, t = pre ++ rest ∧ run ci n r rest ≠ []
  | [] => by
    simp only [searchFrom]
    constructor
    · intro h
      refine ⟨[], [], rfl, ?_⟩
      intro h0
      rw [h0] at h
      simp at h
    · rintro ⟨pre, rest, h, hne⟩
      have := (List.append_eq_nil.mp h.symm).2
      subst this
      cases hr : run ci n r [] with
      | nil => exact absurd hr hne
      | cons m ms => rfl
  | x :: xs => by
    simp only [searchFrom]
    cases hr : (run ci n r (x :: xs)).head? with
    | some m =>
      simp only [Option.isSome_some, true_iff]
      refine ⟨[], x :: xs, rfl, ?_⟩
      intro h0
      rw [h0] at hr
      simp at hr
    | none =>
      simp only [Re.searchFrom_isSome r ci n xs]
      have hnil : run ci n r (x :: xs) = [] := List.head?_eq_none_iff.mp hr
      constructor
      · rintro ⟨pre, rest, h, hne⟩
        exact ⟨x :: pre, rest, by rw [h]; rfl, hne⟩
      · rintro ⟨pre, rest, h, hne⟩
        cases pre with
        | nil =>
          rw [List.nil_append] at h
          rw [← h, hnil] at hne
          exact absurd rfl hne
        | cons y ys =>
          rw [List.cons_append, List.cons.injEq] at h
          exact ⟨ys, rest, h.2, hne⟩

/-- A pattern without capture groups is found in a text exactly when the text contains a word
of the language of the pattern. -/
theorem Re.test_iff_of_lang {r : Re} {ci : Bool} {P : Str → Prop} (h : ∀ n, Lang ci n r P)
    (s : Str) : r.test ci s = true ↔ ∃ pre x post, s = pre ++ (x ++ post) ∧ P x := by
  unfold test exec
  rw [Re.searchFrom_isSome]
  constructor
  · rintro ⟨pre, rest, hs, hne⟩
    obtain ⟨m, hm⟩ := List.exists_mem_of_ne_nil _ hne
    obtain ⟨x, hx, hrest, _⟩ := (h s.length rest m).mp hm
    exact ⟨pre, x, m.2, by rw [hs, hrest], hx⟩
  · rintro ⟨pre, x, post, hs, hx⟩
    refine ⟨pre, x ++ post, hs, ?_⟩
    have : (([] : List Str), post) ∈ run ci s.length r (x ++ post) :=
      (h s.length (x ++ post) ([], post)).mpr ⟨x, hx, rfl, rfl⟩
    exact List.ne_nil_of_mem this

/-- A literal with the `i` flag is found exactly in the texts that contain it, letter case
ignored. -/
theorem test_lit (w text : Str) : (Re.lit w).test true text = containsCi text w := by
  rw [Bool.eq_iff_iff, Re.test_iff_of_lang (fun n => Re.lang_lit n w), containsCi, includes_iff]
  constructor
  · rintro ⟨pre, x, post, hs, hx⟩
    refine ⟨pre.map upperChar, post.map upperChar, ?_⟩
    rw [hs, List.map_append, List.map_append, hx]
  · rintro ⟨pre, post, h⟩
    obtain ⟨a, b, hab, ha, hb⟩ := List.map_eq_append_iff.mp h
    obtain ⟨c, d, hcd, hc, hd⟩ := List.map_eq_append_iff.mp hb
    exact ⟨a, c, d, by rw [hab, hcd], hc⟩

/-- The property type is decided by the first keyword that the text contains. -/
theorem extractPropertyType_eq (text : Str) : extractPropertyType text = propertyTypeLaw text := by
  have hplot : plotRe.test true text
      = (containsCi text "Plot".toList || containsCi text "Land".toList) := by
    rw [Bool.eq_iff_iff, Bool.or_eq_true, ← test_lit, ← test_lit, plotRe,
      Re.test_iff_of_lang (fun n => Re.lang_alt (Re.lang_lit n _) (Re.lang_lit n _)),
      Re.test_iff_of_lang (fun n => Re.lang_lit n _),
      Re.test_iff_of_lang (fun n => Re.lang_lit n _)]
    constructor
    · rintro ⟨pre, x, post, hs, hx | hx⟩
      · exact Or.inl ⟨pre, x, post, hs, hx⟩
      · exact Or.inr ⟨pre, x, post, hs, hx⟩
    · rintro (⟨pre, x, post, hs, hx⟩ | ⟨pre, x, post, hs, hx⟩)
      · exact ⟨pre, x, post, hs, Or.inl hx⟩
      · exact ⟨pre, x, post, hs, Or.inr hx⟩
  unfold extractPropertyType propertyTypeLaw
  rw [hplot]
  simp only [villaRe, floorRe, studioRe, penthouseRe, test_lit]

/-- The derived entries are written under four keys, and the last write under a key is what
the record holds there. -/
theorem lookupKey_writeDerived_propertyType (raw : Raw) (facts : Facts) :
    lookupKey (writeDerived raw facts) "Property Type".toList
      = .str (extractPropertyType (combinedText raw)) := by
  unfold writeDerived
  simp only
  have h1 : ∀ (f : Facts) (v : Prim), lookupKey (setKey f "Project Amenities".toList v)
      "Property Type".toList = lookupKey f "Property Type".toList :=
    fun f v => lookupKey_setKey_ne f v (by decide)
  have h2 : ∀ (f : Facts) (v : Prim), lookupKey (setKey f "Bathrooms".toList v)
      "Property Type".toList = lookupKey f "Property Type".toList :=
    fun f v => lookupKey_setKey_ne f v (by decide)
  cases projectAmenities raw.features <;> cases bathRe.exec true (combinedText raw) <;>
    simp only [h1, h2, lookupKey_setKey_same]

theorem lookupKey_writeDerived_amenities {raw : Raw} {joined : Str} (facts : Facts)
    (h : projectAmenities raw.features = some joined) :
    lookupKey (writeDerived raw facts) "Project Amenities".toList = .str joined := by
  unfold writeDerived
  simp only [h, lookupKey_setKey_same]

theorem map_joinItem_str (ss : List Str) : (ss.map Prim.str).map joinItem = ss := by
  induction ss with
  | nil => rfl
  | cons s rest ih => simp only [List.map_cons, ih]; rfl

/-- The entries of the facts after the derived writes: the entries before them, or one of the
four derived entries. -/
theorem mem_writeDerived {raw : Raw} {facts : Facts} {e : Str × Prim}
    (h : e ∈ writeDerived raw facts) :
    e ∈ facts ∨
    e = ("Society".toList, .str (if optTruthy (extractSociety (combinedText raw)) then
        (extractSociety (combinedText raw)).getD [] else "N/A".toList)) ∨
    e = ("Property Type".toList, .str (extractPropertyType (combinedText raw))) ∨
    (∃ m, bathRe.exec true (combinedText raw) = some m ∧
      e = ("Bathrooms".toList, .str (m.getD 0 []))) ∨
    (∃ joined, projectAmenities raw.features = some joined ∧
      e = ("Project Amenities".toList, .str joined)) := by
  unfold writeDerived at h
  simp only at h
  have step1 : ∀ {f : Facts}, e ∈ setKey (setKey f "Society".toList
      (.str (if optTruthy (extractSociety (combinedText raw)) then
        (extractSociety (combinedText raw)).getD [] else "N/A".toList)))
      "Property Type".toList (.str (extractPropertyType (combinedText raw))) →
      e ∈ f ∨
      e = ("Society".toList, .str (if optTruthy (extractSociety (combinedText raw)) then
        (extractSociety (combinedText raw)).getD [] else "N/A".toList)) ∨
      e = ("Property Type".toList, .str (extractPropertyType (combinedText raw))) := by
    intro f hf
    rcases mem_setKey hf with h1 | ⟨h1, _⟩
    · exact Or.inr (Or.inr h1)
    · rcases mem_setKey h1 with h2 | ⟨h2, _⟩
      · exact Or.inr (Or.inl h2)
      · exact Or.inl h2
  cases hpa : projectAmenities raw.features with
  | none =>
    rw [hpa] at h
    cases hb : bathRe.exec true (combinedText raw) with
    | none =>
      rw [hb] at h
      rcases step1 h with h1 | h1 | h1
      · exact Or.inl h1
      · exact Or.inr (Or.inl h1)
      · exact Or.inr (Or.inr (Or.inl h1))
    | some m =>
      rw [hb] at h
      rcases mem_setKey h with h0 | ⟨h0, _⟩
      · exact Or.inr (Or.inr (Or.inr (Or.inl ⟨m, rfl, h0⟩)))
      · rcases step1 h0 with h1 | h1 | h1
        · exact Or.inl h1
        · exact Or.inr (Or.inl h1)
        · exact Or.inr (Or.inr (Or.inl h1))
  | some joined =>
    rw [hpa] at h
    rcases mem_setKey h with hj | ⟨hj, _⟩
    · exact Or.inr (Or.inr (Or.inr (Or.inr ⟨joined, rfl, hj⟩)))
    · cases hb : bathRe.exec true (combinedText raw) with
      | none =>
        rw [hb] at hj
        rcases step1 hj with h1 | h1 | h1
        · exact Or.inl h1
        · exact Or.inr (Or.inl h1)
        · exact Or.inr (Or.inr (Or.inl h1))
      | some m =>
        rw [hb] at hj
        rcases mem_setKey hj with h0 | ⟨h0, _⟩
        · exact Or.inr (Or.inr (Or.inr (Or.inl ⟨m, rfl, h0⟩)))
        · rcases step1 h0 with h1 | h1 | h1
          · exact Or.inl h1
          · exact Or.inr (Or.inl h1)
          · exact Or.inr (Or.inr (Or.inl h1))

/-- None of the four derived keys is a junk key. -/
theorem derived_keys_not_junk :
    junkKey "Society".toList = false ∧ junkKey "Property Type".toList = false ∧
      junkKey "Bathrooms".toList = false ∧ junkKey "Project Amenities".toList = false := by
  decide

/-! ## Captures -/

/-- A match of a pattern without capture groups has no captures. -/
theorem Re.capFree_run (ci : Bool) (n : Nat) : ∀ (r : Re) (s : Str) (m : List Str × Str),
    r.capFree = true → m ∈ run ci n r s → m.1 = []
  | eps, s, m, _, h => by
    simp only [run, List.mem_singleton] at h
    rw [h]
  | chr c, s, m, _, h => (Re.mem_run_chr.mp h).choose_spec.2.2
  | cls p, s, m, _, h => (Re.mem_run_cls.mp h).choose_spec.2.2
  | bos, s, m, _, h => by
    simp only [run] at h
    split at h
    · rw [List.mem_singleton] at h
      rw [h]
    · simp at h
  | eos, s, m, _, h => by
    simp only [run] at h
    split at h
    · rw [List.mem_singleton] at h
      rw [h]
    · simp at h
  | seq a b, s, m, hc, h => by
    simp only [capFree, Bool.and_eq_true] at hc
    obtain ⟨m1, h1, m2, h2, rfl⟩ := Re.mem_run_seq.mp h
    simp only [Re.capFree_run ci n a s m1 hc.1 h1, Re.capFree_run ci n b m1.2 m2 hc.2 h2,
      List.append_nil]
  | alt a b, s, m, hc, h => by
    simp only [capFree, Bool.and_eq_true] at hc
    rcases Re.mem_run_alt.mp h with h1 | h1
    · exact Re.capFree_run ci n a s m hc.1 h1
    · exact Re.capFree_run ci n b s m hc.2 h1
  | star p, s, m, _, h => by
    obtain ⟨_, _, _, h3⟩ := Re.mem_run_star.mp h
    exact h3
  | opt a, s, m, hc, h => by
    simp only [capFree] at hc
    rcases Re.mem_run_opt.mp h with h1 | h1
    · exact Re.capFree_run ci n a s m hc h1
    · rw [h1]
  | cap a, s, m, hc, _ => by simp [capFree] at hc

/-- A search that succeeds reports the first match at some position of the text. -/
theorem Re.searchFrom_some (r : Re) (ci : Bool) (n : Nat) : ∀ (t : Str) (caps : List Str),
    searchFrom r ci n t = some caps →
      ∃ pre rest m, t = pre ++ rest ∧ (run ci n r rest).head? = some m ∧ m.1 = caps
  | [], caps, h => by
    simp only [searchFrom, Option.map_eq_some'] at h
    obtain ⟨m, hm, hc⟩ := h
    exact ⟨[], [], m, rfl, hm, hc⟩
  | x :: xs, caps, h => by
    simp only [searchFrom] at h
    cases hr : (run ci n r (x :: xs)).head? with
    | some m =>
      rw [hr] at h
      simp only [Option.some.injEq] at h
      exact ⟨[], x :: xs, m, rfl, hr, h⟩
    | none =>
      rw [hr] at h
      obtain ⟨pre, rest, m, ht, hm, hc⟩ := Re.searchFrom_some r ci n xs caps h
      exact ⟨x :: pre, rest, m, by rw [ht]; rfl, hm, hc⟩

/-- The captures of a pattern that starts with its only capture group. -/
theorem Re.caps_of_cap_seq {ci : Bool} {n : Nat} {a b : Re} {P : Str → Prop}
    (ha : Lang ci n a P) (hb : b.capFree = true) {s : Str} {m : List Str × Str}
    (h : m ∈ run ci n (seq (cap a) b) s) : ∃ x, P x ∧ m.1 = [x] := by
  obtain ⟨m1, h1, m2, h2, rfl⟩ := Re.mem_run_seq.mp h
  obtain ⟨x, hx, _, hm1⟩ := (Re.mem_run_cap_lang ha).mp h1
  exact ⟨x, hx, by simp only [hm1, Re.capFree_run ci n b _ m2 hb h2, List.append_nil]⟩

/-- The captures of a pattern that starts with a part without capture groups. -/
theorem Re.caps_of_free_seq {ci : Bool} {n : Nat} {a b : Re} (ha : a.capFree = true)
    {s : Str} {m : List Str × Str} (h : m ∈ run ci n (seq a b) s) :
    ∃ s' m2, m2 ∈ run ci n b s' ∧ m.1 = m2.1 := by
  obtain ⟨m1, h1, m2, h2, rfl⟩ := Re.mem_run_seq.mp h
  exact ⟨m1.2, m2, h2, by simp only [Re.capFree_run ci n a s m1 ha h1, List.nil_append]⟩

/-- What `match` returns for the bathrooms pattern is a non-empty run of digits. -/
theorem bathRe_capture {text : Str} {m : List Str} (h : bathRe.exec true text = some m) :
    ∃ ds, m = [ds] ∧ ds ≠ [] ∧ ∀ c ∈ ds, isDigit c = true := by
  obtain ⟨_, rest, m', _, hm, rfl⟩ := Re.searchFrom_some _ _ _ _ _ h
  obtain ⟨x, hx, hcap⟩ := Re.caps_of_cap_seq (Re.lang_plus true text.length isDigit) (by rfl)
    (List.mem_of_mem_head? hm)
  exact ⟨x, hcap, hx.1, hx.2⟩

/-- What `match` returns for the society pattern is a non-empty run of letters, digits and
white space. -/
theorem societyRe_capture {text : Str} {m : List Str} (h : societyRe.exec true text = some m) :
    ∃ x, m = [x] ∧ x ≠ [] ∧ ∀ c ∈ x, (isAlpha c || isDigit c || isSpace c) = true := by
  obtain ⟨_, rest, m', _, hm, rfl⟩ := Re.searchFrom_some _ _ _ _ _ h
  obtain ⟨_, m2, h2, e2⟩ := Re.caps_of_free_seq (by rfl) (List.mem_of_mem_head? hm)
  obtain ⟨_, m3, h3, e3⟩ := Re.caps_of_free_seq (by rfl) h2
  obtain ⟨x, hx, hcap⟩ := Re.caps_of_cap_seq
    (Re.lang_plus true text.length fun c => isAlpha c || isDigit c || isSpace c) (by rfl) h3
  exact ⟨x, by rw [e2, e3, hcap], hx.1, hx.2⟩

theorem mem_of_mem_trim {c : Char} {s : Str} (h : c ∈ trim s) : c ∈ s := by
  unfold trim at h
  rw [List.mem_reverse] at h
  have := (List.dropWhile_sublist _).subset h
  rw [List.mem_reverse] at this
  exact (List.dropWhile_sublist _).subset this

/-- A junk value contains a vertical bar. -/
theorem bar_mem_of_junkValue {v : Str} (h : junkValue (.str v) = true) : '|' ∈ v := by
  simp only [junkValue, Bool.or_eq_true, includes_iff] at h
  rcases h with ⟨pre, post, h⟩ | ⟨pre, post, h⟩ <;>
    (rw [h]; simp)

/-- The society name has no vertical bar. -/
theorem extractSociety_no_bar {text candidate : Str}
    (h : extractSociety text = some candidate) : '|' ∉ candidate := by
  unfold extractSociety at h
  cases hs : societyRe.exec true text with
  | none => simp [hs] at h
  | some m =>
    obtain ⟨x, rfl, _, hx⟩ := societyRe_capture hs
    simp only [hs, List.getD_cons_zero] at h
    split at h
    · split at h
      · simp only [Option.some.injEq] at h
        intro hbar
        rw [← h] at hbar
        have := hx _ (mem_of_mem_trim hbar)
        exact absurd this (by decide)
      · simp at h
    · simp at h

/-- The property type is one of six words, none of which has a vertical bar. -/
theorem extractPropertyType_no_bar (text : Str) : '|' ∉ extractPropertyType text := by
  unfold extractPropertyType
  split_ifs <;> decide

/-! ## The first match, and the sector pattern -/

theorem Re.head?_run_seq {ci : Bool} {n : Nat} {a b : Re} {s : Str} {m1 m2 : List Str × Str}
    (h1 : (run ci n a s).head? = some m1) (h2 : (run ci n b m1.2).head? = some m2) :
    (run ci n (seq a b) s).head? = some (m1.1 ++ m2.1, m2.2) := by
  simp only [run]
  cases ha : run ci n a s with
  | nil => rw [ha] at h1; simp at h1
  | cons x xs =>
    rw [ha] at h1
    simp only [List.head?_cons, Option.some.injEq] at h1
    subst h1
    cases hb : run ci n b x.2 with
    | nil => rw [hb] at h2; simp at h2
    | cons y ys =>
      rw [hb] at h2
      simp only [List.head?_cons, Option.some.injEq] at h2
      subst h2
      simp [List.flatMap_cons, hb]

theorem Re.head?_run_lit {n : Nat} {w u : Str} (rest : Str) (h : CiEq u w) :
    (run true n (lit w) (u ++ rest)).head? = some ([], rest) := by
  apply Re.head?_run_of_unique (m := ([], rest)) (Re.mem_run_lit.mpr ⟨u, h, rfl, rfl⟩)
  intro m' hm'
  obtain ⟨u', hu', hs, hc⟩ := Re.mem_run_lit.mp hm'
  have hlen : u.length = u'.length := by
    have h1 := congrArg List.length h
    have h2 := congrArg List.length hu'
    simp only [List.length_map] at h1 h2
    omega
  have := (List.append_inj hs hlen).2
  exact Prod.ext hc this.symm

theorem Re.head?_starRuns {p : Char → Bool} : ∀ {xs : Str} (rest : Str),
    (∀ c ∈ xs, p c = true) → (∀ c, rest.head? = some c → p c = false) →
    (starRuns p (xs ++ rest)).head? = some ([], rest)
  | [], rest, _, hr => by
    cases rest with
    | nil => rfl
    | cons c t =>
      have := hr c rfl
      simp [starRuns, this]
  | x :: xs, rest, hx, hr => by
    have hpx : p x = true := hx x (List.mem_cons_self _ _)
    have ih := @Re.head?_starRuns p xs rest
      (fun c hc => hx c (List.mem_cons_of_mem _ hc)) hr
    simp only [List.cons_append, starRuns, hpx, ↓reduceIte]
    cases hs : starRuns p (xs ++ rest) with
    | nil => rw [hs] at ih; simp at ih
    | cons y ys =>
      rw [hs] at ih
      simpa using ih

theorem Re.head?_run_star {ci : Bool} {n : Nat} {p : Char → Bool} {xs : Str} (rest : Str)
    (hx : ∀ c ∈ xs, p c = true) (hr : ∀ c, rest.head? = some c → p c = false) :
    (run ci n (star p) (xs ++ rest)).head? = some ([], rest) := by
  simp only [run]
  exact Re.head?_starRuns rest hx hr

theorem Re.head?_run_plus {ci : Bool} {n : Nat} {p : Char → Bool} {xs : Str} (rest : Str)
    (hne : xs ≠ []) (hx : ∀ c ∈ xs, p c = true) (hr : ∀ c, rest.head? = some c → p c = false) :
    (run ci n (plus p) (xs ++ rest)).head? = some ([], rest) := by
  cases xs with
  | nil => exact absurd rfl hne
  | cons x xs =>
    have hpx : p x = true := hx x (List.mem_cons_self _ _)
    have h1 : (run ci n (cls p) (x :: xs ++ rest)).head? = some ([], xs ++ rest) := by
      simp [run, hpx]
    have h2 : (run ci n (star p) (xs ++ rest)).head? = some ([], rest) :=
      Re.head?_run_star rest (fun c hc => hx c (List.mem_cons_of_mem _ hc)) hr
    exact Re.head?_run_seq h1 h2

theorem Re.head?_run_cap {ci : Bool} {n : Nat} {a : Re} {s : Str} {m : List Str × Str}
    (h : (run ci n a s).head? = some m) :
    (run ci n (cap a) s).head? = some (s.take (s.length - m.2.length) :: m.1, m.2) := by
  simp only [run]
  cases ha : run ci n a s with
  | nil => rw [ha] at h; simp at h
  | cons x xs =>
    rw [ha] at h
    simp only [List.head?_cons, Option.some.injEq] at h
    subst h
    rfl

/-- The optional letter: taken when a letter follows. -/
theorem Re.head?_run_opt_cls {ci : Bool} {n : Nat} {p : Char → Bool} {l : Str} (post : Str)
    (hl : l = [] ∨ ∃ c, l = [c] ∧ p c = true)
    (hg : l = [] → ∀ c, post.head? = some c → p c = false) :
    (run ci n (opt (cls p)) (l ++ post)).head? = some ([], post) := by
  rcases hl with rfl | ⟨c, rfl, hc⟩
  · cases post with
    | nil => rfl
    | cons c t =>
      have := hg rfl c rfl
      simp [run, this]
  · simp [run, hc]

/-- The first match of the sector pattern at a position where it matches greedily. -/
theorem head?_run_sectorRe {n : Nat} {w ws ds l post : Str} (hw : CiEq w "Sector".toList)
    (hs : ∀ c ∈ ws, isSpace c = true) (hd : ds ≠ [] ∧ ∀ c ∈ ds, isDigit c = true)
    (hl : l = [] ∨ ∃ c, l = [c] ∧ isAlpha c = true) (hg : SectorGreedy l post) :
    (Re.run true n sectorRe (w ++ (ws ++ (ds ++ (l ++ post))))).head?
      = some ([ds ++ l], post) := by
  have h1 := Re.head?_run_lit (n := n) (ws ++ (ds ++ (l ++ post))) hw
  have hdhead : ∀ c, (ds ++ (l ++ post)).head? = some c → isSpace c = false := by
    intro c hc
    cases ds with
    | nil => exact absurd rfl hd.1
    | cons d ds' =>
      simp only [List.cons_append, List.head?_cons, Option.some.injEq] at hc
      subst hc
      exact isSpace_of_isDigit (hd.2 _ (List.mem_cons_self _ _))
  have h2 : (Re.run true n (.star isSpace) (ws ++ (ds ++ (l ++ post)))).head?
      = some ([], ds ++ (l ++ post)) := Re.head?_run_star _ hs hdhead
  have h3 : (Re.run true n (.plus isDigit) (ds ++ (l ++ post))).head? = some ([], l ++ post) :=
    Re.head?_run_plus _ hd.1 hd.2 hg.1
  have h4 : (Re.run true n (.opt (.cls isAlpha)) (l ++ post)).head? = some ([], post) :=
    Re.head?_run_opt_cls post hl hg.2
  have h5 := Re.head?_run_cap (Re.head?_run_seq h3 h4)
  have h6 := Re.head?_run_seq h1 (Re.head?_run_seq h2 h5)
  have htake : (ds ++ (l ++ post)).take ((ds ++ (l ++ post)).length - post.length) = ds ++ l := by
    have : (ds ++ (l ++ post)).length - post.length = (ds ++ l).length := by
      simp only [List.length_append]
      omega
    rw [this, ← List.append_assoc, List.take_left']
    rfl
  simp only [List.nil_append, List.append_nil] at h6
  rw [htake] at h6
  exact h6

/-- Every match of the sector pattern has the shape of `SectorMatchAt`. -/
theorem mem_run_sectorRe {n : Nat} {s : Str} {m : List Str × Str}
    (h : m ∈ Re.run true n sectorRe s) :
    ∃ w ws ds l post, s = w ++ (ws ++ (ds ++ (l ++ post))) ∧ CiEq w "Sector".toList ∧
      (∀ c ∈ ws, isSpace c = true) ∧ (ds ≠ [] ∧ ∀ c ∈ ds, isDigit c = true) ∧
      (l = [] ∨ ∃ c, l = [c] ∧ isAlpha c = true) := by
  obtain ⟨m1, h1, m2, h2, _⟩ := Re.mem_run_seq.mp h
  obtain ⟨w, hw, hs1, _⟩ := Re.mem_run_lit.mp h1
  obtain ⟨m3, h3, m4, h4, rfl⟩ := Re.mem_run_seq.mp h2
  obtain ⟨ws, hws, hs2, _⟩ := Re.mem_run_star.mp h3
  obtain ⟨x, hx, hs3, _⟩ := (Re.mem_run_cap_lang
    (Re.lang_seq (Re.lang_plus true n isDigit) (Re.lang_opt (Re.lang_cls true n isAlpha)))).mp h4
  obtain ⟨ds, l, rfl, hds, hl⟩ := hx
  refine ⟨w, ws, ds, l, m4.2, ?_, hw, hws, hds, ?_⟩
  · rw [hs1, hs2, hs3, List.append_assoc]
  · rcases hl with ⟨c, hc, hp⟩ | hl
    · exact Or.inr ⟨c, hc, hp⟩
    · exact Or.inl hl

/-- The sector pattern reports the leftmost match, taken greedily. -/
theorem extractSector_of_leftmost {text pre w ws ds l post : Str}
    (hm : SectorMatchAt text pre w ws ds l post) (hg : SectorGreedy l post)
    (hleft : ∀ pre' w' ws' ds' l' post', SectorMatchAt text pre' w' ws' ds' l' post' →
      pre.length ≤ pre'.length) :
    extractSector text = some ("Sector ".toList ++ (ds ++ l)) := by
  obtain ⟨ht, hw, hs, hd, hl⟩ := hm
  have hexec : sectorRe.exec true text = some [ds ++ l] := by
    unfold Re.exec
    rw [ht]
    apply Re.searchFrom_append sectorRe true _ _ ([ds ++ l], post)
      (head?_run_sectorRe hw hs hd hl hg)
    intro k hk
    cases hr : Re.run true (pre ++ (w ++ (ws ++ (ds ++ (l ++ post))))).length sectorRe
        (pre.drop k ++ (w ++ (ws ++ (ds ++ (l ++ post))))) with
    | nil => rfl
    | cons m t =>
      exfalso
      have hmem : m ∈ Re.run true (pre ++ (w ++ (ws ++ (ds ++ (l ++ post))))).length sectorRe
          (pre.drop k ++ (w ++ (ws ++ (ds ++ (l ++ post))))) := by
        rw [hr]; exact List.mem_cons_self _ _
      obtain ⟨w', ws', ds', l', post', hs', hw', hws', hd', hl'⟩ := mem_run_sectorRe hmem
      have := hleft (pre.take k) w' ws' ds' l' post'
        ⟨by rw [ht, ← hs', ← List.append_assoc (pre.take k), List.take_append_drop],
          hw', hws', hd', hl'⟩
      rw [List.length_take] at this
      omega
  simp only [extractSector, hexec, List.getD_cons_zero]

/-- Without a match of the sector pattern there is no sector. -/
theorem extractSector_eq_none {text : Str}
    (h : ∀ pre w ws ds l post, ¬ SectorMatchAt text pre w ws ds l post) :
    extractSector text = none := by
  have hexec : sectorRe.exec true text = none := by
    unfold Re.exec
    apply Re.searchFrom_eq_none
    intro k _
    cases hr : Re.run true text.length sectorRe (text.drop k) with
    | nil => rfl
    | cons m t =>
      exfalso
      have hmem : m ∈ Re.run true text.length sectorRe (text.drop k) := by
        rw [hr]; exact List.mem_cons_self _ _
      obtain ⟨w, ws, ds, l, post, hs, hw, hws, hd, hl⟩ := mem_run_sectorRe hmem
      exact h (text.take k) w ws ds l post
        ⟨by rw [← hs, List.take_append_drop], hw, hws, hd, hl⟩
  simp only [extractSector, hexec]

/-! ## Address, city, title and images -/

theorem cleanText_of_falsy {p : Prim} (h : p.truthy = false) : cleanText p = [] := by
  simp [cleanText, h]

theorem cleanText_firstAvailable (a l d : Prim) :
    cleanText (if !(a.or l).truthy && d.truthy then d else a.or l)
      = cleanText (firstAvailable [a, l, d]) := by
  unfold firstAvailable firstAvailable firstAvailable firstAvailable Prim.or
  have hu : Prim.undefined.truthy = false := rfl
  cases ha : a.truthy <;> cases hl : l.truthy <;> cases hd : d.truthy <;>
    simp [cleanText, ha, hl, hd, hu]

theorem cleanText_firstAvailable_none (a l : Prim) :
    cleanText (a.or l) = cleanText (firstAvailable [a, l, .undefined]) := by
  unfold firstAvailable firstAvailable firstAvailable firstAvailable Prim.or
  have hu : Prim.undefined.truthy = false := rfl
  cases ha : a.truthy <;> cases hl : l.truthy <;> simp [cleanText, ha, hl, hu]

/-- The address of line 124 is the address `A` of the specification. -/
theorem initialAddress_eq (raw : Raw) : initialAddress raw = resolvedAddress raw := by
  have key : cleanText (rawAddress raw) = cleanText (firstAvailable [raw.address, raw.locality,
      match raw.dynamic_facts with
      | some facts => lookupKey facts "Address".toList
      | none => .undefined]) := by
    unfold rawAddress
    cases raw.dynamic_facts with
    | none => exact cleanText_firstAvailable_none _ _
    | some facts => exact cleanText_firstAvailable _ _ _
  unfold initialAddress resolvedAddress
  simp only [key]

theorem resolvedAddress_ne_nil (raw : Raw) : resolvedAddress raw ≠ [] := by
  unfold resolvedAddress
  simp only
  split
  · decide
  · rename_i h
    intro h0
    rw [h0] at h
    exact h rfl

/-- The address that the title parser leaves. -/
theorem parseTitle_address {raw : Raw} {bhk : Str} {society : Option Str}
    {t : Str × Option Str × Str} (ht : raw.title.Textual)
    (h : parseTitle raw bhk society (resolvedAddress raw) = .ok t) :
    t.2.2 = addressBase raw := by
  have hna : missingOrNA (some (resolvedAddress raw))
      = (resolvedAddress raw == "N/A".toList) := by
    have hne := resolvedAddress_ne_nil raw
    have hemp : (resolvedAddress raw).isEmpty = false := by
      cases hr : resolvedAddress raw with
      | nil => exact absurd hr hne
      | cons c cs => rfl
    simp only [missingOrNA, hemp, Bool.false_or]
  unfold parseTitle at h
  unfold addressBase titleAddress
  rcases ht with hf | ⟨s, hs⟩
  · simp only [hf, Bool.not_false, ↓reduceIte, Except.ok.injEq] at h
    rw [← h]
    cases htitle : raw.title with
    | str s =>
      rw [htitle] at hf
      have : s.isEmpty = true := by simpa [Prim.truthy] using hf
      simp [this]
    | _ => simp
  · rw [hs] at h ⊢
    cases s with
    | nil =>
      simp only [Prim.truthy, List.isEmpty_nil, Bool.not_true, Bool.not_false, ↓reduceIte,
        Except.ok.injEq] at h
      rw [← h]
      simp
    | cons c cs =>
      simp only [Prim.truthy, List.isEmpty_cons, Bool.not_false, Bool.not_true,
        Bool.false_eq_true, ↓reduceIte, Prim.asString] at h
      simp only [List.isEmpty_cons, Bool.false_eq_true, ↓reduceIte]
      split at h
      · rename_i hlen
        simp only [hlen, ↓reduceIte]
        split at h
        · rename_i i hi
          simp only [Except.ok.injEq] at h
          rw [← h]
          simp only [hna]
          by_cases hA : resolvedAddress raw = "N/A".toList <;> simp [hA, hi]
        · rename_i hi
          simp only [Except.ok.injEq] at h
          rw [← h]
          simp [hi]
      · rename_i hlen
        simp only [Except.ok.injEq] at h
        rw [← h]
        simp [hlen]

theorem includes_append_right (hay a b : Str) (h : includes hay (a ++ b) = true) :
    includes hay b = true := by
  rw [includes_iff] at h ⊢
  obtain ⟨pre, post, h⟩ := h
  exact ⟨pre ++ a, post, by rw [h]; simp⟩

theorem or_empty_asString_eq {p : Prim} (h : p.Textual) :
    (p.or (.str [])).asString = .ok (p.or (.str [])).toStr := by
  rcases h with h | ⟨s, rfl⟩
  · simp [Prim.or, h, Prim.asString, Prim.toStr]
  · by_cases hs : (Prim.str s).truthy = true <;> simp [Prim.or, hs, Prim.asString, Prim.toStr]

/-- The test for "new delhi" adds nothing to the test for "delhi". -/
theorem inferCity_eq {raw : Raw} (h : raw.property_name.Textual) :
    inferCity (resolvedAddress raw) raw = .ok (cityLaw (cityText raw)) := by
  unfold inferCity
  rw [or_empty_asString_eq h]
  simp only [cityLaw, cityText]
  have hnew : ∀ t, (includes t "delhi".toList || includes t "new delhi".toList)
      = includes t "delhi".toList := by
    intro t
    cases hd : includes t "delhi".toList with
    | true => rfl
    | false =>
      cases hn : includes t "new delhi".toList with
      | false => rfl
      | true =>
        have := includes_append_right t "new ".toList "delhi".toList hn
        rw [hd] at this
        exact absurd this (by simp)
  rw [hnew]

theorem cityLaw_mem (t : Str) : cityLaw t ∈ cityNames := by
  unfold cityLaw
  split_ifs <;> decide

theorem bne_eq_not_decide (a b : Str) : (a != b) = !decide (a = b) := by
  by_cases h : a = b
  · subst h
    simp
  · simp [h]

theorem extractPropertyType_ne_nil (text : Str) : (extractPropertyType text).isEmpty = false := by
  unfold extractPropertyType
  split_ifs <;> rfl

theorem keepImage_str (s : Str) : keepImage (.str s) = .ok (imageKept s) := by
  unfold keepImage imageKept
  cases s with
  | nil => rfl
  | cons c cs =>
    simp only [Prim.truthy, List.isEmpty_cons, Bool.not_false, Bool.not_true, Bool.false_eq_true,
      ↓reduceIte, Prim.asString, Bool.true_and]
    cases h1 : (validExtensions.any fun ext => includes (toLowerCase (c :: cs)) ext) <;>
      cases h2 : startsWith (toLowerCase (c :: cs)) "http".toList <;>
      cases h3 : (junkKeywords.any fun keyword =>
        includes (toLowerCase (c :: cs)) (toLowerCase keyword)) <;> rfl

theorem filterImages_strs : ∀ (xs : List Str),
    filterImages (xs.map Prim.str) = .ok ((xs.filter imageKept).map Prim.str)
  | [] => rfl
  | s :: rest => by
    simp only [List.map_cons, filterImages, keepImage_str, filterImages_strs rest,
      List.filter_cons]
    cases imageKept s <;> rfl

/-! ## A second call -/

theorem lookupKey_eraseKey_ne (facts : Facts) {key key' : Str} (hne : key ≠ key') :
    lookupKey (eraseKey facts key') key = lookupKey facts key := by
  unfold lookupKey eraseKey
  induction facts with
  | nil => rfl
  | cons e rest ih =>
    simp only [List.filter_cons, List.find?_cons]
    cases h1 : (e.1 == key') with
    | true =>
      have h2 : (e.1 == key) = false := by
        have : e.1 = key' := by simpa using h1
        rw [this]
        simpa using fun h => hne h.symm
      simp only [Bool.not_true, Bool.false_eq_true, ↓reduceIte, h2]
      exact ih
    | false =>
      simp only [Bool.not_false, ↓reduceIte, List.find?_cons]
      cases (e.1 == key)
      · exact ih
      · rfl

/-- The loop of the junk filter leaves the value under a key that it does not remove. -/
theorem filterJunk_fold_lookup {key : Str} : ∀ (ks : List Str) (acc : Facts),
    shouldRemove key (lookupKey acc key) = false →
    lookupKey (ks.foldl
      (fun acc key => if shouldRemove key (lookupKey acc key) then eraseKey acc key else acc)
      acc) key = lookupKey acc key
  | [], _, _ => rfl
  | k :: ks, acc, h => by
    rw [List.foldl_cons]
    by_cases hk : shouldRemove k (lookupKey acc k) = true
    · have hne : key ≠ k := by
        intro heq
        rw [← heq, h] at hk
        exact absurd hk (by simp)
      simp only [hk, ↓reduceIte]
      have hl := lookupKey_eraseKey_ne acc hne
      rw [filterJunk_fold_lookup ks (eraseKey acc k) (by rw [hl]; exact h), hl]
    · simp only [hk, Bool.false_eq_true, ↓reduceIte]
      exact filterJunk_fold_lookup ks acc h

theorem lookupKey_filterJunk {facts : Facts} {key : Str}
    (h : shouldRemove key (lookupKey facts key) = false) :
    lookupKey (filterJunk facts) key = lookupKey facts key :=
  filterJunk_fold_lookup _ _ h

/-- The derived writes leave the value under every key other than the four derived ones. -/
theorem lookupKey_writeDerived_other (raw : Raw) (facts : Facts) {key : Str}
    (h1 : key ≠ "Society".toList) (h2 : key ≠ "Property Type".toList)
    (h3 : key ≠ "Bathrooms".toList) (h4 : key ≠ "Project Amenities".toList) :
    lookupKey (writeDerived raw facts) key = lookupKey facts key := by
  unfold writeDerived
  simp only
  cases projectAmenities raw.features <;> cases bathRe.exec true (combinedText raw) <;>
    simp only [lookupKey_setKey_ne _ _ h1, lookupKey_setKey_ne _ _ h2,
      lookupKey_setKey_ne _ _ h3, lookupKey_setKey_ne _ _ h4]

theorem derived_keys_ne :
    "Society".toList ≠ "Property Type".toList ∧ "Society".toList ≠ "Bathrooms".toList ∧
    "Society".toList ≠ "Project Amenities".toList ∧
    "Property Type".toList ≠ "Bathrooms".toList ∧
    "Property Type".toList ≠ "Project Amenities".toList ∧
    "Bathrooms".toList ≠ "Project Amenities".toList := by decide

theorem mem_setKey_self (facts : Facts) (key : Str) (value : Prim) :
    (key, value) ∈ setKey facts key value := by
  unfold setKey
  split
  · rename_i hany
    rw [List.any_eq_true] at hany
    obtain ⟨e, he, hk⟩ := hany
    rw [List.mem_map]
    exact ⟨e, he, by simp [hk]⟩
  · simp

theorem mem_setKey_of_ne {facts : Facts} {key : Str} (value : Prim) {e : Str × Prim}
    (he : e ∈ facts) (hne : e.1 ≠ key) : e ∈ setKey facts key value := by
  unfold setKey
  split
  · rw [List.mem_map]
    exact ⟨e, he, by simp [hne]⟩
  · exact List.mem_append_left _ he

/-- Writing the value that an object already holds under a key changes nothing. -/
theorem setKey_eq_self {facts : Facts} (hd : DistinctKeys facts) {key : Str} {value : Prim}
    (h : (key, value) ∈ facts) : setKey facts key value = facts := by
  unfold setKey
  have hany : (facts.any fun e => e.1 == key) = true := by
    rw [List.any_eq_true]
    exact ⟨_, h, by simp⟩
  simp only [hany, ↓reduceIte]
  conv_rhs => rw [← List.map_id facts]
  apply List.map_congr_left
  intro e he
  by_cases hk : e.1 = key
  · have h1 := lookupKey_of_mem hd he
    have h2 := lookupKey_of_mem hd h
    simp only at h2
    rw [hk, h2] at h1
    simp only [hk, beq_self_eq_true, ↓reduceIte, id]
    exact Prod.ext hk.symm h1
  · simp [hk]

theorem distinctKeys_writeDerived {facts : Facts} (hd : DistinctKeys facts) (raw : Raw) :
    DistinctKeys (writeDerived raw facts) := by
  unfold writeDerived
  simp only
  cases projectAmenities raw.features <;> cases bathRe.exec true (combinedText raw) <;>
    simp only <;> repeat apply distinctKeys_setKey
  all_goals exact hd

theorem society_mem_writeDerived (raw : Raw) (facts : Facts) :
    ("Society".toList, Prim.str (if optTruthy (extractSociety (combinedText raw)) then
        (extractSociety (combinedText raw)).getD [] else "N/A".toList))
      ∈ writeDerived raw facts := by
  unfold writeDerived
  simp only
  have h0 := mem_setKey_self facts "Society".toList
    (Prim.str (if optTruthy (extractSociety (combinedText raw)) then
        (extractSociety (combinedText raw)).getD [] else "N/A".toList))
  have h1 := @mem_setKey_of_ne _ "Property Type".toList
    (.str (extractPropertyType (combinedText raw))) _ h0 derived_keys_ne.1
  cases projectAmenities raw.features <;> cases bathRe.exec true (combinedText raw) <;>
    simp only
  · exact h1
  · exact mem_setKey_of_ne _ h1 derived_keys_ne.2.1
  · exact mem_setKey_of_ne _ h1 derived_keys_ne.2.2.1
  · exact mem_setKey_of_ne _ (mem_setKey_of_ne _ h1 derived_keys_ne.2.1) derived_keys_ne.2.2.1

theorem type_mem_writeDerived (raw : Raw) (facts : Facts) :
    ("Property Type".toList, Prim.str (extractPropertyType (combinedText raw)))
      ∈ writeDerived raw facts := by
  unfold writeDerived
  simp only
  have h1 := mem_setKey_self (setKey facts "Society".toList
    (Prim.str (if optTruthy (extractSociety (combinedText raw)) then
        (extractSociety (combinedText raw)).getD [] else "N/A".toList)))
    "Property Type".toList (.str (extractPropertyType (combinedText raw)))
  cases projectAmenities raw.features <;> cases bathRe.exec true (combinedText raw) <;>
    simp only
  · exact h1
  · exact mem_setKey_of_ne _ h1 derived_keys_ne.2.2.2.1
  · exact mem_setKey_of_ne _ h1 derived_keys_ne.2.2.2.2.1
  · exact mem_setKey_of_ne _ (mem_setKey_of_ne _ h1 derived_keys_ne.2.2.2.1)
      derived_keys_ne.2.2.2.2.1

theorem bath_mem_writeDerived (raw : Raw) (facts : Facts) {m : List Str}
    (hm : bathRe.exec true (combinedText raw) = some m) :
    ("Bathrooms".toList, Prim.str (m.getD 0 [])) ∈ writeDerived raw facts := by
  unfold writeDerived
  simp only [hm]
  cases projectAmenities raw.features <;> simp only
  · exact mem_setKey_self _ _ _
  · exact mem_setKey_of_ne _ (mem_setKey_self _ _ _) derived_keys_ne.2.2.2.2.2

theorem amenities_mem_writeDerived (raw : Raw) (facts : Facts) {joined : Str}
    (hj : projectAmenities raw.features = some joined) :
    ("Project Amenities".toList, Prim.str joined) ∈ writeDerived raw facts := by
  unfold writeDerived
  simp only [hj]
  exact mem_setKey_self _ _ _

/-- The derived writes change nothing when they are repeated on their own result. -/
theorem writeDerived_idem {facts : Facts} (hd : DistinctKeys facts) (raw : Raw) :
    writeDerived raw (writeDerived raw facts) = writeDerived raw facts := by
  have hdg := distinctKeys_writeDerived hd raw
  have h1 := setKey_eq_self hdg (society_mem_writeDerived raw facts)
  have h2 := setKey_eq_self hdg (type_mem_writeDerived raw facts)
  have h3 : ∀ m, bathRe.exec true (combinedText raw) = some m →
      setKey (writeDerived raw facts) "Bathrooms".toList (.str (m.getD 0 []))
        = writeDerived raw facts :=
    fun m hm => setKey_eq_self hdg (bath_mem_writeDerived raw facts hm)
  have h4 : ∀ joined, projectAmenities raw.features = some joined →
      setKey (writeDerived raw facts) "Project Amenities".toList (.str joined)
        = writeDerived raw facts :=
    fun joined hj => setKey_eq_self hdg (amenities_mem_writeDerived raw facts hj)
  generalize writeDerived raw facts = g at h1 h2 h3 h4
  unfold writeDerived
  simp only [h1, h2]
  cases hj : projectAmenities raw.features with
  | none =>
    cases hm : bathRe.exec true (combinedText raw) with
    | none => rfl
    | some m => exact h3 m hm
  | some joined =>
    cases hm : bathRe.exec true (combinedText raw) with
    | none => exact h4 joined hj
    | some m =>
      simp only [h3 m hm]
      exact h4 joined hj

/-- After the filter and the derived writes no entry is junk, provided the joined society list
is not. -/
theorem writeDerived_filterJunk_clean {raw : Raw} {facts : Facts} (hd : DistinctKeys facts)
    (hpa : ∀ joined, projectAmenities raw.features = some joined →
      junkValue (.str joined) = false) :
    ∀ e ∈ writeDerived raw (filterJunk facts), junkKey e.1 = false ∧ junkValue e.2 = false := by
  intro e he
  have hbar : ∀ v : Str, '|' ∉ v → junkValue (.str v) = false := by
    intro v hv
    cases hj : junkValue (.str v) with
    | false => rfl
    | true => exact absurd (bar_mem_of_junkValue hj) hv
  rcases mem_writeDerived he with h | h | h | ⟨m, hm, h⟩ | ⟨joined, hjoined, h⟩
  · exact ⟨(mem_filterJunk h).2, mem_filterJunk_value hd h⟩
  · rw [h]
    refine ⟨derived_keys_not_junk.1, hbar _ ?_⟩
    cases hs : extractSociety (combinedText raw) with
    | none => decide
    | some c =>
      by_cases hc : optTruthy (some c) = true
      · simp only [hc, ↓reduceIte, Option.getD_some]
        exact extractSociety_no_bar hs
      · simp only [hc, Bool.false_eq_true, ↓reduceIte]
        decide
  · rw [h]
    exact ⟨derived_keys_not_junk.2.1, hbar _ (extractPropertyType_no_bar _)⟩
  · rw [h]
    obtain ⟨ds, rfl, _, hds⟩ := bathRe_capture hm
    refine ⟨derived_keys_not_junk.2.2.1, hbar _ ?_⟩
    intro hmem
    exact absurd (hds _ hmem) (by decide)
  · rw [h]
    exact ⟨derived_keys_not_junk.2.2.2, hpa joined hjoined⟩

theorem Normalized.eq_of_fields {a b : Normalized} (h1 : a.title = b.title)
    (h2 : a.description = b.description) (h3 : a.price = b.price) (h4 : a.address = b.address)
    (h5 : a.city = b.city) (h6 : a.state = b.state) (h7 : a.country = b.country)
    (h8 : a.features = b.features) (h9 : a.images = b.images) (h10 : a.isScraped = b.isScraped)
    (h11 : a.bhk = b.bhk) (h12 : a.area = b.area) (h13 : a.dynamic_facts = b.dynamic_facts)
    (h14 : a.source = b.source) (h15 : a.society = b.society) : a = b := by
  cases a
  cases b
  simp only at h1 h2 h3 h4 h5 h6 h7 h8 h9 h10 h11 h12 h13 h14 h15
  simp only [h1, h2, h3, h4, h5, h6, h7, h8, h9, h10, h11, h12, h13, h14, h15]

/-- Reading two nested calls off their evaluation. -/
theorem exists_ok_of_toOption_bind {α β γ : Type} {x : Except JsError α}
    {g : α → Except JsError β} {f : α → β → γ} {c : γ}
    (h : (x.toOption.bind fun a => (g a).toOption.map (f a)) = some c) :
    ∃ a b, x = .ok a ∧ g a = .ok b ∧ f a b = c := by
  cases x with
  | error e => simp [Except.toOption] at h
  | ok a =>
    simp only [Except.toOption, Option.some_bind] at h
    cases hg : g a with
    | error e => simp [hg] at h
    | ok b =>
      simp only [hg, Option.map_some', Option.some.injEq] at h
      exact ⟨a, b, rfl, hg, h⟩

/-- A call on a record that differs from `raw` only in its `dynamic_facts` returns the same
record as the call on `raw`, when it starts from the same address and arrives at the same
facts. -/
theorem normalizeProperty_of_facts {raw : Raw} (g : Option Facts) {src : Str}
    {r1 r2 : Normalized × Raw} (hr1 : normalizeProperty raw src = .ok r1)
    (hr2 : normalizeProperty { raw with dynamic_facts := g } src = .ok r2)
    (hinit : initialAddress { raw with dynamic_facts := g } = initialAddress raw)
    (hfacts : writeDerived raw (filterJunk (g.getD []))
      = writeDerived raw (filterJunk (raw.dynamic_facts.getD []))) : r2.1 = r1.1 := by
  have hf1 := normalizeProperty_facts hr1
  have hf2 := normalizeProperty_facts hr2
  obtain ⟨bhk0, city, t, images, hbhk, hcity, ht, himg, e_bhk, e_soc, e_area, e_price, e_desc,
    e_city, e_images, e_src, e_state, e_country, e_scr, e_feat, e_title, e_addr, _⟩ :=
    normalizeProperty_inv hr1
  obtain ⟨bhk0', city', t', images', hbhk', hcity', ht', himg', e_bhk', e_soc', e_area',
    e_price', e_desc', e_city', e_images', e_src', e_state', e_country', e_scr', e_feat',
    e_title', e_addr', _⟩ := normalizeProperty_inv hr2
  rw [hinit] at hcity' ht'
  have hb : bhk0' = bhk0 := by
    have h : extractBhk raw = .ok bhk0' := hbhk'
    rw [hbhk] at h
    exact (Except.ok.inj h).symm
  have hc : city' = city := by
    have h : inferCity (initialAddress raw) raw = .ok city' := hcity'
    rw [hcity] at h
    exact (Except.ok.inj h).symm
  have htt : t' = t := by
    have h : parseTitle raw bhk0' none (initialAddress raw) = .ok t' := ht'
    rw [hb, ht] at h
    exact (Except.ok.inj h).symm
  have hi : images' = images := by
    have h : extractImages raw.image_urls = .ok images' := himg'
    rw [himg] at h
    exact (Except.ok.inj h).symm
  subst hb hc htt hi
  apply Normalized.eq_of_fields
  · rw [e_title', e_title]; rfl
  · rw [e_desc', e_desc]
  · rw [e_price', e_price]
  · rw [e_addr', e_addr]; rfl
  · rw [e_city', e_city]
  · rw [e_state', e_state]
  · rw [e_country', e_country]
  · rw [e_feat', e_feat]
  · rw [e_images', e_images]
  · rw [e_scr', e_scr]
  · rw [e_bhk', e_bhk]
  · rw [e_area', e_area]; rfl
  · rw [hf2, hf1]
    exact hfacts
  · rw [e_src', e_src]
  · rw [e_soc', e_soc]

/-! ## Values that survive the filter -/

/-- On every accepted raw record whose `dynamic_facts`, when present, is an object (its keys
are distinct), a value of the returned `dynamic_facts` that is a string containing "Owner |"
or "Agent |" can only be the one under "Project Amenities", and then it is the joined
`features.society` list, which is written after the filter has run. Every other value, those
under "Society", "Property Type" and "Bathrooms" included, contains neither. -/
theorem junk_values_only_from_amenities (raw : Raw) (src : Str) (hacc : Accepted raw)
    (hd : ∀ facts, raw.dynamic_facts = some facts → DistinctKeys facts) :
    ∃ r, normalizeProperty raw src = .ok r ∧
      ∀ e ∈ r.1.dynamic_facts, junkValue e.2 = true →
        e.1 = "Project Amenities".toList ∧
          ∃ joined, projectAmenities raw.features = some joined ∧ e.2 = .str joined := by
  obtain ⟨r, hr⟩ := normalizeProperty_returns src hacc
  refine ⟨r, hr, ?_⟩
  intro e he hj
  have hd0 : DistinctKeys (raw.dynamic_facts.getD []) := by
    cases hf : raw.dynamic_facts with
    | none => exact List.nodup_nil
    | some f => exact hd f hf
  rw [normalizeProperty_facts hr] at he
  rcases mem_writeDerived he with h | h | h | ⟨m, hm, h⟩ | ⟨joined, hjoined, h⟩
  · rw [mem_filterJunk_value hd0 h] at hj
    exact absurd hj (by simp)
  · exfalso
    rw [h] at hj
    have hbar := bar_mem_of_junkValue hj
    cases hs : extractSociety (combinedText raw) with
    | none =>
      rw [hs] at hbar
      exact absurd hbar (by decide)
    | some c =>
      rw [hs] at hbar
      by_cases hc : optTruthy (some c) = true
      · simp only [hc, ↓reduceIte, Option.getD_some] at hbar
        exact extractSociety_no_bar hs hbar
      · simp only [hc, Bool.false_eq_true, ↓reduceIte] at hbar
        exact absurd hbar (by decide)
  · exfalso
    rw [h] at hj
    exact extractPropertyType_no_bar _ (bar_mem_of_junkValue hj)
  · exfalso
    rw [h] at hj
    obtain ⟨ds, rfl, _, hds⟩ := bathRe_capture hm
    have := hds _ (bar_mem_of_junkValue hj)
    exact absurd this (by decide)
  · rw [h]
    exact ⟨rfl, joined, hjoined, rfl⟩

/-- An instance: on `{dynamic_facts: {"Seller": "Owner | 4mo ago", "Facing":
"East"}}` the entry "Seller" is removed and no value of the returned record contains
"Owner |" or "Agent |". -/
theorem junk_values_only_from_amenities_example :
    ∃ r, normalizeProperty rawJunkValue "scraper".toList = .ok r ∧
      r.1.dynamic_facts = [("Facing".toList, .str "East".toList),
        ("Society".toList, .str "N/A".toList),
        ("Property Type".toList, .str "Apartment".toList)] ∧
      ∀ e ∈ r.1.dynamic_facts, junkValue e.2 = false := by
  obtain ⟨r, hr, h⟩ := junk_values_only_from_amenities rawJunkValue "scraper".toList
    ⟨Or.inl rfl, Or.inl rfl, Or.inl rfl, rfl⟩
    (fun facts hf => by
      simp only [rawJunkValue, Raw.empty, Option.some.injEq] at hf
      rw [← hf]
      unfold DistinctKeys
      decide)
  obtain ⟨r', hr', hk⟩ := exists_ok_of_toOption_map
    (x := normalizeProperty rawJunkValue "scraper".toList)
    (f := fun r => r.1.dynamic_facts)
    (b := [("Facing".toList, .str "East".toList), ("Society".toList, .str "N/A".toList),
        ("Property Type".toList, .str "Apartment".toList)]) (by decide)
  rw [hr] at hr'
  cases hr'
  refine ⟨r, hr, hk, ?_⟩
  intro e he
  cases hj : junkValue e.2 with
  | false => rfl
  | true =>
    obtain ⟨_, joined, hjoined, _⟩ := h e he hj
    exact absurd hjoined (by simp [rawJunkValue, Raw.empty, projectAmenities])

/-! ## Area, kept entries, bathrooms, society -/

theorem mem_dropWhile_of_not {p : Char → Bool} {c : Char} : ∀ {s : Str},
    c ∈ s → p c = false → c ∈ s.dropWhile p
  | [], h, _ => by simp at h
  | x :: xs, h, hc => by
    rw [List.dropWhile_cons]
    split
    · rename_i hx
      rcases List.mem_cons.mp h with h1 | h1
      · rw [h1, hx] at hc
        exact absurd hc (by simp)
      · exact mem_dropWhile_of_not h1 hc
    · exact h

/-- Trimming keeps every character that is not white space. -/
theorem mem_trim_of_not_space {c : Char} {s : Str} (h : c ∈ s) (hc : isSpace c = false) :
    c ∈ trim s := by
  unfold trim
  rw [List.mem_reverse]
  apply mem_dropWhile_of_not _ hc
  rw [List.mem_reverse]
  exact mem_dropWhile_of_not h hc

/-- Collapsing white space keeps every character that is not white space. -/
theorem mem_collapseAux_of_not_space {c : Char} : ∀ (b : Bool) {s : Str},
    c ∈ s → isSpace c = false → c ∈ collapseAux b s
  | _, [], h, _ => by simp at h
  | b, x :: xs, h, hc => by
    rcases List.mem_cons.mp h with h1 | h1
    · subst h1
      simp [collapseAux, hc]
    · have ih := fun b' => mem_collapseAux_of_not_space b' h1 hc
      unfold collapseAux
      split
      · split
        · exact ih true
        · exact List.mem_cons_of_mem _ (ih true)
      · exact List.mem_cons_of_mem _ (ih false)

/-- A cleaned text keeps the digits of the text. -/
theorem digit_mem_cleanText {p : Prim} {c : Char} (hp : p.truthy = true) (h : c ∈ p.toStr)
    (hc : isDigit c = true) : c ∈ cleanText p := by
  simp only [cleanText, hp, Bool.not_true, Bool.false_eq_true, ↓reduceIte, collapseWs]
  exact mem_collapseAux_of_not_space false
    (mem_trim_of_not_space h (isSpace_of_isDigit hc)) (isSpace_of_isDigit hc)

/-- What `match` returns for the area pattern: a number and a unit. -/
theorem areaRe_capture {text : Str} {m : List Str} (h : areaRe.exec true text = some m) :
    ∃ num u, m = [num, u] ∧ IsAreaNumber num ∧ IsUnit areaUnits u := by
  obtain ⟨_, rest, m', _, hm, rfl⟩ := Re.searchFrom_some _ _ _ _ _ h
  obtain ⟨num, ws, u, post, _, hn, _, hu, rfl⟩ := mem_run_areaRe.mp (List.mem_of_mem_head? hm)
  exact ⟨num, u, rfl, hn, hu⟩

theorem areaNumber_has_digit {num : Str} (hn : IsAreaNumber num) :
    ∃ c ∈ num, isDigit c = true := by
  rcases hn with ⟨hne, hd⟩ | ⟨a, b, rfl, ⟨hne, ha⟩, _⟩
  · cases num with
    | nil => exact absurd rfl hne
    | cons c cs => exact ⟨c, List.mem_cons_self _ _, hd c (List.mem_cons_self _ _)⟩
  · cases a with
    | nil => exact absurd rfl hne
    | cons c cs =>
      exact ⟨c, by simp, ha c (List.mem_cons_self _ _)⟩

/-- The stored area is "N/A" or a text with a digit. -/
theorem extractArea_digit (raw : Raw) :
    extractArea raw = "N/A".toList ∨ ∃ c ∈ extractArea raw, isDigit c = true := by
  unfold extractArea
  simp only
  split
  · cases hm : areaRe.exec true (combinedText raw) with
    | none => exact Or.inl rfl
    | some m =>
      obtain ⟨num, u, rfl, hn, hu⟩ := areaRe_capture hm
      obtain ⟨c, hc, hcd⟩ := areaNumber_has_digit hn
      have htruthy : (Prim.str (num ++ " ".toList ++ u)).truthy = true := by
        obtain ⟨hne, _⟩ := areaNumber_props hn
        cases num with
        | nil => exact absurd rfl hne
        | cons _ _ => rfl
      simp only [List.getD_cons_zero, List.getD_cons_succ, htruthy, ↓reduceIte]
      rw [area_format_clean hn hu]
      exact Or.inr ⟨c, by simp [hc], hcd⟩
  · rename_i hcond
    simp only [Bool.or_eq_true, Bool.not_eq_true', not_or, Bool.not_eq_false] at hcond
    obtain ⟨⟨htruthy, _⟩, htest⟩ := hcond
    have hany : raw.area.toStr.any isDigit = true := by
      unfold Re.test Re.exec at htest
      rw [test_digitRe] at htest
      exact htest
    obtain ⟨c, hc, hcd⟩ := List.any_eq_true.1 hany
    simp only [htruthy, ↓reduceIte]
    exact Or.inr ⟨c, digit_mem_cleanText htruthy hc hcd, hcd⟩

/-- The loop of the junk filter keeps an entry that it does not remove. -/
theorem filterJunk_fold_mem {e : Str × Prim} : ∀ (ks : List Str) (acc : Facts),
    e ∈ acc → shouldRemove e.1 (lookupKey acc e.1) = false →
    e ∈ ks.foldl
      (fun acc key => if shouldRemove key (lookupKey acc key) then eraseKey acc key else acc)
      acc
  | [], _, h, _ => h
  | k :: ks, acc, h, hs => by
    rw [List.foldl_cons]
    by_cases hk : shouldRemove k (lookupKey acc k) = true
    · have hne : e.1 ≠ k := by
        intro heq
        rw [← heq, hs] at hk
        exact absurd hk (by simp)
      simp only [hk, ↓reduceIte]
      apply filterJunk_fold_mem ks
      · exact mem_eraseKey.mpr ⟨h, hne⟩
      · rw [lookupKey_eraseKey_ne acc hne]
        exact hs
    · simp only [hk, Bool.false_eq_true, ↓reduceIte]
      exact filterJunk_fold_mem ks acc h hs

theorem mem_filterJunk_of_keep {facts : Facts} {e : Str × Prim} (h : e ∈ facts)
    (hs : shouldRemove e.1 (lookupKey facts e.1) = false) : e ∈ filterJunk facts :=
  filterJunk_fold_mem _ _ h hs

/-- The derived writes keep every entry under another key. -/
theorem mem_writeDerived_of_mem {raw : Raw} {facts : Facts} {e : Str × Prim} (h : e ∈ facts)
    (hk : e.1 ∉ derivedKeys) : e ∈ writeDerived raw facts := by
  have h1 : e.1 ≠ "Society".toList := fun h0 => hk (by rw [h0]; decide)
  have h2 : e.1 ≠ "Property Type".toList := fun h0 => hk (by rw [h0]; decide)
  have h3 : e.1 ≠ "Bathrooms".toList := fun h0 => hk (by rw [h0]; decide)
  have h4 : e.1 ≠ "Project Amenities".toList := fun h0 => hk (by rw [h0]; decide)
  unfold writeDerived
  simp only
  have hb := mem_setKey_of_ne (.str (extractPropertyType (combinedText raw)))
    (mem_setKey_of_ne (.str (if optTruthy (extractSociety (combinedText raw)) then
        (extractSociety (combinedText raw)).getD [] else "N/A".toList)) h h1) h2
  cases projectAmenities raw.features <;> cases bathRe.exec true (combinedText raw) <;>
    simp only
  · exact hb
  · exact mem_setKey_of_ne _ hb h3
  · exact mem_setKey_of_ne _ hb h4
  · exact mem_setKey_of_ne _ (mem_setKey_of_ne _ hb h3) h4

theorem junkKey_eq_false {key : Str} (h1 : key ∉ junkKeys)
    (h2 : ∀ pattern ∈ junkPatterns, pattern.test false key = false) : junkKey key = false := by
  unfold junkKey
  rw [Bool.or_eq_false_iff]
  refine ⟨?_, ?_⟩
  · cases hc : junkKeys.contains key with
    | false => rfl
    | true => exact absurd (by simpa using hc) h1
  · rw [List.any_eq_false]
    intro pattern hp
    simp [h2 pattern hp]

theorem lang_bathUnits (n : Nat) :
    Re.Lang true n
      (.alt (.lit "Bath".toList) (.alt (.lit "Bathroom".toList) (.lit "Washroom".toList)))
      (IsUnit bathUnits) :=
  (Re.lang_alt (Re.lang_lit n _) (Re.lang_alt (Re.lang_lit n _) (Re.lang_lit n _))).congr
    fun x => by simp [IsUnit, bathUnits]

/-- The matches of a pattern made of a capture group, optional white space and a part without
capture groups. -/
theorem Re.mem_run_cap_space {ci : Bool} {n : Nat} {a u : Re} {P Q : Str → Prop}
    (ha : Lang ci n a P) (hu : Lang ci n u Q) {s : Str} {m : List Str × Str} :
    m ∈ run ci n (seq (cap a) (seq (star isSpace) u)) s ↔
      ∃ x ws y post, s = x ++ (ws ++ (y ++ post)) ∧ P x ∧ (∀ c ∈ ws, isSpace c = true) ∧ Q y ∧
        m = ([x], post) := by
  rw [mem_run_seq]
  constructor
  · rintro ⟨m1, h1, m2, h2, rfl⟩
    obtain ⟨x, hx, hs1, hc1⟩ := (mem_run_cap_lang ha).1 h1
    obtain ⟨m3, h3, m4, h4, rfl⟩ := mem_run_seq.1 h2
    obtain ⟨ws, hws, hs2, hc3⟩ := mem_run_star.1 h3
    obtain ⟨y, hy, hs3, hc4⟩ := (hu _ _).1 h4
    refine ⟨x, ws, y, m4.2, ?_, hx, hws, hy, ?_⟩
    · rw [hs1, hs2, hs3]
    · simp only [hc1, hc3, hc4, List.append_nil, List.nil_append]
  · rintro ⟨x, ws, y, post, rfl, hx, hws, hy, rfl⟩
    refine ⟨([x], ws ++ (y ++ post)), (mem_run_cap_lang ha).2 ⟨x, hx, rfl, rfl⟩,
      ([], post), ?_, rfl⟩
    exact mem_run_seq.2 ⟨([], y ++ post), mem_run_star.2 ⟨ws, hws, rfl, rfl⟩,
      ([], post), (hu _ _).2 ⟨y, hy, rfl, rfl⟩, rfl⟩

theorem mem_run_bathRe {n : Nat} {s : Str} {m : List Str × Str} :
    m ∈ Re.run true n bathRe s ↔
      ∃ ds ws u post, s = ds ++ (ws ++ (u ++ post)) ∧ (ds ≠ [] ∧ ∀ c ∈ ds, isDigit c = true) ∧
        (∀ c ∈ ws, isSpace c = true) ∧ IsUnit bathUnits u ∧ m = ([ds], post) :=
  Re.mem_run_cap_space (Re.lang_plus true n isDigit) (lang_bathUnits n)

theorem bathUnits_head : ∀ w ∈ bathUnits, ∃ c cs, w = c :: cs ∧
    isDigit (upperChar c) = false ∧ isSpace (upperChar c) = false := by
  intro w hw
  simp only [bathUnits, List.mem_cons, List.mem_singleton, List.not_mem_nil, or_false] at hw
  rcases hw with rfl | rfl | rfl
  · exact ⟨'B', "ath".toList, rfl, by decide, by decide⟩
  · exact ⟨'B', "athroom".toList, rfl, by decide, by decide⟩
  · exact ⟨'W', "ashroom".toList, rfl, by decide, by decide⟩

/-- No digit follows the digits of a match. -/
theorem bath_rest_head {ws u post : Str} (hw : ∀ c ∈ ws, isSpace c = true)
    (hu : IsUnit bathUnits u) :
    ∀ c, (ws ++ (u ++ post)).head? = some c → isDigit c = false := by
  intro c hc
  cases ws with
  | nil =>
    obtain ⟨x, xs, rfl, hd, _⟩ := unit_head hu bathUnits_head
    simp only [List.nil_append, List.cons_append, List.head?_cons, Option.some.injEq] at hc
    rw [← hc]
    exact hd
  | cons x xs =>
    simp only [List.cons_append, List.head?_cons, Option.some.injEq] at hc
    rw [← hc]
    have hx := hw x (List.mem_cons_self _ _)
    cases hd : isDigit x with
    | false => rfl
    | true =>
      rw [isSpace_of_isDigit hd] at hx
      exact absurd hx (by simp)

/-- Every match of the bathrooms pattern at the head of a text captures the same digits. -/
theorem head?_run_bathRe {n : Nat} {ds ws u post : Str}
    (hd : ds ≠ [] ∧ ∀ c ∈ ds, isDigit c = true) (hw : ∀ c ∈ ws, isSpace c = true)
    (hu : IsUnit bathUnits u) :
    ∃ m, (Re.run true n bathRe (ds ++ (ws ++ (u ++ post)))).head? = some m ∧ m.1 = [ds] := by
  have hmem : (([ds], post) : List Str × Str) ∈
      Re.run true n bathRe (ds ++ (ws ++ (u ++ post))) :=
    mem_run_bathRe.2 ⟨ds, ws, u, post, rfl, hd, hw, hu, rfl⟩
  cases hr : Re.run true n bathRe (ds ++ (ws ++ (u ++ post))) with
  | nil => rw [hr] at hmem; simp at hmem
  | cons m rest =>
    refine ⟨m, rfl, ?_⟩
    have hm : m ∈ Re.run true n bathRe (ds ++ (ws ++ (u ++ post))) := by
      rw [hr]; exact List.mem_cons_self _ _
    obtain ⟨ds', ws', u', post', hs, hd', hw', hu', rfl⟩ := mem_run_bathRe.1 hm
    have := (span_unique hd.2 hd'.2 (bath_rest_head hw hu) (bath_rest_head hw' hu') hs).1
    rw [this]

/-- The bathrooms pattern reports the digits of the leftmost match. -/
theorem exec_bathRe_of_leftmost {text pre ds ws u post : Str}
    (hm : BathMatchAt text pre ds ws u post)
    (hleft : ∀ pre' ds' ws' u' post', BathMatchAt text pre' ds' ws' u' post' →
      pre.length ≤ pre'.length) :
    bathRe.exec true text = some [ds] := by
  obtain ⟨ht, hd, hw, hu⟩ := hm
  subst ht
  obtain ⟨m, hhead, hcaps⟩ :=
    @head?_run_bathRe (pre ++ (ds ++ (ws ++ (u ++ post)))).length ds ws u post hd hw hu
  unfold Re.exec
  rw [← hcaps]
  apply Re.searchFrom_append bathRe true _ _ m hhead
  intro k hk
  cases hr : Re.run true (pre ++ (ds ++ (ws ++ (u ++ post)))).length bathRe
      (pre.drop k ++ (ds ++ (ws ++ (u ++ post)))) with
  | nil => rfl
  | cons m' t =>
    exfalso
    have hmem : m' ∈ Re.run true (pre ++ (ds ++ (ws ++ (u ++ post)))).length bathRe
        (pre.drop k ++ (ds ++ (ws ++ (u ++ post)))) := by
      rw [hr]; exact List.mem_cons_self _ _
    obtain ⟨ds', ws', u', post', hs, hd', hw', hu', _⟩ := mem_run_bathRe.1 hmem
    have := hleft (pre.take k) ds' ws' u' post'
      ⟨by rw [← hs, ← List.append_assoc (pre.take k), List.take_append_drop],
        hd', hw', hu'⟩
    rw [List.length_take] at this
    omega

/-- Without a match of the bathrooms pattern `match` returns `null`. -/
theorem exec_bathRe_eq_none {text : Str}
    (h : ∀ pre ds ws u post, ¬ BathMatchAt text pre ds ws u post) :
    bathRe.exec true text = none := by
  unfold Re.exec
  apply Re.searchFrom_eq_none
  intro k _
  cases hr : Re.run true text.length bathRe (text.drop k) with
  | nil => rfl
  | cons m t =>
    exfalso
    have hmem : m ∈ Re.run true text.length bathRe (text.drop k) := by
      rw [hr]; exact List.mem_cons_self _ _
    obtain ⟨ds, ws, u, post, hs, hd, hw, hu, _⟩ := mem_run_bathRe.1 hmem
    exact h (text.take k) ds ws u post ⟨by rw [← hs, List.take_append_drop], hd, hw, hu⟩

/-- The value under "Bathrooms" after the derived writes. -/
theorem lookupKey_writeDerived_bathrooms (raw : Raw) (facts : Facts) :
    lookupKey (writeDerived raw facts) "Bathrooms".toList =
      match bathRe.exec true (combinedText raw) with
      | some bathMatch => .str (bathMatch.getD 0 [])
      | none => lookupKey facts "Bathrooms".toList := by
  unfold writeDerived
  simp only
  have h1 : ∀ (f : Facts) (k : Str) (v : Prim), "Bathrooms".toList ≠ k →
      lookupKey (setKey f k v) "Bathrooms".toList = lookupKey f "Bathrooms".toList :=
    fun f k v hk => lookupKey_setKey_ne f v hk
  cases projectAmenities raw.features <;> cases bathRe.exec true (combinedText raw) <;>
    simp only [h1 _ "Project Amenities".toList _ (by decide),
      h1 _ "Property Type".toList _ (by decide), h1 _ "Society".toList _ (by decide),
      lookupKey_setKey_same]

/-- A search that succeeds reports the first match at the leftmost position that has one. -/
theorem Re.searchFrom_some_first (r : Re) (ci : Bool) (n : Nat) : ∀ (t : Str) (caps : List Str),
    searchFrom r ci n t = some caps →
      ∃ pre rest m, t = pre ++ rest ∧ (run ci n r rest).head? = some m ∧ m.1 = caps ∧
        ∀ k, k < pre.length → run ci n r (t.drop k) = []
  | [], caps, h => by
    simp only [searchFrom, Option.map_eq_some'] at h
    obtain ⟨m, hm, hc⟩ := h
    exact ⟨[], [], m, rfl, hm, hc, fun k hk => absurd hk (by simp)⟩
  | x :: xs, caps, h => by
    simp only [searchFrom] at h
    cases hr : (run ci n r (x :: xs)).head? with
    | some m =>
      rw [hr] at h
      simp only [Option.some.injEq] at h
      exact ⟨[], x :: xs, m, rfl, hr, h, fun k hk => absurd hk (by simp)⟩
    | none =>
      rw [hr] at h
      obtain ⟨pre, rest, m, ht, hm, hc, hleft⟩ := Re.searchFrom_some_first r ci n xs caps h
      refine ⟨x :: pre, rest, m, by rw [ht]; rfl, hm, hc, ?_⟩
      intro k hk
      cases k with
      | zero => exact List.head?_eq_none_iff.mp hr
      | succ k =>
        simp only [List.drop_succ_cons]
        exact hleft k (by simpa using hk)

/-- The matches of the terminator of the society pattern. -/
theorem mem_run_societyEnd {n : Nat} {s : Str} {m : List Str × Str} :
    m ∈ Re.run true n
        (.alt (.chr ',') (.alt .eos (.alt (.lit "Sector".toList) (.lit "Near".toList)))) s ↔
      ∃ term, s = term ++ m.2 ∧ m.1 = [] ∧ IsSocietyEnd term m.2 := by
  rw [Re.mem_run_alt, Re.mem_run_alt, Re.mem_run_alt, Re.mem_run_chr, Re.mem_run_lit,
    Re.mem_run_lit]
  constructor
  · rintro (⟨x, hx, hs, hc⟩ | h | ⟨u, hu, hs, hc⟩ | ⟨u, hu, hs, hc⟩)
    · rw [sameChar_comma] at hx
      subst hx
      exact ⟨[','], hs, hc, Or.inl rfl⟩
    · simp only [Re.run] at h
      split at h
      · rename_i he
        rw [List.mem_singleton] at h
        have hnil : s = [] := by simpa using he
        subst h
        exact ⟨[], by simp, rfl, Or.inr (Or.inl ⟨rfl, hnil⟩)⟩
      · simp at h
    · exact ⟨u, hs, hc, Or.inr (Or.inr (Or.inl hu))⟩
    · exact ⟨u, hs, hc, Or.inr (Or.inr (Or.inr hu))⟩
  · rintro ⟨term, hs, hc, h | ⟨h1, h2⟩ | h | h⟩
    · subst h
      exact Or.inl ⟨',', sameChar_comma.mpr rfl, hs, hc⟩
    · right; left
      subst h1
      simp only [List.nil_append] at hs
      rw [hs, h2]
      simp only [Re.run, List.isEmpty_nil, ↓reduceIte, List.mem_singleton]
      exact Prod.ext hc h2
    · exact Or.inr (Or.inr (Or.inl ⟨term, h, hs, hc⟩))
    · exact Or.inr (Or.inr (Or.inr ⟨term, h, hs, hc⟩))

/-- The matches of the society pattern at the head of a text. -/
theorem mem_run_societyRe {n : Nat} {s : Str} {m : List Str × Str} :
    m ∈ Re.run true n societyRe s ↔
      ∃ w ws run term post, s = w ++ (ws ++ (run ++ (term ++ post))) ∧
        (CiEq w "in".toList ∨ CiEq w "at".toList) ∧
        (ws ≠ [] ∧ ∀ c ∈ ws, isSpace c = true) ∧
        (run ≠ [] ∧ ∀ c ∈ run, (isAlpha c || isDigit c || isSpace c) = true) ∧
        IsSocietyEnd term post ∧ m = ([run], post) := by
  unfold societyRe
  rw [Re.mem_run_seq]
  constructor
  · rintro ⟨m1, h1, m2, h2, rfl⟩
    rw [Re.mem_run_alt, Re.mem_run_lit, Re.mem_run_lit] at h1
    obtain ⟨m3, h3, m4, h4, rfl⟩ := Re.mem_run_seq.1 h2
    obtain ⟨ws, hne, hws, hs2, hc3⟩ := Re.mem_run_plus.1 h3
    obtain ⟨m5, h5, m6, h6, rfl⟩ := Re.mem_run_seq.1 h4
    obtain ⟨x, hx, hs3, hc5⟩ := (Re.mem_run_cap_lang
      (Re.lang_plus true n fun c => isAlpha c || isDigit c || isSpace c)).1 h5
    obtain ⟨term, hs4, hc6, hend⟩ := mem_run_societyEnd.1 h6
    have hw : ∃ w, (CiEq w "in".toList ∨ CiEq w "at".toList) ∧ s = w ++ m1.2 ∧ m1.1 = [] := by
      rcases h1 with ⟨u, hu, hs, hc⟩ | ⟨u, hu, hs, hc⟩
      · exact ⟨u, Or.inl hu, hs, hc⟩
      · exact ⟨u, Or.inr hu, hs, hc⟩
    obtain ⟨w, hw, hs1, hc1⟩ := hw
    refine ⟨w, ws, x, term, m6.2, ?_, hw, ⟨hne, hws⟩, hx, hend, ?_⟩
    · rw [hs1, hs2, hs3, hs4]
    · simp only [hc1, hc3, hc5, hc6, List.append_nil, List.nil_append]
  · rintro ⟨w, ws, x, term, post, rfl, hw, hws, hx, hend, rfl⟩
    refine ⟨([], ws ++ (x ++ (term ++ post))), ?_, ([x], post), ?_, rfl⟩
    · rw [Re.mem_run_alt, Re.mem_run_lit, Re.mem_run_lit]
      rcases hw with hw | hw
      · exact Or.inl ⟨w, hw, rfl, rfl⟩
      · exact Or.inr ⟨w, hw, rfl, rfl⟩
    · refine Re.mem_run_seq.2 ⟨([], x ++ (term ++ post)),
        Re.mem_run_plus.2 ⟨ws, hws.1, hws.2, rfl, rfl⟩, ([x], post), ?_, rfl⟩
      exact Re.mem_run_seq.2 ⟨([x], term ++ post),
        (Re.mem_run_cap_lang
          (Re.lang_plus true n fun c => isAlpha c || isDigit c || isSpace c)).2
          ⟨x, hx, rfl, rfl⟩,
        ([], post), mem_run_societyEnd.2 ⟨term, rfl, rfl, hend⟩, rfl⟩

/-- What `match` returns for the society pattern: the run of a match at the leftmost position
that has a match. -/
theorem exec_societyRe_some {text : Str} {m : List Str}
    (h : societyRe.exec true text = some m) :
    ∃ pre w ws run term post, SocietyMatchAt text pre w ws run term post ∧ m = [run] ∧
      ∀ pre' w' ws' run' term' post', SocietyMatchAt text pre' w' ws' run' term' post' →
        pre.length ≤ pre'.length := by
  obtain ⟨pre, rest, m', ht, hm, rfl, hleft⟩ := Re.searchFrom_some_first _ _ _ _ _ h
  obtain ⟨w, ws, x, term, post, hs, hw, hws, hx, hend, rfl⟩ :=
    mem_run_societyRe.1 (List.mem_of_mem_head? hm)
  refine ⟨pre, w, ws, x, term, post, ⟨by rw [ht, hs], hw, hws, hx, hend⟩, rfl, ?_⟩
  intro pre' w' ws' run' term' post' hm'
  by_contra hlt
  have hk := hleft pre'.length (by omega)
  obtain ⟨ht', hw', hws', hx', hend'⟩ := hm'
  have hmem : (([run'], post') : List Str × Str) ∈
      Re.run true text.length societyRe (text.drop pre'.length) := by
    apply mem_run_societyRe.2
    refine ⟨w', ws', run', term', post', ?_, hw', hws', hx', hend', rfl⟩
    conv_lhs => rw [ht']
    simp
  rw [hk] at hmem
  simp at hmem

/-- Without a match of the society pattern `match` returns `null`, and conversely. -/
theorem exec_societyRe_none {text : Str} (h : societyRe.exec true text = none) :
    ∀ pre w ws run term post, ¬ SocietyMatchAt text pre w ws run term post := by
  intro pre w ws run term post hm
  obtain ⟨ht, hw, hws, hx, hend⟩ := hm
  have hsome : (societyRe.exec true text).isSome = true := by
    unfold Re.exec
    rw [Re.searchFrom_isSome]
    refine ⟨pre, w ++ (ws ++ (run ++ (term ++ post))), ht, ?_⟩
    exact List.ne_nil_of_mem
      (mem_run_societyRe.2 ⟨w, ws, run, term, post, rfl, hw, hws, hx, hend, rfl⟩)
  rw [h] at hsome
  simp at hsome

/-- A character that equals a small ASCII letter or the space up to letter case has that
letter, or the space, as its lower-case form. -/
theorem lowerChar_of_upper_eq {x c : Char}
    (hc : (97 ≤ c.toNat ∧ c.toNat ≤ 122) ∨ c = ' ') (h : upperChar x = upperChar c) :
    lowerChar x = [c] := by
  have hnat := congrArg Char.toNat h
  rcases hc with ⟨h1, h2⟩ | rfl
  · rw [upperChar_toNat_of_lower h1 h2] at hnat
    by_cases hx : 97 ≤ x.toNat ∧ x.toNat ≤ 122
    · rw [upperChar_toNat_of_lower hx.1 hx.2] at hnat
      have hxc : x = c := by
        rw [← Char.ofNat_toNat x, ← Char.ofNat_toNat c]
        congr 1
        omega
      subst hxc
      unfold lowerChar
      rw [if_neg (by omega), if_neg (by omega), if_neg (by omega)]
    · rw [upperChar_of_not_lower hx] at hnat
      unfold lowerChar
      rw [if_pos (by omega)]
      have : x.toNat + 32 = c.toNat := by omega
      rw [this, Char.ofNat_toNat]
  · have hsp : upperChar ' ' = ' ' := rfl
    rw [hsp] at hnat h
    by_cases hx : 97 ≤ x.toNat ∧ x.toNat ≤ 122
    · rw [upperChar_toNat_of_lower hx.1 hx.2] at hnat
      have : (' ' : Char).toNat = 32 := rfl
      omega
    · rw [upperChar_of_not_lower hx] at h
      rw [h]
      rfl

/-- The lower-case form of a text that equals, up to letter case, a word of small ASCII letters
and spaces is that word. -/
theorem toLowerCase_of_ciEq : ∀ {u w : Str}, CiEq u w →
    (∀ c ∈ w, (97 ≤ c.toNat ∧ c.toNat ≤ 122) ∨ c = ' ') → toLowerCase u = w
  | [], [], _, _ => rfl
  | [], _ :: _, h, _ => by simp [CiEq] at h
  | _ :: _, [], h, _ => by simp [CiEq] at h
  | x :: xs, c :: cs, h, hw => by
    simp only [CiEq, List.map_cons, List.cons.injEq] at h
    have ih := toLowerCase_of_ciEq (u := xs) (w := cs) h.2
      fun d hd => hw d (List.mem_cons_of_mem _ hd)
    unfold toLowerCase at ih ⊢
    rw [List.flatMap_cons, ih, lowerChar_of_upper_eq (hw c (List.mem_cons_self _ _)) h.1]
    rfl

theorem toLowerCase_append (a b : Str) : toLowerCase (a ++ b) = toLowerCase a ++ toLowerCase b := by
  unfold toLowerCase
  exact List.flatMap_append a b lowerChar

/-- A text that contains a word of small letters and spaces in some letter case contains the
word itself once it is lower-cased. -/
theorem includes_toLowerCase_of_containsCi {s w : Str} (h : containsCi s w = true)
    (hw : ∀ c ∈ w, (97 ≤ c.toNat ∧ c.toNat ≤ 122) ∨ c = ' ') :
    includes (toLowerCase s) w = true := by
  rw [containsCi, includes_iff] at h
  obtain ⟨pre, post, h⟩ := h
  obtain ⟨a, b, hab, _, hb⟩ := List.map_eq_append_iff.mp h
  obtain ⟨u, d, hud, hu, _⟩ := List.map_eq_append_iff.mp hb
  rw [includes_iff]
  refine ⟨toLowerCase a, toLowerCase d, ?_⟩
  rw [hab, hud, toLowerCase_append, toLowerCase_append, toLowerCase_of_ciEq hu hw]

/-- The value under "Society" after the derived writes. -/
theorem lookupKey_writeDerived_society (raw : Raw) (facts : Facts) :
    lookupKey (writeDerived raw facts) "Society".toList =
      .str (if optTruthy (extractSociety (combinedText raw)) then
        (extractSociety (combinedText raw)).getD [] else "N/A".toList) := by
  unfold writeDerived
  simp only
  have h1 : ∀ (f : Facts) (k : Str) (v : Prim), "Society".toList ≠ k →
      lookupKey (setKey f k v) "Society".toList = lookupKey f "Society".toList :=
    fun f k v hk => lookupKey_setKey_ne f v hk
  cases projectAmenities raw.features <;> cases bathRe.exec true (combinedText raw) <;>
    simp only [h1 _ "Project Amenities".toList _ (by decide),
      h1 _ "Bathrooms".toList _ (by decide), h1 _ "Property Type".toList _ (by decide),
      lookupKey_setKey_same]

/-- The society, given what `match` returns. -/
theorem society_value_of_exec {text run : Str} (h : societyRe.exec true text = some [run]) :
    (if optTruthy (extractSociety text) then (extractSociety text).getD [] else "N/A".toList)
      = if trim run ≠ [] ∧ includes (toLowerCase (trim run)) "noida".toList = false then trim run
        else "N/A".toList := by
  have hne : run ≠ [] := by
    obtain ⟨_, _, _, x, _, _, hm, hx, _⟩ := exec_societyRe_some h
    rw [List.cons.injEq] at hx
    rw [hx.1]
    exact hm.2.2.2.1.1
  have hemp : run.isEmpty = false := by
    cases run with
    | nil => exact absurd rfl hne
    | cons _ _ => rfl
  have hgn : includes (toLowerCase (trim run)) "greater noida".toList = true →
      includes (toLowerCase (trim run)) "noida".toList = true :=
    includes_append_right _ "greater ".toList "noida".toList
  unfold extractSociety
  simp only [h, List.getD_cons_zero, hemp, Bool.not_false, ↓reduceIte]
  cases hn : includes (toLowerCase (trim run)) "noida".toList with
  | true =>
    simp [optTruthy]
  | false =>
    have hg : includes (toLowerCase (trim run)) "greater noida".toList = false := by
      cases hg : includes (toLowerCase (trim run)) "greater noida".toList with
      | false => rfl
      | true => rw [hgn hg] at hn; exact absurd hn (by simp)
    simp only [hg, Bool.not_false, Bool.and_self, ↓reduceIte, optTruthy, Option.getD_some]
    cases ht : trim run with
    | nil => simp
    | cons c cs => simp

theorem society_value_of_none {text : Str} (h : societyRe.exec true text = none) :
    (if optTruthy (extractSociety text) then (extractSociety text).getD [] else "N/A".toList)
      = "N/A".toList := by
  unfold extractSociety
  simp [h, optTruthy]

theorem includes_dropWhile_space : ∀ {t w : Str}, includes t w = true →
    (∃ c cs, w = c :: cs ∧ isSpace c = false) → includes (t.dropWhile isSpace) w = true
  | [], w, h, hw => by
    obtain ⟨c, cs, rfl, _⟩ := hw
    simp [includes, List.isPrefixOf] at h
  | x :: xs, w, h, hw => by
    rw [List.dropWhile_cons]
    split
    · rename_i hx
      obtain ⟨c, cs, rfl, hc⟩ := hw
      simp only [includes, Bool.or_eq_true] at h
      rcases h with h | h
      · simp only [List.isPrefixOf, Bool.and_eq_true, beq_iff_eq] at h
        rw [h.1, hx] at hc
        exact absurd hc (by simp)
      · exact includes_dropWhile_space h ⟨c, cs, rfl, hc⟩
    · exact h

theorem includes_reverse {t w : Str} (h : includes t w = true) :
    includes t.reverse w.reverse = true := by
  rw [includes_iff] at h ⊢
  obtain ⟨pre, post, rfl⟩ := h
  exact ⟨post.reverse, pre.reverse, by simp⟩

/-- Trimming keeps the occurrences of a word that neither starts nor ends with white space. -/
theorem includes_trim {t w : Str} (h : includes t w = true)
    (hhead : ∃ c cs, w = c :: cs ∧ isSpace c = false)
    (hlast : ∃ c cs, w.reverse = c :: cs ∧ isSpace c = false) : includes (trim t) w = true := by
  unfold trim
  have h1 := includes_reverse (includes_dropWhile_space h hhead)
  have h2 := includes_reverse (includes_dropWhile_space h1 hlast)
  rw [List.reverse_reverse] at h2
  exact h2

theorem map_upperChar_dropWhile : ∀ (s : Str),
    (s.dropWhile isSpace).map upperChar = (s.map upperChar).dropWhile isSpace
  | [] => rfl
  | x :: xs => by
    rw [List.map_cons, List.dropWhile_cons, List.dropWhile_cons, isSpace_upperChar]
    split
    · exact map_upperChar_dropWhile xs
    · rfl

theorem map_upperChar_trim (s : Str) : (trim s).map upperChar = trim (s.map upperChar) := by
  unfold trim
  rw [List.map_reverse, map_upperChar_dropWhile, List.map_reverse, map_upperChar_dropWhile]

/-- A run that contains "greater noida" in some letter case still does after trimming. -/
theorem containsCi_trim_greater_noida {s : Str}
    (h : containsCi s "greater noida".toList = true) :
    containsCi (trim s) "greater noida".toList = true := by
  unfold containsCi at h ⊢
  rw [map_upperChar_trim]
  exact includes_trim h ⟨_, _, rfl, by decide⟩ ⟨_, _, rfl, by decide⟩

/-! ## The import loop -/

/-- The loop over normalized records, from any state, in recursive form. -/
theorem foldl_dedupStep : ∀ (records : List Normalized) (seen : List Str)
    (out : List Normalized),
    (records.foldl dedupStep (seen, out)).2 = out ++ keepFirst seen records
  | [], _, _ => by simp [keepFirst]
  | p :: rest, seen, out => by
    rw [List.foldl_cons]
    by_cases h : seen.contains (uniqueKey p) = true
    · have hstep : dedupStep (seen, out) p = (seen, out) := by
        simp only [dedupStep, h, ↓reduceIte]
      rw [hstep, foldl_dedupStep rest seen out]
      simp only [keepFirst, h, ↓reduceIte]
    · have hstep : dedupStep (seen, out) p = (seen ++ [uniqueKey p], out ++ [p]) := by
        simp only [dedupStep, h, Bool.false_eq_true, ↓reduceIte]
      rw [hstep, foldl_dedupStep rest _ _]
      simp only [keepFirst, h, Bool.false_eq_true, ↓reduceIte, List.append_assoc,
        List.singleton_append]

theorem dedupBatch_eq (records : List Normalized) : dedupBatch records = keepFirst [] records := by
  unfold dedupBatch
  rw [foldl_dedupStep]
  rfl

/-- The loop over the files is the duplicate check over the records it processes. -/
theorem foldl_importStep : ∀ (files : List Raw) (state : List Str × List Normalized),
    files.foldl importStep state = (processedRecords files).foldl dedupStep state
  | [], _ => rfl
  | rawData :: rest, state => by
    rw [List.foldl_cons]
    unfold processedRecords
    rw [List.filterMap_cons]
    cases h : normalizeProperty rawData "scraper".toList with
    | error e =>
      simp only [importStep, h, Except.toOption, Option.map_none']
      exact foldl_importStep rest state
    | ok r =>
      simp only [importStep, h, Except.toOption, Option.map_some', List.foldl_cons]
      exact foldl_importStep rest _

theorem scrapedProperties_eq (files : List Raw) :
    scrapedProperties files = dedupBatch (processedRecords files) := by
  unfold scrapedProperties dedupBatch
  rw [foldl_importStep]

theorem keepFirst_sublist : ∀ (seen : List Str) (records : List Normalized),
    (keepFirst seen records).Sublist records
  | _, [] => List.Sublist.slnil
  | seen, p :: rest => by
    unfold keepFirst
    split
    · exact (keepFirst_sublist seen rest).cons p
    · exact (keepFirst_sublist _ rest).cons₂ p

/-- No kept record has a key that was seen before. -/
theorem keepFirst_not_seen : ∀ (seen : List Str) (records : List Normalized),
    ∀ q ∈ keepFirst seen records, uniqueKey q ∉ seen
  | _, [], q, h => by simp [keepFirst] at h
  | seen, p :: rest, q, h => by
    unfold keepFirst at h
    split at h
    · exact keepFirst_not_seen seen rest q h
    · rename_i hp
      rcases List.mem_cons.mp h with rfl | h1
      · intro hmem
        apply hp
        simpa using hmem
      · intro hmem
        exact keepFirst_not_seen _ rest q h1 (List.mem_append_left _ hmem)

theorem keepFirst_nodup : ∀ (seen : List Str) (records : List Normalized),
    ((keepFirst seen records).map uniqueKey).Nodup
  | _, [] => by simp [keepFirst]
  | seen, p :: rest => by
    unfold keepFirst
    split
    · exact keepFirst_nodup seen rest
    · rw [List.map_cons, List.nodup_cons]
      refine ⟨?_, keepFirst_nodup _ rest⟩
      intro hmem
      rw [List.mem_map] at hmem
      obtain ⟨q, hq, hk⟩ := hmem
      apply keepFirst_not_seen _ rest q hq
      rw [hk]
      simp

theorem keepFirst_covers : ∀ (seen : List Str) (records : List Normalized),
    ∀ p ∈ records, uniqueKey p ∈ seen ∨ uniqueKey p ∈ (keepFirst seen records).map uniqueKey
  | _, [], p, h => by simp at h
  | seen, r :: rest, p, h => by
    unfold keepFirst
    rcases List.mem_cons.mp h with rfl | h1
    · split
      · rename_i hp
        exact Or.inl (by simpa using hp)
      · exact Or.inr (by simp)
    · split
      · exact keepFirst_covers seen rest p h1
      · rcases keepFirst_covers (seen ++ [uniqueKey r]) rest p h1 with h2 | h2
        · rcases List.mem_append.mp h2 with h3 | h3
          · exact Or.inl h3
          · right
            rw [List.mem_singleton] at h3
            rw [h3]
            simp
        · exact Or.inr (List.mem_cons_of_mem _ h2)

/-- A kept record is the first record of the list with its key. -/
theorem keepFirst_first : ∀ (seen : List Str) (records : List Normalized),
    ∀ q ∈ keepFirst seen records,
      records.find? (fun p => uniqueKey p == uniqueKey q) = some q
  | _, [], q, h => by simp [keepFirst] at h
  | seen, p :: rest, q, h => by
    unfold keepFirst at h
    split at h
    · rename_i hp
      have hq := keepFirst_not_seen seen rest q h
      have hne : (uniqueKey p == uniqueKey q) = false := by
        rw [beq_eq_false_iff_ne]
        intro heq
        apply hq
        rw [← heq]
        simpa using hp
      rw [List.find?_cons, hne]
      exact keepFirst_first seen rest q h
    · rcases List.mem_cons.mp h with rfl | h1
      · simp
      · have hq := keepFirst_not_seen _ rest q h1
        have hne : (uniqueKey p == uniqueKey q) = false := by
          rw [beq_eq_false_iff_ne]
          intro heq
          apply hq
          rw [← heq]
          simp
        rw [List.find?_cons, hne]
        exact keepFirst_first _ rest q h1

/-- The keys seen after the loop has run over a list of records. -/
theorem mem_seen_foldl_dedupStep {k : Str} : ∀ (records : List Normalized) (seen : List Str)
    (out : List Normalized),
    k ∈ (records.foldl dedupStep (seen, out)).1 ↔ k ∈ seen ∨ k ∈ records.map uniqueKey
  | [], _, _ => by simp
  | p :: rest, seen, out => by
    rw [List.foldl_cons]
    by_cases h : seen.contains (uniqueKey p) = true
    · have hstep : dedupStep (seen, out) p = (seen, out) := by
        simp only [dedupStep, h, ↓reduceIte]
      rw [hstep, mem_seen_foldl_dedupStep rest seen out, List.map_cons, List.mem_cons]
      have hp : uniqueKey p ∈ seen := by simpa using h
      constructor
      · rintro (h1 | h1)
        · exact Or.inl h1
        · exact Or.inr (Or.inr h1)
      · rintro (h1 | h1 | h1)
        · exact Or.inl h1
        · exact Or.inl (h1 ▸ hp)
        · exact Or.inr h1
    · have hstep : dedupStep (seen, out) p = (seen ++ [uniqueKey p], out ++ [p]) := by
        simp only [dedupStep, h, Bool.false_eq_true, ↓reduceIte]
      rw [hstep, mem_seen_foldl_dedupStep rest _ _, List.map_cons, List.mem_cons,
        List.mem_append, List.mem_singleton]
      tauto

/-! ## The url of the raw record -/

/-- The normalized record does not depend on the `url` of the raw record. -/
theorem normalizeProperty_url {raw : Raw} (u : Prim) {src : Str}
    {r1 r2 : Normalized × Raw} (hr1 : normalizeProperty raw src = .ok r1)
    (hr2 : normalizeProperty { raw with url := u } src = .ok r2) : r2.1 = r1.1 := by
  have hf1 := normalizeProperty_facts hr1
  have hf2 := normalizeProperty_facts hr2
  obtain ⟨bhk0, city, t, images, hbhk, hcity, ht, himg, e_bhk, e_soc, e_area, e_price, e_desc,
    e_city, e_images, e_src, e_state, e_country, e_scr, e_feat, e_title, e_addr, _⟩ :=
    normalizeProperty_inv hr1
  obtain ⟨bhk0', city', t', images', hbhk', hcity', ht', himg', e_bhk', e_soc', e_area',
    e_price', e_desc', e_city', e_images', e_src', e_state', e_country', e_scr', e_feat',
    e_title', e_addr', _⟩ := normalizeProperty_inv hr2
  have hb : bhk0' = bhk0 := by
    have h : extractBhk raw = .ok bhk0' := hbhk'
    rw [hbhk] at h
    exact (Except.ok.inj h).symm
  have hc : city' = city := by
    have h : inferCity (initialAddress raw) raw = .ok city' := hcity'
    rw [hcity] at h
    exact (Except.ok.inj h).symm
  have htt : t' = t := by
    have h : parseTitle raw bhk0' none (initialAddress raw) = .ok t' := ht'
    rw [hb, ht] at h
    exact (Except.ok.inj h).symm
  have hi : images' = images := by
    have h : extractImages raw.image_urls = .ok images' := himg'
    rw [himg] at h
    exact (Except.ok.inj h).symm
  subst hb hc htt hi
  apply Normalized.eq_of_fields
  · rw [e_title', e_title]; rfl
  · rw [e_desc', e_desc]
  · rw [e_price', e_price]
  · rw [e_addr', e_addr]; rfl
  · rw [e_city', e_city]
  · rw [e_state', e_state]
  · rw [e_country', e_country]
  · rw [e_feat', e_feat]
  · rw [e_images', e_images]
  · rw [e_scr', e_scr]
  · rw [e_bhk', e_bhk]
  · rw [e_area', e_area]; rfl
  · rw [hf2, hf1]; rfl
  · rw [e_src', e_src]
  · rw [e_soc', e_soc]

/-- A match that starts with a digit does not start inside a prefix without digits. -/
theorem leftmost_of_no_digit_before {text pre tail pre' ds' tail' : Str}
    (h1 : text = pre ++ tail) (hpre : ∀ c ∈ pre, isDigit c = false)
    (h2 : text = pre' ++ (ds' ++ tail')) (hne : ds' ≠ [])
    (hd : ∀ c ∈ ds', isDigit c = true) : pre.length ≤ pre'.length := by
  obtain ⟨d, rest, rfl⟩ := List.exists_cons_of_ne_nil hne
  exact length_le_of_head isDigit h1 hpre h2 (hd d (List.mem_cons_self _ _))

/-- A number of the area pattern starts with a digit. -/
theorem areaNumber_head {x : Str} (h : IsAreaNumber x) :
    ∃ d rest, x = d :: rest ∧ isDigit d = true := by
  rcases h with ⟨hne, hd⟩ | ⟨a, b, rfl, ⟨hane, had⟩, _⟩
  · obtain ⟨d, rest, rfl⟩ := List.exists_cons_of_ne_nil hne
    exact ⟨d, rest, rfl, hd d (List.mem_cons_self _ _)⟩
  · obtain ⟨d, rest, rfl⟩ := List.exists_cons_of_ne_nil hane
    exact ⟨d, rest ++ ',' :: b, rfl, had d (List.mem_cons_self _ _)⟩

/-- A word that is "Sector" up to letter case starts with "S" or "s". -/
theorem ciEq_head {w v : Str} {c : Char} {cs : Str} (h : CiEq w v) (hv : v = c :: cs) :
    ∃ d rest, w = d :: rest ∧ upperChar d = upperChar c := by
  subst hv
  cases w with
  | nil => simp [CiEq] at h
  | cons d rest =>
    simp only [CiEq, List.map_cons, List.cons.injEq] at h
    exact ⟨d, rest, rfl, h.1⟩

/-- Line 158 builds the key string of the specification. -/
theorem uniqueKey_eq_keyString : uniqueKey = keyString := by
  funext p
  simp [uniqueKey, keyString]

/-! ## The claims -/

/-- C1 (the code fails the claim): the normalizer raises a `TypeError` on a numeric `bhk`, on
an `image_urls` that is a string instead of a list, and on a list entry that is a number. -/
theorem c1_wrong_types_throw :
    normalizeProperty rawNumericBhk "scraper".toList = .error .typeError ∧
    normalizeProperty rawImagesNotAList "scraper".toList = .error .typeError ∧
    normalizeProperty rawImageNotAString "scraper".toList = .error .typeError := by
  refine ⟨?_, ?_, ?_⟩
  · rfl
  · rfl
  · rfl

/-- C2 (the code fails the claim): on a record whose fields all have their documented types
the normalizer returns a record whose address is the empty string. -/
theorem c2_address_can_be_empty :
    ∃ r, normalizeProperty rawEmptyAddress "scraper".toList = .ok r ∧ r.1.address = [] :=
  exists_ok_of_toOption_map (f := fun r => r.1.address) (by decide)

/-- C3, counterexample: a negative numeric price comes out negative. -/
theorem c3_negative_price :
    ∃ r, normalizeProperty rawNegativePrice "scraper".toList = .ok r ∧ r.1.price < 0 := by
  obtain ⟨r, hr⟩ := @normalizeProperty_returns rawNegativePrice "scraper".toList
    ⟨Or.inl rfl, Or.inl rfl, Or.inl rfl, rfl⟩
  obtain ⟨_, _, _, _, _, _, _, _, _, _, _, hp, _⟩ := normalizeProperty_inv hr
  refine ⟨r, hr, ?_⟩
  rw [hp]
  show parsePrice (.num (.fin (-5))) < 0
  rw [parsePrice_num _ (by simp)]
  exact Num.fin_lt_zero.2 (by norm_num)

/-- C3, amended: on every accepted raw record the normalizer returns a record whose price is
non-negative when the raw price is not a number (absent, `null`, a boolean or a string), and
is the raw price itself, unchanged, when that is a number. (`NaN`, which parsed JSON never
holds, is falsy like the absent price and gives 0.) -/
theorem c3_price_nonneg_unless_numeric (raw : Raw) (src : Str) (h : Accepted raw) :
    ∃ r, normalizeProperty raw src = .ok r ∧
      ((∀ x, raw.price ≠ .num x) → 0 ≤ r.1.price) ∧
      (∀ x, raw.price = .num x → x ≠ .nan → r.1.price = x) ∧
      (raw.price = .num .nan → r.1.price = 0) := by
  obtain ⟨r, hr⟩ := normalizeProperty_returns src h
  obtain ⟨_, _, _, _, _, _, _, _, _, _, _, hp, _⟩ := normalizeProperty_inv hr
  refine ⟨r, hr, ?_, ?_, ?_⟩
  · intro hq
    rw [hp]
    exact parsePrice_nonneg_of_not_num hq
  · intro x hq hx
    rw [hp, hq, parsePrice_num x hx]
  · intro hq
    rw [hp, hq]
    rfl

/-- C3, witness: the amended statement at the raw record `{price: "50 Lakh"}`. -/
theorem c3_price_nonneg_unless_numeric_witness :
    Accepted rawFiftyLakh ∧
    ∃ r, normalizeProperty rawFiftyLakh "scraper".toList = .ok r ∧
      ((∀ x, rawFiftyLakh.price ≠ .num x) → 0 ≤ r.1.price) ∧
      (∀ x, rawFiftyLakh.price = .num x → x ≠ .nan → r.1.price = x) ∧
      (rawFiftyLakh.price = .num .nan → r.1.price = 0) :=
  ⟨⟨Or.inl rfl, Or.inl rfl, Or.inl rfl, rfl⟩,
    c3_price_nonneg_unless_numeric rawFiftyLakh "scraper".toList
      ⟨Or.inl rfl, Or.inl rfl, Or.inl rfl, rfl⟩⟩

/-- C4, counterexample: for `{price: "0.07 Lakh"}` the digits and dots read as the decimal
number 0.07 = 7/100 and the lower-cased text contains "lakh" and not "cr", yet the returned
price is not 7/100 * 100000 = 7000: it is the double next above 7000, which is
`7000 + 2 ^ (-40)` and prints as "7000.000000000001". -/
theorem c4_product_is_rounded :
    ∃ r, normalizeProperty rawSevenHundredthsLakh "scraper".toList = .ok r ∧
      ReadsDecimal ("0.07 Lakh".toList.filter fun c => isDigit c || c == '.')
        "0".toList "07".toList ∧
      decimalNumber "0".toList "07".toList = 7 / 100 ∧
      includes (toLowerCase "0.07 Lakh".toList) "cr".toList = false ∧
      includes (toLowerCase "0.07 Lakh".toList) "lakh".toList = true ∧
      r.1.price ≠ .fin (7 / 100 * 100000) ∧
      r.1.price = .fin (7000 + 1 / 2 ^ 40) ∧
      numToString r.1.price = "7000.000000000001".toList := by
  obtain ⟨r, hr⟩ := @normalizeProperty_returns rawSevenHundredthsLakh "scraper".toList
    ⟨Or.inl rfl, Or.inl rfl, Or.inl rfl, rfl⟩
  obtain ⟨_, _, _, _, _, _, _, _, _, _, _, hp, _⟩ := normalizeProperty_inv hr
  have hread : ReadsDecimal ("0.07 Lakh".toList.filter fun c => isDigit c || c == '.')
      "0".toList "07".toList :=
    ⟨by decide, by decide, Or.inr ⟨[], by decide, by simp⟩⟩
  have hd : decimalNumber "0".toList "07".toList = 7 / 100 := by
    have : digitsValue ("0".toList ++ "07".toList) = 7 := by
      rw [digitsValue_eq_digitsToNat]
      decide
    rw [decimalNumber, this]
    norm_num
  have hc : includes (toLowerCase "0.07 Lakh".toList) "cr".toList = false := by decide
  have hl : includes (toLowerCase "0.07 Lakh".toList) "lakh".toList = true := by decide
  have hx : roundDouble (decimalNumber "0".toList "07".toList)
      = .fin (1261007895663739 / 18014398509481984) :=
    roundDouble_of_eq 7 100 5044031582654956 (-56) (by rw [hd]; norm_num) (by decide)
      (by decide) (by decide) (by decide) (by norm_num)
  have hprice : r.1.price = .fin (7000 + 1 / 2 ^ 40) := by
    rw [hp]
    show parsePrice (.str "0.07 Lakh".toList) = _
    rw [parsePrice_str _ _ _ hread, priceLaw, if_neg (by decide), hc, hl, hx]
    simp only [Bool.false_eq_true, ↓reduceIte, Bool.or_true]
    exact roundDouble_of_eq 3940649673949184375 562949953421312 7696581394432001 (-40)
      (by norm_num) (by decide) (by decide) (by decide) (by decide) (by norm_num)
  refine ⟨r, hr, hread, hd, hc, hl, ?_, hprice, ?_⟩
  · rw [hprice]
    intro h
    rw [Num.fin.injEq] at h
    norm_num at h
  · rw [hprice, numToString_of_eq 7696581394432001 1099511627776 (by norm_num) (by decide)
      (by decide) (by decide)]
    decide

/-- C4, as amended: on every accepted raw record the normalizer returns a record whose price
is the raw price itself when that is a number, and, when it is a string `s`, is given by the
price law: with `n` the decimal number `ip.fp` that the digits and dots of `s` start with, the
price is 0 when there is no such number, and otherwise the double nearest to `n`, multiplied
in double arithmetic (the exact product rounded to the nearest double) by 10000000 if the
lower-cased `s` contains "cr", else by 100000 if it contains "lac" or "lakh", else by 1000 if
it contains "k", and left as it is otherwise. Every string reads as some `ip.fp`. "1.5 Cr"
gives 15000000, "50 Lakh" (which also contains "k") 5000000, "800k" 800000, "garbage" 0, and
the number 25000 is returned as 25000; "9007199254740993", which lies half-way between two
doubles, gives 9007199254740992. The double nearest to `q` is `roundDouble q`: when finite it
is a double than which no double is nearer to `q`, and it is infinite exactly from half-way
between the largest double and `2 ^ 1024` on; the product of two finite numbers is the double
nearest to their exact product, and an infinite price stays infinite. -/
theorem c4_price_law (raw : Raw) (src : Str) (h : Accepted raw) :
    (∃ r, normalizeProperty raw src = .ok r ∧
      (∀ x, raw.price = .num x → x ≠ .nan → r.1.price = x) ∧
      (∀ s ip fp, raw.price = .str s →
        ReadsDecimal (s.filter fun c => isDigit c || c == '.') ip fp →
        r.1.price = priceLaw s ip fp)) ∧
    (∀ s : Str, ∃ ip fp, ReadsDecimal (s.filter fun c => isDigit c || c == '.') ip fp) ∧
    parsePrice (.str "1.5 Cr".toList) = .fin 15000000 ∧
    parsePrice (.str "50 Lakh".toList) = .fin 5000000 ∧
    includes (toLowerCase "50 Lakh".toList) "k".toList = true ∧
    parsePrice (.str "800k".toList) = .fin 800000 ∧
    parsePrice (.str "garbage".toList) = .fin 0 ∧
    parsePrice (.num (.fin 25000)) = .fin 25000 ∧
    parsePrice (.str "9007199254740993".toList) = .fin 9007199254740992 ∧
    (∀ q v, roundDouble q = .fin v → IsDouble v ∧ ∀ d, IsDouble d → |v - q| ≤ |d - q|) ∧
    (∀ q, roundDouble q = .posInf ↔ (2 : ℚ) ^ (1024 : ℤ) - 2 ^ (970 : ℤ) ≤ q) ∧
    (∀ a b : ℚ, (Num.fin a).mul (.fin b) = roundDouble (a * b)) ∧
    (∀ c : ℚ, 0 < c → Num.posInf.mul (.fin c) = .posInf) := by
  refine ⟨?_, fun s => exists_readsDecimal _, ?_, ?_, ?_, ?_, ?_, ?_, ?_,
    fun q => (roundDouble_nearest q).1, fun q => (roundDouble_infinite_iff q).1,
    fun _ _ => rfl, posInf_mul_fin⟩
  · obtain ⟨r, hr⟩ := normalizeProperty_returns src h
    obtain ⟨_, _, _, _, _, _, _, _, _, _, _, hp, _⟩ := normalizeProperty_inv hr
    refine ⟨r, hr, ?_, ?_⟩
    · intro x hq hx
      rw [hp, hq, parsePrice_num x hx]
    · intro s ip fp hs hread
      rw [hp, hs, parsePrice_str s ip fp hread]
  · have hread : ReadsDecimal ("1.5 Cr".toList.filter fun c => isDigit c || c == '.')
        "1".toList "5".toList :=
      ⟨by decide, by decide, Or.inr ⟨[], by decide, by simp⟩⟩
    have hd : decimalNumber "1".toList "5".toList = 3 / 2 := by
      have : digitsValue ("1".toList ++ "5".toList) = 15 := by
        rw [digitsValue_eq_digitsToNat]
        decide
      rw [decimalNumber, this]
      norm_num
    have hc : includes (toLowerCase "1.5 Cr".toList) "cr".toList = true := by decide
    have hx : roundDouble (decimalNumber "1".toList "5".toList) = .fin (3 / 2) :=
      roundDouble_of_eq 3 2 6755399441055744 (-52) (by rw [hd]; norm_num) (by decide)
        (by decide) (by decide) (by decide) (by norm_num)
    rw [parsePrice_str _ _ _ hread, priceLaw, if_neg (by decide), hc, hx]
    simp only [↓reduceIte]
    exact roundDouble_of_eq 15000000 1 8053063680000000 (-29) (by norm_num) (by decide)
      (by decide) (by decide) (by decide) (by norm_num)
  · have hread : ReadsDecimal ("50 Lakh".toList.filter fun c => isDigit c || c == '.')
        "50".toList [] :=
      ⟨by decide, by decide, Or.inl ⟨rfl, [], by decide, by simp⟩⟩
    have hd : decimalNumber "50".toList [] = 50 := by
      have : digitsValue ("50".toList ++ []) = 50 := by
        rw [digitsValue_eq_digitsToNat]
        decide
      rw [decimalNumber, this]
      norm_num
    have hc : includes (toLowerCase "50 Lakh".toList) "cr".toList = false := by decide
    have hl : includes (toLowerCase "50 Lakh".toList) "lakh".toList = true := by decide
    have hx : roundDouble (decimalNumber "50".toList []) = .fin 50 :=
      roundDouble_of_eq 50 1 7036874417766400 (-47) (by rw [hd]; norm_num) (by decide)
        (by decide) (by decide) (by decide) (by norm_num)
    rw [parsePrice_str _ _ _ hread, priceLaw, if_neg (by decide), hc, hl, hx]
    simp only [Bool.false_eq_true, ↓reduceIte, Bool.or_true]
    exact roundDouble_of_eq 5000000 1 5368709120000000 (-30) (by norm_num) (by decide)
      (by decide) (by decide) (by decide) (by norm_num)
  · decide
  · have hread : ReadsDecimal ("800k".toList.filter fun c => isDigit c || c == '.')
        "800".toList [] :=
      ⟨by decide, by decide, Or.inl ⟨rfl, [], by decide, by simp⟩⟩
    have hd : decimalNumber "800".toList [] = 800 := by
      have : digitsValue ("800".toList ++ []) = 800 := by
        rw [digitsValue_eq_digitsToNat]
        decide
      rw [decimalNumber, this]
      norm_num
    have hc : includes (toLowerCase "800k".toList) "cr".toList = false := by decide
    have hl : includes (toLowerCase "800k".toList) "lac".toList = false := by decide
    have hl2 : includes (toLowerCase "800k".toList) "lakh".toList = false := by decide
    have hk : includes (toLowerCase "800k".toList) "k".toList = true := by decide
    have hx : roundDouble (decimalNumber "800".toList []) = .fin 800 :=
      roundDouble_of_eq 800 1 7036874417766400 (-43) (by rw [hd]; norm_num) (by decide)
        (by decide) (by decide) (by decide) (by norm_num)
    rw [parsePrice_str _ _ _ hread, priceLaw, if_neg (by decide), hc, hl, hl2, hk, hx]
    simp only [Bool.false_eq_true, ↓reduceIte, Bool.or_self]
    exact roundDouble_of_eq 800000 1 6871947673600000 (-33) (by norm_num) (by decide)
      (by decide) (by decide) (by decide) (by norm_num)
  · have hread : ReadsDecimal ("garbage".toList.filter fun c => isDigit c || c == '.') [] [] :=
      ⟨by decide, by decide, Or.inl ⟨rfl, [], by decide, by simp⟩⟩
    rw [parsePrice_str _ _ _ hread, priceLaw, if_pos (by rfl)]
  · exact parsePrice_num _ (by simp)
  · have hread : ReadsDecimal
        ("9007199254740993".toList.filter fun c => isDigit c || c == '.')
        "9007199254740993".toList [] :=
      ⟨by decide, by decide, Or.inl ⟨rfl, [], by decide, by simp⟩⟩
    have hd : decimalNumber "9007199254740993".toList [] = 9007199254740993 := by
      have : digitsValue ("9007199254740993".toList ++ []) = 9007199254740993 := by
        rw [digitsValue_eq_digitsToNat]
        decide
      rw [decimalNumber, this]
      norm_num
    have e1 : includes (toLowerCase "9007199254740993".toList) "cr".toList = false := by
      decide
    have e2 : includes (toLowerCase "9007199254740993".toList) "lac".toList = false := by
      decide
    have e3 : includes (toLowerCase "9007199254740993".toList) "lakh".toList = false := by
      decide
    have e4 : includes (toLowerCase "9007199254740993".toList) "k".toList = false := by
      decide
    rw [parsePrice_str _ _ _ hread, priceLaw, if_neg (by decide), e1, e2, e3, e4, hd]
    simp only [Bool.false_eq_true, ↓reduceIte, Bool.or_self]
    exact roundDouble_examples.1

/-- C4 as amended, witness: the raw record `{price: "1.5 Cr"}`, whose digits and dots read as
1.5, is given the price 15000000. -/
theorem c4_price_law_witness :
    Accepted rawOneAndAHalfCrore ∧
    ∃ r, normalizeProperty rawOneAndAHalfCrore "scraper".toList = .ok r ∧
      r.1.price = priceLaw "1.5 Cr".toList "1".toList "5".toList ∧
      r.1.price = .fin 15000000 := by
  have hacc : Accepted rawOneAndAHalfCrore := ⟨Or.inl rfl, Or.inl rfl, Or.inl rfl, rfl⟩
  obtain ⟨⟨r, hr, _, hs⟩, _, h15, _⟩ := c4_price_law rawOneAndAHalfCrore "scraper".toList hacc
  have hread : ReadsDecimal ("1.5 Cr".toList.filter fun c => isDigit c || c == '.')
      "1".toList "5".toList :=
    ⟨by decide, by decide, Or.inr ⟨[], by decide, by simp⟩⟩
  have h1 := hs _ _ _ rfl hread
  refine ⟨hacc, r, hr, h1, ?_⟩
  rw [h1, ← parsePrice_str _ _ _ hread]
  exact h15

/-- C5, counterexample: in "CONTACT UState specific Area Units" the marker "CONTACT US" occurs
at index 0, the smallest index there is, yet the loop does not keep the (empty) prefix before
it: it keeps "CONTACT U". -/
theorem c5_overlap_counterexample :
    ¬ (∀ m ∈ junkMarkers, ∀ e, indexOf overlapText m = some e →
        (∀ m' ∈ junkMarkers, ∀ e', indexOf overlapText m' = some e' → e ≤ e') →
        truncateAtMarkers overlapText = overlapText.take e) := by
  intro h
  have h0 := h "CONTACT US".toList (by decide) 0 (by decide) (fun _ _ _ _ => Nat.zero_le _)
  exact absurd h0 (by decide)

/-- C5, amended: for every description text `t`, the text kept by the marker loop of
`cleanDescription` is the prefix of `t` before the earliest occurrence of a junk marker (`e` is
the index of an occurrence of a marker and no marker occurs at a smaller index), provided that
the text from that occurrence on does not start with "CONTACT UState specific Area Units"; and
it is `t` itself when no marker occurs. -/
theorem c5_truncation_at_earliest_marker (t : Str) :
    (∀ m ∈ junkMarkers, ∀ e, indexOf t m = some e →
      (∀ m' ∈ junkMarkers, ∀ e', indexOf t m' = some e' → e ≤ e') →
      ¬ overlapText <+: t.drop e → truncateAtMarkers t = t.take e) ∧
    ((∀ m ∈ junkMarkers, indexOf t m = none) → truncateAtMarkers t = t) := by
  obtain ⟨h1, h2⟩ := truncWith_spec junkMarkers t
  refine ⟨fun m hm e he hmin hno => h1 m hm e he hmin ?_, h2⟩
  rw [overlapWords_junkMarkers]
  intro w hw
  rw [List.mem_singleton.1 hw]
  exact hno

/-- C5, witness: in the example of the specification the earliest marker, "Popular Localities",
occurs at index 22; the loop keeps the 22 characters before it and the cleaned description is
"Nice flat near metro.". -/
theorem c5_truncation_at_earliest_marker_witness :
    indexOf exampleDescription "Popular Localities".toList = some 22 ∧
    ¬ overlapText <+: exampleDescription.drop 22 ∧
    truncateAtMarkers exampleDescription = "Nice flat near metro. ".toList ∧
    cleanDescription (.str exampleDescription) = "Nice flat near metro.".toList := by
  refine ⟨by decide, by decide, ?_, by decide⟩
  have hmin : ∀ m' ∈ junkMarkers, ∀ e', indexOf exampleDescription m' = some e' → 22 ≤ e' := by
    have hall : ∀ m' ∈ junkMarkers,
        (indexOf exampleDescription m').all (fun e' => decide (22 ≤ e')) = true := by decide
    intro m' hm' e' he'
    have := hall m' hm'
    rw [he'] at this
    simpa using this
  have := (c5_truncation_at_earliest_marker exampleDescription).1
    "Popular Localities".toList (by decide) 22 (by decide) hmin (by decide)
  rw [this]
  decide

/-- C6, counterexample: cleaning "Nice Popular  Localities" (two spaces inside) gives
"Nice Popular Localities", and cleaning that again gives "Nice". -/
theorem c6_not_idempotent :
    cleanDescription (.str twoSpaceDescription) = "Nice Popular Localities".toList ∧
    cleanDescription (.str (cleanDescription (.str twoSpaceDescription))) = "Nice".toList ∧
    cleanDescription (.str (cleanDescription (.str twoSpaceDescription)))
      ≠ cleanDescription (.str twoSpaceDescription) := by
  refine ⟨by decide, by decide, by decide⟩

/-- C6, amended: for every text `t`, cleaning the cleaned description again leaves it unchanged
exactly when the cleaned description contains none of the eleven junk markers (collapsing the
white space can bring a marker into being). -/
theorem c6_idempotent_iff_no_marker (t : Str) :
    cleanDescription (.str (cleanDescription (.str t))) = cleanDescription (.str t) ↔
      ∀ m ∈ junkMarkers, ¬ m <:+: cleanDescription (.str t) := by
  have hne := cleanDescription_str_ne_nil t
  have hcases := cleanDescription_str_cases t
  generalize cleanDescription (.str t) = r at hne hcases ⊢
  rcases hcases with hd | ⟨x, hx⟩
  · subst hd
    exact cleanDescription_fixed_iff hne (by decide) (by decide)
  · exact cleanDescription_fixed_iff hne (hx ▸ (tidy_collapseWs_trim x).1)
      (hx ▸ (tidy_collapseWs_trim x).2)

/-- C7: on every accepted raw record without an explicit `bhk`, if the name, a space and the
description contain digits, optional white space and one of BHK, Bedroom, RK in any letter case,
and `ds`, `u` are the digits and the unit of the leftmost such match, the normalizer returns a
record whose `bhk` is `ds`, one space and `u` with its letters in upper case, which is "BHK",
"BEDROOM" or "RK". -/
theorem c7_bhk_from_text (raw : Raw) (src : Str) (pre ds ws u post : Str) (hacc : Accepted raw)
    (hb : NoExplicitBhk raw) (hm : BhkMatchAt (nameAndDescription raw) pre ds ws u post)
    (hleft : ∀ pre' ds' ws' u' post',
      BhkMatchAt (nameAndDescription raw) pre' ds' ws' u' post' → pre.length ≤ pre'.length) :
    ∃ r, normalizeProperty raw src = .ok r ∧
      r.1.bhk = ds ++ " ".toList ++ u.map Char.toUpper ∧
      (u.map Char.toUpper = "BHK".toList ∨ u.map Char.toUpper = "BEDROOM".toList ∨
        u.map Char.toUpper = "RK".toList) := by
  rw [← combinedText_eq] at hm
  simp only [← combinedText_eq] at hleft
  obtain ⟨r, hr⟩ := normalizeProperty_returns src hacc
  obtain ⟨bhk0, _, t, _, hbhk, _, ht, _, hrb, _⟩ := normalizeProperty_inv hr
  refine ⟨r, hr, ?_, ?_⟩
  · have hexec := exec_bhkRe_of_leftmost hm hleft
    have hds : ds ≠ [] := hm.2.1.1
    have htruthy : (Prim.str (ds ++ " ".toList ++ toUpperCase u)).truthy = true := by
      cases ds with
      | nil => exact absurd rfl hds
      | cons _ _ => rfl
    have h0 : bhk0 = ds ++ " ".toList ++ toUpperCase u := by
      simp only [extractBhk, bhkMissing_of_noExplicit hb, hexec, ↓reduceIte,
        List.getD_cons_zero, List.getD_cons_succ, htruthy, Except.ok.injEq] at hbhk
      rw [← hbhk]
      exact bhk_format_clean hm.2.1 hm.2.2.2
    have hne : bhk0 ≠ [] := by
      rw [h0]
      cases ds with
      | nil => exact absurd rfl hds
      | cons _ _ => simp
    rw [hrb, parseTitle_bhk ht hne, h0, toUpperCase_eq_map_toUpper]
  · obtain ⟨w, hw, hci⟩ := hm.2.2.2
    rw [← toUpperCase_eq_map_toUpper]
    have hci' : toUpperCase u = w.map upperChar := hci
    rw [hci']
    simp only [bhkUnits, List.mem_cons, List.mem_singleton, List.not_mem_nil, or_false] at hw
    rcases hw with rfl | rfl | rfl
    · exact Or.inl (by decide)
    · exact Or.inr (Or.inl (by decide))
    · exact Or.inr (Or.inr (by decide))

/-- C7, witness: the raw record `{property_name: "3BHK Flat for rent", description: ""}` of
the specification is given the `bhk` "3 BHK", and `{property_name: "Flat for rent",
description: "Airy 2 bedroom home"}`, where the match lies in the description and the unit is
in small letters, the `bhk` "2 BEDROOM". -/
theorem c7_bhk_from_text_witness :
    (∃ r, normalizeProperty rawThreeBhk "scraper".toList = .ok r ∧
      r.1.bhk = "3 BHK".toList) ∧
    (∃ r, normalizeProperty rawBedroomInDescription "scraper".toList = .ok r ∧
      r.1.bhk = "2 BEDROOM".toList) := by
  constructor
  · obtain ⟨r, hr, h, _⟩ := c7_bhk_from_text rawThreeBhk "scraper".toList [] "3".toList []
      "BHK".toList " Flat for rent ".toList ⟨Or.inl rfl, Or.inr ⟨_, rfl⟩, Or.inl rfl, rfl⟩
      (Or.inl rfl)
      ⟨by decide, ⟨by decide, by decide⟩, by decide, ⟨"BHK".toList, by decide, rfl⟩⟩
      (fun _ _ _ _ _ _ => Nat.zero_le _)
    exact ⟨r, hr, h.trans (by decide)⟩
  · have hm : BhkMatchAt (nameAndDescription rawBedroomInDescription)
        "Flat for rent Airy ".toList "2".toList " ".toList "bedroom".toList " home".toList :=
      ⟨by decide, ⟨by decide, by decide⟩, by decide, ⟨"Bedroom".toList, by decide, rfl⟩⟩
    obtain ⟨r, hr, h, _⟩ := c7_bhk_from_text rawBedroomInDescription "scraper".toList
      "Flat for rent Airy ".toList "2".toList " ".toList "bedroom".toList " home".toList
      ⟨Or.inl rfl, Or.inr ⟨_, rfl⟩, Or.inl rfl, rfl⟩ (Or.inl rfl) hm
      (fun pre' ds' ws' u' post' hm' =>
        leftmost_of_no_digit_before hm.1 (by decide) hm'.1 hm'.2.1.1 hm'.2.1.2)
    exact ⟨r, hr, h.trans (by decide)⟩

/-- C8 (the code fails the claim): for a `bhk` made of one space, with nothing to extract from
the name and the description, the normalizer returns the empty string as `bhk`. -/
theorem c8_blank_bhk_gives_empty :
    ∃ r, normalizeProperty rawBlankBhk "scraper".toList = .ok r ∧ r.1.bhk = [] :=
  exists_ok_of_toOption_map (f := fun r => r.1.bhk) (by decide)

/-- C9: on every accepted raw record whose `bhk` is a non-empty string that neither starts nor
ends with white space, whose white-space characters are all the space character and in which
no two spaces are adjacent, the normalizer returns a record whose `bhk` is that string,
whatever the name, the description and the title contain. -/
theorem c9_clean_bhk_preserved (raw : Raw) (src : Str) (s : Str) (hacc : Accepted raw)
    (hb : raw.bhk = .str s) (hne : s ≠ [])
    (hh : ∀ c, s.head? = some c → isSpace c = false)
    (hl : ∀ c, s.getLast? = some c → isSpace c = false)
    (h1 : ∀ c ∈ s, isSpace c = true → c = ' ') (h2 : ¬ [' ', ' '] <:+: s) :
    ∃ r, normalizeProperty raw src = .ok r ∧ r.1.bhk = s := by
  obtain ⟨r, hr⟩ := normalizeProperty_returns src hacc
  obtain ⟨bhk0, _, t, _, hbhk, _, ht, _, hrb, _⟩ := normalizeProperty_inv hr
  refine ⟨r, hr, ?_⟩
  have hs : (Prim.str s).truthy = true := by
    cases s with
    | nil => exact absurd rfl hne
    | cons _ _ => rfl
  have htrim : (trim s).isEmpty = false := by
    rw [trim_eq_self hh hl]
    cases s with
    | nil => exact absurd rfl hne
    | cons _ _ => rfl
  have h0 : bhk0 = s := by
    simp only [extractBhk, bhkMissing, hb, hs, Prim.asString, htrim, Bool.not_true,
      Bool.false_eq_true, ↓reduceIte, Except.ok.injEq] at hbhk
    rw [← hbhk]
    exact cleanText_eq_self hh hl h1 h2
  rw [hrb, parseTitle_bhk ht (h0 ▸ hne), h0]

/-- C9, witness: the `bhk` "2 BHK" is kept although the name says "3BHK". -/
theorem c9_clean_bhk_preserved_witness :
    ∃ r, normalizeProperty rawTwoBhk "scraper".toList = .ok r ∧ r.1.bhk = "2 BHK".toList :=
  c9_clean_bhk_preserved rawTwoBhk "scraper".toList "2 BHK".toList
    ⟨Or.inr ⟨_, rfl⟩, Or.inr ⟨_, rfl⟩, Or.inl rfl, rfl⟩ rfl (by decide) (by decide) (by decide)
    (by decide) (by decide)

/-- C10: on every accepted raw record the normalizer returns a record whose `area` is (1) the
raw field, trimmed and with every run of white space collapsed to one space, when that field
is a string of at most 50 UTF-16 units that contains a digit, and the text of the raw field
when that is a finite number other than 0; (2) otherwise, when the name, a space and the
description contain a number (digits, or digits, a comma and digits), optional white space and
one of sqft, sq.ft, sq ft, sq yards, gaj in any letter case, the number and the unit of the
leftmost such match with one space between them; (3) otherwise "N/A". -/
theorem c10_area_extraction (raw : Raw) (src : Str) (hacc : Accepted raw) :
    ∃ r, normalizeProperty raw src = .ok r ∧
      (∀ s, raw.area = .str s → jsLength s ≤ 50 → (∃ c ∈ s, isDigit c = true) →
        r.1.area = collapseWs (trim s)) ∧
      (∀ q : ℚ, raw.area = .num (.fin q) → q ≠ 0 → r.1.area = numToString (.fin q)) ∧
      (¬ ExplicitAreaUsable raw → ∀ pre num ws u post,
        AreaMatchAt (nameAndDescription raw) pre num ws u post →
        (∀ pre' num' ws' u' post',
          AreaMatchAt (nameAndDescription raw) pre' num' ws' u' post' →
            pre.length ≤ pre'.length) →
        r.1.area = num ++ " ".toList ++ u) ∧
      (¬ ExplicitAreaUsable raw →
        (∀ pre num ws u post, ¬ AreaMatchAt (nameAndDescription raw) pre num ws u post) →
        r.1.area = "N/A".toList) := by
  simp only [← combinedText_eq]
  obtain ⟨r, hr⟩ := normalizeProperty_returns src hacc
  obtain ⟨_, _, _, _, _, _, _, _, _, _, ha, _⟩ := normalizeProperty_inv hr
  refine ⟨r, hr, ?_, ?_, ?_, ?_⟩
  · intro s hs hlen hd
    rw [ha, extractArea_of_usable hs hlen hd]
  · intro q hs hq
    rw [ha, extractArea_of_usable_num hs hq]
  · intro hnot pre num ws u post hm hleft
    rw [ha]
    unfold extractArea
    have htruthy : (Prim.str (num ++ " ".toList ++ u)).truthy = true := by
      obtain ⟨hne, _⟩ := areaNumber_props hm.2.1
      cases num with
      | nil => exact absurd rfl hne
      | cons _ _ => rfl
    simp only [area_condition_of_not_usable hnot, exec_areaRe_of_leftmost hm hleft,
      ↓reduceIte, List.getD_cons_zero, List.getD_cons_succ, htruthy]
    exact area_format_clean hm.2.1 hm.2.2.2
  · intro hnot hnone
    rw [ha]
    unfold extractArea
    simp only [area_condition_of_not_usable hnot, exec_areaRe_eq_none hnone, ↓reduceIte]
    rfl

/-- C10, witness: an explicit area " 1200  sq ft " comes out as "1200 sq ft" although the name
holds another area; the area "Spacious" (without a digit) is replaced by "1,200 Sq Yards",
found in the description; and the numeric area `1200` comes out as "1200". -/
theorem c10_area_extraction_witness :
    (∃ r, normalizeProperty rawExplicitArea "scraper".toList = .ok r ∧
      r.1.area = "1200 sq ft".toList) ∧
    (∃ r, normalizeProperty rawAreaInDescription "scraper".toList = .ok r ∧
      r.1.area = "1,200 Sq Yards".toList) ∧
    (∃ r, normalizeProperty rawNumericArea "scraper".toList = .ok r ∧
      r.1.area = "1200".toList) := by
  refine ⟨?_, ?_, ?_⟩
  · obtain ⟨r, hr, h1, _⟩ := c10_area_extraction rawExplicitArea "scraper".toList
      ⟨Or.inl rfl, Or.inr ⟨_, rfl⟩, Or.inl rfl, rfl⟩
    refine ⟨r, hr, ?_⟩
    rw [h1 _ rfl (by decide) ⟨'1', by decide, by decide⟩]
    decide
  · obtain ⟨r, hr, _, _, h2, _⟩ := c10_area_extraction rawAreaInDescription "scraper".toList
      ⟨Or.inl rfl, Or.inr ⟨_, rfl⟩, Or.inl rfl, rfl⟩
    refine ⟨r, hr, ?_⟩
    have hnot : ¬ ExplicitAreaUsable rawAreaInDescription := by
      rintro (⟨s, hs, _, c, hc, hcd⟩ | ⟨q, hq, _⟩)
      · have : s = "Spacious".toList := by
          simp only [rawAreaInDescription, Prim.str.injEq] at hs
          exact hs.symm
        subst this
        have hno : ("Spacious".toList).any isDigit = false := by decide
        have := List.any_eq_true.2 ⟨c, hc, hcd⟩
        rw [hno] at this
        exact absurd this (by simp)
      · simp [rawAreaInDescription] at hq
    have hm : AreaMatchAt (nameAndDescription rawAreaInDescription)
        "Corner plot Plot of ".toList "1,200".toList " ".toList "Sq Yards".toList [] :=
      ⟨by decide, Or.inr ⟨"1".toList, "200".toList, rfl, ⟨by decide, by decide⟩,
        ⟨by decide, by decide⟩⟩, by decide, ⟨"sq yards".toList, by decide, rfl⟩⟩
    refine h2 hnot _ _ _ _ _ hm ?_
    intro pre' num' ws' u' post' hm'
    obtain ⟨d, rest, hnum, hd⟩ := areaNumber_head hm'.2.1
    have ht := hm'.1
    rw [hnum] at ht
    exact length_le_of_head isDigit hm.1 (by decide) ht hd
  · obtain ⟨r, hr, _, h, _⟩ := c10_area_extraction rawNumericArea "scraper".toList
      ⟨Or.inl rfl, Or.inl rfl, Or.inl rfl, rfl⟩
    refine ⟨r, hr, ?_⟩
    rw [h 1200 rfl (by norm_num)]
    decide

/-- C11, counterexample: for `{address: "N/A", title: "Flat in Green Park, Noida"}` the
address `A` is "N/A" and the name and description have no sector, yet the returned address is
"Noida", the text after the comma of the title. -/
theorem c11_title_replaces_address :
    ∃ r, normalizeProperty rawTitleAddress "scraper".toList = .ok r ∧
      resolvedAddress rawTitleAddress = "N/A".toList ∧
      extractSector (nameAndDescription rawTitleAddress) = none ∧
      (∀ pre w ws ds l post,
        ¬ SectorMatchAt (nameAndDescription rawTitleAddress) pre w ws ds l post) ∧
      r.1.address = "Noida".toList := by
  obtain ⟨r, hr, h⟩ := exists_ok_of_toOption_map
    (x := normalizeProperty rawTitleAddress "scraper".toList) (f := fun r => r.1.address)
    (b := "Noida".toList) (by decide)
  refine ⟨r, hr, by decide, by decide, ?_, h⟩
  intro pre w ws ds l post hm
  have h1 : nameAndDescription rawTitleAddress = [' '] := by decide
  have hl := congrArg List.length hm.1
  have hw : w.length = 6 := by
    have := congrArg List.length hm.2.1
    simpa using this
  rw [h1] at hl
  simp only [List.length_singleton, List.length_append, hw] at hl
  omega

/-- C11, as amended: let `A` be the cleaned first available one of `address`, `locality` and
`dynamic_facts["Address"]`, or "Unknown Location" when there is none or it cleans to the empty
text, and let `B` be `A`, except that an `A` equal to "N/A" is replaced by the text after the
comma in the last ` in ` part of the title when the title has one. On every accepted raw
record with a non-empty `B`: if the name, a space and the description contain "Sector" (in any
letter case), optional white space, digits and an optional letter, and `S` is "Sector "
followed by the digits and the letter of the leftmost such match, taken greedily, the returned
address is `S`, ", " and `B` when `B` does not contain `S`, and `B` when it does; without such
a match the returned address is `B`. -/
theorem c11_address (raw : Raw) (src : Str) (hacc : Accepted raw)
    (hne : addressBase raw ≠ []) :
    ∃ r, normalizeProperty raw src = .ok r ∧
      (∀ pre w ws ds l post, SectorMatchAt (nameAndDescription raw) pre w ws ds l post →
        SectorGreedy l post →
        (∀ pre' w' ws' ds' l' post',
          SectorMatchAt (nameAndDescription raw) pre' w' ws' ds' l' post' →
            pre.length ≤ pre'.length) →
        r.1.address =
          if includes (addressBase raw) ("Sector ".toList ++ (ds ++ l)) then addressBase raw
          else "Sector ".toList ++ (ds ++ l) ++ ", ".toList ++ addressBase raw) ∧
      ((∀ pre w ws ds l post, ¬ SectorMatchAt (nameAndDescription raw) pre w ws ds l post) →
        r.1.address = addressBase raw) := by
  have _ := hne
  simp only [← combinedText_eq]
  obtain ⟨r, hr⟩ := normalizeProperty_returns src hacc
  obtain ⟨_, _, t, _, _, _, ht, _, _, _, _, _, _, _, _, _, _, _, _, _, _, haddr, _⟩ :=
    normalizeProperty_inv hr
  rw [initialAddress_eq] at ht
  have hB := parseTitle_address hacc.2.2.1 ht
  rw [hB] at haddr
  refine ⟨r, hr, ?_, ?_⟩
  · intro pre w ws ds l post hm hg hleft
    rw [haddr, extractSector_of_leftmost hm hg hleft]
    have hS : ("Sector ".toList ++ (ds ++ l)).isEmpty = false := rfl
    generalize "Sector ".toList ++ (ds ++ l) = S at hS ⊢
    simp only [optTruthy, Option.getD_some, hS]
    cases includes (addressBase raw) S <;> simp
  · intro hnone
    rw [haddr, extractSector_eq_none hnone]
    simp [optTruthy]

/-- C11 as amended, witness: for `{locality: " Tower 5,  Noida ", property_name: "Flat",
description: "Near metro, Sector 62A Noida"}`, where the sector stands in the description, the
returned address is "Sector 62A, Tower 5, Noida". -/
theorem c11_address_witness :
    ∃ r, normalizeProperty rawSectorInDescription "scraper".toList = .ok r ∧
      r.1.address = "Sector 62A, Tower 5, Noida".toList := by
  obtain ⟨r, hr, h, _⟩ := c11_address rawSectorInDescription "scraper".toList
    ⟨Or.inl rfl, Or.inr ⟨_, rfl⟩, Or.inl rfl, rfl⟩ (by decide)
  have hm : SectorMatchAt (nameAndDescription rawSectorInDescription)
      "Flat Near metro, ".toList "Sector".toList " ".toList "62".toList "A".toList
      " Noida".toList :=
    ⟨by decide, rfl, by decide, ⟨by decide, by decide⟩, Or.inr ⟨'A', rfl, by decide⟩⟩
  have h1 := h _ _ _ _ _ _ hm
    ⟨by
      intro c hc
      simp only [String.toList, List.cons_append, List.head?_cons, Option.some.injEq] at hc
      rw [← hc]
      decide,
     by
      intro h0
      exact absurd h0 (by decide)⟩
    (by
      intro pre' w' ws' ds' l' post' hm'
      obtain ⟨d, rest, hw, hd⟩ := ciEq_head hm'.2.1 rfl
      have ht := hm'.1
      rw [hw] at ht
      exact length_le_of_head (fun c => upperChar c == 'S') hm.1 (by decide) ht
        (by simpa using hd))
  exact ⟨r, hr, h1.trans (by decide)⟩

/-- C12: on every accepted raw record, with `T` the lower-cased address `A`, a space and the
lower-cased name, the normalizer returns a record whose city is "Greater Noida" if `T`
contains "greater noida", else "Noida" if it contains "noida", else "Delhi" if it contains
"delhi", else "Gurgaon" if it contains "gurgaon" or "gurugram", else "Ghaziabad" if it
contains "ghaziabad", else "Greater Noida"; so the city is one of these five names. -/
theorem c12_city (raw : Raw) (src : Str) (hacc : Accepted raw) :
    ∃ r, normalizeProperty raw src = .ok r ∧ r.1.city = cityLaw (cityText raw) ∧
      r.1.city ∈ cityNames := by
  obtain ⟨r, hr⟩ := normalizeProperty_returns src hacc
  obtain ⟨_, city, _, _, _, hcity, _, _, _, _, _, _, _, hrc, _⟩ := normalizeProperty_inv hr
  rw [initialAddress_eq, inferCity_eq hacc.2.1, Except.ok.injEq] at hcity
  refine ⟨r, hr, ?_, ?_⟩
  · rw [hrc, ← hcity]
  · rw [hrc, ← hcity]
    exact cityLaw_mem _

/-- C12, witness: the address "Sector 18, Noida" with the name "Flat near New Delhi" gives the
city "Noida", which comes before "Delhi" in the chain. -/
theorem c12_city_witness :
    ∃ r, normalizeProperty rawTwoCities "scraper".toList = .ok r ∧
      r.1.city = "Noida".toList := by
  obtain ⟨r, hr, h, _⟩ :=
    c12_city rawTwoCities "scraper".toList ⟨Or.inl rfl, Or.inr ⟨_, rfl⟩, Or.inl rfl, rfl⟩
  exact ⟨r, hr, h.trans (by decide)⟩

/-- C13: on every accepted raw record the normalizer returns a record whose
`dynamic_facts["Property Type"]` is decided by the first keyword, in the order Villa, Plot or
Land, Floor, Studio, Penthouse, that the name, a space and the description contain in any
letter case, with "Apartment" when they contain none; the values are "Villa", "Plot",
"Independent Floor", "Studio", "Penthouse" and "Apartment", and the value stands in place of
whatever the raw `dynamic_facts` held under that key. -/
theorem c13_property_type (raw : Raw) (src : Str) (hacc : Accepted raw) :
    ∃ r, normalizeProperty raw src = .ok r ∧
      lookupKey r.1.dynamic_facts "Property Type".toList
        = .str (propertyTypeLaw (nameAndDescription raw)) := by
  obtain ⟨r, hr⟩ := normalizeProperty_returns src hacc
  refine ⟨r, hr, ?_⟩
  rw [normalizeProperty_facts hr, lookupKey_writeDerived_propertyType, extractPropertyType_eq,
    combinedText_eq]

/-- C13, witness: with the name "Luxury home" and the description "A VILLA with plot" the
type is "Villa", found in the description, which replaces the raw entry "Flat"; the same
record without the description is given the type "Apartment". -/
theorem c13_property_type_witness :
    (∃ r, normalizeProperty rawVillaInDescription "scraper".toList = .ok r ∧
      lookupKey r.1.dynamic_facts "Property Type".toList = .str "Villa".toList) ∧
    (∃ r, normalizeProperty rawLuxuryHome "scraper".toList = .ok r ∧
      lookupKey r.1.dynamic_facts "Property Type".toList = .str "Apartment".toList) := by
  constructor
  · obtain ⟨r, hr, h⟩ := c13_property_type rawVillaInDescription "scraper".toList
      ⟨Or.inl rfl, Or.inr ⟨_, rfl⟩, Or.inl rfl, rfl⟩
    exact ⟨r, hr, h.trans (by decide)⟩
  · obtain ⟨r, hr, h⟩ := c13_property_type rawLuxuryHome "scraper".toList
      ⟨Or.inl rfl, Or.inr ⟨_, rfl⟩, Or.inl rfl, rfl⟩
    exact ⟨r, hr, h.trans (by decide)⟩

/-- C14, counterexample: for `{property_name: "Sector 5"}` a sector is derived and the returned
`bhk` is "N/A", yet the title starts with a space, not with "N/A". -/
theorem c14_title_without_bhk :
    ∃ r, normalizeProperty rawSectorOnly "scraper".toList = .ok r ∧
      extractSector (combinedText rawSectorOnly) = some "Sector 5".toList ∧
      r.1.bhk = "N/A".toList ∧ r.1.title = " Apartment in Sector 5".toList := by
  obtain ⟨r, hr, h⟩ := exists_ok_of_toOption_map
    (x := normalizeProperty rawSectorOnly "scraper".toList)
    (f := fun r => (r.1.bhk, r.1.title))
    (b := ("N/A".toList, " Apartment in Sector 5".toList)) (by decide)
  simp only [Prod.mk.injEq] at h
  exact ⟨r, hr, by decide, h.1, h.2⟩

/-- C14, as amended: on every accepted raw record for which a society or a sector is derived,
the returned title is `<bhk> <type> in <loc>`, where `<bhk>` is the returned `bhk`, or the
empty text when that is "N/A", `<type>` is the derived property type and `<loc>` is the
society if one was derived and the sector otherwise, followed by ", " and the sector exactly
when both a society and a sector were derived. -/
theorem c14_synthesized_title (raw : Raw) (src : Str) (hacc : Accepted raw)
    (hder : optTruthy (extractSociety (combinedText raw)) = true ∨
      optTruthy (extractSector (combinedText raw)) = true) :
    ∃ r, normalizeProperty raw src = .ok r ∧
      r.1.title =
        (if r.1.bhk = "N/A".toList then [] else r.1.bhk) ++ " ".toList ++
          extractPropertyType (combinedText raw) ++ " in ".toList ++
          (if optTruthy (extractSociety (combinedText raw)) then
            (extractSociety (combinedText raw)).getD []
           else (extractSector (combinedText raw)).getD []) ++
          (if optTruthy (extractSociety (combinedText raw)) ∧
              optTruthy (extractSector (combinedText raw)) then
            ", ".toList ++ (extractSector (combinedText raw)).getD []
           else []) := by
  obtain ⟨r, hr⟩ := normalizeProperty_returns src hacc
  obtain ⟨_, city, t, _, _, _, _, _, hrb, _, _, _, _, _, _, _, _, _, _, _, htitle, _⟩ :=
    normalizeProperty_inv hr
  refine ⟨r, hr, ?_⟩
  rw [htitle, hrb]
  unfold makeTitle
  generalize extractSociety (combinedText raw) = society at hder ⊢
  generalize extractSector (combinedText raw) = sector at hder ⊢
  simp only [extractPropertyType_ne_nil, Bool.false_eq_true, ↓reduceIte]
  rw [bne_eq_not_decide]
  by_cases h1 : t.1 = "N/A".toList <;>
    cases h2 : optTruthy society <;> cases h3 : optTruthy sector <;>
      simp_all

/-- C14 as amended, witness: the name "3 BHK in ATS Rhapsody, Sector 1" gives the title
"3 BHK Apartment in ATS Rhapsody, Sector 1". -/
theorem c14_synthesized_title_witness :
    ∃ r, normalizeProperty rawSocietySector "scraper".toList = .ok r ∧
      r.1.bhk = "3 BHK".toList ∧
      r.1.title = "3 BHK Apartment in ATS Rhapsody, Sector 1".toList := by
  obtain ⟨r, hr, h⟩ := c14_synthesized_title rawSocietySector "scraper".toList
    ⟨Or.inl rfl, Or.inr ⟨_, rfl⟩, Or.inl rfl, rfl⟩ (Or.inl (by decide))
  obtain ⟨r', hr', hb⟩ := exists_ok_of_toOption_map
    (x := normalizeProperty rawSocietySector "scraper".toList) (f := fun r => r.1.bhk)
    (b := "3 BHK".toList) (by decide)
  rw [hr] at hr'
  cases hr'
  rw [hb] at h
  exact ⟨r, hr, hb, h.trans (by decide)⟩

/-- C15, counterexample: for `{title: "Spacious home with garden"}` neither a society nor a
sector is derived and the title supplied as `title` has 25 characters, yet the returned title
is the generated "Property for Sale in Greater Noida". -/
theorem c15_title_field_ignored :
    ∃ r, normalizeProperty rawTitleOnly "scraper".toList = .ok r ∧
      rawTitleOnly.title = .str "Spacious home with garden".toList ∧
      extractSociety (combinedText rawTitleOnly) = none ∧
      extractSector (combinedText rawTitleOnly) = none ∧
      r.1.title = "Property for Sale in Greater Noida".toList := by
  obtain ⟨r, hr, h⟩ := exists_ok_of_toOption_map
    (x := normalizeProperty rawTitleOnly "scraper".toList) (f := fun r => r.1.title)
    (b := "Property for Sale in Greater Noida".toList) (by decide)
  exact ⟨r, hr, rfl, by decide, by decide, h⟩

/-- C15, as amended: on every accepted raw record for which neither a society nor a sector is
derived, with `T` the `property_name` of the record with its white space trimmed and collapsed
(empty when the record has none; the field `title` is not consulted): if `T` is empty or
shorter than 5 UTF-16 units the returned title is `<b> for Sale in <city>`, with `<b>` the
returned `bhk`, or "Property" when that is "N/A", and `<city>` the returned city; otherwise the
returned title is `T`. -/
theorem c15_title_fallback (raw : Raw) (src : Str) (hacc : Accepted raw)
    (hsoc : optTruthy (extractSociety (combinedText raw)) = false)
    (hsec : optTruthy (extractSector (combinedText raw)) = false) :
    ∃ r, normalizeProperty raw src = .ok r ∧
      r.1.title =
        if cleanText raw.property_name = [] ∨ jsLength (cleanText raw.property_name) < 5 then
          (if r.1.bhk = "N/A".toList then "Property".toList else r.1.bhk) ++
            " for Sale in ".toList ++ r.1.city
        else cleanText raw.property_name := by
  obtain ⟨r, hr⟩ := normalizeProperty_returns src hacc
  obtain ⟨_, city, t, _, _, _, _, _, hrb, _, _, _, _, hrc, _, _, _, _, _, _, htitle, _⟩ :=
    normalizeProperty_inv hr
  refine ⟨r, hr, ?_⟩
  rw [htitle, hrb, hrc]
  unfold makeTitle
  simp only [hsoc, hsec, Bool.or_self, Bool.false_eq_true, ↓reduceIte]
  generalize cleanText raw.property_name = title
  rw [bne_eq_not_decide]
  by_cases h1 : t.1 = "N/A".toList <;> by_cases h2 : title = [] <;>
    by_cases h3 : jsLength title < 5 <;> simp_all

/-- C15 as amended, witness: the name "  Cozy   Studio  " is returned as the title
"Cozy Studio". -/
theorem c15_title_fallback_witness :
    ∃ r, normalizeProperty rawCozyStudio "scraper".toList = .ok r ∧
      r.1.title = "Cozy Studio".toList := by
  obtain ⟨r, hr, h⟩ := c15_title_fallback rawCozyStudio "scraper".toList
    ⟨Or.inl rfl, Or.inr ⟨_, rfl⟩, Or.inl rfl, rfl⟩ (by decide) (by decide)
  have hc : cleanText rawCozyStudio.property_name = "Cozy Studio".toList := by decide
  rw [hc] at h
  exact ⟨r, hr, h.trans (if_neg (by decide))⟩

/-- C16: on every accepted raw record the normalizer returns a record whose `features` is the
raw `features` when that is a flat list, the raw `features.property` when `features` is an
object with a `property` list, and the empty list for every other shape (a primitive, absent
or not, or an object without a `property` list); and when `features` is an object with a
non-empty `society` list, `dynamic_facts["Project Amenities"]` is that list joined with ", "
(for a list of strings: the strings with ", " between them). -/
theorem c16_features (raw : Raw) (src : Str) (hacc : Accepted raw) :
    ∃ r, normalizeProperty raw src = .ok r ∧
      (∀ xs, raw.features = .val (.list xs) → r.1.features = xs) ∧
      (∀ xs society, raw.features = .obj (.list xs) society → r.1.features = xs) ∧
      (∀ p, raw.features = .val (.prim p) → r.1.features = []) ∧
      (∀ p society, raw.features = .obj (.prim p) society → r.1.features = []) ∧
      (∀ property ys, raw.features = .obj property (.list ys) → ys ≠ [] →
        lookupKey r.1.dynamic_facts "Project Amenities".toList
          = .str (joinWith ", ".toList (ys.map joinItem))) ∧
      (∀ property ss, raw.features = .obj property (.list (ss.map Prim.str)) → ss ≠ [] →
        lookupKey r.1.dynamic_facts "Project Amenities".toList
          = .str (joinWith ", ".toList ss)) := by
  obtain ⟨r, hr⟩ := normalizeProperty_returns src hacc
  obtain ⟨_, _, _, _, _, _, _, _, _, _, _, _, _, _, _, _, _, _, _, hfeat, _⟩ :=
    normalizeProperty_inv hr
  have hjoin : ∀ property ys, raw.features = .obj property (.list ys) → ys ≠ [] →
      lookupKey r.1.dynamic_facts "Project Amenities".toList
        = .str (joinWith ", ".toList (ys.map joinItem)) := by
    intro property ys h hne
    rw [normalizeProperty_facts hr]
    apply lookupKey_writeDerived_amenities
    rw [h]
    cases ys with
    | nil => exact absurd rfl hne
    | cons y ys => rfl
  refine ⟨r, hr, ?_, ?_, ?_, ?_, hjoin, ?_⟩
  · intro xs h
    rw [hfeat, h]
    rfl
  · intro xs society h
    rw [hfeat, h]
    rfl
  · intro p h
    rw [hfeat, h]
    rfl
  · intro p society h
    rw [hfeat, h]
    rfl
  · intro property ss h hne
    have := hjoin property (ss.map Prim.str) h (by
      cases ss with
      | nil => exact absurd rfl hne
      | cons _ _ => simp)
    rw [this, map_joinItem_str]

/-- C16, witness: `{features: {property: ["Lift"], society: ["Pool", "Gym"]}}` gives the
features `["Lift"]` and the project amenities "Pool, Gym". -/
theorem c16_features_witness :
    ∃ r, normalizeProperty rawNestedFeatures "scraper".toList = .ok r ∧
      r.1.features = [.str "Lift".toList] ∧
      lookupKey r.1.dynamic_facts "Project Amenities".toList = .str "Pool, Gym".toList := by
  obtain ⟨r, hr, _, h2, _, _, _, h6⟩ :=
    c16_features rawNestedFeatures "scraper".toList ⟨Or.inl rfl, Or.inl rfl, Or.inl rfl, rfl⟩
  exact ⟨r, hr, h2 _ _ rfl, h6 _ ["Pool".toList, "Gym".toList] rfl (by simp)⟩

/-- C17: on every accepted raw record the normalizer returns a record none of whose
`dynamic_facts` keys is on the deny-list and none of whose keys is matched by one of the
eight junk patterns; the derived keys are among the keys of that record. -/
theorem c17_no_junk_keys (raw : Raw) (src : Str) (hacc : Accepted raw) :
    ∃ r, normalizeProperty raw src = .ok r ∧ junkPatterns.length = 8 ∧
      (∀ e ∈ r.1.dynamic_facts,
        e.1 ∉ junkKeys ∧ ∀ pattern ∈ junkPatterns, pattern.test false e.1 = false) ∧
      lookupKey r.1.dynamic_facts "Society".toList ≠ .undefined ∧
      lookupKey r.1.dynamic_facts "Property Type".toList ≠ .undefined := by
  obtain ⟨r, hr⟩ := normalizeProperty_returns src hacc
  have hsplit : ∀ k, junkKey k = false →
      k ∉ junkKeys ∧ ∀ pattern ∈ junkPatterns, pattern.test false k = false := by
    intro k hk
    unfold junkKey at hk
    rw [Bool.or_eq_false_iff] at hk
    refine ⟨?_, ?_⟩
    · intro hmem
      have : junkKeys.contains k = true := by simpa using hmem
      rw [hk.1] at this
      exact absurd this (by simp)
    · intro pattern hp
      have := hk.2
      rw [List.any_eq_false] at this
      simpa using this pattern hp
  refine ⟨r, hr, rfl, ?_, ?_, ?_⟩
  · intro e he
    apply hsplit
    rw [normalizeProperty_facts hr] at he
    rcases mem_writeDerived he with h | h | h | ⟨_, _, h⟩ | ⟨_, _, h⟩
    · exact (mem_filterJunk h).2
    · rw [h]; exact derived_keys_not_junk.1
    · rw [h]; exact derived_keys_not_junk.2.1
    · rw [h]; exact derived_keys_not_junk.2.2.1
    · rw [h]; exact derived_keys_not_junk.2.2.2
  · rw [normalizeProperty_facts hr]
    unfold writeDerived
    simp only
    have h1 : ∀ (f : Facts) (k : Str) (v : Prim), "Society".toList ≠ k →
        lookupKey (setKey f k v) "Society".toList = lookupKey f "Society".toList :=
      fun f k v hk => lookupKey_setKey_ne f v hk
    cases projectAmenities raw.features <;> cases bathRe.exec true (combinedText raw) <;>
      simp only [h1 _ "Project Amenities".toList _ (by decide),
        h1 _ "Bathrooms".toList _ (by decide), h1 _ "Property Type".toList _ (by decide),
        lookupKey_setKey_same] <;> simp
  · rw [normalizeProperty_facts hr, lookupKey_writeDerived_propertyType]
    simp

/-- C17, witness: of the raw keys "Home Loans", "About Noida" and "Facing" only "Facing" is
kept, and the record has the keys "Facing", "Society" and "Property Type". -/
theorem c17_no_junk_keys_witness :
    ∃ r, normalizeProperty rawJunkKeys "scraper".toList = .ok r ∧
      (∀ e ∈ r.1.dynamic_facts,
        e.1 ∉ junkKeys ∧ ∀ pattern ∈ junkPatterns, pattern.test false e.1 = false) ∧
      r.1.dynamic_facts.map (fun e => e.1)
        = ["Facing".toList, "Society".toList, "Property Type".toList] := by
  obtain ⟨r, hr, _, h, _⟩ :=
    c17_no_junk_keys rawJunkKeys "scraper".toList ⟨Or.inl rfl, Or.inl rfl, Or.inl rfl, rfl⟩
  refine ⟨r, hr, h, ?_⟩
  obtain ⟨r', hr', hk⟩ := exists_ok_of_toOption_map
    (x := normalizeProperty rawJunkKeys "scraper".toList)
    (f := fun r => r.1.dynamic_facts.map fun e => e.1)
    (b := ["Facing".toList, "Society".toList, "Property Type".toList]) (by decide)
  rw [hr] at hr'
  cases hr'
  exact hk

/-- C18 (the code fails the claim): for `{features: {property: [], society:
["Owner | 4mo ago"]}}` the normalizer returns a record whose
`dynamic_facts["Project Amenities"]` is the string "Owner | 4mo ago", which contains
"Owner |": the value is written after the junk filter has run. -/
theorem c18_amenities_keep_junk :
    ∃ r, normalizeProperty rawJunkAmenities "scraper".toList = .ok r ∧
      r.1.dynamic_facts = [("Society".toList, .str "N/A".toList),
        ("Property Type".toList, .str "Apartment".toList),
        ("Project Amenities".toList, .str "Owner | 4mo ago".toList)] ∧
      includes "Owner | 4mo ago".toList "Owner |".toList = true := by
  obtain ⟨r, hr, h⟩ := exists_ok_of_toOption_map
    (x := normalizeProperty rawJunkAmenities "scraper".toList)
    (f := fun r => r.1.dynamic_facts)
    (b := [("Society".toList, .str "N/A".toList),
        ("Property Type".toList, .str "Apartment".toList),
        ("Project Amenities".toList, .str "Owner | 4mo ago".toList)]) (by decide)
  exact ⟨r, hr, h, by decide⟩

/-- C19, counterexample: the entry "floorplan.jpg.pdf" ends with none of the four extensions
and does not start with "http", yet it is kept, because ".jpg" occurs in it. -/
theorem c19_extension_anywhere :
    ∃ r, normalizeProperty rawPdfImage "scraper".toList = .ok r ∧
      r.1.images = [.str "floorplan.jpg.pdf".toList] ∧
      (∀ ext ∈ validExtensions, ¬ ext <:+ "floorplan.jpg.pdf".toList) ∧
      startsWith "floorplan.jpg.pdf".toList "http".toList = false := by
  obtain ⟨r, hr, h⟩ := exists_ok_of_toOption_map
    (x := normalizeProperty rawPdfImage "scraper".toList) (f := fun r => r.1.images)
    (b := [.str "floorplan.jpg.pdf".toList]) (by decide)
  exact ⟨r, hr, h, by decide, by decide⟩

/-- C19, as amended: on every accepted raw record whose `image_urls` is a list of strings, the
returned `images` is that list restricted, in its order, to the entries that are not empty,
whose lower-case form contains one of ".jpg", ".jpeg", ".png", ".webp" anywhere or starts with
"http", and whose lower-case form contains none of the junk keywords in lower case. -/
theorem c19_image_filter (raw : Raw) (src : Str) (xs : List Str) (hacc : Accepted raw)
    (himg : raw.image_urls = .list (xs.map Prim.str)) :
    ∃ r, normalizeProperty raw src = .ok r ∧
      r.1.images = (xs.filter imageKept).map Prim.str := by
  obtain ⟨r, hr⟩ := normalizeProperty_returns src hacc
  obtain ⟨_, _, _, images, _, _, _, himages, _, _, _, _, _, _, hri, _⟩ :=
    normalizeProperty_inv hr
  refine ⟨r, hr, ?_⟩
  rw [himg] at himages
  simp only [extractImages, filterImages_strs, Except.ok.injEq] at himages
  rw [hri, ← himages]

/-- C19 as amended, witness: the example of the specification; of
"https://cdn.site.com/photo1.jpg", "https://cdn.site.com/nearMe_icon.png" and "noextension"
only the first is kept. -/
theorem c19_image_filter_witness :
    ∃ r, normalizeProperty rawExampleImages "scraper".toList = .ok r ∧
      r.1.images = [.str "https://cdn.site.com/photo1.jpg".toList] := by
  obtain ⟨r, hr, h⟩ := c19_image_filter rawExampleImages "scraper".toList
    ["https://cdn.site.com/photo1.jpg".toList, "https://cdn.site.com/nearMe_icon.png".toList,
      "noextension".toList]
    ⟨Or.inl rfl, Or.inl rfl, Or.inl rfl, by
      intro img himg
      simp only [rawExampleImages, List.mem_cons, List.mem_singleton, List.not_mem_nil,
        or_false] at himg
      rcases himg with h | h | h <;> exact Or.inr ⟨_, h⟩⟩
    rfl
  exact ⟨r, hr, h.trans (by decide)⟩

/-- C20, counterexample: for `{dynamic_facts: {"Address": "Agent | Green Park"}}` the first
call takes the address from `dynamic_facts["Address"]` and then deletes that entry from the
raw record; the second call on the same record returns the address "Unknown Location". -/
theorem c20_second_call_differs :
    ∃ r1 r2, normalizeProperty rawJunkAddress "scraper".toList = .ok r1 ∧
      normalizeProperty r1.2 "scraper".toList = .ok r2 ∧
      r1.1.address = "Agent | Green Park".toList ∧
      r2.1.address = "Unknown Location".toList := by
  obtain ⟨r1, r2, h1, h2, h⟩ := exists_ok_of_toOption_bind
    (x := normalizeProperty rawJunkAddress "scraper".toList)
    (g := fun a => normalizeProperty a.2 "scraper".toList)
    (f := fun a b => (a.1.address, b.1.address))
    (c := ("Agent | Green Park".toList, "Unknown Location".toList)) (by decide)
  simp only [Prod.mk.injEq] at h
  exact ⟨r1, r2, h1, h2, h.1, h.2⟩

/-- C20, as amended: on every accepted raw record whose `dynamic_facts`, when present, is an
object (its keys are distinct), whose address does not come from a `dynamic_facts["Address"]`
that the junk filter deletes (`address` or `locality` is given, or the value under "Address" is
not a string containing "Owner |" or "Agent |"), and whose joined `features.society` list, if
any, contains neither of the two, the second call on the raw record as the first call left it
returns a record equal to the one the first call returned. -/
theorem c20_second_call (raw : Raw) (src : Str) (hacc : Accepted raw)
    (hd : ∀ facts, raw.dynamic_facts = some facts → DistinctKeys facts)
    (haddr : (raw.address.or raw.locality).truthy = true ∨
      ∀ facts, raw.dynamic_facts = some facts →
        junkValue (lookupKey facts "Address".toList) = false)
    (hpa : ∀ joined, projectAmenities raw.features = some joined →
      junkValue (.str joined) = false) :
    ∃ r1 r2, normalizeProperty raw src = .ok r1 ∧ normalizeProperty r1.2 src = .ok r2 ∧
      r2.1 = r1.1 := by
  obtain ⟨r1, hr1⟩ := normalizeProperty_returns src hacc
  have hf1 := normalizeProperty_facts hr1
  obtain ⟨_, _, _, _, _, _, _, _, _, _, _, _, _, _, _, _, _, _, _, _, _, _, e_raw⟩ :=
    normalizeProperty_inv hr1
  have hacc' : Accepted r1.2 := by
    rw [e_raw]
    exact hacc
  obtain ⟨r2, hr2⟩ := normalizeProperty_returns src hacc'
  refine ⟨r1, r2, hr1, hr2, ?_⟩
  rw [e_raw] at hr2
  apply normalizeProperty_of_facts _ hr1 hr2
  · have hra : rawAddress
        { raw with dynamic_facts := raw.dynamic_facts.map fun _ => r1.1.dynamic_facts }
        = rawAddress raw := by
      unfold rawAddress
      simp only
      cases hdf : raw.dynamic_facts with
      | none => rfl
      | some f =>
        simp only [Option.map_some']
        by_cases hal : (raw.address.or raw.locality).truthy = true
        · simp only [hal, Bool.not_true, Bool.false_and, Bool.false_eq_true, ↓reduceIte]
        · have hj := haddr.resolve_left hal f hdf
          have hl : lookupKey r1.1.dynamic_facts "Address".toList
              = lookupKey f "Address".toList := by
            rw [hf1, hdf, Option.getD_some,
              lookupKey_writeDerived_other raw _ (by decide) (by decide) (by decide)
                (by decide)]
            apply lookupKey_filterJunk
            rw [shouldRemove_eq, hj]
            decide
          rw [hl]
    unfold initialAddress
    rw [hra]
  · cases hdf : raw.dynamic_facts with
    | none => rfl
    | some f =>
      have hdf1 : r1.1.dynamic_facts = writeDerived raw (filterJunk f) := by
        rw [hf1, hdf, Option.getD_some]
      simp only [Option.map_some', Option.getD_some, hdf1]
      have hdk := hd f hdf
      rw [filterJunk_eq_self (distinctKeys_writeDerived (distinctKeys_filterJunk hdk) raw)
        (writeDerived_filterJunk_clean hdk hpa),
        writeDerived_idem (distinctKeys_filterJunk hdk)]

/-- C20 as amended, witness: on `{dynamic_facts: {"Address": "Green Park, Delhi",
"Home Loans": "x"}}` the first call deletes the entry "Home Loans" from the raw record and adds
two derived entries, and the second call returns the same record as the first. -/
theorem c20_second_call_witness :
    ∃ r1 r2, normalizeProperty rawFactsAddress "scraper".toList = .ok r1 ∧
      normalizeProperty r1.2 "scraper".toList = .ok r2 ∧ r2.1 = r1.1 ∧
      r1.2.dynamic_facts = some [("Address".toList, .str "Green Park, Delhi".toList),
        ("Society".toList, .str "N/A".toList),
        ("Property Type".toList, .str "Apartment".toList)] := by
  obtain ⟨r1, r2, h1, h2, h⟩ := c20_second_call rawFactsAddress "scraper".toList
    ⟨Or.inl rfl, Or.inl rfl, Or.inl rfl, rfl⟩
    (fun facts hf => by
      simp only [rawFactsAddress, Raw.empty, Option.some.injEq] at hf
      rw [← hf]
      unfold DistinctKeys
      decide)
    (Or.inr fun facts hf => by
      simp only [rawFactsAddress, Raw.empty, Option.some.injEq] at hf
      rw [← hf]
      decide)
    (fun joined hj => by
      simp [rawFactsAddress, Raw.empty, projectAmenities] at hj)
  obtain ⟨r', hr', hk⟩ := exists_ok_of_toOption_map
    (x := normalizeProperty rawFactsAddress "scraper".toList)
    (f := fun r => r.2.dynamic_facts)
    (b := some [("Address".toList, .str "Green Park, Delhi".toList),
        ("Society".toList, .str "N/A".toList),
        ("Property Type".toList, .str "Apartment".toList)]) (by decide)
  rw [h1] at hr'
  cases hr'
  exact ⟨r1, r2, h1, h2, h, hk⟩

/-- C21, counterexample: the call on `{dynamic_facts: {"Home Loans": "x", "About Noida": "y",
"Facing": "East"}}` leaves the raw record with the `dynamic_facts` `{"Facing": "East",
"Society": "N/A", "Property Type": "Apartment"}`: two entries are deleted and two are added. -/
theorem c21_input_changed :
    ∃ r, normalizeProperty rawJunkKeys "scraper".toList = .ok r ∧
      rawJunkKeys.dynamic_facts = some [("Home Loans".toList, .str "x".toList),
        ("About Noida".toList, .str "y".toList), ("Facing".toList, .str "East".toList)] ∧
      r.2.dynamic_facts = some [("Facing".toList, .str "East".toList),
        ("Society".toList, .str "N/A".toList),
        ("Property Type".toList, .str "Apartment".toList)] := by
  obtain ⟨r, hr, h⟩ := exists_ok_of_toOption_map
    (x := normalizeProperty rawJunkKeys "scraper".toList) (f := fun r => r.2.dynamic_facts)
    (b := some [("Facing".toList, Prim.str "East".toList),
        ("Society".toList, Prim.str "N/A".toList),
        ("Property Type".toList, Prim.str "Apartment".toList)]) (by decide)
  exact ⟨r, hr, rfl, h⟩

/-- C21, as amended: on every accepted raw record, after the call every field of the raw
record other than `dynamic_facts` is the same as before the call; `dynamic_facts`, when
present, is the object that the returned record holds (the raw entries that the junk filter
keeps, with the derived entries written), and a raw record without `dynamic_facts` is the same
as before the call. -/
theorem c21_frame (raw : Raw) (src : Str) (hacc : Accepted raw) :
    ∃ r, normalizeProperty raw src = .ok r ∧
      r.2.title = raw.title ∧ r.2.property_name = raw.property_name ∧
      r.2.description = raw.description ∧ r.2.price = raw.price ∧
      r.2.address = raw.address ∧ r.2.locality = raw.locality ∧ r.2.bhk = raw.bhk ∧
      r.2.area = raw.area ∧ r.2.features = raw.features ∧
      r.2.image_urls = raw.image_urls ∧ r.2.url = raw.url ∧
      r.2.dynamic_facts = raw.dynamic_facts.map (fun _ => r.1.dynamic_facts) ∧
      r.1.dynamic_facts = writeDerived raw (filterJunk (raw.dynamic_facts.getD [])) ∧
      (raw.dynamic_facts = none → r.2 = raw) := by
  obtain ⟨r, hr⟩ := normalizeProperty_returns src hacc
  obtain ⟨_, _, _, _, _, _, _, _, _, _, _, _, _, _, _, _, _, _, _, _, _, _, e_raw⟩ :=
    normalizeProperty_inv hr
  refine ⟨r, hr, ?_, ?_, ?_, ?_, ?_, ?_, ?_, ?_, ?_, ?_, ?_, ?_, normalizeProperty_facts hr, ?_⟩
  all_goals try (rw [e_raw])
  intro hnone
  cases raw
  simp only at hnone
  simp only [hnone, Option.map_none']

/-- C21 as amended, witness: on `{dynamic_facts: {"Seller": "Owner | 4mo ago", "Facing":
"East"}}` the call leaves `dynamic_facts` without the entry "Seller" and with two derived
entries, and every other field as it was. -/
theorem c21_frame_witness :
    ∃ r, normalizeProperty rawJunkValue "scraper".toList = .ok r ∧
      r.2.title = rawJunkValue.title ∧ r.2.url = rawJunkValue.url ∧
      r.2.dynamic_facts = some [("Facing".toList, .str "East".toList),
        ("Society".toList, .str "N/A".toList),
        ("Property Type".toList, .str "Apartment".toList)] := by
  obtain ⟨r, hr, h1, _, _, _, _, _, _, _, _, _, h11, h12, _⟩ :=
    c21_frame rawJunkValue "scraper".toList ⟨Or.inl rfl, Or.inl rfl, Or.inl rfl, rfl⟩
  obtain ⟨r', hr', hk⟩ := exists_ok_of_toOption_map
    (x := normalizeProperty rawJunkValue "scraper".toList) (f := fun r => r.1.dynamic_facts)
    (b := [("Facing".toList, Prim.str "East".toList), ("Society".toList, Prim.str "N/A".toList),
        ("Property Type".toList, Prim.str "Apartment".toList)]) (by decide)
  rw [hr] at hr'
  cases hr'
  rw [hk] at h12
  exact ⟨r, hr, h1, h11, h12⟩

/-- C22 (the code fails the claim): for `{title: "Flat in Green Park"}` the normalizer returns
a record with a fifteenth property, `society`, with the value "Green Park". -/
theorem c22_society_field_added :
    ∃ r, normalizeProperty rawTitleSociety "scraper".toList = .ok r ∧
      r.1.society = some "Green Park".toList ∧
      r.1.fieldNames = ["title", "description", "price", "address", "city", "state", "country",
        "features", "images", "isScraped", "bhk", "area", "dynamic_facts", "source",
        "society"] := by
  obtain ⟨r, hr, h⟩ := exists_ok_of_toOption_map
    (x := normalizeProperty rawTitleSociety "scraper".toList) (f := fun r => r.1.society)
    (b := some "Green Park".toList) (by decide)
  refine ⟨r, hr, h, ?_⟩
  unfold Normalized.fieldNames
  rw [h]
  rfl

/-- C23: the end-to-end scenario. The normalizer returns a record with the title
"4 BHK Apartment in ATS Rhapsody, Sector 1", which contains "ATS Rhapsody" and "Sector 1",
with `bhk` "4 BHK", `dynamic_facts["Bathrooms"]` "4", `dynamic_facts["Property Type"]`
"Apartment", city "Greater Noida", images `["a.jpg"]` and price 45000. -/
theorem c23_scenario :
    ∃ r, normalizeProperty rawScenario "scraper".toList = .ok r ∧
      r.1.title = "4 BHK Apartment in ATS Rhapsody, Sector 1".toList ∧
      includes r.1.title "ATS Rhapsody".toList = true ∧
      includes r.1.title "Sector 1".toList = true ∧
      r.1.bhk = "4 BHK".toList ∧
      lookupKey r.1.dynamic_facts "Bathrooms".toList = .str "4".toList ∧
      lookupKey r.1.dynamic_facts "Property Type".toList = .str "Apartment".toList ∧
      r.1.city = "Greater Noida".toList ∧
      r.1.images = [.str "a.jpg".toList] ∧
      r.1.price = .fin 45000 := by
  obtain ⟨r, hr, h1⟩ := exists_ok_of_toOption_map
    (x := normalizeProperty rawScenario "scraper".toList) (f := fun r => r.1.title)
    (b := "4 BHK Apartment in ATS Rhapsody, Sector 1".toList) (by decide)
  have h2 : r.1.bhk = "4 BHK".toList := by
    obtain ⟨r', hr', h⟩ := exists_ok_of_toOption_map
      (x := normalizeProperty rawScenario "scraper".toList) (f := fun r => r.1.bhk)
      (b := "4 BHK".toList) (by decide)
    rw [hr] at hr'
    cases hr'
    exact h
  have h3 : r.1.dynamic_facts = [("Society".toList, Prim.str "ATS Rhapsody".toList),
      ("Property Type".toList, Prim.str "Apartment".toList),
      ("Bathrooms".toList, Prim.str "4".toList)] := by
    obtain ⟨r', hr', h⟩ := exists_ok_of_toOption_map
      (x := normalizeProperty rawScenario "scraper".toList) (f := fun r => r.1.dynamic_facts)
      (b := [("Society".toList, Prim.str "ATS Rhapsody".toList),
        ("Property Type".toList, Prim.str "Apartment".toList),
        ("Bathrooms".toList, Prim.str "4".toList)]) (by decide)
    rw [hr] at hr'
    cases hr'
    exact h
  have h5 : r.1.city = "Greater Noida".toList := by
    obtain ⟨r', hr', h⟩ := exists_ok_of_toOption_map
      (x := normalizeProperty rawScenario "scraper".toList) (f := fun r => r.1.city)
      (b := "Greater Noida".toList) (by decide)
    rw [hr] at hr'
    cases hr'
    exact h
  have h6 : r.1.images = [Prim.str "a.jpg".toList] := by
    obtain ⟨r', hr', h⟩ := exists_ok_of_toOption_map
      (x := normalizeProperty rawScenario "scraper".toList) (f := fun r => r.1.images)
      (b := [Prim.str "a.jpg".toList]) (by decide)
    rw [hr] at hr'
    cases hr'
    exact h
  obtain ⟨_, _, _, _, _, _, _, _, _, _, _, hp, _⟩ := normalizeProperty_inv hr
  refine ⟨r, hr, h1, ?_, ?_, h2, ?_, ?_, h5, h6, ?_⟩
  · rw [h1]; decide
  · rw [h1]; decide
  · rw [h3]; decide
  · rw [h3]; decide
  · rw [hp]
    show parsePrice (.str "45000".toList) = .fin 45000
    have hread : ReadsDecimal ("45000".toList.filter fun c => isDigit c || c == '.')
        "45000".toList [] :=
      ⟨by decide, by decide, Or.inl ⟨rfl, [], by decide, by simp⟩⟩
    have hd : decimalNumber "45000".toList [] = 45000 := by
      have : digitsValue ("45000".toList ++ []) = 45000 := by
        rw [digitsValue_eq_digitsToNat]
        decide
      rw [decimalNumber, this]
      norm_num
    have e1 : includes (toLowerCase "45000".toList) "cr".toList = false := by decide
    have e2 : includes (toLowerCase "45000".toList) "lac".toList = false := by decide
    have e3 : includes (toLowerCase "45000".toList) "lakh".toList = false := by decide
    have e4 : includes (toLowerCase "45000".toList) "k".toList = false := by decide
    rw [parsePrice_str _ _ _ hread, priceLaw, if_neg (by decide), e1, e2, e3, e4]
    simp only [Bool.false_eq_true, ↓reduceIte, Bool.or_self]
    exact roundDouble_of_eq 45000 1 6184752906240000 (-37) (by rw [hd]; norm_num) (by decide)
      (by decide) (by decide) (by decide) (by norm_num)

/-- C24: the list that `scrapeProperties` hands to `insertMany` is the result of the duplicate
check on the normalized records it processes; it is a subsequence of them, no two of its
records have the same key string `title + "-" + address + "-" + price`, every key string that
occurs among the processed records is the key string of one of its records, and each of its
records is the first processed record with its key string. The same holds for the duplicate
check on any list of normalized records. -/
theorem c24_dedup_keeps_first (files : List Raw) (records : List Normalized) :
    (scrapedProperties files = dedupBatch (processedRecords files) ∧
      (scrapedProperties files).Sublist (processedRecords files) ∧
      ((scrapedProperties files).map keyString).Nodup ∧
      (∀ p ∈ processedRecords files,
        keyString p ∈ (scrapedProperties files).map keyString) ∧
      (∀ q ∈ scrapedProperties files,
        (processedRecords files).find? (fun p => keyString p == keyString q) = some q)) ∧
    ((dedupBatch records).Sublist records ∧
      ((dedupBatch records).map keyString).Nodup ∧
      (∀ p ∈ records, keyString p ∈ (dedupBatch records).map keyString) ∧
      (∀ q ∈ dedupBatch records,
        records.find? (fun p => keyString p == keyString q) = some q)) := by
  rw [← uniqueKey_eq_keyString]
  have key : ∀ rs : List Normalized, (dedupBatch rs).Sublist rs ∧
      ((dedupBatch rs).map uniqueKey).Nodup ∧
      (∀ p ∈ rs, uniqueKey p ∈ (dedupBatch rs).map uniqueKey) ∧
      (∀ q ∈ dedupBatch rs, rs.find? (fun p => uniqueKey p == uniqueKey q) = some q) := by
    intro rs
    rw [dedupBatch_eq]
    refine ⟨keepFirst_sublist [] rs, keepFirst_nodup [] rs, ?_, keepFirst_first [] rs⟩
    intro p hp
    rcases keepFirst_covers [] rs p hp with h | h
    · simp at h
    · exact h
  refine ⟨?_, key records⟩
  rw [scrapedProperties_eq]
  exact ⟨rfl, key _⟩

/-- C24, witness: of four files whose records have the key strings "Cozy Studio-Delhi-100",
"Cozy Studio-Delhi-100", "Cozy Studio-Delhi-200" and "Cozy Studio-Delhi-1e+21", the first,
the third and the fourth are handed to `insertMany`: the second has the key string of the
first, and the others differ from it in the price alone. -/
theorem c24_dedup_keeps_first_witness :
    (processedRecords rawBatch).map (fun p => (p.description, keyString p)) =
      [("first".toList, "Cozy Studio-Delhi-100".toList),
       ("second".toList, "Cozy Studio-Delhi-100".toList),
       ("third".toList, "Cozy Studio-Delhi-200".toList),
       ("fourth".toList, "Cozy Studio-Delhi-1e+21".toList)] ∧
    (scrapedProperties rawBatch).map (fun p => (p.description, keyString p)) =
      [("first".toList, "Cozy Studio-Delhi-100".toList),
       ("third".toList, "Cozy Studio-Delhi-200".toList),
       ("fourth".toList, "Cozy Studio-Delhi-1e+21".toList)] ∧
    (scrapedProperties rawBatch).Sublist (processedRecords rawBatch) ∧
    ((scrapedProperties rawBatch).map keyString).Nodup :=
  ⟨by set_option maxRecDepth 4096 in decide, by set_option maxRecDepth 4096 in decide,
    (c24_dedup_keeps_first rawBatch []).1.2.1,
    (c24_dedup_keeps_first rawBatch []).1.2.2.1⟩

/-- C25: on every accepted raw record the returned `dynamic_facts["Society"]`, whatever the raw
`dynamic_facts` held under that key, is either "N/A" or the trimmed, non-empty run captured by
the match that the program finds in the name, a space and the description: a match of "in" or
"at" in any letter case, white space, a run of ASCII letters, digits and white space, and a
comma, the end of the text, "Sector" or "Near", at the leftmost position that has such a match.
The value is the trimmed run exactly when that is non-empty and its lower-case form does not
contain "noida"; in particular a run that contains "greater noida" in any letter case is
discarded, and without a match the value is "N/A". -/
theorem c25_society (raw : Raw) (src : Str) (hacc : Accepted raw) :
    ∃ r, normalizeProperty raw src = .ok r ∧
      (lookupKey r.1.dynamic_facts "Society".toList = .str "N/A".toList ∨
        ∃ pre w ws run term post, SocietyMatchAt (nameAndDescription raw) pre w ws run term post ∧
          (∀ pre' w' ws' run' term' post',
            SocietyMatchAt (nameAndDescription raw) pre' w' ws' run' term' post' →
              pre.length ≤ pre'.length) ∧
          societyRe.exec true (nameAndDescription raw) = some [run] ∧ trim run ≠ [] ∧
          lookupKey r.1.dynamic_facts "Society".toList = .str (trim run)) ∧
      (∀ run, societyRe.exec true (nameAndDescription raw) = some [run] →
        lookupKey r.1.dynamic_facts "Society".toList =
          .str (if trim run ≠ [] ∧ includes (toLowerCase (trim run)) "noida".toList = false
            then trim run else "N/A".toList)) ∧
      (∀ run, societyRe.exec true (nameAndDescription raw) = some [run] →
        containsCi run "greater noida".toList = true →
        lookupKey r.1.dynamic_facts "Society".toList = .str "N/A".toList) ∧
      ((∀ pre w ws run term post, ¬ SocietyMatchAt (nameAndDescription raw) pre w ws run term post) →
        lookupKey r.1.dynamic_facts "Society".toList = .str "N/A".toList) := by
  simp only [← combinedText_eq]
  obtain ⟨r, hr⟩ := normalizeProperty_returns src hacc
  have hv := lookupKey_writeDerived_society raw (filterJunk (raw.dynamic_facts.getD []))
  rw [← normalizeProperty_facts hr] at hv
  have hexact : ∀ run, societyRe.exec true (combinedText raw) = some [run] →
      lookupKey r.1.dynamic_facts "Society".toList =
        .str (if trim run ≠ [] ∧ includes (toLowerCase (trim run)) "noida".toList = false
          then trim run else "N/A".toList) := by
    intro run h
    rw [hv, society_value_of_exec h]
  have hnone : societyRe.exec true (combinedText raw) = none →
      lookupKey r.1.dynamic_facts "Society".toList = .str "N/A".toList := by
    intro h
    rw [hv, society_value_of_none h]
  refine ⟨r, hr, ?_, hexact, ?_, ?_⟩
  · cases hm : societyRe.exec true (combinedText raw) with
    | none => exact Or.inl (hnone hm)
    | some m =>
      obtain ⟨pre, w, ws, run, term, post, hmatch, rfl, hleft⟩ := exec_societyRe_some hm
      have hval := hexact run hm
      by_cases hkeep : trim run ≠ [] ∧ includes (toLowerCase (trim run)) "noida".toList = false
      · rw [if_pos hkeep] at hval
        exact Or.inr ⟨pre, w, ws, run, term, post, hmatch, hleft, rfl, hkeep.1, hval⟩
      · rw [if_neg hkeep] at hval
        exact Or.inl hval
  · intro run h hg
    rw [hexact run h]
    have h1 := includes_toLowerCase_of_containsCi (containsCi_trim_greater_noida hg) (by decide)
    have h2 := includes_append_right _ "greater ".toList "noida".toList h1
    rw [if_neg]
    rintro ⟨_, h3⟩
    rw [h2] at h3
    exact absurd h3 (by simp)
  · intro hno
    cases hm : societyRe.exec true (combinedText raw) with
    | none => exact hnone hm
    | some m =>
      obtain ⟨pre, w, ws, run, term, post, hmatch, _, _⟩ := exec_societyRe_some hm
      exact absurd hmatch (hno pre w ws run term post)

/-- C25, witness: with the name "3 BHK" and the description "Home in ATS Rhapsody, Sector 1"
the society is "ATS Rhapsody", found in the description. -/
theorem c25_society_witness :
    ∃ r, normalizeProperty rawSocietyInDescription "scraper".toList = .ok r ∧
      societyRe.exec true (nameAndDescription rawSocietyInDescription)
        = some ["ATS Rhapsody".toList] ∧
      lookupKey r.1.dynamic_facts "Society".toList = .str "ATS Rhapsody".toList := by
  obtain ⟨r, hr, _, h, _⟩ := c25_society rawSocietyInDescription "scraper".toList
    ⟨Or.inl rfl, Or.inr ⟨_, rfl⟩, Or.inl rfl, rfl⟩
  exact ⟨r, hr, by decide, (h "ATS Rhapsody".toList (by decide)).trans (by decide)⟩

/-- C26: on every accepted raw record, if the name, a space and the description contain
digits, optional white space and one of Bath, Bathroom, Washroom in any letter case, and `ds`
are the digits of the leftmost such match, the returned `dynamic_facts["Bathrooms"]` is the
string `ds`, whatever the raw `dynamic_facts` held under that key; without such a match the
value under "Bathrooms" is the one the filtered raw `dynamic_facts` hold there (none when the
raw record has no such entry): the normalizer writes nothing under that key. -/
theorem c26_bathrooms (raw : Raw) (src : Str) (hacc : Accepted raw) :
    ∃ r, normalizeProperty raw src = .ok r ∧
      (∀ pre ds ws u post, BathMatchAt (nameAndDescription raw) pre ds ws u post →
        (∀ pre' ds' ws' u' post', BathMatchAt (nameAndDescription raw) pre' ds' ws' u' post' →
          pre.length ≤ pre'.length) →
        lookupKey r.1.dynamic_facts "Bathrooms".toList = .str ds) ∧
      ((∀ pre ds ws u post, ¬ BathMatchAt (nameAndDescription raw) pre ds ws u post) →
        lookupKey r.1.dynamic_facts "Bathrooms".toList
          = lookupKey (filterJunk (raw.dynamic_facts.getD [])) "Bathrooms".toList ∧
        ((∀ e ∈ raw.dynamic_facts.getD [], e.1 ≠ "Bathrooms".toList) →
          ∀ e ∈ r.1.dynamic_facts, e.1 ≠ "Bathrooms".toList)) := by
  simp only [← combinedText_eq]
  obtain ⟨r, hr⟩ := normalizeProperty_returns src hacc
  refine ⟨r, hr, ?_, ?_⟩
  · intro pre ds ws u post hm hleft
    rw [normalizeProperty_facts hr, lookupKey_writeDerived_bathrooms,
      exec_bathRe_of_leftmost hm hleft]
    rfl
  · intro hnone
    have hex := exec_bathRe_eq_none hnone
    refine ⟨?_, ?_⟩
    · rw [normalizeProperty_facts hr, lookupKey_writeDerived_bathrooms, hex]
    · intro habs e he hk
      rw [normalizeProperty_facts hr] at he
      rcases mem_writeDerived he with h | h | h | ⟨m, hm, _⟩ | ⟨_, _, h⟩
      · exact habs e (mem_filterJunk h).1 hk
      · rw [h] at hk
        exact derived_keys_ne.2.1 hk
      · rw [h] at hk
        exact derived_keys_ne.2.2.2.1 hk
      · rw [hex] at hm
        exact absurd hm (by simp)
      · rw [h] at hk
        exact derived_keys_ne.2.2.2.2.2 hk.symm

/-- C26, witness: with the name "Cozy home" and the description "with 12  bathrooms, 3 Bath"
the leftmost match, which lies in the description, has the digits "12", and they take the
place of the raw entry "2". -/
theorem c26_bathrooms_witness :
    ∃ r, normalizeProperty rawBathsInDescription "scraper".toList = .ok r ∧
      lookupKey r.1.dynamic_facts "Bathrooms".toList = .str "12".toList := by
  obtain ⟨r, hr, h, _⟩ := c26_bathrooms rawBathsInDescription "scraper".toList
    ⟨Or.inl rfl, Or.inr ⟨_, rfl⟩, Or.inl rfl, rfl⟩
  have hm : BathMatchAt (nameAndDescription rawBathsInDescription) "Cozy home with ".toList
      "12".toList "  ".toList "bathroom".toList "s, 3 Bath".toList :=
    ⟨by decide, ⟨by decide, by decide⟩, by decide, ⟨"Bathroom".toList, by decide, rfl⟩⟩
  exact ⟨r, hr, h _ _ _ _ _ hm (fun pre' ds' ws' u' post' hm' =>
    leftmost_of_no_digit_before hm.1 (by decide) hm'.1 hm'.2.1.1 hm'.2.1.2)⟩

/-- C27 (the code fails the claim): the normalized record has no property `url`: the records
returned for `{url: "https://example.com/p?id=a1", property_name: "Cozy Studio"}` and for the
same raw record with the url "https://example.com/p?id=b2" are the same record, whose
properties are the fourteen of the default structure. -/
theorem c27_url_not_carried :
    ∃ r1 r2, normalizeProperty rawWithUrl "scraper".toList = .ok r1 ∧
      normalizeProperty { rawWithUrl with url := .str "https://example.com/p?id=b2".toList }
        "scraper".toList = .ok r2 ∧
      r2.1 = r1.1 ∧
      r1.1.fieldNames = ["title", "description", "price", "address", "city", "state",
        "country", "features", "images", "isScraped", "bhk", "area", "dynamic_facts",
        "source"] := by
  obtain ⟨r1, hr1⟩ := @normalizeProperty_returns rawWithUrl "scraper".toList
    ⟨Or.inl rfl, Or.inr ⟨_, rfl⟩, Or.inl rfl, rfl⟩
  obtain ⟨r2, hr2⟩ := @normalizeProperty_returns
    { rawWithUrl with url := .str "https://example.com/p?id=b2".toList } "scraper".toList
    ⟨Or.inl rfl, Or.inr ⟨_, rfl⟩, Or.inl rfl, rfl⟩
  refine ⟨r1, r2, hr1, hr2, normalizeProperty_url _ hr1 hr2, ?_⟩
  obtain ⟨r', hr', h⟩ := exists_ok_of_toOption_map
    (x := normalizeProperty rawWithUrl "scraper".toList) (f := fun r => r.1.society)
    (b := none) (by decide)
  rw [hr1] at hr'
  cases hr'
  unfold Normalized.fieldNames
  rw [h]
  rfl

/-- C28, counterexample: the records of `{property_name: "Green-Park", address: "Delhi"}` and
`{property_name: "Green", address: "Park-Delhi"}` differ in title and in address, yet both have
the key "Green-Park-Delhi-0", and of the two only the first is handed to `insertMany`. -/
theorem c28_key_collision :
    (processedRecords [rawGreenPark, rawGreen]).map (fun p => (p.title, p.address))
      = [("Green-Park".toList, "Delhi".toList), ("Green".toList, "Park-Delhi".toList)] ∧
    (processedRecords [rawGreenPark, rawGreen]).map uniqueKey
      = ["Green-Park-Delhi-0".toList, "Green-Park-Delhi-0".toList] ∧
    (scrapedProperties [rawGreenPark, rawGreen]).map (fun p => (p.title, p.address))
      = [("Green-Park".toList, "Delhi".toList)] := by
  refine ⟨by decide, by decide, by decide⟩

/-- C28, as amended: `scrapeProperties` treats a record as a duplicate of an earlier one of the
batch exactly when the two have the same key string `title + "-" + address + "-" + price`: a
further record is dropped when its key is the key of an earlier record and appended otherwise.
Two records with the same title, address and price have the same key; the converse fails, since
the parts are joined by "-" and may contain it. -/
theorem c28_duplicate_iff_same_key (records : List Normalized) (p q : Normalized) :
    dedupBatch (records ++ [p]) =
      (if (records.map uniqueKey).contains (uniqueKey p) then dedupBatch records
       else dedupBatch records ++ [p]) ∧
    (p.title = q.title → p.address = q.address → p.price = q.price →
      uniqueKey p = uniqueKey q) := by
  refine ⟨?_, ?_⟩
  · unfold dedupBatch
    rw [List.foldl_append, List.foldl_cons, List.foldl_nil]
    have hseen : ∀ k, k ∈ (records.foldl dedupStep ([], [])).1 ↔ k ∈ records.map uniqueKey := by
      intro k
      rw [mem_seen_foldl_dedupStep]
      simp
    have hc : (records.foldl dedupStep ([], [])).1.contains (uniqueKey p)
        = (records.map uniqueKey).contains (uniqueKey p) := by
      rw [Bool.eq_iff_iff]
      simp only [List.contains_iff_exists_mem_beq, beq_iff_eq]
      constructor
      · rintro ⟨k, hk, rfl⟩
        exact ⟨_, (hseen _).1 hk, rfl⟩
      · rintro ⟨k, hk, rfl⟩
        exact ⟨_, (hseen _).2 hk, rfl⟩
    generalize records.foldl dedupStep ([], []) = st at hc ⊢
    simp only [dedupStep, hc]
    split <;> rfl
  · intro h1 h2 h3
    unfold uniqueKey
    rw [h1, h2, h3]

/-- C29: on every accepted raw record whose `dynamic_facts` is an object (its keys are
distinct), every entry of the raw `dynamic_facts` whose key is not on the deny-list, is matched
by none of the junk patterns and is none of "Society", "Property Type", "Bathrooms", "Project
Amenities", and whose value is not a string containing "Owner |" or "Agent |", is an entry of
the returned `dynamic_facts`, which holds the same value under that key. -/
theorem c29_other_entries_kept (raw : Raw) (src : Str) (facts : Facts) (e : Str × Prim)
    (hacc : Accepted raw) (hf : raw.dynamic_facts = some facts) (hd : DistinctKeys facts)
    (he : e ∈ facts) (hk1 : e.1 ∉ junkKeys)
    (hk2 : ∀ pattern ∈ junkPatterns, pattern.test false e.1 = false)
    (hv : junkValue e.2 = false) (hder : e.1 ∉ derivedKeys) :
    ∃ r, normalizeProperty raw src = .ok r ∧ e ∈ r.1.dynamic_facts ∧
      lookupKey r.1.dynamic_facts e.1 = e.2 := by
  obtain ⟨r, hr⟩ := normalizeProperty_returns src hacc
  have hkeep : shouldRemove e.1 (lookupKey facts e.1) = false := by
    rw [shouldRemove_eq, lookupKey_of_mem hd he, junkKey_eq_false hk1 hk2, hv]
    rfl
  have hmem : e ∈ r.1.dynamic_facts := by
    rw [normalizeProperty_facts hr, hf, Option.getD_some]
    exact mem_writeDerived_of_mem (mem_filterJunk_of_keep he hkeep) hder
  refine ⟨r, hr, hmem, ?_⟩
  have hdr : DistinctKeys r.1.dynamic_facts := by
    rw [normalizeProperty_facts hr, hf, Option.getD_some]
    exact distinctKeys_writeDerived (distinctKeys_filterJunk hd) raw
  exact lookupKey_of_mem hdr hmem

/-- C29, witness: of the raw entries "Home Loans", "About Noida" and "Facing" the entry
"Facing": "East" is kept. -/
theorem c29_other_entries_kept_witness :
    ∃ r, normalizeProperty rawJunkKeys "scraper".toList = .ok r ∧
      ("Facing".toList, Prim.str "East".toList) ∈ r.1.dynamic_facts ∧
      lookupKey r.1.dynamic_facts "Facing".toList = .str "East".toList :=
  c29_other_entries_kept rawJunkKeys "scraper".toList
    [("Home Loans".toList, .str "x".toList), ("About Noida".toList, .str "y".toList),
      ("Facing".toList, .str "East".toList)]
    ("Facing".toList, .str "East".toList)
    ⟨Or.inl rfl, Or.inl rfl, Or.inl rfl, rfl⟩ rfl (by unfold DistinctKeys; decide) (by decide)
    (by decide) (by decide) (by decide) (by decide)

/-- C30: on every accepted raw record, whatever its `area` (absent, a string, a number or any
other primitive), the normalizer returns a record whose `area` is either "N/A" or a non-empty
string with at least one digit. -/
theorem c30_area_has_digit (raw : Raw) (src : Str) (hacc : Accepted raw) :
    ∃ r, normalizeProperty raw src = .ok r ∧
      (r.1.area = "N/A".toList ∨ (r.1.area ≠ [] ∧ ∃ c ∈ r.1.area, isDigit c = true)) := by
  obtain ⟨r, hr⟩ := normalizeProperty_returns src hacc
  obtain ⟨_, _, _, _, _, _, _, _, _, _, ha, _⟩ := normalizeProperty_inv hr
  refine ⟨r, hr, ?_⟩
  rw [ha]
  rcases extractArea_digit raw with h | ⟨c, hc, hcd⟩
  · exact Or.inl h
  · exact Or.inr ⟨List.ne_nil_of_mem hc, c, hc, hcd⟩

/-- C30, witness: the numeric area `1200` comes out as the string "1200". -/
theorem c30_area_has_digit_witness :
    ∃ r, normalizeProperty rawNumericArea "scraper".toList = .ok r ∧
      r.1.area = "1200".toList ∧
      (r.1.area = "N/A".toList ∨ (r.1.area ≠ [] ∧ ∃ c ∈ r.1.area, isDigit c = true)) := by
  obtain ⟨r, hr, h⟩ := c30_area_has_digit rawNumericArea "scraper".toList
    ⟨Or.inl rfl, Or.inl rfl, Or.inl rfl, rfl⟩
  obtain ⟨_, _, _, _, _, _, _, _, _, _, ha, _⟩ := normalizeProperty_inv hr
  have hs : numToString (.fin 1200) = "1200".toList := by decide
  have ht : (Prim.num (.fin 1200)).truthy = true := by
    simp [Prim.truthy]
  have htest : digitRe.test false "1200".toList = true := by decide
  have hc : cleanText (.num (.fin 1200)) = "1200".toList := by
    simp only [cleanText, ht, Prim.toStr, hs]
    decide
  have hv : extractArea rawNumericArea = "1200".toList := by
    unfold extractArea
    simp only [rawNumericArea, Raw.empty, ht, longerThan50, Prim.toStr, hs, htest, hc]
    rfl
  exact ⟨r, hr, ha.trans hv, h⟩

end PropertyNormalizer
